import Mathlib

/-!
# WilhelmSCP: block cipher, streaming engine, key exchange and bigint engine

A shallow embedding of `WilhelmSCP.cpp`, `WilhelmSCP.h` and `osl/bigint.cpp`,
and theorems about it.

Conventions of the embedding.

* A `Block` is the 32 bytes `data[0..31]`; the code reads and writes them through
  `uint64_t*` casts, so the embedding holds them as the 64-bit lanes those casts
  see on the little-endian host the program was written for: byte `i` of a block
  is byte `i % 8` of lane `i / 8`. An `LRSide` is one 16-byte half, two lanes.
* Machine integers are `Nat`, reduced modulo `2^64` where the code can wrap.
* The external SHA-256 primitive is a parameter `H : List Nat → List Nat` (bytes in,
  digest bytes out); the operating-system random source is a parameter too.
* Out-of-bounds accesses of `_currentBlockSet` and short reads of the transport are
  failures (`none`).
-/

/-! ## Instances

Direct instances of the ring and order structures of `Int` and `Nat` that the
arithmetic lemmas below use. -/

instance Int.instNonUnitalCommRingDirect : NonUnitalCommRing Int :=
  @CommRing.toNonUnitalCommRing Int Int.instCommRing

instance Int.instNonUnitalRingDirect : NonUnitalRing Int :=
  @Ring.toNonUnitalRing Int Int.instRing

instance Int.instZeroLEOneClassDirect : ZeroLEOneClass Int :=
  @OrderedSemiring.zeroLEOneClass Int _

instance Nat.instZeroLEOneClassDirect : ZeroLEOneClass Nat :=
  @OrderedSemiring.zeroLEOneClass Nat _

instance Int.instExistsAddOfLEDirect : ExistsAddOfLE Int :=
  ⟨fun {a b} _ => ⟨b - a, by omega⟩⟩

namespace WilhelmSCP

/-! ## Constants (WilhelmSCP.h) -/

def PRIME_BYTES : Nat := 1536 / 8
def CLUSTER_BYTES : Nat := 4096
def BLOCK_BYTES : Nat := 32
def BLOCK_BITS : Nat := BLOCK_BYTES * 8
def HASHING_REPEATS : Nat := 2
def ROR_CONSTANT : Nat := 27
def FEISTEL_ROUNDS : Nat := 16

/-- The modulus of `uint64_t` and `unsigned long` arithmetic. -/
def W64 : Nat := 2 ^ 64

/-! ## Types -/

/-- One side of a Feistel step: `unsigned char data[16]`, held as its two 64-bit lanes. -/
structure LRSide where
  l0 : Nat
  l1 : Nat
deriving DecidableEq, Repr

/-- One cipher block: `unsigned char data[32]`, held as left half (bytes 0..15) and
right half (bytes 16..31), the two `LRSide`s `blockEnc` points `_currentL` and
`_currentR` at. -/
structure Block where
  L : LRSide
  R : LRSide
deriving DecidableEq, Repr

/-- The value-initialised block `Block()`. -/
def Block.zero : Block := ⟨⟨0, 0⟩, ⟨0, 0⟩⟩

/-- `LRSide::operator^`: XOR of the two 64-bit lanes. -/
def LRSide.xor (a b : LRSide) : LRSide := ⟨a.l0 ^^^ b.l0, a.l1 ^^^ b.l1⟩

/-- `Block::operator^`: XOR of the four 64-bit lanes. -/
def Block.xor (a b : Block) : Block := ⟨a.L.xor b.L, a.R.xor b.R⟩

/-- `x >> c` on a 64-bit lane. A count outside `0..63` is undefined in C++; the
x86-64 shift instructions the program runs on use the count modulo 64, and so does
the embedding. -/
def shr64 (x c : Nat) : Nat := x >>> (c % 64)

/-- `x << c` on a 64-bit lane, truncated to 64 bits; the count is taken modulo 64
as for `shr64`. -/
def shl64 (x c : Nat) : Nat := (x <<< (c % 64)) % W64

/-- `64 - rotateCount` in `unsigned long` arithmetic. -/
def sub64 (a b : Nat) : Nat := (a + W64 - b % W64) % W64

/-- `rorLRSide`: `result[i] = (input[i] >> n) | (input[(i+1)%2] << (64-n))`. -/
def rorLRSide (input : LRSide) (rotateCount : Nat) : LRSide :=
  { l0 := shr64 input.l0 rotateCount ||| shl64 input.l1 (sub64 64 rotateCount)
    l1 := shr64 input.l1 rotateCount ||| shl64 input.l0 (sub64 64 rotateCount) }

/-- The byte substitution table of `feistel` (the Rijndael S-box). -/
def substitutionSingleChar : List Nat :=
  [0x63, 0x7C, 0x77, 0x7B, 0xF2, 0x6B, 0x6F, 0xC5, 0x30, 0x01, 0x67, 0x2B, 0xFE, 0xD7, 0xAB, 0x76,
   0xCA, 0x82, 0xC9, 0x7D, 0xFA, 0x59, 0x47, 0xF0, 0xAD, 0xD4, 0xA2, 0xAF, 0x9C, 0xA4, 0x72, 0xC0,
   0xB7, 0xFD, 0x93, 0x26, 0x36, 0x3F, 0xF7, 0xCC, 0x34, 0xA5, 0xE5, 0xF1, 0x71, 0xD8, 0x31, 0x15,
   0x04, 0xC7, 0x23, 0xC3, 0x18, 0x96, 0x05, 0x9A, 0x07, 0x12, 0x80, 0xE2, 0xEB, 0x27, 0xB2, 0x75,
   0x09, 0x83, 0x2C, 0x1A, 0x1B, 0x6E, 0x5A, 0xA0, 0x52, 0x3B, 0xD6, 0xB3, 0x29, 0xE3, 0x2F, 0x84,
   0x53, 0xD1, 0x00, 0xED, 0x20, 0xFC, 0xB1, 0x5B, 0x6A, 0xCB, 0xBE, 0x39, 0x4A, 0x4C, 0x58, 0xCF,
   0xD0, 0xEF, 0xAA, 0xFB, 0x43, 0x4D, 0x33, 0x85, 0x45, 0xF9, 0x02, 0x7F, 0x50, 0x3C, 0x9F, 0xA8,
   0x51, 0xA3, 0x40, 0x8F, 0x92, 0x9D, 0x38, 0xF5, 0xBC, 0xB6, 0xDA, 0x21, 0x10, 0xFF, 0xF3, 0xD2,
   0xCD, 0x0C, 0x13, 0xEC, 0x5F, 0x97, 0x44, 0x17, 0xC4, 0xA7, 0x7E, 0x3D, 0x64, 0x5D, 0x19, 0x73,
   0x60, 0x81, 0x4F, 0xDC, 0x22, 0x2A, 0x90, 0x88, 0x46, 0xEE, 0xB8, 0x14, 0xDE, 0x5E, 0x0B, 0xDB,
   0xE0, 0x32, 0x3A, 0x0A, 0x49, 0x06, 0x24, 0x5C, 0xC2, 0xD3, 0xAC, 0x62, 0x91, 0x95, 0xE4, 0x79,
   0xE7, 0xC8, 0x37, 0x6D, 0x8D, 0xD5, 0x4E, 0xA9, 0x6C, 0x56, 0xF4, 0xEA, 0x65, 0x7A, 0xAE, 0x08,
   0xBA, 0x78, 0x25, 0x2E, 0x1C, 0xA6, 0xB4, 0xC6, 0xE8, 0xDD, 0x74, 0x1F, 0x4B, 0xBD, 0x8B, 0x8A,
   0x70, 0x3E, 0xB5, 0x66, 0x48, 0x03, 0xF6, 0x0E, 0x61, 0x35, 0x57, 0xB9, 0x86, 0xC1, 0x1D, 0x9E,
   0xE1, 0xF8, 0x98, 0x11, 0x69, 0xD9, 0x8E, 0x94, 0x9B, 0x1E, 0x87, 0xE9, 0xCE, 0x55, 0x28, 0xDF,
   0x8C, 0xA1, 0x89, 0x0D, 0xBF, 0xE6, 0x42, 0x68, 0x41, 0x99, 0x2D, 0x0F, 0xB0, 0x54, 0xBB, 0x16]

/-- Byte `k` (0..7) of a 64-bit lane. -/
def laneByte (w k : Nat) : Nat := (w / 256 ^ k) % 256

/-- The lane whose bytes 0..7 are the given list (little-endian). -/
def laneOfBytes : List Nat → Nat
  | [] => 0
  | b :: bs => b % 256 + 256 * laneOfBytes bs

/-- The eight bytes of a lane, byte 0 first. -/
def laneBytes (w : Nat) : List Nat := (List.range 8).map (laneByte w)

/-- The substitution loop of `feistel` on the eight bytes of one lane:
`data[k] = substitutionSingleChar[data[k]]`. -/
def subLane (w : Nat) : Nat :=
  laneOfBytes ((laneBytes w).map (fun b => substitutionSingleChar.getD b 0))

/-- `permutationKey`: the round key. The function reads the members `_clusterNum`,
`_blockNum` and `_roundNum` (its parameters `round` and `blockNum` are not used). -/
def permutationKey (key : Block) (_clusterNum _blockNum _roundNum : Nat) : LRSide :=
  let keyHalf1 := key.L
  let keyHalf2 := key.R
  let roundKey :=
    (rorLRSide keyHalf1 ((_clusterNum + ROR_CONSTANT + 3) % (BLOCK_BITS / 2))).xor
      (rorLRSide keyHalf2 ((_blockNum + ROR_CONSTANT + 7) % (BLOCK_BITS / 2)))
  rorLRSide roundKey ((_roundNum * 4 + ROR_CONSTANT + 13) % (BLOCK_BITS / 2))

/-- `feistel`: XOR with the round key, substitute every byte, rotate right by
`ROR_CONSTANT + _roundNum`. -/
def feistel (_baseKey : Block) (_clusterNum _blockNum _roundNum : Nat)
    (baseDerivation : LRSide) : LRSide :=
  let x := baseDerivation.xor (permutationKey _baseKey _clusterNum _blockNum _roundNum)
  let y : LRSide := ⟨subLane x.l0, subLane x.l1⟩
  rorLRSide y (ROR_CONSTANT + _roundNum)

/-- `roundEnc`: `L ^= feistel(R); R ^= feistel(L)`. -/
def roundEnc (key : Block) (c b r : Nat) (x : Block) : Block :=
  let l := x.L.xor (feistel key c b r x.R)
  let rr := x.R.xor (feistel key c b r l)
  ⟨l, rr⟩

/-- `roundDec`: `R ^= feistel(L); L ^= feistel(R)`. -/
def roundDec (key : Block) (c b r : Nat) (x : Block) : Block :=
  let rr := x.R.xor (feistel key c b r x.L)
  let l := x.L.xor (feistel key c b r rr)
  ⟨l, rr⟩

/-- The loop of `blockEnc` from round `r` on, `n` rounds:
`for (_roundNum = 0; _roundNum < FEISTEL_ROUNDS; _roundNum++) roundEnc();`. -/
def encRounds (key : Block) (c b : Nat) : Nat → Nat → Block → Block
  | 0, _, x => x
  | n + 1, r, x => encRounds key c b n (r + 1) (roundEnc key c b r x)

/-- `blockEnc`: rounds 0, 1, ..., 15 on the current block. -/
def blockEnc (key : Block) (c b : Nat) (x : Block) : Block :=
  encRounds key c b FEISTEL_ROUNDS 0 x

/-- The loop of `blockDec` from round `r` down to round 1:
`for (_roundNum = FEISTEL_ROUNDS-1; _roundNum != 0; _roundNum--) roundDec();`. -/
def decRounds (key : Block) (c b : Nat) : Nat → Block → Block
  | 0, x => x
  | r + 1, x => decRounds key c b r (roundDec key c b (r + 1) x)

/-- `blockDec`: rounds 15, 14, ..., 1 in the loop, then the last `roundDec` at round 0. -/
def blockDec (key : Block) (c b : Nat) (x : Block) : Block :=
  roundDec key c b 0 (decRounds key c b (FEISTEL_ROUNDS - 1) x)


/-- Undoing `n` encryption rounds `r, r+1, ..., r+n-1` by the decryption rounds
`r+n-1, ..., r` (used to relate the two loops of `blockDec` and `blockEnc`). -/
def undoRounds (key : Block) (c b : Nat) : Nat → Nat → Block → Block
  | 0, _, x => x
  | n + 1, r, x => roundDec key c b r (undoRounds key c b n (r + 1) x)

/-! ## Bytes of a block, hashing, padding -/

/-- The 32 bytes `data[0..31]` of a block. -/
def Block.toBytes (b : Block) : List Nat :=
  laneBytes b.L.l0 ++ laneBytes b.L.l1 ++ laneBytes b.R.l0 ++ laneBytes b.R.l1

/-- The block whose `data` is the given bytes (bytes that are missing are zero,
as in a value-initialised block that was only partly overwritten). -/
def Block.ofBytes (bs : List Nat) : Block :=
  ⟨⟨laneOfBytes (bs.take 8), laneOfBytes ((bs.drop 8).take 8)⟩,
   ⟨laneOfBytes ((bs.drop 16).take 8), laneOfBytes ((bs.drop 24).take 8)⟩⟩

/-- `b.data[i]`. -/
def Block.data (b : Block) (i : Nat) : Nat := b.toBytes.getD i 0

/-- `b.data[i] = (char) v`. -/
def Block.setData (b : Block) (i v : Nat) : Block :=
  Block.ofBytes (b.toBytes.set i (v % 256))

/-- The bytes of a `std::vector<Block>` as laid out in memory. -/
def bytesOfBlocks (bs : List Block) : List Nat := bs.flatMap Block.toBytes

/-- A vector of `n` value-initialised blocks whose memory was then overwritten from
the start by the bytes `bs` (what `resize(n)` followed by a read into
`&_currentBlockSet[0]` leaves). -/
def storeBytes (n : Nat) (bs : List Nat) : List Block :=
  (List.range n).map (fun i => Block.ofBytes ((bs.drop (BLOCK_BYTES * i)).take BLOCK_BYTES))

/-- `Hash_SHA256_Block`: replace a block by the digest of its 32 bytes. -/
def Hash_SHA256_Block (H : List Nat → List Nat) (b : Block) : Block :=
  Block.ofBytes (H b.toBytes)

/-- `Hash_SHA256_Current_Cluster`: the digest of all bytes of `_currentBlockSet`. -/
def Hash_SHA256_Current_Cluster (H : List Nat → List Nat) (set : List Block) : Block :=
  Block.ofBytes (H (bytesOfBlocks set))

/-- `IVGenerator`: 32 bytes `raw` read from the random device, hashed
`HASHING_REPEATS` times. -/
def IVGenerator (H : List Nat → List Nat) (raw : List Nat) : Block :=
  (Hash_SHA256_Block H)^[HASHING_REPEATS] (Block.ofBytes raw)

/-- `Padding`: a random block with `_inputSize % BLOCK_BYTES` stored at the offset
given by the first byte of the hash of `b`. -/
def Padding (H : List Nat → List Nat) (raw : List Nat) (_inputSize : Nat) (b : Block) : Block :=
  let pos := (Hash_SHA256_Block H b).data 0 % BLOCK_BYTES
  (IVGenerator H raw).setData pos (_inputSize % BLOCK_BYTES)

/-! ## Streaming engine -/

/-- How a transfer can end without a result. -/
inductive Failure
  /-- `throw std::runtime_error ("NO INPUT FILE HAS BEEN OPENED")`. -/
  | noInput
  /-- `throw std::runtime_error ("NO KEY HAS BEEN SET")`. -/
  | noKey
  /-- A `skt_recvN` that cannot complete: the peer's stream ended early. -/
  | transport
  /-- An access outside `_currentBlockSet` or outside the file name buffer
  (undefined behaviour in C++). -/
  | memory
  /-- The loop bound of the embedding was used up (never produced, see
  `cluster loops` below: the bound always exceeds the number of iterations). -/
  | fuel
deriving DecidableEq, Repr

deriving instance DecidableEq for Except

/-- The members of `WilhelmSCP` that the streaming engine reads and writes
(`_roundNum` is set afresh by every `blockEnc` and `blockDec` and is a parameter of
the round functions instead). -/
structure Session where
  _indexToStream : Nat
  _blockNum : Nat
  _clusterNum : Nat
  _inputSize : Nat
  _baseKey : Block
  _lastBlockPrevCluster : Block
  _currentBlockSet : List Block
deriving DecidableEq, Repr

/-- The `n` bytes of an integer in native (little-endian) byte order, as
`skt_sendN(_socket, (char*)&x, sizeof(x))` sends them. -/
def leBytes : Nat → Nat → List Nat
  | 0, _ => []
  | n + 1, x => x % 256 :: leBytes n (x / 256)

/-- `skt_recvN`: the next `n` bytes of the stream and the rest of the stream. -/
def recvN (n : Nat) (stream : List Nat) : Option (List Nat × List Nat) :=
  if n ≤ stream.length then some (stream.take n, stream.drop n) else none

/-- The length field of `encrypt`:
`if (_inputSize%BLOCK_BYTES) (_inputSize)-(_inputSize%BLOCK_BYTES)+BLOCK_BYTES else _inputSize`
in `uint64_t` arithmetic. -/
def roundedUpInputSize (_inputSize : Nat) : Nat :=
  if _inputSize % BLOCK_BYTES ≠ 0 then
    (_inputSize - _inputSize % BLOCK_BYTES + BLOCK_BYTES) % W64
  else _inputSize

/-- The `for` loop of `encCBC`, `_currentBlock` being `&_currentBlockSet[cur]`:
`for (; cur != rel; ++cur, ++_blockNum) { blockEnc(); set[cur+1] ^= set[cur]; }`.
The bound `n` is the number of blocks of the vector: every iteration touches
`set[cur+1]`, so the loop has left the vector when the bound is used up. -/
def encCBCLoop (key : Block) (c rel : Nat) :
    Nat → Nat → Nat → List Block → Except Failure (List Block × Nat × Nat)
  | n, cur, bn, set =>
    if cur = rel then .ok (set, cur, bn)
    else match n with
      | 0 => .error .memory
      | n + 1 =>
        match set[cur]?, set[cur + 1]? with
        | some x, some y =>
          let x' := blockEnc key c bn x
          encCBCLoop key c rel n (cur + 1) (bn + 1) ((set.set cur x').set (cur + 1) (y.xor x'))
        | _, _ => .error .memory

/-- `relativeBlockCount` of `encCBC`: the index of the last block the loop reaches.
On the last cluster it is `(_inputSize%CLUSTER_BYTES)/BLOCK_BYTES`, decremented (in
`unsigned long`) when `_inputSize` is a multiple of `BLOCK_BYTES`; otherwise 127. -/
def encRelativeBlockCount (s : Session) : Nat :=
  if s._inputSize ≤ s._indexToStream then
    (if s._inputSize % BLOCK_BYTES = 0 then
      ((s._inputSize % CLUSTER_BYTES) / BLOCK_BYTES + W64 - 1) % W64
     else (s._inputSize % CLUSTER_BYTES) / BLOCK_BYTES)
  else CLUSTER_BYTES / BLOCK_BYTES - 1

/-- `encCBC`: encrypts `_currentBlockSet` in place, chaining from
`_lastBlockPrevCluster`; on the last cluster appends and encrypts the pad block.
`padRaw` is what the random device returns to the `IVGenerator` call of `Padding`. -/
def encCBC (H : List Nat → List Nat) (padRaw : List Nat) (s : Session) :
    Except Failure Session :=
  match s._currentBlockSet[0]? with
  | none => .error .memory
  | some x0 =>
    let set0 := s._currentBlockSet.set 0 (x0.xor s._lastBlockPrevCluster)
    match encCBCLoop s._baseKey s._clusterNum (encRelativeBlockCount s) set0.length 0
        s._blockNum set0 with
    | .error e => .error e
    | .ok (set1, cur, bn) =>
      match set1[cur]? with
      | none => .error .memory
      | some x =>
        let x' := blockEnc s._baseKey s._clusterNum bn x
        let set2 := set1.set cur x'
        if s._inputSize ≤ s._indexToStream then
          let temp := set2.length
          let pad := Padding H padRaw s._inputSize x'
          match set2[temp - 1]? with
          | none => .error .memory
          | some prev =>
            let set3 := set2 ++ [blockEnc s._baseKey s._clusterNum (bn + 1) (pad.xor prev)]
            .ok { s with _currentBlockSet := set3, _lastBlockPrevCluster := x'
                         _blockNum := bn + 1, _clusterNum := s._clusterNum + 1 }
        else
          .ok { s with _currentBlockSet := set2, _lastBlockPrevCluster := x'
                       _blockNum := bn, _clusterNum := s._clusterNum + 1 }

/-- What `encrypt` leaves behind: every byte handed to `skt_sendN`, in order, and
whether it ran to completion. -/
structure EncOut where
  sent : List Nat
  status : Except Failure Unit
deriving DecidableEq, Repr

/-- The number of bytes of the current cluster that `encrypt` sends. -/
def encSendSize (s : Session) : Nat :=
  if s._indexToStream < s._inputSize then s._currentBlockSet.length * BLOCK_BYTES
  else if s._inputSize % CLUSTER_BYTES ≠ 0 ∧ s._inputSize % BLOCK_BYTES ≠ 0 then
    (s._inputSize % CLUSTER_BYTES) - (s._inputSize % BLOCK_BYTES) + BLOCK_BYTES + BLOCK_BYTES
  else if s._inputSize % CLUSTER_BYTES ≠ 0 then (s._inputSize % CLUSTER_BYTES) + BLOCK_BYTES
  else CLUSTER_BYTES + BLOCK_BYTES

/-- The body of the loop of `encrypt` once the cluster has been read into
`_currentBlockSet`: hash the cluster, `encCBC`, send, `clear()`. Returns what has
been sent and, unless the iteration failed, the session and `clusterHashes`. -/
def encryptCluster (H : List Nat → List Nat) (padRaw : List Nat) (s1 : Session)
    (hashes : List Block) (sent : List Nat) :
    List Nat × Except Failure (Session × List Block) :=
  let hashes1 := hashes ++ [Hash_SHA256_Current_Cluster H s1._currentBlockSet]
  match encCBC H padRaw s1 with
  | .error e => (sent, .error e)
  | .ok s2 =>
    if encSendSize s2 ≤ s2._currentBlockSet.length * BLOCK_BYTES then
      (sent ++ (bytesOfBlocks s2._currentBlockSet).take (encSendSize s2),
        .ok ({ s2 with _currentBlockSet := [] }, hashes1))
    else (sent, .error .memory)

/-- `tempBlockNum` of `encrypt`: the size the vector is given for the last cluster,
`(_inputSize%CLUSTER_BYTES)/BLOCK_BYTES`, plus one when `_inputSize` is not a
multiple of `BLOCK_BYTES`. -/
def tempBlockNum (_inputSize : Nat) : Nat :=
  (_inputSize % CLUSTER_BYTES) / BLOCK_BYTES + (if _inputSize % BLOCK_BYTES ≠ 0 then 1 else 0)

/-- The `while (!_ifile.fail())` loop of `encrypt`. `file` is the content of the
input file, `sent` what has been sent so far, `hashes` is `clusterHashes`. A
non-final iteration reads 4096 bytes that the file still has; the final one asks
for one byte more than is left, which sets the fail bit and ends the loop. -/
def encryptLoop (H : List Nat → List Nat) (padRaw file : List Nat) :
    Nat → Session → List Block → List Nat → List Nat × Except Failure (List Block)
  | 0, _, _, sent => (sent, .error .fuel)
  | fuel + 1, s, hashes, sent =>
    if (s._indexToStream + CLUSTER_BYTES) % W64 < s._inputSize then
      let s1 := { s with
        _currentBlockSet :=
          storeBytes (CLUSTER_BYTES / BLOCK_BYTES) ((file.drop s._indexToStream).take CLUSTER_BYTES)
        _indexToStream := (s._indexToStream + CLUSTER_BYTES) % W64 }
      match encryptCluster H padRaw s1 hashes sent with
      | (sent1, .error e) => (sent1, .error e)
      | (sent1, .ok (s2, hashes1)) => encryptLoop H padRaw file fuel s2 hashes1 sent1
    else
      let bytes := (file.drop s._indexToStream).take (s._inputSize - s._indexToStream + 1)
      if BLOCK_BYTES * tempBlockNum s._inputSize < bytes.length then (sent, .error .memory)
      else
        let s1 := { s with _currentBlockSet := storeBytes (tempBlockNum s._inputSize) bytes
                           _indexToStream := s._inputSize }
        match encryptCluster H padRaw s1 hashes sent with
        | (sent1, .error e) => (sent1, .error e)
        | (sent1, .ok (_, hashes1)) => (sent1, .ok hashes1)

/-- `encrypt`. `file` is the opened input file (`none` when `setInput` was not
called), `_inputSize` its size as `setInput` measured it, `_fileName` the
destination name, `ivRaw` and `padRaw` the two reads of the random device. -/
def encrypt (H : List Nat → List Nat) (ivRaw padRaw : List Nat) (_baseKey : Block)
    (_fileName : List Nat) (file : Option (List Nat)) : EncOut :=
  match file with
  | none => ⟨[], .error .noInput⟩
  | some file =>
    if _baseKey = Block.zero then ⟨[], .error .noKey⟩
    else
      let _inputSize := file.length
      let sent1 := leBytes 8 (roundedUpInputSize _inputSize)
      let fileNameSize := _fileName.length % 2 ^ 32
      let sent2 := sent1 ++ leBytes 4 fileNameSize
      if 4096 < fileNameSize then ⟨sent2, .error .memory⟩
      else
        let sent3 := sent2 ++ _fileName.take fileNameSize
        let iv := IVGenerator H ivRaw
        let sent4 := sent3 ++ iv.toBytes
        let s : Session :=
          { _indexToStream := 0, _blockNum := 0, _clusterNum := 0, _inputSize := _inputSize
            _baseKey := _baseKey, _lastBlockPrevCluster := iv, _currentBlockSet := [] }
        match encryptLoop H padRaw file (_inputSize / CLUSTER_BYTES + 1) s [] sent4 with
        | (sent5, .error e) => ⟨sent5, .error e⟩
        | (sent5, .ok clusterHashes) =>
          ⟨sent5 ++ (Hash_SHA256_Current_Cluster H clusterHashes).toBytes, .ok ()⟩

/-- The `for` loop of `decCBC`, `_currentBlock` being `&_currentBlockSet[cur]` and
`undecrypted` being `&encrypted[und]`:
`for (; cur != rel; ++cur, ++_blockNum) { blockDec(); set[cur] ^= *undecrypted++; }`.
The bound `n` is the number of blocks of the vector, as for `encCBCLoop`. -/
def decCBCLoop (key : Block) (c rel : Nat) (encrypted : List Block) :
    Nat → Nat → Nat → Nat → List Block → Except Failure (List Block × Nat × Nat × Nat)
  | n, cur, und, bn, set =>
    if cur = rel then .ok (set, cur, und, bn)
    else match n with
      | 0 => .error .memory
      | n + 1 =>
        match set[cur]?, encrypted[und]? with
        | some x, some e =>
          decCBCLoop key c rel encrypted n (cur + 1) (und + 1) (bn + 1)
            (set.set cur ((blockDec key c bn x).xor e))
        | _, _ => .error .memory

/-- `_inputSize` after the first test of `decCBC`: on the last cluster the trailer
block is discounted (`_inputSize -= BLOCK_BYTES`). -/
def decInputSize1 (s : Session) : Nat :=
  if s._inputSize ≤ s._indexToStream then sub64 s._inputSize BLOCK_BYTES else s._inputSize

/-- `relativeBlockCount` of `decCBC`. -/
def decRelativeBlockCount (s : Session) : Nat :=
  if s._inputSize ≤ s._indexToStream then (decInputSize1 s % CLUSTER_BYTES) / BLOCK_BYTES
  else CLUSTER_BYTES / BLOCK_BYTES - 1

/-- `decCBC`: decrypts `_currentBlockSet` in place; on the last cluster recovers the
padding count, shrinks `_inputSize`, drops the trailer block from the vector and
returns it; otherwise returns `Block()`. -/
def decCBC (H : List Nat → List Nat) (s : Session) : Except Failure (Session × Block) :=
  let encrypted := s._currentBlockSet
  match s._currentBlockSet[0]? with
  | none => .error .memory
  | some x0 =>
    let set0 := s._currentBlockSet.set 0
      ((blockDec s._baseKey s._clusterNum s._blockNum x0).xor s._lastBlockPrevCluster)
    match decCBCLoop s._baseKey s._clusterNum (decRelativeBlockCount s) encrypted
        set0.length 1 0 (s._blockNum + 1) set0 with
    | .error e => .error e
    | .ok (set1, cur, und, bn) =>
      if decInputSize1 s ≤ s._indexToStream then
        if und = 0 then .error .memory
        else
          match set1[cur - 1]?, encrypted[und - 1]?, set1[cur]? with
          | some paddingBlock, some tempBlock, some hashChecksum =>
            let temppos := (Hash_SHA256_Block H tempBlock).data 0 % BLOCK_BYTES
            let inputSize2 :=
              sub64 ((decInputSize1 s + paddingBlock.data temppos) % W64) (BLOCK_BYTES + BLOCK_BYTES)
            .ok ({ s with _inputSize := inputSize2, _blockNum := bn
                          _currentBlockSet := set1.take (set1.length - 1) }, hashChecksum)
          | _, _, _ => .error .memory
      else
        match set1[cur]?, encrypted[und]?, encrypted[und + 1]? with
        | some x, some e, some e' =>
          .ok ({ s with _inputSize := decInputSize1 s, _blockNum := bn
                        _currentBlockSet := set1.set cur ((blockDec s._baseKey s._clusterNum bn x).xor e)
                        _lastBlockPrevCluster := e', _clusterNum := s._clusterNum + 1 }, Block.zero)
        | _, _, _ => .error .memory

/-- What `decrypt` leaves behind: the received file name, every byte written to
the output file, the per-cluster hashes, the trailer block returned by the last
`decCBC`, and the result (`true`, `false`, or how the transfer was aborted).
Two more fields record the run for the statements about it: `received` holds each
cluster as it was received into `_currentBlockSet`, `decoded` the content of
`_currentBlockSet` at each call of `Hash_SHA256_Current_Cluster`. -/
structure DecOut where
  fileName : List Nat
  written : List Nat
  clusterHashes : List Block
  OrigHashChecksum : Block
  received : List (List Block)
  decoded : List (List Block)
  status : Except Failure Bool
deriving DecidableEq, Repr

/-- `_currentBlockSet` after `if (_indexToStream >= _inputSize) resize(size()-1)`
in `decrypt`: the pad block is removed on the last cluster. -/
def stripPad (s : Session) : List Block :=
  if s._inputSize ≤ s._indexToStream then
    s._currentBlockSet.take (s._currentBlockSet.length - 1)
  else s._currentBlockSet

/-- The number of bytes `decrypt` writes for the current cluster. -/
def writeSize (s : Session) : Nat :=
  if s._indexToStream < s._inputSize then CLUSTER_BYTES else s._inputSize % CLUSTER_BYTES

/-- The body of the loop of `decrypt` once the cluster has been received into
`_currentBlockSet`: `decCBC`, removal of the pad block on the last cluster, hashing,
writing, `clear()`. Returns the session unless the iteration failed. -/
def decryptCluster (H : List Nat → List Nat) (s1 : Session) (out : DecOut) :
    DecOut × Option Session :=
  match decCBC H s1 with
  | .error e =>
    ({ out with received := out.received ++ [s1._currentBlockSet], status := .error e }, none)
  | .ok (s2, orig) =>
    if writeSize s2 ≤ (stripPad s2).length * BLOCK_BYTES then
      ({ out with
          received := out.received ++ [s1._currentBlockSet]
          OrigHashChecksum := orig
          decoded := out.decoded ++ [stripPad s2]
          clusterHashes := out.clusterHashes ++ [Hash_SHA256_Current_Cluster H (stripPad s2)]
          written := out.written ++ (bytesOfBlocks (stripPad s2)).take (writeSize s2) },
        some { s2 with _currentBlockSet := [] })
    else
      ({ out with
          received := out.received ++ [s1._currentBlockSet]
          OrigHashChecksum := orig
          decoded := out.decoded ++ [stripPad s2]
          clusterHashes := out.clusterHashes ++ [Hash_SHA256_Current_Cluster H (stripPad s2)]
          status := .error .memory }, none)

/-- The `while (loop)` loop of `decrypt`. `stream` is what the peer still sends;
`out` holds what has been written, hashed and recorded so far. After the last
cluster the trailer is compared with the hash of `clusterHashes`. -/
def decryptLoop (H : List Nat → List Nat) :
    Nat → Session → List Nat → DecOut → DecOut
  | 0, _, _, out => { out with status := .error .fuel }
  | fuel + 1, s, stream, out =>
    if (s._indexToStream + CLUSTER_BYTES) % W64 < s._inputSize then
      match recvN CLUSTER_BYTES stream with
      | none => { out with status := .error .transport }
      | some (bytes, rest) =>
        let s1 := { s with _currentBlockSet := storeBytes (CLUSTER_BYTES / BLOCK_BYTES) bytes
                           _indexToStream := (s._indexToStream + CLUSTER_BYTES) % W64 }
        match decryptCluster H s1 out with
        | (out1, none) => out1
        | (out1, some s3) => decryptLoop H fuel s3 rest out1
    else
      let count := sub64 s._inputSize s._indexToStream
      match recvN count stream with
      | none => { out with status := .error .transport }
      | some (bytes, _) =>
        if BLOCK_BYTES * (count / BLOCK_BYTES) < count then { out with status := .error .memory }
        else
          let s1 := { s with _currentBlockSet := storeBytes (count / BLOCK_BYTES) bytes
                             _indexToStream := s._inputSize }
          match decryptCluster H s1 out with
          | (out1, none) => out1
          | (out1, some _) =>
            { out1 with status := .ok (decide
                (out1.OrigHashChecksum = Hash_SHA256_Current_Cluster H out1.clusterHashes)) }

/-- The state of `decrypt` before anything is received. -/
def DecOut.start (fileName : List Nat) (status : Except Failure Bool) : DecOut :=
  { fileName := fileName, written := [], clusterHashes := [], OrigHashChecksum := Block.zero
    received := [], decoded := [], status := status }

/-- `decrypt`. `stream` is everything the peer sends after the key exchange. -/
def decrypt (H : List Nat → List Nat) (_baseKey : Block) (stream : List Nat) : DecOut :=
  if _baseKey = Block.zero then DecOut.start [] (.error .noKey)
  else
    match recvN 8 stream with
    | none => DecOut.start [] (.error .transport)
    | some (sizeBytes, stream1) =>
      let _inputSize := (laneOfBytes sizeBytes + 2 * BLOCK_BYTES) % W64
      match recvN 4 stream1 with
      | none => DecOut.start [] (.error .transport)
      | some (nameSizeBytes, stream2) =>
        let fileNameSize0 := laneOfBytes nameSizeBytes
        let fileNameSize := if 4096 < fileNameSize0 then fileNameSize0 % 4096 else fileNameSize0
        match recvN fileNameSize stream2 with
        | none => DecOut.start [] (.error .transport)
        | some (_fileName, stream3) =>
          match recvN BLOCK_BYTES stream3 with
          | none => DecOut.start _fileName (.error .transport)
          | some (ivBytes, stream4) =>
            let s : Session :=
              { _indexToStream := 0, _blockNum := 0, _clusterNum := 0, _inputSize := _inputSize
                _baseKey := _baseKey, _lastBlockPrevCluster := Block.ofBytes ivBytes
                _currentBlockSet := [] }
            decryptLoop H (stream4.length / CLUSTER_BYTES + 1) s stream4
              (DecOut.start _fileName (.error .transport))

/-! ## Sample data for closed examples -/

/-- A stand-in for the external hash in closed examples: 32 digest bytes, each a
running polynomial checksum of the input. -/
def sampleHash (bs : List Nat) : List Nat :=
  (List.range 32).map (fun i => bs.foldl (fun a b => (a * 31 + b + i) % 256) 7)

/-- A non-zero session key for closed examples. -/
def sampleKey : Block :=
  ⟨⟨0x0123456789abcdef, 0xfedcba9876543210⟩, ⟨0x1111111122222222, 0x3333333344444444⟩⟩

/-- A file of `n` bytes for closed examples. -/
def sampleFile (n : Nat) : List Nat := (List.range n).map (fun i => (i * 7 + 3) % 256)

/-- The encrypted stream of the five-byte sample file. -/
def sampleStream : List Nat :=
  (encrypt sampleHash [] [] sampleKey [] (some (sampleFile 5))).sent

/-- A stream with its last byte changed. -/
def tamperLast (bs : List Nat) : List Nat :=
  bs.dropLast ++ [(bs.getLastD 0 + 1) % 256]

/-- A block whose four lanes are 64-bit values (what 32 bytes of memory can hold). -/
def Block.valid (b : Block) : Prop :=
  b.L.l0 < W64 ∧ b.L.l1 < W64 ∧ b.R.l0 < W64 ∧ b.R.l1 < W64

end WilhelmSCP

/-! # The bigint engine (osl/bigint.cpp, osl/bigint.h)

A `bigint` is the sign and the components of `struct _real_bigint`
(`num_comps` is the length of `comps`). The reference counts, the free list and
`max_comps` manage memory only: every operation consumes its operands and returns a
fresh value, so the embedding is by value. Components are `long long`; their
arithmetic is two's complement (`wrap64`), division truncates as in C++. -/

namespace OSL

/-- `bi_radix_bits`: `BITS(comp) / 2 - 1` for the 64-bit `comp`. -/
def bi_radix_bits : Nat := 64 / 2 - 1

/-- `bi_radix`: `((comp)1) << bi_radix_bits`. -/
def bi_radix : Int := 2 ^ bi_radix_bits

/-- `MININT` and `MAXINT` for the 32-bit `int`. -/
def MININT : Int := -(2 ^ 31)
def MAXINT : Int := 2 ^ 31 - 1

/-- The value a `long long` holds after an arithmetic operation whose exact
result is `x` (two's complement). -/
def wrap64 (x : Int) : Int := (x + 2 ^ 63) % 2 ^ 64 - 2 ^ 63

/-- `a + b`, `a - b`, `a * b`, `-a` on `comp`. -/
def cadd (a b : Int) : Int := wrap64 (a + b)
def csub (a b : Int) : Int := wrap64 (a - b)
def cmul (a b : Int) : Int := wrap64 (a * b)
def cneg (a : Int) : Int := wrap64 (-a)

/-- `a / b` and `a % b` on `comp`: truncating division. -/
def cdiv (a b : Int) : Int := wrap64 (Int.tdiv a b)
def cmod (a b : Int) : Int := Int.tmod a b

/-- The errors raised through `bi_error` (and the `abort()` of `bi_egcd`). -/
inductive BiError
  | divideByZero
  | badModulus
  | negativeExponent
  | notRelativelyPrime
  | jacobiEven
  | overflow
  | imaginary
  | egcdNegative
  /-- The loop bound of the embedding was used up. -/
  | fuel
deriving DecidableEq, Repr

/-- The fields `sign` and `comps[0..num_comps-1]` of `struct _real_bigint`. -/
structure bigint where
  sign : Int
  comps : List Int
deriving DecidableEq, Repr

/-- `bi->num_comps`. -/
def bigint.num_comps (bi : bigint) : Nat := bi.comps.length

/-- `bi->comps[c]` (0 outside the components, where the code never reads). -/
def bigint.comp (bi : bigint) (c : Nat) : Int := bi.comps.getD c 0

/-- The integer a bigint stands for: `sign * (comp0 + comp1 * radix + ...)`. -/
def compsValue : List Int → Int
  | [] => 0
  | x :: rest => x + bi_radix * compsValue rest

def bigint.value (bi : bigint) : Int := bi.sign * compsValue bi.comps

/-! ## normalize -/

/-- First loop of `normalize`, at component `x = comps[c]` with `rest` the
components above it: borrow for negative components,
`for (c = 0; c < n - 1; ++c) if (comps[c] < 0) { ... }`. -/
def borrowLoop : Int → List Int → List Int
  | x, [] => [x]
  | x, y :: rest =>
    if x < 0 then
      let y1 := cadd y (csub (cdiv x bi_radix) 1)
      let x1 := cmod x bi_radix
      if x1 ≠ 0 then cadd x1 bi_radix :: borrowLoop y1 rest
      else x1 :: borrowLoop (cadd y1 1) rest
    else x :: borrowLoop y rest

/-- The loop run when the top component is negative:
`for (c = 0; c < n - 1; ++c) { comps[c] = bi_radix - comps[c]; comps[c + 1] += 1; }`
followed by `comps[n - 1] = -comps[n - 1]`. -/
def flipLoop : Int → List Int → List Int
  | x, [] => [cneg x]
  | x, y :: rest => csub bi_radix x :: flipLoop (cadd y 1) rest

/-- Third loop of `normalize`: carry for components larger than the radix,
`for (c = 0; c < n; ++c) if (comps[c] >= bi_radix) { ... }`; a carry out of the top
component goes to one new component (`more_comps(bi, n + 1)`). -/
def carryLoop : Int → List Int → List Int
  | x, [] =>
    if x ≥ bi_radix then [cmod x bi_radix, cadd 0 (cdiv x bi_radix)] else [x]
  | x, y :: rest =>
    if x ≥ bi_radix then cmod x bi_radix :: carryLoop (cadd y (cdiv x bi_radix)) rest
    else x :: carryLoop y rest

/-- The flip loop and the carry loop from component 0 (`n` is never 0). -/
def flipComps : List Int → List Int
  | [] => []
  | y :: r => flipLoop y r

def carryComps : List Int → List Int
  | [] => []
  | y :: r => carryLoop y r

/-- The trimming loop of `normalize` on the components listed from the top down:
`for ( ; num_comps > 1 && comps[num_comps-1] == 0; --num_comps);`. -/
def trimTop : List Int → List Int
  | x :: y :: rest => if x = 0 then trimTop (y :: rest) else x :: y :: rest
  | l => l

/-- Leading zero components removed. -/
def trim (comps : List Int) : List Int := (trimTop comps.reverse).reverse

/-- `normalize`. -/
def normalize (bi : bigint) : bigint :=
  match bi.comps with
  | [] => bi
  | x :: rest =>
    let c1 := borrowLoop x rest
    let neg := c1.getLastD 0 < 0
    let sign2 := if neg then -bi.sign else bi.sign
    let c2 := if neg then flipComps c1 else c1
    let c3 := carryComps c2
    let c4 := trim c3
    let sign5 := if c4 = [0] ∧ sign2 = -1 then 1 else sign2
    ⟨sign5, c4⟩

/-- `more_comps`: zero components added up to `n` components. -/
def more_comps (comps : List Int) (n : Nat) : List Int :=
  comps ++ List.replicate (n - comps.length) 0

/-! ## Conversions, comparison, operations with an `int` -/

/-- `int_to_bi`. -/
def int_to_bi (i : Int) : bigint := normalize ⟨1, [i]⟩

def bi_0 : bigint := int_to_bi 0
def bi_1 : bigint := int_to_bi 1
def bi_2 : bigint := int_to_bi 2
def bi_10 : bigint := int_to_bi 10
def bi_m1 : bigint := int_to_bi (-1)
def bi_maxint : bigint := int_to_bi MAXINT
def bi_minint : bigint := int_to_bi MININT

/-- The loop of `bi_compare` over components of equal count, from the top down;
the two lists are the components listed from the top. -/
def compareTop (sign : Int) : List Int → List Int → Int
  | x :: xs, y :: ys =>
    if x > y then sign else if x < y then -sign else compareTop sign xs ys
  | _, _ => 0

/-- `bi_compare`. -/
def bi_compare (bia bib : bigint) : Int :=
  if bia.sign > bib.sign then 1
  else if bia.sign < bib.sign then -1
  else if bia.num_comps > bib.num_comps then bia.sign
  else if bia.num_comps < bib.num_comps then -bia.sign
  else compareTop bia.sign bia.comps.reverse bib.comps.reverse

/-- The loop of `bi_to_int`: `v += comps[c] * m; m *= bi_radix`. -/
def toIntLoop : Int → Int → List Int → Int
  | v, _, [] => v
  | v, m, x :: rest => toIntLoop (cadd v (cmul x m)) (cmul m bi_radix) rest

/-- `(int) x`: conversion of a `long long` to the 32-bit `int`. -/
def toInt32 (x : Int) : Int := (x + 2 ^ 31) % 2 ^ 32 - 2 ^ 31

/-- `bi_to_int`. -/
def bi_to_int (bi : bigint) : Except BiError Int :=
  if bi_compare bi bi_maxint > 0 ∨ bi_compare bi bi_minint < 0 then .error .overflow
  else .ok (toInt32 (cmul bi.sign (toIntLoop 0 1 bi.comps)))

/-- `comps[0] += d` on a list of components. -/
def addToFirst (comps : List Int) (d : Int) : List Int :=
  match comps with
  | [] => []
  | x :: rest => cadd x d :: rest

/-- `bi_int_add`. -/
def bi_int_add (bi : bigint) (i : Int) : bigint :=
  normalize ⟨bi.sign, addToFirst bi.comps (if bi.sign = 1 then i else -i)⟩

/-- `bi_int_subtract`. -/
def bi_int_subtract (bi : bigint) (i : Int) : bigint :=
  normalize ⟨bi.sign, addToFirst bi.comps (if bi.sign = 1 then -i else i)⟩

/-- `bi_int_multiply`. -/
def bi_int_multiply (bi : bigint) (i : Int) : bigint :=
  let sign := if i < 0 then -bi.sign else bi.sign
  let i := if i < 0 then toInt32 (-i) else i
  normalize ⟨sign, bi.comps.map (fun x => cmul x i)⟩

/-- The loop of `bi_int_divide` over the components from the top down:
`r = r * bi_radix + comps[c]; comps[c] = r / denom; r = r % denom;`. Returns the
new components, listed from the top. -/
def intDivideLoop (denom : Int) : Int → List Int → List Int
  | _, [] => []
  | r, x :: rest =>
    let r1 := cadd (cmul r bi_radix) x
    cdiv r1 denom :: intDivideLoop denom (cmod r1 denom) rest

/-- `bi_int_divide`. -/
def bi_int_divide (binumer : bigint) (denom : Int) : Except BiError bigint :=
  if denom = 0 then .error .divideByZero
  else
    let sign := if denom < 0 then -binumer.sign else binumer.sign
    let denom := if denom < 0 then toInt32 (-denom) else denom
    .ok (normalize ⟨sign, (intDivideLoop denom 0 binumer.comps.reverse).reverse⟩)

/-- The loop of `bi_int_rem`:
`r = (r + comps[c] * rad_r) % m; rad_r = (rad_r * bi_radix) % m;`. -/
def intRemLoop (m : Int) : Int → Int → List Int → Int
  | _, r, [] => r
  | rad_r, r, x :: rest =>
    intRemLoop m (cmod (cmul rad_r bi_radix) m) (cmod (cadd r (cmul x rad_r)) m) rest

/-- `bi_int_rem`. -/
def bi_int_rem (bi : bigint) (m : Int) : Except BiError Int :=
  if m = 0 then .error .divideByZero
  else
    let m := if m < 0 then toInt32 (-m) else m
    let r := intRemLoop m 1 0 bi.comps
    .ok (toInt32 (if bi.sign < 1 then cneg r else r))

/-- `bi_int_mod`. -/
def bi_int_mod (bi : bigint) (m : Int) : Except BiError Int :=
  if m ≤ 0 then .error .badModulus
  else
    match bi_int_rem bi m with
    | .error e => .error e
    | .ok r => .ok (if r < 0 then toInt32 (r + m) else r)

/-! ## Addition, subtraction, negation, halving -/

/-- The loop of `bi_add` and `bi_subtract`: `comps[c] op= bib->comps[c]` for every
component of `bib`, on components already extended to the longer operand. -/
def zipComps (op : Int → Int → Int) : List Int → List Int → List Int
  | x :: xs, y :: ys => op x y :: zipComps op xs ys
  | xs, [] => xs
  | [], _ :: _ => []

/-- `bi_add`. -/
def bi_add (bia bib : bigint) : bigint :=
  let comps := more_comps bia.comps (max bia.num_comps bib.num_comps)
  normalize ⟨bia.sign, zipComps (if bia.sign = bib.sign then cadd else csub) comps bib.comps⟩

/-- `bi_subtract`. -/
def bi_subtract (bia bib : bigint) : bigint :=
  let comps := more_comps bia.comps (max bia.num_comps bib.num_comps)
  normalize ⟨bia.sign, zipComps (if bia.sign = bib.sign then csub else cadd) comps bib.comps⟩

/-- `bi_negate` (no normalization). -/
def bi_negate (bi : bigint) : bigint := ⟨-bi.sign, bi.comps⟩

/-- `bi_abs`. -/
def bi_abs (bi : bigint) : bigint := ⟨1, bi.comps⟩

/-- `bi_is_odd`: `comps[0] & 1`. -/
def bi_is_odd (bi : bigint) : Bool := bi.comp 0 % 2 = 1

/-- `bi_is_even`. -/
def bi_is_even (bi : bigint) : Bool := !bi_is_odd bi

/-- `bi_is_zero`. -/
def bi_is_zero (bi : bigint) : Bool := bi.sign = 1 ∧ bi.comps = [0]

/-- `bi_is_one`. -/
def bi_is_one (bi : bigint) : Bool := bi.sign = 1 ∧ bi.comps = [1]

/-- `bi_is_negative`. -/
def bi_is_negative (bi : bigint) : Bool := bi.sign = -1

/-- The loop of `bi_half`, `for (c = 0; c < num_comps; ++c)
{ if (comps[c] & 1) if (c > 0) comps[c - 1] += bi_radix_o2; comps[c] = comps[c] >> 1; }`,
at component `x = comps[c]` with `rest` the components above it: the halved `x`
receives `bi_radix_o2` in the next step when the component above it is odd. -/
def halfLoop : Int → List Int → List Int
  | x, [] => [x / 2]
  | x, y :: rest =>
    (if y % 2 = 1 then cadd (x / 2) (bi_radix / 2) else x / 2) :: halfLoop y rest

/-- `bi_half`. -/
def bi_half (bi : bigint) : bigint :=
  match bi.comps with
  | [] => bi
  | x :: rest =>
    let comps := halfLoop x rest
    ⟨bi.sign, if comps.length > 1 ∧ comps.getLastD 0 = 0 then comps.dropLast else comps⟩

/-! ## Multiplication -/

/-- The inner loop of `regular_multiply` for one component `x = bia->comps[c1]`, on
the components of the result from index `c1` up:
`biR->comps[c1 + c2] += bia->comps[c1] * bib->comps[c2]`. -/
def addRow (x : Int) : List Int → List Int → List Int
  | r :: rs, y :: ys => cadd r (cmul x y) :: addRow x rs ys
  | rs, [] => rs
  | [], _ :: _ => []

/-- The outer loop of `regular_multiply` from row `c1` on: add the row, reset
`num_comps` to `new_comps`, normalize. `as` are the components of `bia` from `c1` up
and `biR` the running result. -/
def rowsLoop (new_comps : Nat) (b : List Int) : Nat → List Int → bigint → bigint
  | _, [], biR => biR
  | c1, x :: rest, biR =>
    let comps := (more_comps biR.comps new_comps).take new_comps
    let comps1 := comps.take c1 ++ addRow x (comps.drop c1) b
    rowsLoop new_comps b (c1 + 1) rest (normalize ⟨biR.sign, comps1⟩)

/-- `regular_multiply`. -/
def regular_multiply (bia bib : bigint) : bigint :=
  let new_comps := bia.num_comps + bib.num_comps
  let biR := rowsLoop new_comps bib.comps 0 bia.comps ⟨1, more_comps [0] new_comps⟩
  if !bi_is_zero biR then ⟨bia.sign * bib.sign, biR.comps⟩ else biR

/-- `KARATSUBA_THRESH`. -/
def KARATSUBA_THRESH : Nat := 12

/-- The components `c + from` for `c < n` of a bigint, zero where it has none: the
splitting loop of the Karatsuba branch. -/
def splitComps (comps : List Int) (start n : Nat) : List Int :=
  (List.range n).map (fun c => if c + start < comps.length then comps.getD (c + start) 0 else 0)

/-- `bi_jl->comps[c + off] += other->comps[c]` for every component of `other`. -/
def addShifted (comps : List Int) (off : Nat) (other : List Int) : List Int :=
  comps.take off ++ zipComps cadd (comps.drop off) other

/-- `bi_multiply`, with the depth of the Karatsuba recursion bounded by `fuel`
(every level halves the component count, so a bound of the larger component count is
never used up; at the bound the value is the zero bigint). -/
def bi_multiply_aux : Nat → bigint → bigint → bigint
  | 0, _, _ => ⟨1, [0]⟩
  | fuel + 1, bia, bib =>
    if min bia.num_comps bib.num_comps < KARATSUBA_THRESH then regular_multiply bia bib
    else
      let n := (max bia.num_comps bib.num_comps + 1) / 2
      let bi_i := normalize ⟨1, splitComps bia.comps n n⟩
      let bi_j := normalize ⟨1, splitComps bia.comps 0 n⟩
      let bi_k := normalize ⟨1, splitComps bib.comps n n⟩
      let bi_l := normalize ⟨1, splitComps bib.comps 0 n⟩
      let bi_ik := bi_multiply_aux fuel bi_i bi_k
      let bi_jl := bi_multiply_aux fuel bi_j bi_l
      let bi_mid := bi_subtract
        (bi_subtract (bi_multiply_aux fuel (bi_add bi_i bi_j) (bi_add bi_k bi_l)) bi_ik) bi_jl
      let comps0 := more_comps bi_jl.comps (max (bi_mid.num_comps + n) (bi_ik.num_comps + n * 2))
      let comps1 := addShifted comps0 n bi_mid.comps
      let comps2 := addShifted comps1 (n * 2) bi_ik.comps
      normalize ⟨bia.sign * bib.sign, comps2⟩

/-- `bi_multiply`. -/
def bi_multiply (bia bib : bigint) : bigint :=
  bi_multiply_aux (max bia.num_comps bib.num_comps + 1) bia bib

/-! ## Division -/

/-- The loop of `csqrt`: Newton's iteration on `r`. -/
def csqrtLoop (c : Int) : Nat → Int → Except BiError Int
  | 0, _ => .error .fuel
  | fuel + 1, r =>
    if r = 0 then .error .divideByZero
    else
      let r2 := cdiv c r
      let diff := csub r r2
      if diff = 0 ∨ diff = -1 then .ok (toInt32 r)
      else if diff = 1 then .ok (toInt32 r2)
      else csqrtLoop c fuel (cdiv (cadd r r2) 2)

/-- `csqrt`. -/
def csqrt (c : Int) : Except BiError Int :=
  if c < 0 then .error .imaginary else csqrtLoop c 64 (cdiv c 2)

/-- `bi_radix_sqrt`, set by `bi_initialize` to `csqrt( bi_radix )`. -/
def bi_radix_sqrt : Int :=
  match csqrt bi_radix with
  | .ok r => r
  | .error _ => 0

/-- `multi_divide2`, the recursion bounded by `fuel` (every level at least halves
the numerator). -/
def multi_divide2 : Nat → bigint → bigint → Except BiError bigint
  | 0, _, _ => .error .fuel
  | fuel + 1, binumer, bidenom =>
    let o := bidenom.num_comps - 1
    match bi_int_divide binumer (toInt32 (bidenom.comp o)) with
    | .error e => .error e
    | .ok q =>
      let biapprox : bigint := ⟨q.sign, q.comps.drop o⟩
      let birem := bi_subtract (bi_multiply biapprox bidenom) binumer
      if bi_compare birem bidenom < 0 then
        let biquotient := biapprox
        let birem := bi_negate birem
        .ok (if bi_is_negative birem then bi_int_subtract biquotient 1 else biquotient)
      else
        match multi_divide2 fuel birem bidenom with
        | .error e => .error e
        | .ok sub =>
          let biquotient := bi_subtract biapprox sub
          let birem := bi_subtract binumer (bi_multiply biquotient bidenom)
          .ok (if bi_is_negative birem then bi_int_subtract biquotient 1 else biquotient)

/-- `multi_divide`. -/
def multi_divide (binumer bidenom : bigint) : Except BiError bigint :=
  if bidenom.comp (bidenom.num_comps - 1) < bi_radix_sqrt then
    multi_divide2 (bi_radix_bits * (binumer.num_comps + 1) + 1)
      (bi_int_multiply binumer bi_radix_sqrt) (bi_int_multiply bidenom bi_radix_sqrt)
  else multi_divide2 (bi_radix_bits * (binumer.num_comps + 1) + 1) binumer bidenom

/-- `bi_divide`. -/
def bi_divide (binumer bidenom : bigint) : Except BiError bigint :=
  let cd := bi_compare bidenom bi_0
  if cd = 0 then .error .divideByZero
  else
    let sign1 : Int := if cd = -1 then -1 else 1
    let bidenom := if cd = -1 then bi_negate bidenom else bidenom
    let cn := bi_compare binumer bi_0
    if cn = 0 then .ok bi_0
    else
      let sign2 : Int := if cn = -1 then -sign1 else sign1
      let binumer := if cn = -1 then bi_negate binumer else binumer
      let c := bi_compare binumer bidenom
      if c = -1 then .ok bi_0
      else if c = 0 then .ok (if sign2 = 1 then bi_1 else bi_m1)
      else
        match (if bidenom.num_comps = 1 then bi_int_divide binumer (toInt32 (bidenom.comp 0))
               else multi_divide binumer bidenom) with
        | .error e => .error e
        | .ok biquotient => .ok (if sign2 = -1 then bi_negate biquotient else biquotient)

/-- `bi_rem`. -/
def bi_rem (bia bim : bigint) : Except BiError bigint :=
  match bi_divide bia bim with
  | .error e => .error e
  | .ok q => .ok (bi_subtract bia (bi_multiply q bim))

/-- `bi_mod`. -/
def bi_mod (bia bim : bigint) : Except BiError bigint :=
  if bi_compare bim bi_0 ≤ 0 then .error .badModulus
  else
    match bi_rem bia bim with
    | .error e => .error e
    | .ok biR => .ok (if bi_is_negative biR then bi_add biR bim else biR)

/-! ## Extended Euclid, modular inverse, modular exponentiation -/

/-- The `while` loop of `bi_egcd` on `(a0, b0, c0)` and `(a1, b1, c1)`. -/
def egcdLoop : Nat → bigint → bigint → bigint → bigint → bigint → bigint →
    Except BiError (bigint × bigint × bigint)
  | 0, _, _, _, _, _, _ => .error .fuel
  | fuel + 1, a0, b0, c0, a1, b1, c1 =>
    if bi_is_zero c1 then .ok (c0, a0, b0)
    else
      match bi_divide c0 c1 with
      | .error e => .error e
      | .ok q =>
        let a1' := bi_subtract a0 (bi_multiply q a1)
        let b1' := bi_subtract b0 (bi_multiply q b1)
        let c1' := bi_subtract c0 (bi_multiply q c1)
        if bi_is_negative c1' then .error .egcdNegative
        else egcdLoop fuel a1 b1 c1 a1' b1' c1'

/-- `bi_egcd`: the result and the two multipliers `(gcd, *bim_mul, *bin_mul)`. -/
def bi_egcd (bim bin : bigint) : Except BiError (bigint × bigint × bigint) :=
  let m := if bi_is_negative bim then bi_negate bim else bim
  let n := if bi_is_negative bin then bi_negate bin else bin
  match egcdLoop (bi_radix_bits * (m.num_comps + n.num_comps) + 2) bi_1 bi_0 m bi_0 bi_1 n with
  | .error e => .error e
  | .ok (g, x, y) =>
    .ok (g, if bi_is_negative bim then bi_negate x else x,
            if bi_is_negative bin then bi_negate y else y)

/-- `bi_mod_inverse`. -/
def bi_mod_inverse (bi bim : bigint) : Except BiError bigint :=
  match bi_egcd bim bi with
  | .error e => .error e
  | .ok (gcd, _, mul1) =>
    if !bi_is_one gcd then .error .notRelativelyPrime else bi_mod mul1 bim

/-- The `for (;;)` loop of `bi_mod_power`. -/
def modPowerLoop (bim : bigint) : Nat → bigint → bigint → bigint → Except BiError bigint
  | 0, _, _, _ => .error .fuel
  | fuel + 1, bi, biexp, biR =>
    match (if bi_is_odd biexp then bi_mod (bi_multiply biR bi) bim else .ok biR) with
    | .error e => .error e
    | .ok biR1 =>
      let biexp1 := bi_half biexp
      if bi_compare biexp1 bi_0 ≤ 0 then .ok biR1
      else
        match bi_mod (bi_multiply bi bi) bim with
        | .error e => .error e
        | .ok bi1 => modPowerLoop bim fuel bi1 biexp1 biR1

/-- `bi_mod_power`. -/
def bi_mod_power (bi biexp bim : bigint) : Except BiError bigint :=
  let invert := bi_is_negative biexp
  let biexp := if invert then bi_negate biexp else biexp
  match modPowerLoop bim (bi_radix_bits * biexp.num_comps + 1) bi biexp bi_1 with
  | .error e => .error e
  | .ok biR => if invert then bi_mod_inverse biR bim else .ok biR

/-! ## Strings and the `BigInteger` wrapper (bigint.h) -/

/-- `str_to_bi`. The string is the characters up to the terminating NUL. -/
def str_to_bi (str : List Char) : bigint :=
  let neg := str.head? = some '-'
  let body := if neg then str.tail else str
  let digits := body.takeWhile (fun c => '0' ≤ c ∧ c ≤ '9')
  let biR := digits.foldl
    (fun (acc : bigint) c => bi_int_add (bi_int_multiply acc 10) ((c.toNat : Int) - ('0'.toNat : Int))) bi_0
  if neg then bi_negate biR else biR

/-- The last step of `print_pos`: `putc( bi_int_mod( bi, 10 ) + '0', f )` after the
characters `front` written by the recursive call. -/
def print_digit (front : List Char) (bi : bigint) : Except BiError (List Char) :=
  match bi_int_mod bi 10 with
  | .error e => .error e
  | .ok d => .ok (front ++ [Char.ofNat ((d + ('0'.toNat : Int)).toNat)])

/-- `print_pos`, the recursion bounded by `fuel` (every level divides by ten): the
characters written, in order. -/
def print_pos : Nat → bigint → Except BiError (List Char)
  | 0, _ => .error .fuel
  | fuel + 1, bi =>
    if bi_compare bi bi_10 ≥ 0 then
      match bi_int_divide bi 10 with
      | .error e => .error e
      | .ok q =>
        match print_pos fuel q with
        | .error e => .error e
        | .ok front => print_digit front bi
    else print_digit [] bi

/-- `bi_print`: the characters written to the file. -/
def bi_print (bi : bigint) : Except BiError (List Char) :=
  if bi_is_negative bi then
    match print_pos (bi_radix_bits * bi.num_comps + 1) (bi_negate bi) with
    | .error e => .error e
    | .ok s => .ok ('-' :: s)
  else print_pos (bi_radix_bits * bi.num_comps + 1) bi

/-- The value of a hexadecimal digit, as `BigInteger::readHex` reads it. -/
def hexDigit (c : Char) : Option Int :=
  if '0' ≤ c ∧ c ≤ '9' then some ((c.toNat : Int) - ('0'.toNat : Int))
  else if 'a' ≤ c ∧ c ≤ 'f' then some ((c.toNat : Int) - ('a'.toNat : Int) + 10)
  else if 'A' ≤ c ∧ c ≤ 'F' then some ((c.toNat : Int) - ('A'.toNat : Int) + 10)
  else none

/-- The loop of `BigInteger::readHex` on the characters still to read. -/
def readHexLoop : bigint → List Char → bigint
  | v, [] => v
  | v, c :: rest =>
    match hexDigit c with
    | some d => readHexLoop (bi_int_add (bi_int_multiply v 16) d) rest
    | none =>
      if c = ':' ∨ c = ' ' ∨ c = '\n' ∨ c = '\t' then readHexLoop v rest
      else v

/-- `BigInteger::readHex`. -/
def readHex (str : List Char) : bigint := readHexLoop (int_to_bi 0) str

/-- `BigInteger::readBinary`: `*this = (*this)*256 + data[i]` for every byte. -/
def readBinary (data : List Nat) : bigint :=
  data.foldl (fun (v : bigint) (b : Nat) => bi_int_add (bi_int_multiply v 256) (b : Int)) (int_to_bi 0)

/-- The loop of `BigInteger::writeBinary`: `data[len-1-i] = v%256; v = v/256;`.
Returns the bytes in the order they are produced (last byte of the block first). -/
def writeBinaryLoop : Nat → bigint → Except BiError (List Nat)
  | 0, _ => .ok []
  | len + 1, v =>
    match bi_int_rem v 256 with
    | .error e => .error e
    | .ok r =>
      match bi_int_divide v 256 with
      | .error e => .error e
      | .ok v1 =>
        match writeBinaryLoop len v1 with
        | .error e => .error e
        | .ok bytes => .ok ((r % 256).toNat :: bytes)

/-- `BigInteger::writeBinary`: the block of `len` big-endian bytes. -/
def writeBinary (v : bigint) (len : Nat) : Except BiError (List Nat) :=
  match writeBinaryLoop len v with
  | .error e => .error e
  | .ok bytes => .ok bytes.reverse

/-- `BigInteger::modPow`. -/
def modPow (v exp m : bigint) : Except BiError bigint := bi_mod_power v exp m

end OSL

namespace OSL

/-- Components that are digits: `0 <= x < bi_radix`. -/
def Digits (l : List Int) : Prop := ∀ x ∈ l, 0 ≤ x ∧ x < bi_radix

/-- Normal-form components: at least one, all digits, no leading zero unless the
only component. -/
def NormComps (l : List Int) : Prop :=
  l ≠ [] ∧ Digits l ∧ (1 < l.length → l.getLast? ≠ some 0)

/-- Normal form (see `normalize`): sign 1 or -1, normal-form components, and the
number zero has sign 1. -/
def bigint.NF (b : bigint) : Prop :=
  (b.sign = 1 ∨ b.sign = -1) ∧ NormComps b.comps ∧ (b.comps = [0] → b.sign = 1)

instance (l : List Int) : Decidable (Digits l) := by
  unfold Digits
  infer_instance

instance (l : List Int) : Decidable (NormComps l) := by
  unfold NormComps
  infer_instance

instance (b : bigint) : Decidable b.NF := by
  unfold bigint.NF
  infer_instance

/-- A denominator `multi_divide` hands to `multi_divide2` unchanged: its top
component is at least `bi_radix_sqrt`. -/
def Conditioned (d : bigint) : Prop := bi_radix_sqrt ≤ d.comp (d.num_comps - 1)

/-- The part of `bi_divide` after the two sign switches: `sign` is the sign of the
quotient, the operands are positive. -/
def divideTail (sign : Int) (binumer bidenom : bigint) : Except BiError bigint :=
  let c := bi_compare binumer bidenom
  if c = -1 then .ok bi_0
  else if c = 0 then .ok (if sign = 1 then bi_1 else bi_m1)
  else
    match (if bidenom.num_comps = 1 then bi_int_divide binumer (toInt32 (bidenom.comp 0))
           else multi_divide binumer bidenom) with
    | .error e => .error e
    | .ok biquotient => .ok (if sign = -1 then bi_negate biquotient else biquotient)

/-- The number a big-endian byte string stands for, continuing from `acc`. -/
def beValue (acc : Int) (data : List Nat) : Int :=
  data.foldl (fun (v : Int) (b : Nat) => v * 256 + (b : Int)) acc

/-- The number `BigInteger::readHex` reads from a string, continuing from `acc`. -/
def hexValue : Int → List Char → Int
  | v, [] => v
  | v, c :: rest =>
    match hexDigit c with
    | some d => hexValue (v * 16 + d) rest
    | none =>
      if c = ':' ∨ c = ' ' ∨ c = '\n' ∨ c = '\t' then hexValue v rest
      else v

/-- The number a string of decimal digits stands for, continuing from `acc`. -/
def decValue (acc : Int) (ds : List Char) : Int :=
  ds.foldl (fun (v : Int) (c : Char) => v * 10 + ((c.toNat : Int) - ('0'.toNat : Int))) acc

/-- A string of digits without its leading zeros (the last character stays). -/
def stripZeros : List Char → List Char
  | c :: d :: rest => if c = '0' then stripZeros (d :: rest) else c :: d :: rest
  | l => l

end OSL

/-! # Key exchange (WilhelmSCP.cpp, WilhelmSCP.h) -/

namespace WilhelmSCP

open OSL

/-- The protocol constant `G`. -/
def G : String := "add4189f9c94ff2d61f33761aba3ae1f89cb26d28a50907448e28efefcfceb10"

/-- The protocol constant `PRIME`: the 1536-bit prime of RFC 3526. -/
def PRIME : String := "FFFFFFFF FFFFFFFF C90FDAA2 2168C234 C4C6628B 80DC1CD1 29024E08 8A67CC74 020BBEA6 3B139B22 514A0879 8E3404DD EF9519B3 CD3A431B 302B0A6D F25F1437 4FE1356D 6D51C245 E485B576 625E7EC6 F44C42E9 A637ED6B 0BFF5CB6 F406B7ED EE386BFB 5A899FA5 AE9F2411 7C4B1FE6 49286651 ECE45B3D C2007CB8 A163BF05 98DA4836 1C55D39A 69163FA8 FD24CF5F 83655D23 DCA3AD96 1C62F356 208552BB 9ED52907 7096966D 670C354E 4ABC9804 F1746C08 CA237327 FFFFFFFF FFFFFFFF"

/-- `randIntGenerator`: the `BLOCK_BYTES` bytes `raw` read from the random device,
read as a big-endian number. -/
def randIntGenerator (raw : List Nat) : bigint := readBinary (raw.take BLOCK_BYTES)

/-- What both `exchangeKeyServer` and `exchangeKeyClient` compute from the private
exponent and the peer's public value: the own public value as `PRIME_BYTES`
big-endian bytes (`tempA`, `tempB`) and the shared secret as `PRIME_BYTES` bytes
(`sharedSecret`). -/
def exchangeValues (priv : bigint) (peerBytes : List Nat) :
    Except BiError (List Nat × List Nat) :=
  let p := readHex PRIME.toList
  let g := readHex G.toList
  match modPow g priv p with
  | .error e => .error e
  | .ok pub =>
    let peer := readBinary (peerBytes.take PRIME_BYTES)
    match writeBinary pub PRIME_BYTES with
    | .error e => .error e
    | .ok pubBytes =>
      match modPow peer priv p with
      | .error e => .error e
      | .ok secret =>
        match writeBinary secret PRIME_BYTES with
        | .error e => .error e
        | .ok sharedSecret => .ok (pubBytes, sharedSecret)

/-- The session key derivation of both sides: `hash.add(&sharedSecret[0],BLOCK_BYTES)`,
then the digest is copied into `_baseKey`. -/
def deriveKey (H : List Nat → List Nat) (sharedSecret : List Nat) : Block :=
  Block.ofBytes (H (sharedSecret.take BLOCK_BYTES))

/-- `exchangeKeyServer`: `raw` is the read of the random device, `tempB` the
`PRIME_BYTES` bytes received from the client. Returns the bytes sent to the client
and `_baseKey`. -/
def exchangeKeyServer (H : List Nat → List Nat) (raw tempB : List Nat) :
    Except BiError (List Nat × Block) :=
  match exchangeValues (randIntGenerator raw) tempB with
  | .error e => .error e
  | .ok (tempA, sharedSecret) => .ok (tempA, deriveKey H sharedSecret)

/-- `exchangeKeyClient`: `raw` is the read of the random device, `tempA` the
`PRIME_BYTES` bytes received from the server. Returns the bytes sent to the server
(they are sent before `tempA` is received and do not depend on it) and `_baseKey`. -/
def exchangeKeyClient (H : List Nat → List Nat) (raw tempA : List Nat) :
    Except BiError (List Nat × Block) :=
  match exchangeValues (randIntGenerator raw) tempA with
  | .error e => .error e
  | .ok (tempB, sharedSecret) => .ok (tempB, deriveKey H sharedSecret)

/-- The private exponent 1 as the `BLOCK_BYTES` bytes read from the random
device, for closed examples. -/
def rawOne : List Nat := List.replicate 31 0 ++ [1]

/-- The number `v < 256` as `PRIME_BYTES` big-endian bytes, for closed examples. -/
def peerSmall (v : Nat) : List Nat := List.replicate 191 0 ++ [v]

end WilhelmSCP

namespace OSL

/-! ## Doubling, greatest common divisor, Jacobi symbol, random numbers, primality -/

/-- The loop of `bi_double`, which runs from the top component down:
`comps[c] <<= 1; if (comps[c] >= bi_radix) { if (c + 1 >= num_comps) more_comps(..);
comps[c] -= bi_radix; comps[c + 1] += 1; }`. The components above `x` are doubled
before `x` is, and then receive the carry of `x`. -/
def doubleLoop : List Int → List Int
  | [] => []
  | x :: rest =>
    let rest1 := doubleLoop rest
    let x1 := wrap64 (x * 2)
    if x1 ≥ bi_radix then
      csub x1 bi_radix :: addToFirst (if rest1 = [] then more_comps rest1 1 else rest1) 1
    else x1 :: rest1

/-- `bi_double`. -/
def bi_double (bi : bigint) : bigint := ⟨bi.sign, doubleLoop bi.comps⟩

/-- The `while` loop of `bi_gcd`: `bit = bi_mod(bim, bin); bim = bin; bin = bit;`. -/
def gcdLoop : Nat → bigint → bigint → Except BiError bigint
  | 0, _, _ => .error .fuel
  | fuel + 1, bim, bin =>
    if bi_is_zero bin then .ok bim
    else
      match bi_mod bim bin with
      | .error e => .error e
      | .ok bit => gcdLoop fuel bin bit

/-- `bi_gcd`. Every pass but the first makes the product of the two numbers at
most half of what it was, which bounds the number of passes. -/
def bi_gcd (bim bin : bigint) : Except BiError bigint :=
  gcdLoop (bi_radix_bits * ((bi_abs bim).num_comps + (bi_abs bin).num_comps) + 2)
    (bi_abs bim) (bi_abs bin)

/-- The case `bia == 2` of `bi_jacobi`: the `switch` on `bi_int_mod( bib, 8 )`
returns for 1, 7, 3 and 5 and falls through otherwise. -/
def jacobiTwo (bia bib : bigint) : Except BiError (Option bigint) :=
  if bi_compare bia bi_2 = 0 then
    match bi_int_mod bib 8 with
    | .error e => .error e
    | .ok r =>
      if r = 1 ∨ r = 7 then .ok (some bi_1)
      else if r = 3 ∨ r = 5 then .ok (some bi_m1)
      else .ok none
  else .ok none

/-- `bi_jacobi`, the depth of its recursion bounded by `fuel`. -/
def bi_jacobi_aux : Nat → bigint → bigint → Except BiError bigint
  | 0, _, _ => .error .fuel
  | fuel + 1, bia, bib =>
    if bi_is_even bib then .error .jacobiEven
    else if bi_compare bia bib ≥ 0 then
      match bi_mod bia bib with
      | .error e => .error e
      | .ok r => bi_jacobi_aux fuel r bib
    else if bi_is_zero bia ∨ bi_is_one bia then .ok bia
    else
      match jacobiTwo bia bib with
      | .error e => .error e
      | .ok (some r) => .ok r
      | .ok none =>
        if bi_is_even bia then
          match bi_jacobi_aux fuel bi_2 bib with
          | .error e => .error e
          | .ok j2 =>
            match bi_jacobi_aux fuel (bi_half bia) bib with
            | .error e => .error e
            | .ok jh => .ok (bi_multiply j2 jh)
        else
          match bi_int_mod bia 4 with
          | .error e => .error e
          | .ok ra =>
            match (if ra = 3 then bi_int_mod bib 4 else .ok 0) with
            | .error e => .error e
            | .ok rb =>
              match bi_jacobi_aux fuel bib bia with
              | .error e => .error e
              | .ok j => .ok (if ra = 3 ∧ rb = 3 then bi_negate j else j)

/-- `bi_jacobi`. Two levels of the recursion make the product of the operands at
most half of what it was, which bounds the depth. -/
def bi_jacobi (bia bib : bigint) : Except BiError bigint :=
  bi_jacobi_aux (2 * (bi_radix_bits * (bia.num_comps + bib.num_comps)) + 3) bia bib

/-- `bi_random`: the components of `bi * bi` are overwritten with the values
`rnd 0`, `rnd 1`, ... that `random()` returns, the number is normalized and
reduced modulo `bi`. -/
def bi_random (rnd : Nat → Int) (bi : bigint) : Except BiError bigint :=
  let biR := bi_multiply bi bi
  bi_mod (normalize ⟨biR.sign, (List.range biR.num_comps).map rnd⟩) bi

/-- The trial division loop of `bi_is_probable_prime` over the table of small
primes: `some 1` or `some 0` when it returns, `none` when the table is used up. -/
def trialDivision (bi : bigint) : List Int → Except BiError (Option Int)
  | [] => .ok none
  | p :: rest =>
    let c := bi_compare (int_to_bi p) bi
    if c = 0 then .ok (some 1)
    else if c = 1 then .ok (some 0)
    else
      match bi_int_mod bi p with
      | .error e => .error e
      | .ok r => if r = 0 then .ok (some 0) else trialDivision bi rest

/-- The probabilistic rounds of `bi_is_probable_prime`: `count` rounds are left,
`i` is the round, `pos` the number of values `random()` has returned so far. -/
def primeRounds (rnd : Nat → Int) (bi bim1 : bigint) (certainty : Int) :
    Nat → Nat → Nat → Except BiError Int
  | 0, _, _ => .ok 1
  | count + 1, i, pos =>
    match bi_random (fun c => rnd (pos + c)) bi with
    | .error e => .error e
    | .ok a =>
      let pos1 := pos + (bi_multiply bi bi).num_comps
      if i < 2 ∧ certainty ≥ 5 then
        match bi_mod_power a bim1 bi with
        | .error e => .error e
        | .ok r =>
          if !bi_is_one r then .ok 0
          else primeRounds rnd bi bim1 certainty count (i + 1) pos1
      else
        match bi_gcd bi a with
        | .error e => .error e
        | .ok g =>
          if !bi_is_one g then .ok 0
          else
            match bi_mod_power a (bi_half bim1) bi with
            | .error e => .error e
            | .ok j0 =>
              let j := if bi_compare j0 bim1 = 0 then bi_m1 else j0
              match bi_jacobi a bi with
              | .error e => .error e
              | .ok jac =>
                if bi_compare j jac ≠ 0 then .ok 0
                else primeRounds rnd bi bim1 certainty count (i + 1) pos1

/-- `bi_is_probable_prime`. The table `low_primes` of `low_primes.h` is a
parameter; `rnd` lists the values `random()` returns. -/
def bi_is_probable_prime (low_primes : List Int) (rnd : Nat → Int) (bi : bigint)
    (certainty : Int) : Except BiError Int :=
  match trialDivision bi low_primes with
  | .error e => .error e
  | .ok (some r) => .ok r
  | .ok none => primeRounds rnd bi (bi_int_subtract bi 1) certainty certainty.toNat 0 0

/-- What `bi_jacobi` returns: one, minus one, zero, or the zero with sign -1 that
`bi_negate` makes of a zero. -/
def JacobiResult (r : bigint) : Prop :=
  r = bi_1 ∨ r = bi_m1 ∨ r = bi_0 ∨ r = bi_negate bi_0

instance (r : bigint) : Decidable (JacobiResult r) := by
  unfold JacobiResult
  infer_instance

/-- The primes up to 97 in ascending order: the start of every table of small
primes that the statement about the numbers 2 to 100 speaks of. -/
def primesTo97 : List Int :=
  [2, 3, 5, 7, 11, 13, 17, 19, 23, 29, 31, 37, 41, 43, 47, 53, 59, 61, 67, 71, 73, 79, 83,
    89, 97]

end OSL

namespace WilhelmSCP

/-! ## Reading a half-block as one number -/

/-- The 128-bit value of a half-block: the first lane holds the low 64 bits. -/
def LRSide.value (x : LRSide) : Nat := x.l0 + 2 ^ 64 * x.l1

/-- The circular right rotation of a 128-bit value `x` by `n` bits (`n` at most 128):
the low `n` bits move to the top. -/
def specRotr128 (x n : Nat) : Nat := x / 2 ^ n + (x % 2 ^ n) * 2 ^ (128 - n)

/-- A session in the middle of a transfer, holding a cluster of 128 sample blocks
(for closed examples). -/
def sampleCluster : Session :=
  { _indexToStream := 4096, _blockNum := 0, _clusterNum := 0, _inputSize := 8192
    _baseKey := sampleKey, _lastBlockPrevCluster := Block.zero
    _currentBlockSet := List.replicate 128 sampleKey }

/-- A session at the last cluster of a 40-byte file, holding its two blocks (for
closed examples). -/
def sampleLast : Session :=
  { _indexToStream := 40, _blockNum := 0, _clusterNum := 0, _inputSize := 40
    _baseKey := sampleKey, _lastBlockPrevCluster := Block.zero
    _currentBlockSet := [sampleKey, Block.zero] }

/-- The receiving session at the last read of the stream of a 40-byte file (length
field 64), before the blocks are stored (for closed examples). -/
def sampleLastRecv : Session :=
  { _indexToStream := 128, _blockNum := 0, _clusterNum := 0, _inputSize := 128
    _baseKey := sampleKey, _lastBlockPrevCluster := Block.zero
    _currentBlockSet := [] }

end WilhelmSCP

namespace OSL

/-! ## Powers and prime generation -/

/-- The `for (;;)` loop of `bi_power`. Every pass halves the exponent, which bounds
the number of passes. -/
def powerLoop : Nat → bigint → bigint → bigint → Except BiError bigint
  | 0, _, _, _ => .error .fuel
  | fuel + 1, bi, biexp, biR =>
    let biR1 := if bi_is_odd biexp then bi_multiply biR bi else biR
    let biexp1 := bi_half biexp
    if bi_compare biexp1 bi_0 ≤ 0 then .ok biR1
    else powerLoop fuel (bi_multiply bi bi) biexp1 biR1

/-- `bi_power`. -/
def bi_power (bi biexp : bigint) : Except BiError bigint :=
  if bi_is_negative biexp then .error .negativeExponent
  else powerLoop (bi_radix_bits * biexp.num_comps + 1) bi biexp bi_1

/-- The `switch` of `bi_generate_prime` on `bi_int_mod( bip, 6 )`: the candidate and
the first step `inc`. Outside the six cases the two stay as they are. -/
def snapCandidate (bip : bigint) (inc : Int) : Except BiError (bigint × Int) :=
  match bi_int_mod bip 6 with
  | .error e => .error e
  | .ok r =>
    if r = 0 then .ok (bi_int_add bip 1, 4)
    else if r = 1 then .ok (bip, 4)
    else if r = 2 then .ok (bi_int_add bip 3, 2)
    else if r = 3 then .ok (bi_int_add bip 2, 2)
    else if r = 4 then .ok (bi_int_add bip 1, 2)
    else if r = 5 then .ok (bip, 2)
    else .ok (bip, inc)

/-- The step at the end of the body of the inner loop of `bi_generate_prime`:
`bip = bi_int_add( bip, inc ); inc = 6 - inc;`. -/
def probeStep (s : bigint × Int) : bigint × Int :=
  (bi_int_add s.1 s.2, toInt32 (6 - s.2))

/-- The loop `for ( i = 0; i < 1000; ++i )` of `bi_generate_prime` with `count`
passes left: the candidate that `bi_is_probable_prime` accepts, if there is one, and
the candidate and step the loop ends with. `rnd k` lists the values `random()`
returns during the `k`-th use of the generator (a call of `bi_random` by
`bi_generate_prime`, or a call of `bi_is_probable_prime`). -/
def probeLoop (low_primes : List Int) (rnd : Nat → Nat → Int) (certainty : Int) :
    Nat → Nat → bigint × Int → Except BiError (Option bigint × bigint × Int)
  | 0, _, s => .ok (none, s)
  | count + 1, call, s =>
    match bi_is_probable_prime low_primes (rnd call) s.1 certainty with
    | .error e => .error e
    | .ok r =>
      if r ≠ 0 then .ok (some s.1, s)
      else probeLoop low_primes rnd certainty count (call + 1) (probeStep s)

/-- The outer `for (;;)` loop of `bi_generate_prime`. The loop has no bound of its
own; `passes` is the number of starting points after which the embedding gives up. -/
def generateLoop (low_primes : List Int) (rnd : Nat → Nat → Int) (certainty : Int)
    (bimo2 : bigint) : Nat → Nat → Int → Except BiError bigint
  | 0, _, _ => .error .fuel
  | passes + 1, call, inc =>
    match bi_random (rnd call) bimo2 with
    | .error e => .error e
    | .ok r =>
      match snapCandidate (bi_add r bimo2) inc with
      | .error e => .error e
      | .ok s =>
        match probeLoop low_primes rnd certainty 1000 (call + 1) s with
        | .error e => .error e
        | .ok (some p, _) => .ok p
        | .ok (none, _, inc2) => generateLoop low_primes rnd certainty bimo2 passes (call + 1001) inc2

/-- `bi_generate_prime`. -/
def bi_generate_prime (low_primes : List Int) (rnd : Nat → Nat → Int) (passes : Nat)
    (bits certainty : Int) : Except BiError bigint :=
  match bi_power bi_2 (int_to_bi (toInt32 (bits - 1))) with
  | .error e => .error e
  | .ok bimo2 => generateLoop low_primes rnd certainty bimo2 passes 0 0

end OSL

namespace WilhelmSCP

/-! ## Block cipher core -/

theorem lrside_xor_xor_cancel (a b : LRSide) : (a.xor b).xor b = a := by
  cases a; cases b
  simp [LRSide.xor, Nat.xor_assoc]

theorem block_xor_xor_cancel (a b : Block) : (a.xor b).xor b = a := by
  cases a; cases b
  simp [Block.xor, lrside_xor_xor_cancel]

theorem roundDec_roundEnc (key : Block) (c b r : Nat) (x : Block) :
    roundDec key c b r (roundEnc key c b r x) = x := by
  cases x
  simp [roundDec, roundEnc, lrside_xor_xor_cancel]

theorem undoRounds_encRounds (key : Block) (c b : Nat) (n r : Nat) (x : Block) :
    undoRounds key c b n r (encRounds key c b n r x) = x := by
  induction n generalizing r x with
  | zero => rfl
  | succ n ih => simp [undoRounds, encRounds, ih, roundDec_roundEnc]

theorem undoRounds_succ (key : Block) (c b : Nat) (n r : Nat) (x : Block) :
    undoRounds key c b (n + 1) r x
      = undoRounds key c b n r (roundDec key c b (r + n) x) := by
  induction n generalizing r x with
  | zero => simp [undoRounds]
  | succ n ih =>
    rw [undoRounds, ih (r + 1) x]
    simp [undoRounds, Nat.add_assoc, Nat.add_comm 1 n]

theorem decRounds_eq_undo (key : Block) (c b : Nat) (n : Nat) (x : Block) :
    decRounds key c b n x = undoRounds key c b n 1 x := by
  induction n generalizing x with
  | zero => rfl
  | succ n ih =>
    rw [decRounds, ih, undoRounds_succ, Nat.add_comm 1 n]

theorem blockDec_eq_undo (key : Block) (c b : Nat) (x : Block) :
    blockDec key c b x = undoRounds key c b FEISTEL_ROUNDS 0 x := by
  simp [blockDec, decRounds_eq_undo, FEISTEL_ROUNDS, undoRounds]

/-- C2. Block cipher inversion: for every block `B`, every session key and every
cluster index and block index, `blockDec` (rounds 15 down to 0, update order R then L)
applied to `blockEnc B` (rounds 0 up to 15, update order L then R) returns `B`. -/
theorem blockDec_blockEnc (key : Block) (clusterNum blockNum : Nat) (B : Block) :
    blockDec key clusterNum blockNum (blockEnc key clusterNum blockNum B) = B := by
  rw [blockDec_eq_undo, blockEnc, undoRounds_encRounds]

end WilhelmSCP

namespace WilhelmSCP

/-! ## Streaming engine: the length field -/

theorem roundedUpInputSize_spec (L : Nat) (hL : L < 2 ^ 63) :
    roundedUpInputSize L % 32 = 0 ∧ L ≤ roundedUpInputSize L ∧
      roundedUpInputSize L < L + 32 := by
  unfold roundedUpInputSize BLOCK_BYTES W64
  have h : L - L % 32 + 32 < 2 ^ 64 := by omega
  split
  · rw [Nat.mod_eq_of_lt h]
    omega
  · omega

theorem encryptCluster_sent_prefix {H : List Nat → List Nat} {padRaw : List Nat}
    {s1 : Session} {hashes : List Block} {sent : List Nat}
    {r : List Nat × Except Failure (Session × List Block)}
    (h : encryptCluster H padRaw s1 hashes sent = r) : ∃ more, r.1 = sent ++ more := by
  subst h
  unfold encryptCluster
  dsimp only
  repeat' split
  all_goals first
    | exact ⟨_, rfl⟩
    | exact ⟨[], (List.append_nil _).symm⟩

theorem encryptLoop_sent_prefix (H : List Nat → List Nat) (padRaw file : List Nat)
    (fuel : Nat) (s : Session) (hashes : List Block) (sent : List Nat) :
    ∃ more, (encryptLoop H padRaw file fuel s hashes sent).1 = sent ++ more := by
  induction fuel generalizing s hashes sent with
  | zero => exact ⟨[], by simp [encryptLoop]⟩
  | succ fuel ih =>
    unfold encryptLoop
    dsimp only
    repeat' split
    all_goals first
      | exact ⟨[], (List.append_nil _).symm⟩
      | exact encryptCluster_sent_prefix (by assumption)
      | (rename_i heq
         obtain ⟨m1, hm1⟩ := encryptCluster_sent_prefix heq
         obtain ⟨m2, hm2⟩ := ih _ _ _
         exact ⟨m1 ++ m2, by rw [hm2]; simp only at hm1; rw [hm1, List.append_assoc]⟩)

theorem leBytes_length (n x : Nat) : (leBytes n x).length = n := by
  induction n generalizing x with
  | zero => rfl
  | succ n ih => simp [leBytes, ih]

/-- C4. The 8-byte length field: for every input file (of a size `L` that a file
can have, `L < 2^63`), whatever the key, file name and random data, the first eight
bytes `encrypt` sends are the native encoding of the smallest multiple of 32 that is
greater than or equal to `L` (`L` itself when `L` is a multiple of 32). -/
theorem encrypt_length_field (H : List Nat → List Nat) (ivRaw padRaw : List Nat)
    (key : Block) (fileName file : List Nat)
    (hkey : key ≠ Block.zero) (hL : file.length < 2 ^ 63) :
    ∃ R, (encrypt H ivRaw padRaw key fileName (some file)).sent.take 8 = leBytes 8 R ∧
      R < 2 ^ 64 ∧ 32 ∣ R ∧ file.length ≤ R ∧
      (∀ m, 32 ∣ m → file.length ≤ m → R ≤ m) ∧
      (32 ∣ file.length → R = file.length) := by
  obtain ⟨h1, h2, h3⟩ := roundedUpInputSize_spec file.length hL
  refine ⟨roundedUpInputSize file.length, ?_, by omega, Nat.dvd_of_mod_eq_zero h1, h2, ?_, ?_⟩
  · have key8 : ∀ rest : List Nat,
        (leBytes 8 (roundedUpInputSize file.length) ++ rest).take 8
          = leBytes 8 (roundedUpInputSize file.length) := by
      intro rest
      rw [List.take_append_of_le_length (by rw [leBytes_length])]
      exact List.take_of_length_le (by rw [leBytes_length])
    unfold encrypt
    simp only [hkey, if_false]
    split
    · simp only [List.append_assoc]; exact key8 _
    · obtain ⟨more, hmore⟩ := encryptLoop_sent_prefix H padRaw file
        (file.length / CLUSTER_BYTES + 1)
        { _indexToStream := 0, _blockNum := 0, _clusterNum := 0, _inputSize := file.length
          _baseKey := key, _lastBlockPrevCluster := IVGenerator H ivRaw
          _currentBlockSet := [] } []
        (leBytes 8 (roundedUpInputSize file.length) ++ leBytes 4 (fileName.length % 2 ^ 32)
          ++ fileName.take (fileName.length % 2 ^ 32) ++ (IVGenerator H ivRaw).toBytes)
      split
      · rename_i sent5 e heq
        rw [heq] at hmore
        simp only at hmore
        rw [hmore]
        simp only [List.append_assoc]; exact key8 _
      · rename_i sent5 hs heq
        rw [heq] at hmore
        simp only at hmore
        rw [hmore]
        simp only [List.append_assoc]; exact key8 _
  · intro m hm hle
    obtain ⟨k, rfl⟩ := hm
    omega
  · intro hdiv
    obtain ⟨k, hk⟩ := hdiv
    omega

/-- The length field of a three-byte file is 32. -/
theorem encrypt_length_field_witness :
    sampleKey ≠ Block.zero ∧ [1, 2, 3].length < 2 ^ 63 ∧
    ∃ R, (encrypt sampleHash [] [] sampleKey [] (some [1, 2, 3])).sent.take 8 = leBytes 8 R ∧
      R < 2 ^ 64 ∧ 32 ∣ R ∧ [1, 2, 3].length ≤ R ∧
      (∀ m, 32 ∣ m → [1, 2, 3].length ≤ m → R ≤ m) ∧
      (32 ∣ [1, 2, 3].length → R = [1, 2, 3].length) :=
  ⟨by decide, by decide,
    encrypt_length_field sampleHash [] [] sampleKey [] [1, 2, 3] (by decide) (by decide)⟩

end WilhelmSCP

namespace WilhelmSCP

/-! ## Bytes and lanes -/

theorem laneBytes_length (w : Nat) : (laneBytes w).length = 8 := by simp [laneBytes]

theorem laneBytes_lt (w : Nat) : ∀ b ∈ laneBytes w, b < 256 := by
  intro b hb
  simp only [laneBytes, List.mem_map] at hb
  obtain ⟨k, _, rfl⟩ := hb
  exact Nat.mod_lt _ (by norm_num)

theorem laneOfBytes_laneBytes (w : Nat) (hw : w < W64) : laneOfBytes (laneBytes w) = w := by
  unfold W64 at hw
  simp only [laneBytes, laneByte, List.range, List.range.loop, List.map, laneOfBytes]
  norm_num
  omega

theorem laneBytes_laneOfBytes (l : List Nat) (hl : l.length = 8) (hb : ∀ b ∈ l, b < 256) :
    laneBytes (laneOfBytes l) = l := by
  match l, hl with
  | [a, b, c, d, e, f, g, h], _ =>
    simp only [List.mem_cons, List.mem_singleton, forall_eq_or_imp, forall_eq, List.not_mem_nil,
      false_implies, implies_true, and_true] at hb
    obtain ⟨ha, hb', hc, hd, he, hf, hg, hh⟩ := hb
    simp only [laneBytes, laneByte, List.range, List.range.loop, List.map, laneOfBytes]
    norm_num
    refine ⟨?_, ?_, ?_, ?_, ?_, ?_, ?_, ?_⟩ <;> omega

theorem laneOfBytes_lt_pow (l : List Nat) : laneOfBytes l < 256 ^ l.length := by
  induction l with
  | nil => simp [laneOfBytes]
  | cons a l ih =>
    simp only [laneOfBytes, List.length_cons, pow_succ]
    have := Nat.mod_lt a (show 0 < 256 by norm_num)
    omega

theorem laneOfBytes_lt (l : List Nat) (hl : l.length ≤ 8) : laneOfBytes l < W64 :=
  calc laneOfBytes l < 256 ^ l.length := laneOfBytes_lt_pow l
    _ ≤ 256 ^ 8 := Nat.pow_le_pow_right (by norm_num) hl
    _ = W64 := by norm_num [W64]

theorem block_ofBytes_append4 (a b c d : List Nat) (ha : a.length = 8) (hb : b.length = 8)
    (hc : c.length = 8) (hd : d.length = 8) :
    Block.ofBytes (a ++ b ++ c ++ d)
      = ⟨⟨laneOfBytes a, laneOfBytes b⟩, ⟨laneOfBytes c, laneOfBytes d⟩⟩ := by
  have e1 : (a ++ b ++ c ++ d).take 8 = a := by
    rw [List.append_assoc, List.append_assoc, List.take_append_of_le_length (by omega)]
    exact List.take_of_length_le (by omega)
  have e2 : ((a ++ b ++ c ++ d).drop 8) = b ++ c ++ d := by
    rw [List.append_assoc, List.append_assoc, List.drop_append_of_le_length (by omega)]
    rw [List.drop_of_length_le (by omega)]
    simp
  have e3 : ((a ++ b ++ c ++ d).drop 16) = c ++ d := by
    have : (16 : Nat) = 8 + 8 := rfl
    rw [this, ← List.drop_drop, e2, List.append_assoc,
      List.drop_append_of_le_length (by omega), List.drop_of_length_le (by omega)]
    simp
  have e4 : ((a ++ b ++ c ++ d).drop 24) = d := by
    have : (24 : Nat) = 16 + 8 := rfl
    rw [this, ← List.drop_drop, e3,
      List.drop_append_of_le_length (by omega), List.drop_of_length_le (by omega)]
    simp
  unfold Block.ofBytes
  rw [e1, e2, e3, e4]
  congr 2
  · rw [List.append_assoc, List.take_append_of_le_length (by omega)]
    rw [List.take_of_length_le (by omega)]
  · rw [List.take_append_of_le_length (by omega), List.take_of_length_le (by omega)]
  · rw [List.take_of_length_le (by omega)]

theorem block_toBytes_length (b : Block) : b.toBytes.length = 32 := by
  simp [Block.toBytes, laneBytes_length]

theorem block_toBytes_lt (b : Block) : ∀ x ∈ b.toBytes, x < 256 := by
  intro x hx
  simp only [Block.toBytes, List.mem_append] at hx
  rcases hx with ((hx | hx) | hx) | hx <;> exact laneBytes_lt _ x hx

theorem block_ofBytes_toBytes (b : Block) (hb : b.valid) : Block.ofBytes b.toBytes = b := by
  obtain ⟨⟨l0, l1⟩, ⟨r0, r1⟩⟩ := b
  obtain ⟨h0, h1, h2, h3⟩ := hb
  unfold Block.toBytes
  rw [block_ofBytes_append4 _ _ _ _ (laneBytes_length _) (laneBytes_length _)
    (laneBytes_length _) (laneBytes_length _)]
  simp only at h0 h1 h2 h3 ⊢
  rw [laneOfBytes_laneBytes _ h0, laneOfBytes_laneBytes _ h1, laneOfBytes_laneBytes _ h2,
    laneOfBytes_laneBytes _ h3]

theorem block_ofBytes_valid (bs : List Nat) : (Block.ofBytes bs).valid := by
  unfold Block.ofBytes Block.valid
  refine ⟨?_, ?_, ?_, ?_⟩ <;> exact laneOfBytes_lt _ (by simp [List.length_take])

theorem block_toBytes_ofBytes (bs : List Nat) (hl : bs.length = 32) (hb : ∀ x ∈ bs, x < 256) :
    (Block.ofBytes bs).toBytes = bs := by
  unfold Block.ofBytes Block.toBytes
  simp only
  rw [laneBytes_laneOfBytes _ (by simp [List.length_take]; omega)
      (fun x hx => hb x (List.mem_of_mem_take hx)),
    laneBytes_laneOfBytes _ (by simp [List.length_take]; omega)
      (fun x hx => hb x (List.mem_of_mem_drop (List.mem_of_mem_take hx))),
    laneBytes_laneOfBytes _ (by simp [List.length_take]; omega)
      (fun x hx => hb x (List.mem_of_mem_drop (List.mem_of_mem_take hx))),
    laneBytes_laneOfBytes _ (by simp [List.length_take]; omega)
      (fun x hx => hb x (List.mem_of_mem_drop (List.mem_of_mem_take hx)))]
  have e1 : bs.drop 8 = (bs.drop 8).take 8 ++ bs.drop 16 := by
    rw [show bs.drop 16 = (bs.drop 8).drop 8 by rw [List.drop_drop]]
    exact (List.take_append_drop 8 _).symm
  have e2 : bs.drop 16 = (bs.drop 16).take 8 ++ bs.drop 24 := by
    rw [show bs.drop 24 = (bs.drop 16).drop 8 by rw [List.drop_drop]]
    exact (List.take_append_drop 8 _).symm
  have e3 : (bs.drop 24).take 8 = bs.drop 24 := List.take_of_length_le (by simp; omega)
  rw [e3, List.append_assoc, List.append_assoc, ← e2, ← e1, List.take_append_drop]

theorem block_data_setData (b : Block) (i v : Nat) (hi : i < 32) :
    (b.setData i v).data i = v % 256 := by
  unfold Block.setData Block.data
  rw [block_toBytes_ofBytes]
  · rw [List.getD_eq_getElem?_getD, List.getElem?_set]
    simp [block_toBytes_length, hi]
  · simp [block_toBytes_length]
  · intro x hx
    rcases List.mem_or_eq_of_mem_set hx with h | h
    · exact block_toBytes_lt _ x h
    · rw [h]; exact Nat.mod_lt _ (by norm_num)

end WilhelmSCP

namespace WilhelmSCP

/-! ## Streaming engine: the result of `decrypt` -/

theorem sub64_eq (a b : Nat) (hb : b ≤ a) (ha : a < W64) : sub64 a b = a - b := by
  unfold sub64
  have hb' : b < W64 := by omega
  rw [Nat.mod_eq_of_lt hb']
  have : a + W64 - b = (a - b) + W64 := by omega
  rw [this, Nat.add_mod_right, Nat.mod_eq_of_lt (by omega)]

theorem storeBytes_length (n : Nat) (bs : List Nat) : (storeBytes n bs).length = n := by
  simp [storeBytes]

theorem decCBCLoop_ok (key : Block) (c rel : Nat) (enc : List Block) (n : Nat) :
    ∀ (cur und bn : Nat) (set set1 : List Block) (cur1 und1 bn1 : Nat),
      decCBCLoop key c rel enc n cur und bn set = .ok (set1, cur1, und1, bn1) →
      cur1 = rel ∧ cur ≤ rel ∧ set1.length = set.length ∧
        (∀ i, rel ≤ i → set1[i]? = set[i]?) ∧
        und1 = und + (rel - cur) ∧ bn1 = bn + (rel - cur) := by
  induction n with
  | zero =>
    intro cur und bn set set1 cur1 und1 bn1 h
    unfold decCBCLoop at h
    split at h
    · rename_i hc
      simp only [Except.ok.injEq, Prod.mk.injEq] at h
      obtain ⟨rfl, rfl, rfl, rfl⟩ := h
      subst hc
      simp
    · simp at h
  | succ n ih =>
    intro cur und bn set set1 cur1 und1 bn1 h
    unfold decCBCLoop at h
    split at h
    · rename_i hc
      simp only [Except.ok.injEq, Prod.mk.injEq] at h
      obtain ⟨rfl, rfl, rfl, rfl⟩ := h
      subst hc
      simp
    · rename_i hc
      simp only at h
      split at h
      · obtain ⟨h1, h2, h3, h4, h5, h6⟩ := ih _ _ _ _ _ _ _ _ h
        refine ⟨h1, by omega, by simpa using h3, ?_, by omega, by omega⟩
        intro i hi
        rw [h4 i hi, List.getElem?_set]
        have : cur ≠ i := by omega
        simp [this]
      · simp at h

theorem decCBC_nil (H : List Nat → List Nat) (s : Session) (h : s._currentBlockSet = []) :
    decCBC H s = .error .memory := by
  unfold decCBC
  simp [h]

theorem decCBC_nonfinal (H : List Nat → List Nat) (s s2 : Session) (o : Block)
    (hnf : ¬ s._inputSize ≤ s._indexToStream) (h : decCBC H s = .ok (s2, o)) :
    s2._inputSize = s._inputSize ∧ s2._indexToStream = s._indexToStream ∧ o = Block.zero ∧
      s2._currentBlockSet.length = s._currentBlockSet.length := by
  unfold decCBC at h
  have h1 : decInputSize1 s = s._inputSize := by simp [decInputSize1, hnf]
  simp only [h1] at h
  split at h
  · simp at h
  · split at h
    · simp at h
    · rename_i set1 cur und bn hloop
      simp only [hnf, if_false] at h
      split at h
      · simp only [Except.ok.injEq, Prod.mk.injEq] at h
        obtain ⟨rfl, rfl⟩ := h
        obtain ⟨_, _, h3, _⟩ := decCBCLoop_ok _ _ _ _ _ _ _ _ _ _ _ _ _ hloop
        simp [h3]
      · simp at h

theorem decCBC_final (H : List Nat → List Nat) (s s2 : Session) (o : Block)
    (hf : s._inputSize ≤ s._indexToStream) (h32 : 32 ≤ s._inputSize) (hW : s._inputSize < W64)
    (h : decCBC H s = .ok (s2, o)) :
    1 ≤ ((s._inputSize - 32) % 4096) / 32 ∧
      s._currentBlockSet[((s._inputSize - 32) % 4096) / 32]? = some o ∧
      s2._currentBlockSet.length + 1 = s._currentBlockSet.length ∧
      s2._indexToStream = s._indexToStream := by
  unfold decCBC at h
  have hs : decInputSize1 s = s._inputSize - 32 := by
    simp only [decInputSize1, hf, if_true]
    exact sub64_eq _ _ h32 hW
  have hrel : decRelativeBlockCount s = ((s._inputSize - 32) % 4096) / 32 := by
    simp [decRelativeBlockCount, hf, hs, CLUSTER_BYTES, BLOCK_BYTES]
  have hle : s._inputSize - 32 ≤ s._indexToStream := by omega
  simp only [hs, hrel, hle, if_true] at h
  split at h
  · simp at h
  · split at h
    · simp at h
    · rename_i x0 hx0 _ set1 cur und bn hloop
      obtain ⟨h1, h2, h3, h4, h5, h6⟩ := decCBCLoop_ok _ _ _ _ _ _ _ _ _ _ _ _ _ hloop
      split at h
      · simp at h
      · split at h
        · rename_i pb tb hc hpb htb hhc
          simp only [Except.ok.injEq, Prod.mk.injEq] at h
          obtain ⟨rfl, rfl⟩ := h
          subst h1
          refine ⟨h2, ?_, ?_, rfl⟩
          · rw [← hhc, h4 _ (le_refl _), List.getElem?_set]
            have : (0 : Nat) ≠ (s._inputSize - 32) % 4096 / 32 := by omega
            simp [this]
          · have hlt : (s._inputSize - 32) % 4096 / 32 < set1.length := by
              by_contra hcon
              rw [List.getElem?_eq_none (by omega)] at hhc
              simp at hhc
            simp only [List.length_take]
            simp only [List.length_set] at h3
            omega
        · simp at h

theorem decryptCluster_none {H : List Nat → List Nat} {s1 : Session} {out out1 : DecOut}
    (h : decryptCluster H s1 out = (out1, none)) :
    ∃ e, out1.status = .error e ∧ (e = .memory ∨ decCBC H s1 = .error e) := by
  unfold decryptCluster at h
  split at h
  · rename_i e he
    simp only [Prod.mk.injEq, and_true] at h
    exact ⟨e, by rw [← h], Or.inr he⟩
  · split at h
    · simp at h
    · simp only [Prod.mk.injEq, and_true] at h
      exact ⟨_, by rw [← h], Or.inl rfl⟩

theorem decryptCluster_some {H : List Nat → List Nat} {s1 s3 : Session} {out out1 : DecOut}
    (h : decryptCluster H s1 out = (out1, some s3)) :
    ∃ s2 orig, decCBC H s1 = .ok (s2, orig) ∧
      writeSize s2 ≤ (stripPad s2).length * BLOCK_BYTES ∧
      s3._inputSize = s2._inputSize ∧ s3._indexToStream = s2._indexToStream ∧
      out1.received = out.received ++ [s1._currentBlockSet] ∧
      out1.decoded = out.decoded ++ [stripPad s2] ∧
      out1.clusterHashes = out.clusterHashes ++ [Hash_SHA256_Current_Cluster H (stripPad s2)] ∧
      out1.OrigHashChecksum = orig := by
  unfold decryptCluster at h
  split at h
  · simp at h
  · rename_i s2 orig hd
    refine ⟨s2, orig, hd, ?_⟩
    split at h
    · rename_i hn
      simp only [Prod.mk.injEq, Option.some.injEq] at h
      obtain ⟨rfl, rfl⟩ := h
      exact ⟨hn, rfl, rfl, rfl, rfl, rfl, rfl⟩
    · simp at h

theorem decryptLoop_ok (H : List Nat → List Nat) (fuel : Nat) :
    ∀ (s : Session) (stream : List Nat) (out r : DecOut) (b : Bool),
      s._indexToStream % 4096 = 0 → s._indexToStream ≤ s._inputSize → s._inputSize < W64 →
      out.clusterHashes = out.decoded.map (Hash_SHA256_Current_Cluster H) →
      decryptLoop H fuel s stream out = r → r.status = .ok b →
      r.clusterHashes = r.decoded.map (Hash_SHA256_Current_Cluster H) ∧
        (∃ fin dec, r.received.getLast? = some fin ∧ r.decoded.getLast? = some dec ∧
          fin.getLast? = some r.OrigHashChecksum ∧ dec.length + 2 = fin.length) ∧
        b = decide (r.OrigHashChecksum = Hash_SHA256_Current_Cluster H r.clusterHashes) := by
  induction fuel with
  | zero =>
    intro s stream out r b _ _ _ _ hr h
    subst hr
    simp [decryptLoop] at h
  | succ fuel ih =>
    intro s stream out r b hmod hle hW hmap hr h
    unfold decryptLoop at hr
    split at hr
    · rename_i hc
      split at hr
      · subst hr; simp at h
      · rename_i bytes rest hrecv
        dsimp only at hr
        split at hr
        · rename_i out1 hdc
          obtain ⟨e, he, _⟩ := decryptCluster_none hdc
          subst hr
          rw [he] at h; simp at h
        · rename_i out1 s3 hdc
          obtain ⟨s2, orig, hd, _, e1, e2, e3, e4, e5, e6⟩ := decryptCluster_some hdc
          obtain ⟨f1, f2, _, _⟩ := decCBC_nonfinal H _ s2 orig (by simpa using hc) hd
          simp only at f1 f2
          refine ih s3 rest out1 r b ?_ ?_ ?_ ?_ hr h
          · rw [e2, f2]; unfold CLUSTER_BYTES W64; omega
          · rw [e1, e2, f1, f2]; omega
          · rw [e1, f1]; exact hW
          · rw [e4, e5, hmap]; simp
    · rename_i hc
      have hcnt : sub64 s._inputSize s._indexToStream = s._inputSize - s._indexToStream :=
        sub64_eq _ _ hle hW
      rw [hcnt] at hr
      dsimp only at hr
      split at hr
      · subst hr; simp at h
      · rename_i bytes rest hrecv
        split at hr
        · subst hr; simp at h
        · rename_i hov
          split at hr
          · rename_i out1 hdc
            obtain ⟨e, he, _⟩ := decryptCluster_none hdc
            subst hr
            rw [he] at h; simp at h
          · rename_i out1 s3 hdc
            obtain ⟨s2, orig, hd, hws, e1, e2, e3, e4, e5, e6⟩ := decryptCluster_some hdc
            subst hr
            simp only [Except.ok.injEq] at h
            unfold BLOCK_BYTES at hov
            unfold CLUSTER_BYTES W64 at hc
            unfold W64 at hW
            by_cases h32 : s._inputSize < 32
            · have : (s._inputSize - s._indexToStream) / BLOCK_BYTES = 0 := by
                unfold BLOCK_BYTES; omega
              rw [decCBC_nil H _ (by simp [this, storeBytes])] at hd
              simp at hd
            · obtain ⟨f1, f2, f3, f4⟩ := decCBC_final H _ s2 orig (by simp) (by simpa using h32)
                (by simpa [W64] using hW) hd
              simp only [storeBytes_length] at f1 f2 f3 f4
              have hrel : (s._inputSize - 32) % 4096 / 32
                  < (s._inputSize - s._indexToStream) / BLOCK_BYTES := by
                by_contra hcon
                rw [List.getElem?_eq_none (by rw [storeBytes_length]; omega)] at f2
                simp at f2
              unfold BLOCK_BYTES at hrel f3 f2
              have hstrip : s2._inputSize ≤ s2._indexToStream := by
                by_contra hcon
                have h1 : stripPad s2 = s2._currentBlockSet := by simp [stripPad, hcon]
                have h2 : writeSize s2 = 4096 := by
                  simp only [writeSize, CLUSTER_BYTES]
                  rw [if_pos (by omega)]
                rw [h1, h2] at hws
                unfold BLOCK_BYTES at hws
                omega
              have hsp : stripPad s2 = s2._currentBlockSet.take (s2._currentBlockSet.length - 1) := by
                simp [stripPad, hstrip]
              refine ⟨by simp [e4, e5, hmap],
                ⟨storeBytes ((s._inputSize - s._indexToStream) / BLOCK_BYTES) bytes, stripPad s2,
                  by simp [e3], by simp [e4], ?_, ?_⟩, h.symm⟩
              · simp only [e6, BLOCK_BYTES]
                rw [List.getLast?_eq_getElem?, storeBytes_length, ← f2]
                congr 1
                omega
              · rw [hsp, storeBytes_length, List.length_take]
                unfold BLOCK_BYTES
                omega

end WilhelmSCP

namespace WilhelmSCP

theorem decCBCLoop_ne_fuel (key : Block) (c rel : Nat) (enc : List Block) (n : Nat) :
    ∀ (cur und bn : Nat) (set : List Block),
      decCBCLoop key c rel enc n cur und bn set ≠ .error .fuel := by
  induction n with
  | zero =>
    intro cur und bn set
    unfold decCBCLoop
    split <;> simp
  | succ n ih =>
    intro cur und bn set
    unfold decCBCLoop
    split
    · simp
    · dsimp only
      split
      · exact ih _ _ _ _
      · simp

theorem decCBC_ne_fuel (H : List Nat → List Nat) (s : Session) :
    decCBC H s ≠ .error .fuel := by
  unfold decCBC
  dsimp only
  split
  · simp
  · split
    · rename_i e he
      intro h
      simp only [Except.error.injEq] at h
      subst h
      exact decCBCLoop_ne_fuel _ _ _ _ _ _ _ _ _ he
    · repeat' split
      all_goals simp

theorem decryptLoop_ne_fuel (H : List Nat → List Nat) (fuel : Nat) :
    ∀ (s : Session) (stream : List Nat) (out : DecOut),
      stream.length < fuel * 4096 → (decryptLoop H fuel s stream out).status ≠ .error .fuel := by
  induction fuel with
  | zero => intro s stream out h; omega
  | succ fuel ih =>
    intro s stream out hlen
    unfold decryptLoop
    split
    · split
      · simp
      · rename_i bytes rest hrecv
        dsimp only
        split
        · rename_i out1 hdc
          obtain ⟨e, he, hor⟩ := decryptCluster_none hdc
          rw [he]
          rcases hor with rfl | hor
          · simp
          · intro h
            simp only [Except.error.injEq] at h
            subst h
            exact decCBC_ne_fuel _ _ hor
        · apply ih
          unfold recvN at hrecv
          split at hrecv
          · rename_i hle
            simp only [Option.some.injEq, Prod.mk.injEq] at hrecv
            obtain ⟨_, rfl⟩ := hrecv
            unfold CLUSTER_BYTES at hle ⊢
            simp only [List.length_drop]
            omega
          · simp at hrecv
    · dsimp only
      split
      · simp
      · split
        · simp
        · split
          · rename_i out1 hdc
            obtain ⟨e, he, hor⟩ := decryptCluster_none hdc
            rw [he]
            rcases hor with rfl | hor
            · simp
            · intro h
              simp only [Except.error.injEq] at h
              subst h
              exact decCBC_ne_fuel _ _ hor
          · simp

theorem decrypt_ne_fuel (H : List Nat → List Nat) (key : Block) (stream : List Nat) :
    (decrypt H key stream).status ≠ .error .fuel := by
  generalize hr : decrypt H key stream = r
  unfold decrypt at hr
  split at hr
  · subst hr; simp [DecOut.start]
  · split at hr
    · subst hr; simp [DecOut.start]
    · dsimp only at hr
      split at hr
      · subst hr; simp [DecOut.start]
      · split at hr
        · subst hr; simp [DecOut.start]
        · split at hr
          · subst hr; simp [DecOut.start]
          · subst hr
            apply decryptLoop_ne_fuel
            unfold CLUSTER_BYTES
            omega

theorem decrypt_ok (H : List Nat → List Nat) (key : Block) (stream : List Nat) (r : DecOut)
    (b : Bool) (hr : decrypt H key stream = r) (h : r.status = .ok b) :
    r.clusterHashes = r.decoded.map (Hash_SHA256_Current_Cluster H) ∧
      (∃ fin dec, r.received.getLast? = some fin ∧ r.decoded.getLast? = some dec ∧
        fin.getLast? = some r.OrigHashChecksum ∧ dec.length + 2 = fin.length) ∧
      b = decide (r.OrigHashChecksum = Hash_SHA256_Current_Cluster H r.clusterHashes) := by
  unfold decrypt at hr
  split at hr
  · subst hr; simp [DecOut.start] at h
  · split at hr
    · subst hr; simp [DecOut.start] at h
    · dsimp only at hr
      split at hr
      · subst hr; simp [DecOut.start] at h
      · split at hr
        · subst hr; simp [DecOut.start] at h
        · split at hr
          · subst hr; simp [DecOut.start] at h
          · exact decryptLoop_ok H _ _ _ _ r b (by simp) (by simp)
              (by simp only; exact Nat.mod_lt _ (by unfold W64; positivity))
              (by simp [DecOut.start]) hr h

/-- C6. The result of `decrypt`. A run never ends because the loop bound of the
embedding is used up; and whenever `decrypt` returns a value `b` (every read of the
transport was served and no access left the block vector), `b` is `true` if and only
if the hash of the ordered per-cluster hashes equals the trailer block, and `false`
otherwise, where the per-cluster hashes are the hashes of the decoded clusters, the
trailer block is the last block of the final cluster received, and the final decoded
cluster is the received one without its last two blocks (pad block and trailer). -/
theorem decrypt_result (H : List Nat → List Nat) (key : Block) (stream : List Nat) :
    (decrypt H key stream).status ≠ .error .fuel ∧
    ∀ b, (decrypt H key stream).status = .ok b →
      (decrypt H key stream).clusterHashes
        = (decrypt H key stream).decoded.map (Hash_SHA256_Current_Cluster H) ∧
      (∃ fin dec, (decrypt H key stream).received.getLast? = some fin ∧
        (decrypt H key stream).decoded.getLast? = some dec ∧
        fin.getLast? = some (decrypt H key stream).OrigHashChecksum ∧
        dec.length + 2 = fin.length) ∧
      (b = true ↔ Hash_SHA256_Current_Cluster H (decrypt H key stream).clusterHashes
          = (decrypt H key stream).OrigHashChecksum) ∧
      (b = false ↔ Hash_SHA256_Current_Cluster H (decrypt H key stream).clusterHashes
          ≠ (decrypt H key stream).OrigHashChecksum) := by
  refine ⟨decrypt_ne_fuel H key stream, fun b h => ?_⟩
  obtain ⟨h1, h2, h3⟩ := decrypt_ok H key stream _ b rfl h
  refine ⟨h1, h2, ?_, ?_⟩
  · rw [h3]; simp [eq_comm]
  · rw [h3]; simp [eq_comm]

end WilhelmSCP

namespace WilhelmSCP

/-! ## Streaming engine: lengths the engine does not carry through -/

/-- C5, at a file of exactly one cluster. For every key, file name and random data,
`encrypt` of a 4096-byte file sizes the block vector of the last cluster to
`(4096 % 4096) / 32 = 0` blocks and then reads the 4096 bytes of the file into it:
the run ends in a memory fault, and nothing but the header (length field, file name,
initialization value) has been sent. -/
theorem encrypt_one_cluster_faults (H : List Nat → List Nat) (ivRaw padRaw : List Nat)
    (key : Block) (fileName file : List Nat)
    (hkey : key ≠ Block.zero) (hname : fileName.length ≤ 4096) (hfile : file.length = 4096) :
    tempBlockNum file.length = 0 ∧
    (encrypt H ivRaw padRaw key fileName (some file)).status = .error .memory ∧
    (encrypt H ivRaw padRaw key fileName (some file)).sent
      = leBytes 8 4096 ++ leBytes 4 fileName.length ++ fileName ++ (IVGenerator H ivRaw).toBytes := by
  have hn : fileName.length % 2 ^ 32 = fileName.length := Nat.mod_eq_of_lt (by omega)
  have hn' : ¬ 4096 < fileName.length % 2 ^ 32 := by omega
  have ht : tempBlockNum file.length = 0 := by rw [hfile]; decide
  have hr : roundedUpInputSize file.length = 4096 := by rw [hfile]; decide
  have hfuel : file.length / CLUSTER_BYTES + 1 = 1 + 1 := by rw [hfile]; decide
  refine ⟨ht, ?_⟩
  have key : ∀ (s : Session) (hashes : List Block) (sent : List Nat),
      s._indexToStream = 0 → s._inputSize = file.length →
      encryptLoop H padRaw file (1 + 1) s hashes sent = (sent, .error .memory) := by
    intro s hashes sent h0 hL
    unfold encryptLoop
    have hc : ¬ (s._indexToStream + CLUSTER_BYTES) % W64 < s._inputSize := by
      rw [h0, hL, hfile]; decide
    have hl : BLOCK_BYTES * tempBlockNum s._inputSize
        < (List.take (s._inputSize - s._indexToStream + 1) (List.drop s._indexToStream file)).length := by
      rw [hL, ht, h0]
      simp only [List.drop_zero, List.length_take, hfile, BLOCK_BYTES]
      omega
    simp only [hc, if_false, hl, if_true]
  unfold encrypt
  simp only [hkey, if_false, hn', hfuel]
  rw [key _ _ _ rfl rfl]
  simp only [hr, hn, List.take_of_length_le (le_refl fileName.length), and_self]

/-- A 4096-byte sample file. -/
theorem encrypt_one_cluster_faults_witness :
    sampleKey ≠ Block.zero ∧ ([] : List Nat).length ≤ 4096 ∧ (sampleFile 4096).length = 4096 ∧
    (encrypt sampleHash [] [] sampleKey [] (some (sampleFile 4096))).status = .error .memory :=
  ⟨by decide, by decide, by simp [sampleFile],
    (encrypt_one_cluster_faults sampleHash [] [] sampleKey [] (sampleFile 4096)
      (by decide) (by decide) (by simp [sampleFile])).2.1⟩

end WilhelmSCP

namespace WilhelmSCP

/-! ## Rotation of a half-block -/

theorem shr64_eq (x n : Nat) (hn : n < 64) : shr64 x n = x / 2 ^ n := by
  unfold shr64
  rw [Nat.mod_eq_of_lt hn, Nat.shiftRight_eq_div_pow]

theorem shl64_sub64 (y n : Nat) (hn : 0 < n) (hn64 : n < 64) :
    shl64 y (sub64 64 n) = (y % 2 ^ n) * 2 ^ (64 - n) := by
  have hs : sub64 64 n = 64 - n := by
    unfold sub64 W64
    omega
  unfold shl64
  rw [hs, Nat.mod_eq_of_lt (show 64 - n < 64 by omega), Nat.shiftLeft_eq]
  have hW : W64 = 2 ^ n * 2 ^ (64 - n) := by
    unfold W64
    rw [← pow_add]
    congr 1
    omega
  rw [hW, Nat.mul_mod_mul_right]

theorem lane_or_eq_add (a y n : Nat) (ha : a < W64) (hn : 0 < n) (hn64 : n < 64) :
    shr64 a n ||| shl64 y (sub64 64 n) = a / 2 ^ n + (y % 2 ^ n) * 2 ^ (64 - n) ∧
      a / 2 ^ n + (y % 2 ^ n) * 2 ^ (64 - n) < W64 := by
  rw [shr64_eq a n hn64, shl64_sub64 y n hn hn64]
  have hW : W64 = 2 ^ (64 - n) * 2 ^ n := by
    unfold W64
    rw [← pow_add]
    congr 1
    omega
  have hlt : a / 2 ^ n < 2 ^ (64 - n) := by
    rw [Nat.div_lt_iff_lt_mul (by positivity)]
    rw [← hW]
    exact ha
  constructor
  · rw [Nat.or_comm, Nat.mul_comm, ← Nat.mul_add_lt_is_or hlt, Nat.add_comm]
  · have hy : y % 2 ^ n < 2 ^ n := Nat.mod_lt _ (by positivity)
    have : (y % 2 ^ n) * 2 ^ (64 - n) ≤ (2 ^ n - 1) * 2 ^ (64 - n) :=
      Nat.mul_le_mul_right _ (by omega)
    have h2 : (2 ^ n - 1) * 2 ^ (64 - n) + 2 ^ (64 - n) = W64 := by
      rw [hW, Nat.sub_mul, Nat.one_mul, Nat.mul_comm]
      have : 2 ^ (64 - n) ≤ 2 ^ (64 - n) * 2 ^ n := Nat.le_mul_of_pos_right _ (by positivity)
      omega
    omega

theorem rorLRSide_value (x : LRSide) (n : Nat) (h0 : x.l0 < W64) (h1 : x.l1 < W64)
    (hn : 0 < n) (hn64 : n < 64) :
    (rorLRSide x n).l0 < W64 ∧ (rorLRSide x n).l1 < W64 ∧
      (rorLRSide x n).value = specRotr128 x.value n := by
  obtain ⟨e0, b0⟩ := lane_or_eq_add x.l0 x.l1 n h0 hn hn64
  obtain ⟨e1, b1⟩ := lane_or_eq_add x.l1 x.l0 n h1 hn hn64
  unfold rorLRSide
  refine ⟨by simpa [e0] using b0, by simpa [e1] using b1, ?_⟩
  simp only [LRSide.value, e0, e1, specRotr128]
  have hdiv : (x.l0 + 2 ^ 64 * x.l1) / 2 ^ n = x.l0 / 2 ^ n + 2 ^ (64 - n) * x.l1 := by
    have : (2 : Nat) ^ 64 = 2 ^ n * 2 ^ (64 - n) := by
      rw [← pow_add]
      congr 1
      omega
    rw [this, Nat.mul_assoc, Nat.add_mul_div_left _ _ (by positivity)]
  have hmod : (x.l0 + 2 ^ 64 * x.l1) % 2 ^ n = x.l0 % 2 ^ n := by
    have : (2 : Nat) ^ 64 = 2 ^ n * 2 ^ (64 - n) := by
      rw [← pow_add]
      congr 1
      omega
    rw [this, Nat.mul_assoc, Nat.add_mul_mod_self_left]
  rw [hdiv, hmod]
  have hp : (2 : Nat) ^ (128 - n) = 2 ^ 64 * 2 ^ (64 - n) := by
    rw [← pow_add]
    congr 1
    omega
  have hq : (2 : Nat) ^ 64 = 2 ^ (64 - n) * 2 ^ n := by
    rw [← pow_add]
    congr 1
    omega
  have hx : x.l1 = 2 ^ n * (x.l1 / 2 ^ n) + x.l1 % 2 ^ n := (Nat.div_add_mod _ _).symm
  rw [hp]
  generalize x.l1 / 2 ^ n = d1 at *
  generalize x.l1 % 2 ^ n = m1 at *
  generalize x.l0 % 2 ^ n = m0 at *
  generalize x.l0 / 2 ^ n = d0 at *
  rw [hx]
  generalize (2 : Nat) ^ 64 = T at *
  generalize (2 : Nat) ^ (64 - n) = P at *
  generalize (2 : Nat) ^ n = Q at *
  subst hq
  ring

/-- C35. For every half-block whose two lanes are 64-bit values, read as the 128-bit
number with the first lane low, and every count `n` with `0 < n < 64`, `rorLRSide`
returns the circular right rotation of that number by `n` bits (again in two 64-bit
lanes). The round function `feistel` calls it with the count `27 + round`, which lies
strictly between 0 and 64 for each of the rounds 0 to 15. -/
theorem rorLRSide_rotation (x : LRSide) (n : Nat) (h0 : x.l0 < W64) (h1 : x.l1 < W64)
    (hn : 0 < n) (hn64 : n < 64) :
    ((rorLRSide x n).l0 < W64 ∧ (rorLRSide x n).l1 < W64 ∧
      (rorLRSide x n).value = specRotr128 x.value n) ∧
    (∀ (key : Block) (c b r : Nat) (y : LRSide), r < FEISTEL_ROUNDS →
      0 < ROR_CONSTANT + r ∧ ROR_CONSTANT + r < 64 ∧ ROR_CONSTANT + r = 27 + r ∧
      feistel key c b r y =
        rorLRSide ⟨subLane (y.xor (permutationKey key c b r)).l0,
          subLane (y.xor (permutationKey key c b r)).l1⟩ (ROR_CONSTANT + r)) := by
  refine ⟨rorLRSide_value x n h0 h1 hn hn64, ?_⟩
  intro key c b r y hr
  unfold FEISTEL_ROUNDS at hr
  refine ⟨by unfold ROR_CONSTANT; omega, by unfold ROR_CONSTANT; omega,
    by unfold ROR_CONSTANT; omega, rfl⟩

theorem rorLRSide_rotation_witness :
    (rorLRSide ⟨0x0123456789abcdef, 0xfedcba9876543210⟩ 27).value =
      specRotr128 (LRSide.value ⟨0x0123456789abcdef, 0xfedcba9876543210⟩) 27 :=
  (rorLRSide_rotation ⟨0x0123456789abcdef, 0xfedcba9876543210⟩ 27 (by decide) (by decide)
    (by decide) (by decide)).1.2.2


/-! ## Round keys -/

theorem lrside_xor_value (a b : LRSide) (ha : a.l0 < W64) (hb : b.l0 < W64) :
    (a.xor b).value = a.value ^^^ b.value ∧ (a.xor b).l0 < W64 := by
  have hx : a.l0 ^^^ b.l0 < 2 ^ 64 := Nat.xor_lt_two_pow ha hb
  refine ⟨?_, hx⟩
  simp only [LRSide.value, LRSide.xor]
  apply Nat.eq_of_testBit_eq
  intro j
  rw [Nat.testBit_xor, Nat.add_comm, Nat.testBit_mul_pow_two_add _ hx,
    Nat.add_comm a.l0, Nat.testBit_mul_pow_two_add _ ha,
    Nat.add_comm b.l0, Nat.testBit_mul_pow_two_add _ hb]
  by_cases hj : j < 64
  · simp [hj]
  · simp [hj]

theorem lrside_xor_lane1 (a b : LRSide) (ha : a.l1 < W64) (hb : b.l1 < W64) :
    (a.xor b).l1 < W64 :=
  Nat.xor_lt_two_pow ha hb

/-- C36. The round key `permutationKey` returns is built from the session key and
the three indices alone: the halves of the key rotated by `(c + 30) % 128` and
`(b + 34) % 128`, XORed, and rotated by `(4 r + 40) % 128`. Where all three counts lie
strictly between 0 and 64 the result is the composition of 128-bit circular right
rotations. The counts do not stay in that range: in the rounds 6 to 15 of every
block the last count is 64 or more, and at round 6 (count 64) the round key of the
sample key is not the rotation. -/
theorem permutationKey_rotation (key : Block) (c b r : Nat) (hk : key.valid) :
    permutationKey key c b r =
        rorLRSide ((rorLRSide key.L ((c + 30) % 128)).xor (rorLRSide key.R ((b + 34) % 128)))
          ((4 * r + 40) % 128) ∧
      (0 < (c + 30) % 128 → (c + 30) % 128 < 64 → 0 < (b + 34) % 128 → (b + 34) % 128 < 64 →
        0 < (4 * r + 40) % 128 → (4 * r + 40) % 128 < 64 →
        (permutationKey key c b r).value =
          specRotr128
            (specRotr128 key.L.value ((c + 30) % 128) ^^^
              specRotr128 key.R.value ((b + 34) % 128))
            ((4 * r + 40) % 128)) ∧
      (6 ≤ r → r < FEISTEL_ROUNDS → 64 ≤ (4 * r + 40) % 128) ∧
      (permutationKey sampleKey 0 0 6).value ≠
        specRotr128
          (specRotr128 sampleKey.L.value ((0 + 30) % 128) ^^^
            specRotr128 sampleKey.R.value ((0 + 34) % 128))
          ((4 * 6 + 40) % 128) := by
  have hstruct : permutationKey key c b r =
      rorLRSide ((rorLRSide key.L ((c + 30) % 128)).xor (rorLRSide key.R ((b + 34) % 128)))
        ((4 * r + 40) % 128) := by
    have e1 : (c + ROR_CONSTANT + 3) % (BLOCK_BITS / 2) = (c + 30) % 128 := by
      simp [ROR_CONSTANT, BLOCK_BITS, BLOCK_BYTES, Nat.add_assoc]
    have e2 : (b + ROR_CONSTANT + 7) % (BLOCK_BITS / 2) = (b + 34) % 128 := by
      simp [ROR_CONSTANT, BLOCK_BITS, BLOCK_BYTES, Nat.add_assoc]
    have e3 : (r * 4 + ROR_CONSTANT + 13) % (BLOCK_BITS / 2) = (4 * r + 40) % 128 := by
      simp [ROR_CONSTANT, BLOCK_BITS, BLOCK_BYTES, Nat.add_assoc, Nat.mul_comm]
    simp only [permutationKey, e1, e2, e3]
  refine ⟨hstruct, ?_, ?_, by decide⟩
  · intro hc0 hc1 hb0 hb1 hr0 hr1
    obtain ⟨k0, k1, k2, k3⟩ := hk
    obtain ⟨a0, a1, av⟩ := rorLRSide_value key.L _ k0 k1 hc0 hc1
    obtain ⟨b0, b1, bv⟩ := rorLRSide_value key.R _ k2 k3 hb0 hb1
    obtain ⟨xv, x0⟩ := lrside_xor_value _ _ a0 b0
    have x1 := lrside_xor_lane1 _ _ a1 b1
    obtain ⟨_, _, rv⟩ := rorLRSide_value _ _ x0 x1 hr0 hr1
    rw [hstruct, rv, xv, av, bv]
  · intro h6 h16
    unfold FEISTEL_ROUNDS at h16
    omega

theorem permutationKey_rotation_witness :
    (permutationKey sampleKey 0 0 0).value =
      specRotr128
        (specRotr128 sampleKey.L.value ((0 + 30) % 128) ^^^
          specRotr128 sampleKey.R.value ((0 + 34) % 128))
        ((4 * 0 + 40) % 128) :=
  (permutationKey_rotation sampleKey 0 0 0 (by unfold Block.valid; decide)).2.1 (by decide) (by decide) (by decide)
    (by decide) (by decide) (by decide)

end WilhelmSCP

namespace WilhelmSCP

/-! ## The loops of encCBC and decCBC -/

theorem getD_of_getElem {l : List Block} {i : Nat} {x : Block} (h : l[i]? = some x) :
    l.getD i Block.zero = x := by
  rw [List.getD_eq_getElem?_getD, h]
  rfl

theorem getElem_of_lt_getD {l : List Block} {i : Nat} (h : i < l.length) :
    l[i]? = some (l.getD i Block.zero) := by
  rw [List.getD_eq_getElem?_getD, List.getElem?_eq_getElem h]
  rfl

/-- The loop of `encCBC` from `cur` to `rel`: it stays inside the vector, encrypts
the blocks `cur .. rel - 1` in chain and leaves block `rel` XORed with its
predecessor, not yet encrypted. -/
theorem encCBCLoop_spec (key : Block) (c rel : Nat) (n : Nat) :
    ∀ (cur bn : Nat) (set : List Block), cur ≤ rel → rel < set.length → rel - cur ≤ n →
      ∃ set1, encCBCLoop key c rel n cur bn set = .ok (set1, rel, bn + (rel - cur)) ∧
        set1.length = set.length ∧
        (∀ i, i < cur → set1[i]? = set[i]?) ∧
        (∀ i, rel < i → set1[i]? = set[i]?) ∧
        (∀ i, cur ≤ i → i < rel → set1[i]? = some (blockEnc key c (bn + (i - cur))
            (if i = cur then set.getD i Block.zero
             else (set.getD i Block.zero).xor (set1.getD (i - 1) Block.zero)))) ∧
        set1[rel]? = some (if rel = cur then set.getD rel Block.zero
             else (set.getD rel Block.zero).xor (set1.getD (rel - 1) Block.zero)) := by
  induction n with
  | zero =>
    intro cur bn set h1 h2 h3
    have hc : cur = rel := by omega
    subst hc
    refine ⟨set, ?_, rfl, fun _ _ => rfl, fun _ _ => rfl, ?_, ?_⟩
    · unfold encCBCLoop
      simp
    · intro i hi1 hi2
      omega
    · simp only [if_true]
      exact getElem_of_lt_getD h2
  | succ n ih =>
    intro cur bn set h1 h2 h3
    by_cases hc : cur = rel
    · subst hc
      refine ⟨set, ?_, rfl, fun _ _ => rfl, fun _ _ => rfl, ?_, ?_⟩
      · unfold encCBCLoop
        simp
      · intro i hi1 hi2
        omega
      · simp only [if_true]
        exact getElem_of_lt_getD h2
    · have hx : set[cur]? = some (set.getD cur Block.zero) := getElem_of_lt_getD (by omega)
      have hy : set[cur + 1]? = some (set.getD (cur + 1) Block.zero) :=
        getElem_of_lt_getD (by omega)
      obtain ⟨set1, e1, e2, e3, e4, e5, e6⟩ := ih (cur + 1) (bn + 1)
        ((set.set cur (blockEnc key c bn (set.getD cur Block.zero))).set (cur + 1)
          ((set.getD (cur + 1) Block.zero).xor (blockEnc key c bn (set.getD cur Block.zero))))
        (by omega) (by simpa using h2) (by omega)
      have hcur : set1[cur]? = some (blockEnc key c bn (set.getD cur Block.zero)) := by
        rw [e3 cur (by omega), List.getElem?_set_ne (by omega), List.getElem?_set_self]
        omega
      have hother : ∀ i, i ≠ cur → i ≠ cur + 1 →
          ((set.set cur (blockEnc key c bn (set.getD cur Block.zero))).set (cur + 1)
            ((set.getD (cur + 1) Block.zero).xor
              (blockEnc key c bn (set.getD cur Block.zero))))[i]? = set[i]? := by
        intro i hi1 hi2
        rw [List.getElem?_set_ne (by omega), List.getElem?_set_ne (by omega)]
      have hnext : ((set.set cur (blockEnc key c bn (set.getD cur Block.zero))).set (cur + 1)
            ((set.getD (cur + 1) Block.zero).xor
              (blockEnc key c bn (set.getD cur Block.zero)))).getD (cur + 1) Block.zero =
          (set.getD (cur + 1) Block.zero).xor (set1.getD cur Block.zero) := by
        rw [getD_of_getElem hcur]
        apply getD_of_getElem
        rw [List.getElem?_set_self]
        simp only [List.length_set]
        omega
      refine ⟨set1, ?_, by simpa using e2, ?_, ?_, ?_, ?_⟩
      · rw [encCBCLoop]
        simp only [hc, if_false, hx, hy]
        rw [e1]
        have hb : bn + 1 + (rel - (cur + 1)) = bn + (rel - cur) := by omega
        rw [hb]
      · intro i hi
        rw [e3 i (by omega), hother i (by omega) (by omega)]
      · intro i hi
        rw [e4 i hi, hother i (by omega) (by omega)]
      · intro i hi1 hi2
        by_cases hic : i = cur
        · subst hic
          simp only [if_true, Nat.sub_self, Nat.add_zero]
          exact hcur
        · rw [e5 i (by omega) hi2]
          have hb : bn + 1 + (i - (cur + 1)) = bn + (i - cur) := by omega
          rw [hb]
          simp only [hic, if_false]
          by_cases hi' : i = cur + 1
          · subst hi'
            simp only [if_true, hnext, Nat.add_sub_cancel]
          · simp only [hi', if_false]
            rw [List.getD_eq_getElem?_getD, hother i hic hi', ← List.getD_eq_getElem?_getD]
      · rw [e6]
        have hrc : rel ≠ cur := fun h => hc h.symm
        simp only [hrc, if_false]
        by_cases hr' : rel = cur + 1
        · subst hr'
          simp only [if_true, hnext, Nat.add_sub_cancel]
        · simp only [hr', if_false]
          rw [List.getD_eq_getElem?_getD, hother rel hrc hr', ← List.getD_eq_getElem?_getD]

/-- The loop of `decCBC` from `cur` to `rel`: it stays inside the two vectors and
leaves every block `i` of `cur .. rel - 1` decrypted and XORed with the received
block that `undecrypted` points at. -/
theorem decCBCLoop_spec (key : Block) (c rel : Nat) (enc : List Block) (n : Nat) :
    ∀ (cur und bn : Nat) (set : List Block), cur ≤ rel → rel ≤ set.length →
      und + (rel - cur) ≤ enc.length → rel - cur ≤ n →
      ∃ set1, decCBCLoop key c rel enc n cur und bn set =
          .ok (set1, rel, und + (rel - cur), bn + (rel - cur)) ∧
        set1.length = set.length ∧
        (∀ i, i < cur → set1[i]? = set[i]?) ∧
        (∀ i, rel ≤ i → set1[i]? = set[i]?) ∧
        (∀ i, cur ≤ i → i < rel → set1[i]? =
          some ((blockDec key c (bn + (i - cur)) (set.getD i Block.zero)).xor
            (enc.getD (und + (i - cur)) Block.zero))) := by
  induction n with
  | zero =>
    intro cur und bn set h1 h2 h3 h4
    have hc : cur = rel := by omega
    subst hc
    refine ⟨set, ?_, rfl, fun _ _ => rfl, fun _ _ => rfl, ?_⟩
    · unfold decCBCLoop
      simp
    · intro i hi1 hi2
      omega
  | succ n ih =>
    intro cur und bn set h1 h2 h3 h4
    by_cases hc : cur = rel
    · subst hc
      refine ⟨set, ?_, rfl, fun _ _ => rfl, fun _ _ => rfl, ?_⟩
      · unfold decCBCLoop
        simp
      · intro i hi1 hi2
        omega
    · have hx : set[cur]? = some (set.getD cur Block.zero) := getElem_of_lt_getD (by omega)
      have he : enc[und]? = some (enc.getD und Block.zero) := getElem_of_lt_getD (by omega)
      obtain ⟨set1, e1, e2, e3, e4, e5⟩ := ih (cur + 1) (und + 1) (bn + 1)
        (set.set cur ((blockDec key c bn (set.getD cur Block.zero)).xor
          (enc.getD und Block.zero)))
        (by omega) (by simpa using h2) (by omega) (by omega)
      refine ⟨set1, ?_, by simpa using e2, ?_, ?_, ?_⟩
      · rw [decCBCLoop]
        simp only [hc, if_false, hx, he]
        rw [e1]
        have hb : bn + 1 + (rel - (cur + 1)) = bn + (rel - cur) := by omega
        have hu : und + 1 + (rel - (cur + 1)) = und + (rel - cur) := by omega
        rw [hb, hu]
      · intro i hi
        rw [e3 i (by omega), List.getElem?_set_ne (by omega)]
      · intro i hi
        rw [e4 i hi, List.getElem?_set_ne (by omega)]
      · intro i hi1 hi2
        by_cases hic : i = cur
        · subst hic
          simp only [Nat.sub_self, Nat.add_zero]
          rw [e3 i (by omega), List.getElem?_set_self]
          omega
        · rw [e5 i (by omega) hi2]
          have hb : bn + 1 + (i - (cur + 1)) = bn + (i - cur) := by omega
          have hu : und + 1 + (i - (cur + 1)) = und + (i - cur) := by omega
          rw [hb, hu, List.getD_eq_getElem?_getD (set.set _ _),
            List.getElem?_set_ne (by omega), ← List.getD_eq_getElem?_getD]

end WilhelmSCP

namespace WilhelmSCP

/-! ## encCBC and decCBC on one cluster -/

/-- The common part of `encCBC`: the first block is XORed with the carry-in, the loop
runs to the last block and the last block is encrypted. Every block `i` of the
result is `blockEnc` at block index `bn + i` of plaintext block `i` XORed with the
preceding ciphertext block (the carry-in for `i = 0`). -/
theorem encCBC_chain (key : Block) (cn bn : Nat) (last : Block) (set : List Block)
    (hm : 1 ≤ set.length) :
    ∃ set1 x, encCBCLoop key cn (set.length - 1)
          (set.set 0 ((set.getD 0 Block.zero).xor last)).length 0 bn
          (set.set 0 ((set.getD 0 Block.zero).xor last)) =
        .ok (set1, set.length - 1, bn + (set.length - 1)) ∧
      set1[set.length - 1]? = some x ∧
      (set1.set (set.length - 1) (blockEnc key cn (bn + (set.length - 1)) x)).length =
        set.length ∧
      ∀ i, i < set.length →
        (set1.set (set.length - 1) (blockEnc key cn (bn + (set.length - 1)) x))[i]? =
          some (blockEnc key cn (bn + i) ((set.getD i Block.zero).xor
            (if i = 0 then last
             else (set1.set (set.length - 1)
               (blockEnc key cn (bn + (set.length - 1)) x)).getD (i - 1) Block.zero))) := by
  obtain ⟨set1, e1, e2, e3, e4, e5, e6⟩ := encCBCLoop_spec key cn (set.length - 1)
    (set.set 0 ((set.getD 0 Block.zero).xor last)).length 0 bn
    (set.set 0 ((set.getD 0 Block.zero).xor last)) (by omega)
    (by simp only [List.length_set]; omega) (by simp only [List.length_set]; omega)
  simp only [Nat.sub_zero] at e1 e5
  simp only [List.length_set] at e2
  have h0 : (set.set 0 ((set.getD 0 Block.zero).xor last)).getD 0 Block.zero =
      (set.getD 0 Block.zero).xor last := by
    apply getD_of_getElem
    rw [List.getElem?_set_self]
    omega
  have hi : ∀ i, i ≠ 0 → (set.set 0 ((set.getD 0 Block.zero).xor last)).getD i Block.zero =
      set.getD i Block.zero := by
    intro i hi
    rw [List.getD_eq_getElem?_getD, List.getElem?_set_ne (by omega),
      ← List.getD_eq_getElem?_getD]
  have hx : set1[set.length - 1]? = some ((set.getD (set.length - 1) Block.zero).xor
      (if set.length - 1 = 0 then last else set1.getD (set.length - 1 - 1) Block.zero)) := by
    rw [e6]
    by_cases hz : set.length - 1 = 0
    · simp only [hz, if_true, h0]
    · simp only [hz, if_false, hi _ hz]
  have hprev : ∀ (y : Block) (i : Nat), i ≠ 0 → i < set.length →
      (set1.set (set.length - 1) y).getD (i - 1) Block.zero = set1.getD (i - 1) Block.zero := by
    intro y i hi0 hil
    rw [List.getD_eq_getElem?_getD, List.getElem?_set_ne (by omega),
      ← List.getD_eq_getElem?_getD]
  refine ⟨set1, _, e1, hx, by simp only [List.length_set]; exact e2, ?_⟩
  intro i hil
  by_cases hlast : i = set.length - 1
  · subst hlast
    rw [List.getElem?_set_self (by omega)]
    by_cases hz : set.length - 1 = 0
    · simp only [hz, if_true, Nat.add_zero]
    · simp only [hz, if_false]
      rw [hprev _ _ hz (by omega)]
  · rw [List.getElem?_set_ne (fun h => hlast h.symm), e5 i (by omega) (by omega)]
    by_cases hz : i = 0
    · subst hz
      simp only [if_true, h0]
    · simp only [hz, if_false]
      rw [hi _ hz, hprev _ _ hz hil]

/-- On a cluster that is not the last one (`_indexToStream < _inputSize`, 128
blocks) `encCBC` returns: block `i` of the result is `blockEnc`, at block index
`_blockNum + i`, of plaintext block `i` XORed with the preceding ciphertext block
(the carry-in for `i = 0`); the chaining value becomes the last ciphertext block. -/
theorem encCBC_nonfinal (H : List Nat → List Nat) (padRaw : List Nat) (s : Session)
    (hnf : s._indexToStream < s._inputSize) (hlen : s._currentBlockSet.length = 128) :
    ∃ s1, encCBC H padRaw s = .ok s1 ∧ s1._currentBlockSet.length = 128 ∧
      (∀ i, i < 128 → s1._currentBlockSet[i]? =
        some (blockEnc s._baseKey s._clusterNum (s._blockNum + i)
          ((s._currentBlockSet.getD i Block.zero).xor
            (if i = 0 then s._lastBlockPrevCluster
             else s1._currentBlockSet.getD (i - 1) Block.zero)))) ∧
      s1._lastBlockPrevCluster = s1._currentBlockSet.getD 127 Block.zero ∧
      s1._blockNum = s._blockNum + 127 ∧ s1._clusterNum = s._clusterNum + 1 ∧
      s1._baseKey = s._baseKey ∧ s1._inputSize = s._inputSize ∧
      s1._indexToStream = s._indexToStream := by
  obtain ⟨set1, x, e1, e2, e3, e4⟩ := encCBC_chain s._baseKey s._clusterNum s._blockNum
    s._lastBlockPrevCluster s._currentBlockSet (by omega)
  have hrel : encRelativeBlockCount s = s._currentBlockSet.length - 1 := by
    unfold encRelativeBlockCount
    rw [if_neg (by omega), hlen]
    rfl
  have hx0 : s._currentBlockSet[0]? = some (s._currentBlockSet.getD 0 Block.zero) :=
    getElem_of_lt_getD (by omega)
  have he : encCBC H padRaw s = .ok { s with
      _currentBlockSet := set1.set (s._currentBlockSet.length - 1)
        (blockEnc s._baseKey s._clusterNum (s._blockNum + (s._currentBlockSet.length - 1)) x)
      _lastBlockPrevCluster :=
        blockEnc s._baseKey s._clusterNum (s._blockNum + (s._currentBlockSet.length - 1)) x
      _blockNum := s._blockNum + (s._currentBlockSet.length - 1)
      _clusterNum := s._clusterNum + 1 } := by
    unfold encCBC
    simp only [hx0, hrel, e1, e2]
    rw [if_neg (by omega)]
  refine ⟨_, he, ?_, ?_, ?_, ?_, rfl, rfl, rfl, rfl⟩
  · show (set1.set _ _).length = 128
    rw [e3, hlen]
  · intro i hi
    exact e4 i (by omega)
  · show _ = (set1.set _ _).getD 127 Block.zero
    symm
    apply getD_of_getElem
    have h127 : s._currentBlockSet.length - 1 = 127 := by omega
    rw [h127, List.getElem?_set_self]
    have := e3
    simp only [List.length_set] at this
    omega
  · show s._blockNum + (s._currentBlockSet.length - 1) = s._blockNum + 127
    omega

/-- On a cluster that is not the last one `decCBC` returns: block `i` of the result is
`blockDec`, at block index `_blockNum + i`, of received block `i`, XORed with the
preceding received block (the carry-in for `i = 0`); the chaining value becomes the
last received block. -/
theorem decCBC_nonfinal_spec (H : List Nat → List Nat) (s : Session)
    (hnf : s._indexToStream < s._inputSize) (hlen : s._currentBlockSet.length = 128) :
    ∃ s1, decCBC H s = .ok (s1, Block.zero) ∧ s1._currentBlockSet.length = 128 ∧
      (∀ i, i < 128 → s1._currentBlockSet[i]? =
        some ((blockDec s._baseKey s._clusterNum (s._blockNum + i)
          (s._currentBlockSet.getD i Block.zero)).xor
            (if i = 0 then s._lastBlockPrevCluster
             else s._currentBlockSet.getD (i - 1) Block.zero))) ∧
      s1._lastBlockPrevCluster = s._currentBlockSet.getD 127 Block.zero ∧
      s1._blockNum = s._blockNum + 127 ∧ s1._clusterNum = s._clusterNum + 1 ∧
      s1._baseKey = s._baseKey ∧ s1._inputSize = s._inputSize ∧
      s1._indexToStream = s._indexToStream := by
  have hx0 : s._currentBlockSet[0]? = some (s._currentBlockSet.getD 0 Block.zero) :=
    getElem_of_lt_getD (by omega)
  have hd1 : decInputSize1 s = s._inputSize := by
    unfold decInputSize1
    rw [if_neg (by omega)]
  have hrel : decRelativeBlockCount s = 127 := by
    unfold decRelativeBlockCount
    rw [if_neg (by omega)]
    rfl
  obtain ⟨set1, e1, e2, e3, e4, e5⟩ := decCBCLoop_spec s._baseKey s._clusterNum 127
    s._currentBlockSet
    (s._currentBlockSet.set 0 ((blockDec s._baseKey s._clusterNum s._blockNum
      (s._currentBlockSet.getD 0 Block.zero)).xor s._lastBlockPrevCluster)).length
    1 0 (s._blockNum + 1)
    (s._currentBlockSet.set 0 ((blockDec s._baseKey s._clusterNum s._blockNum
      (s._currentBlockSet.getD 0 Block.zero)).xor s._lastBlockPrevCluster))
    (by omega) (by simp only [List.length_set]; omega) (by omega)
    (by simp only [List.length_set]; omega)
  simp only [List.length_set] at e2
  have h127 : set1[127]? = some (s._currentBlockSet.getD 127 Block.zero) := by
    rw [e4 127 (le_refl _), List.getElem?_set_ne (by omega)]
    exact getElem_of_lt_getD (by omega)
  have hu : s._currentBlockSet[126]? = some (s._currentBlockSet.getD 126 Block.zero) :=
    getElem_of_lt_getD (by omega)
  have hu1 : s._currentBlockSet[127]? = some (s._currentBlockSet.getD 127 Block.zero) :=
    getElem_of_lt_getD (by omega)
  have he : decCBC H s = .ok ({ s with
      _inputSize := decInputSize1 s
      _blockNum := s._blockNum + 1 + (127 - 1)
      _currentBlockSet := set1.set 127
        ((blockDec s._baseKey s._clusterNum (s._blockNum + 1 + (127 - 1))
          (s._currentBlockSet.getD 127 Block.zero)).xor (s._currentBlockSet.getD 126 Block.zero))
      _lastBlockPrevCluster := s._currentBlockSet.getD 127 Block.zero
      _clusterNum := s._clusterNum + 1 }, Block.zero) := by
    unfold decCBC
    simp only [hx0, hrel, e1]
    rw [if_neg (by omega)]
    simp only [Nat.reduceAdd, Nat.reduceSub, h127, hu, hu1]
  refine ⟨_, he, ?_, ?_, rfl, ?_, rfl, rfl, hd1, rfl⟩
  · show (set1.set _ _).length = 128
    simp only [List.length_set]
    omega
  · intro i hi
    show (set1.set _ _)[i]? = _
    by_cases h127' : i = 127
    · subst h127'
      rw [List.getElem?_set_self (by omega)]
      have hb : s._blockNum + 1 + (127 - 1) = s._blockNum + 127 := by omega
      rw [hb, if_neg (by omega)]
    · rw [List.getElem?_set_ne (fun h => h127' h.symm)]
      by_cases hz : i = 0
      · subst hz
        rw [e3 0 (by omega), List.getElem?_set_self (by omega)]
        simp only [if_true, Nat.add_zero]
      · rw [e5 i (by omega) (by omega)]
        simp only [hz, if_false]
        have hb : s._blockNum + 1 + (i - 1) = s._blockNum + i := by omega
        have hu2 : 0 + (i - 1) = i - 1 := by omega
        rw [hb, hu2, List.getD_eq_getElem?_getD (List.set _ _ _),
          List.getElem?_set_ne (by omega), ← List.getD_eq_getElem?_getD]
  · show s._blockNum + 1 + (127 - 1) = s._blockNum + 127
    omega

end WilhelmSCP

namespace WilhelmSCP

/-! ## CBC chaining of a cluster -/

theorem blockDec_blockEnc_cancel (key : Block) (c b : Nat) (B : Block) :
    blockDec key c b (blockEnc key c b B) = B := by
  rw [blockDec_eq_undo, blockEnc, undoRounds_encRounds]

/-- C34. CBC chaining of a cluster that is not the last one. For every session
holding 128 plaintext blocks, `encCBC` returns with ciphertext block `i` equal to
`blockEnc`, at block index `_blockNum + i`, of plaintext block `i` XORed with the
preceding ciphertext block (the carry-in for `i = 0`), and leaves the chaining value
equal to ciphertext block 127. `decCBC` on these 128 blocks with the same key,
carry-in and counters returns the 128 plaintext blocks and leaves the chaining value
equal to ciphertext block 127; both leave the same block and cluster counters. -/
theorem cbc_chaining (H : List Nat → List Nat) (padRaw : List Nat) (s r : Session)
    (hs : s._indexToStream < s._inputSize) (hlen : s._currentBlockSet.length = 128)
    (hr : r._indexToStream < r._inputSize) (hkey : r._baseKey = s._baseKey)
    (hcn : r._clusterNum = s._clusterNum) (hbn : r._blockNum = s._blockNum)
    (hcarry : r._lastBlockPrevCluster = s._lastBlockPrevCluster) :
    ∃ s1, encCBC H padRaw s = .ok s1 ∧ s1._currentBlockSet.length = 128 ∧
      (∀ i, i < 128 → s1._currentBlockSet[i]? =
        some (blockEnc s._baseKey s._clusterNum (s._blockNum + i)
          ((s._currentBlockSet.getD i Block.zero).xor
            (if i = 0 then s._lastBlockPrevCluster
             else s1._currentBlockSet.getD (i - 1) Block.zero)))) ∧
      s1._lastBlockPrevCluster = s1._currentBlockSet.getD 127 Block.zero ∧
      ∃ r1, decCBC H { r with _currentBlockSet := s1._currentBlockSet } = .ok (r1, Block.zero) ∧
        r1._currentBlockSet = s._currentBlockSet ∧
        r1._lastBlockPrevCluster = s1._currentBlockSet.getD 127 Block.zero ∧
        r1._blockNum = s1._blockNum ∧ r1._clusterNum = s1._clusterNum := by
  obtain ⟨s1, e1, e2, e3, e4, e5, e6, e7, e8, e9⟩ := encCBC_nonfinal H padRaw s hs hlen
  obtain ⟨r1, d1, d2, d3, d4, d5, d6, d7, d8, d9⟩ := decCBC_nonfinal_spec H
    { r with _currentBlockSet := s1._currentBlockSet } hr e2
  refine ⟨s1, e1, e2, e3, e4, r1, d1, ?_, d4, ?_, ?_⟩
  · apply List.ext_getElem?
    intro i
    by_cases hi : i < 128
    · rw [d3 i hi]
      simp only [hkey, hcn, hbn, hcarry]
      rw [getD_of_getElem (e3 i hi), blockDec_blockEnc_cancel]
      rw [getElem_of_lt_getD (show i < s._currentBlockSet.length by omega)]
      by_cases hz : i = 0
      · simp only [hz, if_true, block_xor_xor_cancel]
      · simp only [hz, if_false, block_xor_xor_cancel]
    · rw [List.getElem?_eq_none (by omega), List.getElem?_eq_none (by omega)]
  · rw [d5, e5]
    exact congrArg (· + 127) hbn
  · rw [d6, e6]
    exact congrArg (· + 1) hcn

theorem cbc_chaining_witness :
    ∃ s1, encCBC sampleHash [] sampleCluster = .ok s1 ∧
      ∃ r1, decCBC sampleHash { sampleCluster with _currentBlockSet := s1._currentBlockSet } =
          .ok (r1, Block.zero) ∧
        r1._currentBlockSet = sampleCluster._currentBlockSet :=
  let ⟨s1, h1, _, _, _, r1, h2, h3, _⟩ :=
    cbc_chaining sampleHash [] sampleCluster sampleCluster (by decide)
      (List.length_replicate 128 sampleKey) (by decide) rfl rfl rfl rfl
  ⟨s1, h1, r1, h2, h3⟩

end WilhelmSCP

namespace WilhelmSCP

/-! ## The last cluster: pad block and recovery of the count -/

/-- On the last cluster `encCBC` encrypts the blocks in chain as on every cluster,
then appends the pad block made from the last ciphertext block, XORed with that
block and encrypted at the next block index. -/
theorem encCBC_final (H : List Nat → List Nat) (padRaw : List Nat) (s : Session)
    (hfin : s._inputSize ≤ s._indexToStream) (hm : 1 ≤ s._currentBlockSet.length)
    (hrel : encRelativeBlockCount s = s._currentBlockSet.length - 1) :
    ∃ s1 cs, encCBC H padRaw s = .ok s1 ∧ cs.length = s._currentBlockSet.length ∧
      (∀ i, i < cs.length → cs[i]? =
        some (blockEnc s._baseKey s._clusterNum (s._blockNum + i)
          ((s._currentBlockSet.getD i Block.zero).xor
            (if i = 0 then s._lastBlockPrevCluster else cs.getD (i - 1) Block.zero)))) ∧
      s1._currentBlockSet = cs ++ [blockEnc s._baseKey s._clusterNum (s._blockNum + cs.length)
        ((Padding H padRaw s._inputSize (cs.getD (cs.length - 1) Block.zero)).xor
          (cs.getD (cs.length - 1) Block.zero))] ∧
      s1._lastBlockPrevCluster = cs.getD (cs.length - 1) Block.zero ∧
      s1._blockNum = s._blockNum + cs.length ∧ s1._clusterNum = s._clusterNum + 1 ∧
      s1._baseKey = s._baseKey ∧ s1._inputSize = s._inputSize ∧
      s1._indexToStream = s._indexToStream := by
  obtain ⟨set1, x, e1, e2, e3, e4⟩ := encCBC_chain s._baseKey s._clusterNum s._blockNum
    s._lastBlockPrevCluster s._currentBlockSet hm
  have hx0 : s._currentBlockSet[0]? = some (s._currentBlockSet.getD 0 Block.zero) :=
    getElem_of_lt_getD (by omega)
  have hl1 : set1.length = s._currentBlockSet.length := by
    simpa only [List.length_set] using e3
  have hprev : (set1.set (s._currentBlockSet.length - 1)
      (blockEnc s._baseKey s._clusterNum (s._blockNum + (s._currentBlockSet.length - 1)) x))[
        (set1.set (s._currentBlockSet.length - 1)
          (blockEnc s._baseKey s._clusterNum (s._blockNum + (s._currentBlockSet.length - 1))
            x)).length - 1]? =
      some (blockEnc s._baseKey s._clusterNum (s._blockNum + (s._currentBlockSet.length - 1)) x) := by
    rw [e3, List.getElem?_set_self (by omega)]
  have he : encCBC H padRaw s = .ok { s with
      _currentBlockSet := set1.set (s._currentBlockSet.length - 1)
          (blockEnc s._baseKey s._clusterNum (s._blockNum + (s._currentBlockSet.length - 1)) x) ++
        [blockEnc s._baseKey s._clusterNum (s._blockNum + (s._currentBlockSet.length - 1) + 1)
          ((Padding H padRaw s._inputSize
            (blockEnc s._baseKey s._clusterNum (s._blockNum + (s._currentBlockSet.length - 1))
              x)).xor
            (blockEnc s._baseKey s._clusterNum (s._blockNum + (s._currentBlockSet.length - 1))
              x))]
      _lastBlockPrevCluster :=
        blockEnc s._baseKey s._clusterNum (s._blockNum + (s._currentBlockSet.length - 1)) x
      _blockNum := s._blockNum + (s._currentBlockSet.length - 1) + 1
      _clusterNum := s._clusterNum + 1 } := by
    unfold encCBC
    simp only [hx0, hrel, e1, e2]
    rw [if_pos hfin]
    simp only [hprev]
  have hgl : (set1.set (s._currentBlockSet.length - 1)
      (blockEnc s._baseKey s._clusterNum (s._blockNum + (s._currentBlockSet.length - 1)) x)).getD
        ((set1.set (s._currentBlockSet.length - 1)
          (blockEnc s._baseKey s._clusterNum (s._blockNum + (s._currentBlockSet.length - 1))
            x)).length - 1) Block.zero =
      blockEnc s._baseKey s._clusterNum (s._blockNum + (s._currentBlockSet.length - 1)) x :=
    getD_of_getElem hprev
  refine ⟨_, set1.set (s._currentBlockSet.length - 1)
      (blockEnc s._baseKey s._clusterNum (s._blockNum + (s._currentBlockSet.length - 1)) x),
    he, e3, ?_, ?_, ?_, ?_, rfl, rfl, rfl, rfl⟩
  · intro i hi
    exact e4 i (by rw [← e3]; exact hi)
  · show _ ++ [_] = _ ++ [_]
    rw [hgl, e3]
    have : s._blockNum + (s._currentBlockSet.length - 1) + 1 =
        s._blockNum + s._currentBlockSet.length := by omega
    rw [this]
  · show _ = _
    rw [hgl]
  · show s._blockNum + (s._currentBlockSet.length - 1) + 1 = _
    rw [e3]
    omega

/-- On the last read (`m` blocks, the pad block and the trailer block, with `m ≥ 1`
and the block count of `decCBC` pointing at the trailer) `decCBC` decrypts the `m`
blocks and the pad block in chain, reads the count in the pad block at the offset
given by the hash of the received block before the pad block, and returns the trailer. -/
theorem decCBC_final_spec (H : List Nat → List Nat) (r : Session) (m : Nat) (hm : 1 ≤ m)
    (hfin : r._inputSize ≤ r._indexToStream) (hW : r._inputSize < 2 ^ 63)
    (hlen : r._currentBlockSet.length = m + 2)
    (hrel : ((r._inputSize - 32) % 4096) / 32 = m + 1) (h32 : 32 ≤ r._inputSize) :
    ∃ r1, decCBC H r = .ok (r1, r._currentBlockSet.getD (m + 1) Block.zero) ∧
      r1._currentBlockSet.length = m + 1 ∧
      (∀ i, i < m + 1 → r1._currentBlockSet[i]? =
        some ((blockDec r._baseKey r._clusterNum (r._blockNum + i)
          (r._currentBlockSet.getD i Block.zero)).xor
            (if i = 0 then r._lastBlockPrevCluster
             else r._currentBlockSet.getD (i - 1) Block.zero))) ∧
      r1._inputSize = r._inputSize - 32 +
        (r1._currentBlockSet.getD m Block.zero).data
          ((Hash_SHA256_Block H (r._currentBlockSet.getD (m - 1) Block.zero)).data 0 %
            BLOCK_BYTES) - 64 ∧
      r1._indexToStream = r._indexToStream := by
  have hx0 : r._currentBlockSet[0]? = some (r._currentBlockSet.getD 0 Block.zero) :=
    getElem_of_lt_getD (by omega)
  have hd1 : decInputSize1 r = r._inputSize - 32 := by
    unfold decInputSize1
    rw [if_pos hfin]
    exact sub64_eq _ _ h32 (by unfold W64; omega)
  have hrel' : decRelativeBlockCount r = m + 1 := by
    unfold decRelativeBlockCount
    rw [if_pos hfin, hd1]
    exact hrel
  obtain ⟨set1, e1, e2, e3, e4, e5⟩ := decCBCLoop_spec r._baseKey r._clusterNum (m + 1)
    r._currentBlockSet
    (r._currentBlockSet.set 0 ((blockDec r._baseKey r._clusterNum r._blockNum
      (r._currentBlockSet.getD 0 Block.zero)).xor r._lastBlockPrevCluster)).length
    1 0 (r._blockNum + 1)
    (r._currentBlockSet.set 0 ((blockDec r._baseKey r._clusterNum r._blockNum
      (r._currentBlockSet.getD 0 Block.zero)).xor r._lastBlockPrevCluster))
    (by omega) (by simp only [List.length_set]; omega) (by omega)
    (by simp only [List.length_set]; omega)
  simp only [List.length_set] at e2
  have hm1 : m + 1 - 1 = m := by omega
  have hu0 : 0 + (m + 1 - 1) = m := by omega
  rw [hu0] at e1
  have hpad : set1[m]? = some (set1.getD m Block.zero) := getElem_of_lt_getD (by omega)
  have htmp : r._currentBlockSet[m - 1]? = some (r._currentBlockSet.getD (m - 1) Block.zero) :=
    getElem_of_lt_getD (by omega)
  have htr : set1[m + 1]? = some (r._currentBlockSet.getD (m + 1) Block.zero) := by
    rw [e4 (m + 1) (le_refl _), List.getElem?_set_ne (by omega)]
    exact getElem_of_lt_getD (by omega)
  have hbyte : (set1.getD m Block.zero).data
      ((Hash_SHA256_Block H (r._currentBlockSet.getD (m - 1) Block.zero)).data 0 % BLOCK_BYTES) <
      256 := by
    unfold Block.data
    rw [List.getD_eq_getElem?_getD]
    by_cases hb : (Hash_SHA256_Block H (r._currentBlockSet.getD (m - 1) Block.zero)).toBytes.getD 0 0
        % BLOCK_BYTES < (set1.getD m Block.zero).toBytes.length
    · rw [List.getElem?_eq_getElem hb]
      exact block_toBytes_lt _ _ (List.getElem_mem _)
    · rw [List.getElem?_eq_none (by omega)]
      simp
  have he : decCBC H r = .ok ({ r with
      _inputSize := sub64 ((decInputSize1 r + (set1.getD m Block.zero).data
        ((Hash_SHA256_Block H (r._currentBlockSet.getD (m - 1) Block.zero)).data 0 %
          BLOCK_BYTES)) % W64) (BLOCK_BYTES + BLOCK_BYTES)
      _blockNum := r._blockNum + 1 + (m + 1 - 1)
      _currentBlockSet := set1.take (set1.length - 1) },
      r._currentBlockSet.getD (m + 1) Block.zero) := by
    unfold decCBC
    simp only [hx0, hrel', e1]
    rw [if_pos (by rw [hd1]; omega), if_neg (by omega)]
    simp only [Nat.add_sub_cancel, hpad, htmp, htr]
  refine ⟨_, he, ?_, ?_, ?_, rfl⟩
  · show (set1.take _).length = _
    rw [List.length_take]
    omega
  · intro i hi
    show (set1.take _)[i]? = _
    rw [List.getElem?_take_of_lt (by omega)]
    by_cases hz : i = 0
    · subst hz
      rw [e3 0 (by omega), List.getElem?_set_self (by omega)]
      simp only [if_true, Nat.add_zero]
    · rw [e5 i (by omega) (by omega)]
      simp only [hz, if_false]
      have hb : r._blockNum + 1 + (i - 1) = r._blockNum + i := by omega
      have hu2 : 0 + (i - 1) = i - 1 := by omega
      rw [hb, hu2, List.getD_eq_getElem?_getD (List.set _ _ _),
        List.getElem?_set_ne (by omega), ← List.getD_eq_getElem?_getD]
  · show sub64 _ _ = _
    have hg : (set1.take (set1.length - 1)).getD m Block.zero = set1.getD m Block.zero := by
      rw [List.getD_eq_getElem?_getD, List.getElem?_take_of_lt (by omega),
        ← List.getD_eq_getElem?_getD]
    rw [hg, hd1]
    have hB : BLOCK_BYTES + BLOCK_BYTES = 64 := rfl
    rw [hB]
    generalize (set1.getD m Block.zero).data
      ((Hash_SHA256_Block H (r._currentBlockSet.getD (m - 1) Block.zero)).data 0 %
        BLOCK_BYTES) = pb at hbyte ⊢
    have h64 : 96 ≤ r._inputSize := by omega
    rw [Nat.mod_eq_of_lt (by unfold W64; omega)]
    exact sub64_eq _ _ (by omega) (by unfold W64; omega)

end WilhelmSCP

namespace WilhelmSCP

/-! ## The count in the pad block -/

/-- A last read of one or two blocks (no real block before the pad block): `decCBC`
leaves the vector. -/
theorem decCBC_short (H : List Nat → List Nat) (r : Session)
    (hfin : r._inputSize ≤ r._indexToStream) (h32 : 32 ≤ r._inputSize)
    (hW : r._inputSize < 2 ^ 63)
    (hlen : r._currentBlockSet.length = 1 ∨ r._currentBlockSet.length = 2)
    (hrel : ((r._inputSize - 32) % 4096) / 32 + 1 = r._currentBlockSet.length) :
    decCBC H r = .error .memory := by
  have hd1 : decInputSize1 r = r._inputSize - 32 := by
    unfold decInputSize1
    rw [if_pos hfin]
    exact sub64_eq _ _ h32 (by unfold W64; omega)
  have hrel' : decRelativeBlockCount r + 1 = r._currentBlockSet.length := by
    unfold decRelativeBlockCount
    rw [if_pos hfin, hd1]
    exact hrel
  have hx0 : r._currentBlockSet[0]? = some (r._currentBlockSet.getD 0 Block.zero) :=
    getElem_of_lt_getD (by omega)
  unfold decCBC
  simp only [hx0]
  rcases hlen with h1 | h2
  · have hr0 : decRelativeBlockCount r = 0 := by omega
    have hl : (r._currentBlockSet.set 0 ((blockDec r._baseKey r._clusterNum r._blockNum
        (r._currentBlockSet.getD 0 Block.zero)).xor r._lastBlockPrevCluster)).length = 0 + 1 := by
      simp only [List.length_set]
      omega
    rw [hr0, hl, decCBCLoop]
    have hn : (r._currentBlockSet.set 0 ((blockDec r._baseKey r._clusterNum r._blockNum
        (r._currentBlockSet.getD 0 Block.zero)).xor r._lastBlockPrevCluster))[1]? = none := by
      rw [List.getElem?_eq_none]
      simp only [List.length_set]
      omega
    have hn' : r._currentBlockSet[1]? = none := List.getElem?_eq_none (by omega)
    simp [hn']
  · have hr1 : decRelativeBlockCount r = 1 := by omega
    rw [hr1, decCBCLoop.eq_def]
    simp only [↓reduceIte]
    rw [if_pos (by rw [hd1]; omega)]

/-- The last cluster through `encCBC` and back through `decCBC`: the statement of the
count in the pad block together with the chain of ciphertext blocks and the position
the receiver is left at. -/
theorem lastCluster_roundtrip (H : List Nat → List Nat) (padRaw : List Nat)
    (s r : Session) (trailer : Block)
    (hfin : s._inputSize ≤ s._indexToStream) (hL : s._inputSize < 2 ^ 62)
    (hk : s._currentBlockSet.length = tempBlockNum s._inputSize)
    (hgood1 : s._inputSize % 4096 ≠ 0) (hgood2 : s._inputSize % 4096 ≤ 4032)
    (hrsize : r._inputSize = roundedUpInputSize s._inputSize + 2 * BLOCK_BYTES)
    (hrfin : r._inputSize ≤ r._indexToStream) (hkey : r._baseKey = s._baseKey)
    (hcn : r._clusterNum = s._clusterNum) (hbn : r._blockNum = s._blockNum)
    (hcarry : r._lastBlockPrevCluster = s._lastBlockPrevCluster) :
    ∃ s1 cs pad, encCBC H padRaw s = .ok s1 ∧
      cs.length = tempBlockNum s._inputSize ∧ 1 ≤ cs.length ∧
      pad = Padding H padRaw s._inputSize (cs.getD (cs.length - 1) Block.zero) ∧
      pad.data ((Hash_SHA256_Block H (cs.getD (cs.length - 1) Block.zero)).data 0 % BLOCK_BYTES) =
        s._inputSize % BLOCK_BYTES ∧
      s1._currentBlockSet = cs ++ [blockEnc s._baseKey s._clusterNum (s._blockNum + cs.length)
        (pad.xor (cs.getD (cs.length - 1) Block.zero))] ∧
      (∀ i, i < cs.length → cs[i]? =
        some (blockEnc s._baseKey s._clusterNum (s._blockNum + i)
          ((s._currentBlockSet.getD i Block.zero).xor
            (if i = 0 then s._lastBlockPrevCluster else cs.getD (i - 1) Block.zero)))) ∧
      ∃ r1, decCBC H { r with _currentBlockSet := s1._currentBlockSet ++ [trailer] } =
          .ok (r1, trailer) ∧
        (s1._currentBlockSet ++ [trailer]).getD (cs.length - 1) Block.zero =
          cs.getD (cs.length - 1) Block.zero ∧
        r1._currentBlockSet = s._currentBlockSet ++ [pad] ∧
        r1._inputSize = roundedUpInputSize s._inputSize - 32 + s._inputSize % BLOCK_BYTES ∧
        r1._indexToStream = r._indexToStream := by
  have hk1 : 1 ≤ tempBlockNum s._inputSize := by
    unfold tempBlockNum CLUSTER_BYTES BLOCK_BYTES
    split_ifs <;> omega
  have hk126 : tempBlockNum s._inputSize ≤ 126 := by
    unfold tempBlockNum CLUSTER_BYTES BLOCK_BYTES
    split_ifs <;> omega
  have hrelE : encRelativeBlockCount s = s._currentBlockSet.length - 1 := by
    rw [hk]
    unfold encRelativeBlockCount tempBlockNum CLUSTER_BYTES BLOCK_BYTES W64
    rw [if_pos hfin]
    split_ifs <;> omega
  obtain ⟨s1, cs, e1, e2, e3, e4, e5, e6, e7, e8, e9, e10⟩ :=
    encCBC_final H padRaw s hfin (by omega) hrelE
  have hcl : cs.length = tempBlockNum s._inputSize := by omega
  have hD : roundedUpInputSize s._inputSize + 2 * BLOCK_BYTES - 32 =
      roundedUpInputSize s._inputSize + 32 := by
    unfold BLOCK_BYTES
    omega
  have hDrel : ((roundedUpInputSize s._inputSize + 2 * BLOCK_BYTES - 32) % 4096) / 32 =
      cs.length + 1 := by
    rw [hcl]
    unfold roundedUpInputSize tempBlockNum CLUSTER_BYTES BLOCK_BYTES W64
    split_ifs <;> omega
  have hDW : roundedUpInputSize s._inputSize + 2 * BLOCK_BYTES < 2 ^ 63 := by
    unfold roundedUpInputSize BLOCK_BYTES W64
    split_ifs <;> omega
  have hlenR : (s1._currentBlockSet ++ [trailer]).length = cs.length + 2 := by
    rw [e4]
    simp
  obtain ⟨r1, d1, d2, d3, d4, d5⟩ := decCBC_final_spec H
    { r with _currentBlockSet := s1._currentBlockSet ++ [trailer] } cs.length (by omega)
    hrfin (by rw [hrsize]; exact hDW) hlenR (by rw [hrsize]; exact hDrel)
    (by rw [hrsize]; unfold BLOCK_BYTES; omega)
  have htr : (s1._currentBlockSet ++ [trailer]).getD (cs.length + 1) Block.zero = trailer := by
    apply getD_of_getElem
    rw [e4, List.append_assoc, List.getElem?_append_right (by omega)]
    simp
  have hget : ∀ i, i < cs.length →
      (s1._currentBlockSet ++ [trailer]).getD i Block.zero = cs.getD i Block.zero := by
    intro i hi
    rw [e4, List.append_assoc, List.getD_eq_getElem?_getD, List.getElem?_append_left hi,
      ← List.getD_eq_getElem?_getD]
  have hpadE : (s1._currentBlockSet ++ [trailer]).getD cs.length Block.zero =
      blockEnc s._baseKey s._clusterNum (s._blockNum + cs.length)
        ((Padding H padRaw s._inputSize (cs.getD (cs.length - 1) Block.zero)).xor
          (cs.getD (cs.length - 1) Block.zero)) := by
    apply getD_of_getElem
    rw [e4, List.append_assoc, List.getElem?_append_right (by omega)]
    simp
  have hdec : r1._currentBlockSet = s._currentBlockSet ++
      [Padding H padRaw s._inputSize (cs.getD (cs.length - 1) Block.zero)] := by
    apply List.ext_getElem?
    intro i
    by_cases hi : i < cs.length + 1
    · rw [d3 i hi]
      simp only [hkey, hcn, hbn, hcarry]
      by_cases hic : i = cs.length
      · subst hic
        rw [hpadE, blockDec_blockEnc_cancel, if_neg (by omega), hget _ (by omega),
          block_xor_xor_cancel, List.getElem?_append_right (by omega)]
        simp [e2]
      · have hil : i < cs.length := by omega
        rw [hget i hil, getD_of_getElem (e3 i hil), blockDec_blockEnc_cancel,
          List.getElem?_append_left (by omega),
          getElem_of_lt_getD (show i < s._currentBlockSet.length by omega)]
        by_cases hz : i = 0
        · simp only [hz, if_true, block_xor_xor_cancel]
        · simp only [hz, if_false]
          rw [hget _ (by omega), block_xor_xor_cancel]
    · rw [List.getElem?_eq_none (by omega), List.getElem?_eq_none (by simp; omega)]
  have hpb : (Padding H padRaw s._inputSize (cs.getD (cs.length - 1) Block.zero)).data
      ((Hash_SHA256_Block H (cs.getD (cs.length - 1) Block.zero)).data 0 % BLOCK_BYTES) =
      s._inputSize % BLOCK_BYTES := by
    have h := block_data_setData (IVGenerator H padRaw)
      ((Hash_SHA256_Block H (cs.getD (cs.length - 1) Block.zero)).data 0 % BLOCK_BYTES)
      (s._inputSize % BLOCK_BYTES) (Nat.mod_lt _ (by decide))
    have hlt : s._inputSize % BLOCK_BYTES % 256 = s._inputSize % BLOCK_BYTES :=
      Nat.mod_eq_of_lt (lt_trans (Nat.mod_lt _ (by decide)) (by decide))
    rw [hlt] at h
    exact h
  refine ⟨s1, cs, _, e1, hcl, by omega, rfl, hpb, e4, e3, r1, ?_, hget _ (by omega), hdec, ?_, d5⟩
  · have d1' := d1
    simp only [htr] at d1'
    exact d1'
  · rw [d4]
    have hmm : (r1._currentBlockSet.getD cs.length Block.zero) =
        Padding H padRaw s._inputSize (cs.getD (cs.length - 1) Block.zero) := by
      apply getD_of_getElem
      rw [hdec, List.getElem?_append_right (by omega)]
      simp [e2]
    rw [hmm]
    simp only
    rw [hget _ (by omega), hpb, hrsize]
    unfold BLOCK_BYTES
    have := Nat.mod_lt s._inputSize (show 0 < 32 by decide)
    have hge : 32 ≤ roundedUpInputSize s._inputSize := by
      unfold roundedUpInputSize BLOCK_BYTES W64
      split_ifs <;> omega
    omega

/-- C37. The count in the pad block. For every plaintext length `L` with
`L % 4096` in `1 .. 4032`, at the last cluster: `encCBC` makes the pad block from the
last real block as encrypted (`x`), the pad block holds `L % 32` at the offset
`H(x)[0] % 32`, and it is sent XORed with `x` and encrypted at the next block index.
`decCBC` on the received cluster followed by the trailer, with the size
`roundedUp(L) + 64` the receiver holds, hashes the received block before the pad
block (the same `x`), decodes the real blocks and the pad block, reads `L % 32` and
sets the size to `roundedUp(L) - 32 + L % 32`. On the last reads of one or two blocks
that the receiver makes for `L % 4096` in `4033 .. 4095` there is no block before
the pad block and `decCBC` leaves the vector. -/
theorem padding_metadata_recovered (H : List Nat → List Nat) (padRaw : List Nat)
    (s r : Session) (trailer : Block)
    (hfin : s._inputSize ≤ s._indexToStream) (hL : s._inputSize < 2 ^ 62)
    (hk : s._currentBlockSet.length = tempBlockNum s._inputSize)
    (hgood1 : s._inputSize % 4096 ≠ 0) (hgood2 : s._inputSize % 4096 ≤ 4032)
    (hrsize : r._inputSize = roundedUpInputSize s._inputSize + 2 * BLOCK_BYTES)
    (hrfin : r._inputSize ≤ r._indexToStream) (hkey : r._baseKey = s._baseKey)
    (hcn : r._clusterNum = s._clusterNum) (hbn : r._blockNum = s._blockNum)
    (hcarry : r._lastBlockPrevCluster = s._lastBlockPrevCluster) :
    (∃ s1 cs pad, encCBC H padRaw s = .ok s1 ∧
      cs.length = tempBlockNum s._inputSize ∧ 1 ≤ cs.length ∧
      pad = Padding H padRaw s._inputSize (cs.getD (cs.length - 1) Block.zero) ∧
      pad.data ((Hash_SHA256_Block H (cs.getD (cs.length - 1) Block.zero)).data 0 % BLOCK_BYTES) =
        s._inputSize % BLOCK_BYTES ∧
      s1._currentBlockSet = cs ++ [blockEnc s._baseKey s._clusterNum (s._blockNum + cs.length)
        (pad.xor (cs.getD (cs.length - 1) Block.zero))] ∧
      ∃ r1, decCBC H { r with _currentBlockSet := s1._currentBlockSet ++ [trailer] } =
          .ok (r1, trailer) ∧
        (s1._currentBlockSet ++ [trailer]).getD (cs.length - 1) Block.zero =
          cs.getD (cs.length - 1) Block.zero ∧
        r1._currentBlockSet = s._currentBlockSet ++ [pad] ∧
        r1._inputSize = roundedUpInputSize s._inputSize - 32 + s._inputSize % BLOCK_BYTES) ∧
    (∀ r2 : Session, r2._inputSize ≤ r2._indexToStream → 32 ≤ r2._inputSize →
      r2._inputSize < 2 ^ 63 →
      r2._currentBlockSet.length = 1 ∨ r2._currentBlockSet.length = 2 →
      ((r2._inputSize - 32) % 4096) / 32 + 1 = r2._currentBlockSet.length →
      decCBC H r2 = .error .memory) := by
  refine ⟨?_, fun r2 h1 h2 h3 h4 h5 => decCBC_short H r2 h1 h2 h3 h4 h5⟩
  obtain ⟨s1, cs, pad, a1, a2, a3, a4, a5, a6, _, r1, b1, b2, b3, b4, _⟩ :=
    lastCluster_roundtrip H padRaw s r trailer hfin hL hk hgood1 hgood2 hrsize hrfin hkey hcn
      hbn hcarry
  exact ⟨s1, cs, pad, a1, a2, a3, a4, a5, a6, r1, b1, b2, b3, b4⟩

theorem padding_metadata_recovered_witness :
    ∃ s1 cs pad, encCBC sampleHash [] sampleLast = .ok s1 ∧
      s1._currentBlockSet = cs ++ [pad] ∧
      ∃ r1, decCBC sampleHash
          { sampleLastRecv with _currentBlockSet := s1._currentBlockSet ++ [Block.zero] } =
          .ok (r1, Block.zero) ∧ r1._inputSize = 64 - 32 + 40 % 32 :=
  let ⟨s1, cs, _, h1, _, _, _, _, h2, r1, h3, _, _, h4⟩ :=
    (padding_metadata_recovered sampleHash [] sampleLast sampleLastRecv Block.zero
      (by decide) (by decide) (by decide) (by decide) (by decide) (by decide) (by decide)
      rfl rfl rfl rfl).1
  ⟨s1, cs, _, h1, h2, r1, h3, h4⟩

end WilhelmSCP

namespace WilhelmSCP

/-! ## Blocks that fit 32 bytes stay so under encryption -/

theorem block_zero_valid : Block.zero.valid := by
  unfold Block.valid Block.zero W64
  decide

theorem block_xor_valid (a b : Block) (ha : a.valid) (hb : b.valid) : (a.xor b).valid := by
  obtain ⟨a0, a1, a2, a3⟩ := ha
  obtain ⟨b0, b1, b2, b3⟩ := hb
  exact ⟨Nat.xor_lt_two_pow a0 b0, Nat.xor_lt_two_pow a1 b1, Nat.xor_lt_two_pow a2 b2,
    Nat.xor_lt_two_pow a3 b3⟩

theorem subLane_lt (w : Nat) : subLane w < W64 := by
  unfold subLane
  apply laneOfBytes_lt
  simp [laneBytes_length]

theorem shl64_lt (x c : Nat) : shl64 x c < W64 := by
  unfold shl64
  exact Nat.mod_lt _ (by unfold W64; positivity)

theorem shr64_lt (x c : Nat) (hx : x < W64) : shr64 x c < W64 := by
  unfold shr64
  rw [Nat.shiftRight_eq_div_pow]
  exact lt_of_le_of_lt (Nat.div_le_self _ _) hx

theorem rorLRSide_lt (x : LRSide) (n : Nat) (h0 : x.l0 < W64) (h1 : x.l1 < W64) :
    (rorLRSide x n).l0 < W64 ∧ (rorLRSide x n).l1 < W64 := by
  unfold rorLRSide
  exact ⟨Nat.or_lt_two_pow (shr64_lt _ _ h0) (shl64_lt _ _),
    Nat.or_lt_two_pow (shr64_lt _ _ h1) (shl64_lt _ _)⟩

theorem feistel_lt (key : Block) (c b r : Nat) (x : LRSide) :
    (feistel key c b r x).l0 < W64 ∧ (feistel key c b r x).l1 < W64 := by
  unfold feistel
  exact rorLRSide_lt _ _ (subLane_lt _) (subLane_lt _)

theorem roundEnc_valid (key : Block) (c b r : Nat) (x : Block) (hx : x.valid) :
    (roundEnc key c b r x).valid := by
  obtain ⟨x0, x1, x2, x3⟩ := hx
  unfold roundEnc
  have f1 := feistel_lt key c b r x.R
  have f2 := feistel_lt key c b r (x.L.xor (feistel key c b r x.R))
  exact ⟨Nat.xor_lt_two_pow x0 f1.1, Nat.xor_lt_two_pow x1 f1.2,
    Nat.xor_lt_two_pow x2 f2.1, Nat.xor_lt_two_pow x3 f2.2⟩

theorem encRounds_valid (key : Block) (c b : Nat) :
    ∀ (n r : Nat) (x : Block), x.valid → (encRounds key c b n r x).valid := by
  intro n
  induction n with
  | zero =>
    intro r x hx
    exact hx
  | succ n ih =>
    intro r x hx
    rw [encRounds]
    exact ih _ _ (roundEnc_valid key c b r x hx)

theorem blockEnc_valid (key : Block) (c b : Nat) (x : Block) (hx : x.valid) :
    (blockEnc key c b x).valid :=
  encRounds_valid key c b _ _ x hx

/-- Ciphertext blocks of a chain over blocks that fit 32 bytes fit 32 bytes. -/
theorem chain_valid (key : Block) (c bn : Nat) (last : Block) (ps cs : List Block)
    (hch : ∀ i, i < cs.length → cs[i]? =
      some (blockEnc key c (bn + i) ((ps.getD i Block.zero).xor
        (if i = 0 then last else cs.getD (i - 1) Block.zero))))
    (hps : ∀ i, (ps.getD i Block.zero).valid) (hlast : last.valid) :
    ∀ i, (cs.getD i Block.zero).valid := by
  intro i
  induction i with
  | zero =>
    by_cases h : 0 < cs.length
    · rw [getD_of_getElem (hch 0 h)]
      simp only [if_true]
      exact blockEnc_valid _ _ _ _ (block_xor_valid _ _ (hps 0) hlast)
    · rw [List.getD_eq_getElem?_getD, List.getElem?_eq_none (by omega)]
      exact block_zero_valid
  | succ i ih =>
    by_cases h : i + 1 < cs.length
    · rw [getD_of_getElem (hch (i + 1) h)]
      simp only [Nat.add_one_ne_zero, if_false, Nat.add_sub_cancel]
      exact blockEnc_valid _ _ _ _ (block_xor_valid _ _ (hps (i + 1)) ih)
    · rw [List.getD_eq_getElem?_getD, List.getElem?_eq_none (by omega)]
      exact block_zero_valid

/-! ## Bytes of a vector of blocks -/

theorem bytesOfBlocks_length (bs : List Block) : (bytesOfBlocks bs).length = 32 * bs.length := by
  induction bs with
  | nil => rfl
  | cons b bs ih =>
    unfold bytesOfBlocks at ih ⊢
    rw [List.flatMap_cons, List.length_append, ih, block_toBytes_length, List.length_cons]
    omega

theorem bytesOfBlocks_append (as bs : List Block) :
    bytesOfBlocks (as ++ bs) = bytesOfBlocks as ++ bytesOfBlocks bs := by
  unfold bytesOfBlocks
  exact List.flatMap_append _ _ _

theorem bytesOfBlocks_singleton (b : Block) : bytesOfBlocks [b] = b.toBytes := by
  unfold bytesOfBlocks
  simp

theorem storeBytes_getD (n : Nat) (bs : List Nat) (i : Nat) (hi : i < n) :
    (storeBytes n bs).getD i Block.zero = Block.ofBytes ((bs.drop (32 * i)).take 32) := by
  apply getD_of_getElem
  unfold storeBytes
  rw [List.getElem?_map, List.getElem?_range hi]
  rfl

theorem storeBytes_valid (n : Nat) (bs : List Nat) (i : Nat) :
    ((storeBytes n bs).getD i Block.zero).valid := by
  by_cases hi : i < n
  · rw [storeBytes_getD n bs i hi]
    exact block_ofBytes_valid _
  · rw [List.getD_eq_getElem?_getD, List.getElem?_eq_none (by rw [storeBytes_length]; omega)]
    exact block_zero_valid

end WilhelmSCP

namespace WilhelmSCP

/-! ## The stream `encrypt` sends -/

/-- One pass of the loop of `encrypt` over a cluster that is not the last one: 4096
bytes are sent and the counters advance by 127 blocks and one cluster. -/
theorem encryptCluster_nonfinal (H : List Nat → List Nat) (padRaw : List Nat) (s1 : Session)
    (hashes : List Block) (sent : List Nat)
    (hnf : s1._indexToStream < s1._inputSize) (hlen : s1._currentBlockSet.length = 128)
    (hval : ∀ i, (s1._currentBlockSet.getD i Block.zero).valid)
    (hlast : s1._lastBlockPrevCluster.valid) :
    ∃ s2 hashes1 bytes, encryptCluster H padRaw s1 hashes sent =
        (sent ++ bytes, .ok (s2, hashes1)) ∧
      bytes.length = 4096 ∧ s2._lastBlockPrevCluster.valid ∧
      s2._blockNum = s1._blockNum + 127 ∧ s2._clusterNum = s1._clusterNum + 1 ∧
      s2._baseKey = s1._baseKey ∧ s2._inputSize = s1._inputSize ∧
      s2._indexToStream = s1._indexToStream := by
  obtain ⟨e, e1, e2, e3, e4, e5, e6, e7, e8, e9⟩ := encCBC_nonfinal H padRaw s1 hnf hlen
  have hv := chain_valid s1._baseKey s1._clusterNum s1._blockNum s1._lastBlockPrevCluster
    s1._currentBlockSet e._currentBlockSet (fun i hi => e3 i (by omega)) hval hlast
  have hsz : encSendSize e = e._currentBlockSet.length * BLOCK_BYTES := by
    unfold encSendSize
    rw [if_pos (by rw [e8, e9]; exact hnf)]
  have hbl := bytesOfBlocks_length e._currentBlockSet
  refine ⟨{ e with _currentBlockSet := [] },
    hashes ++ [Hash_SHA256_Current_Cluster H s1._currentBlockSet],
    bytesOfBlocks e._currentBlockSet, ?_, ?_, ?_, e5, e6, e7, e8, e9⟩
  · unfold encryptCluster
    simp only [e1, hsz]
    rw [if_pos (le_refl _), List.take_of_length_le (by rw [hbl]; unfold BLOCK_BYTES; omega)]
  · rw [hbl, e2]
  · show e._lastBlockPrevCluster.valid
    rw [e4]
    exact hv 127

/-- The pass of the loop of `encrypt` over the last cluster of a file whose length
is no multiple of 4096: the real blocks but the last (`pre`), the last real block as
encrypted (`x`) and the encrypted pad block are sent. -/
theorem encryptCluster_final (H : List Nat → List Nat) (padRaw : List Nat) (s1 : Session)
    (hashes : List Block) (sent : List Nat)
    (hfin : s1._inputSize ≤ s1._indexToStream) (hidx : s1._indexToStream = s1._inputSize)
    (h0 : s1._inputSize % 4096 ≠ 0)
    (hlen : s1._currentBlockSet.length = tempBlockNum s1._inputSize)
    (hval : ∀ i, (s1._currentBlockSet.getD i Block.zero).valid)
    (hlast : s1._lastBlockPrevCluster.valid) :
    ∃ s2 hashes1 pre x, encryptCluster H padRaw s1 hashes sent =
        (sent ++ (pre ++ x.toBytes ++
          (blockEnc s1._baseKey s1._clusterNum (s1._blockNum + tempBlockNum s1._inputSize)
            ((Padding H padRaw s1._inputSize x).xor x)).toBytes), .ok (s2, hashes1)) ∧
      pre.length = 32 * (tempBlockNum s1._inputSize - 1) ∧ x.valid := by
  have hk1 : 1 ≤ tempBlockNum s1._inputSize := by
    unfold tempBlockNum CLUSTER_BYTES BLOCK_BYTES
    split_ifs <;> omega
  have hrelE : encRelativeBlockCount s1 = s1._currentBlockSet.length - 1 := by
    rw [hlen]
    unfold encRelativeBlockCount tempBlockNum CLUSTER_BYTES BLOCK_BYTES W64
    rw [if_pos hfin]
    split_ifs <;> omega
  obtain ⟨e, cs, e1, e2, e3, e4, e5, e6, e7, e8, e9, e10⟩ :=
    encCBC_final H padRaw s1 hfin (by omega) hrelE
  have hcl : cs.length = tempBlockNum s1._inputSize := by omega
  have hv := chain_valid s1._baseKey s1._clusterNum s1._blockNum s1._lastBlockPrevCluster
    s1._currentBlockSet cs e3 hval hlast
  have hsz : encSendSize e = e._currentBlockSet.length * BLOCK_BYTES := by
    unfold encSendSize
    rw [if_neg (by rw [e9, e10]; omega), e9, e4]
    simp only [List.length_append, List.length_singleton, hcl]
    unfold tempBlockNum CLUSTER_BYTES BLOCK_BYTES
    split_ifs <;> omega
  have hbl := bytesOfBlocks_length e._currentBlockSet
  have hsplit : cs = cs.take (cs.length - 1) ++ [cs.getD (cs.length - 1) Block.zero] := by
    conv_lhs => rw [← List.take_append_drop (cs.length - 1) cs]
    congr 1
    apply List.ext_getElem?
    intro i
    by_cases hi : i = 0
    · subst hi
      rw [List.getElem?_drop, Nat.add_zero, getElem_of_lt_getD (by omega)]
      rfl
    · rw [List.getElem?_eq_none (by simp; omega), List.getElem?_eq_none (by simp; omega)]
  refine ⟨{ e with _currentBlockSet := [] },
    hashes ++ [Hash_SHA256_Current_Cluster H s1._currentBlockSet],
    bytesOfBlocks (cs.take (cs.length - 1)),
    cs.getD (cs.length - 1) Block.zero, ?_, ?_, hv _⟩
  · unfold encryptCluster
    simp only [e1, hsz]
    rw [if_pos (le_refl _), List.take_of_length_le (by rw [hbl]; unfold BLOCK_BYTES; omega), e4]
    conv_lhs => rw [hsplit]
    rw [bytesOfBlocks_append, bytesOfBlocks_append, bytesOfBlocks_singleton,
      bytesOfBlocks_singleton]
    have hcl' : (cs.take (cs.length - 1) ++ [cs.getD (cs.length - 1) Block.zero]).length =
        tempBlockNum s1._inputSize := by
      rw [← hsplit]
      exact hcl
    have hg : (cs.take (cs.length - 1) ++ [cs.getD (cs.length - 1) Block.zero]).getD
        ((cs.take (cs.length - 1) ++ [cs.getD (cs.length - 1) Block.zero]).length - 1)
        Block.zero = cs.getD (cs.length - 1) Block.zero := by
      rw [← hsplit]
    rw [hg, hcl']
  · rw [bytesOfBlocks_length, List.length_take, hcl]
    congr 1
    omega

/-- The loop of `encrypt` from cluster `j` on, for a file whose length `L` is no
multiple of 4096: `4096 * (L / 4096 - j)` bytes of full clusters and the real blocks
of the last cluster but the last one (`pre`), then the last real block as encrypted
and the encrypted pad block. -/
theorem encryptLoop_stream (H : List Nat → List Nat) (padRaw file : List Nat) (key : Block)
    (h0 : file.length % 4096 ≠ 0) (hL : file.length < 2 ^ 62) :
    ∀ (m j fuel : Nat) (s : Session) (hashes : List Block) (sent : List Nat),
      j + m = file.length / 4096 → m + 1 ≤ fuel →
      s._indexToStream = 4096 * j → s._blockNum = 127 * j → s._clusterNum = j →
      s._inputSize = file.length → s._baseKey = key → s._lastBlockPrevCluster.valid →
      ∃ hashes1 pre x, encryptLoop H padRaw file fuel s hashes sent =
          (sent ++ (pre ++ x.toBytes ++
            (blockEnc key (file.length / 4096)
              (127 * (file.length / 4096) + tempBlockNum file.length)
              ((Padding H padRaw file.length x).xor x)).toBytes), .ok hashes1) ∧
        pre.length = 4096 * m + 32 * (tempBlockNum file.length - 1) ∧ x.valid := by
  intro m
  induction m with
  | zero =>
    intro j fuel s hashes sent hj hfuel hi hb hc hsz hk hlast
    obtain ⟨fuel, rfl⟩ : ∃ f, fuel = f + 1 := ⟨fuel - 1, by omega⟩
    have hq : j = file.length / 4096 := by omega
    rw [encryptLoop]
    have hcond : ¬ (s._indexToStream + CLUSTER_BYTES) % W64 < s._inputSize := by
      rw [hi, hsz]
      unfold CLUSTER_BYTES W64
      omega
    rw [if_neg hcond]
    have hbytes : ((file.drop s._indexToStream).take
        (s._inputSize - s._indexToStream + 1)).length = file.length % 4096 := by
      rw [List.length_take, List.length_drop, hi, hsz]
      omega
    have hfit : ¬ BLOCK_BYTES * tempBlockNum s._inputSize <
        ((file.drop s._indexToStream).take (s._inputSize - s._indexToStream + 1)).length := by
      rw [hbytes, hsz]
      unfold tempBlockNum CLUSTER_BYTES BLOCK_BYTES
      split_ifs <;> omega
    simp only
    rw [if_neg hfit]
    obtain ⟨s2, hashes1, pre, x, e1, e2, e3⟩ := encryptCluster_final H padRaw
      { s with
        _currentBlockSet := storeBytes (tempBlockNum s._inputSize)
          ((file.drop s._indexToStream).take (s._inputSize - s._indexToStream + 1))
        _indexToStream := s._inputSize } hashes sent (le_refl _) rfl
      (by show s._inputSize % 4096 ≠ 0; rw [hsz]; exact h0)
      (by rw [storeBytes_length]) (fun i => storeBytes_valid _ _ i) hlast
    simp only at e1 e2
    rw [e1]
    simp only
    refine ⟨hashes1, pre, x, ?_, ?_, e3⟩
    · rw [hsz, hk, hb, hc, hq]
    · rw [e2, hsz]
      omega
  | succ m ih =>
    intro j fuel s hashes sent hj hfuel hi hb hc hsz hk hlast
    obtain ⟨fuel, rfl⟩ : ∃ f, fuel = f + 1 := ⟨fuel - 1, by omega⟩
    rw [encryptLoop]
    have hlt : 4096 * j + 4096 < file.length := by
      have := Nat.div_add_mod file.length 4096
      have : 4096 * (j + (m + 1)) = 4096 * (file.length / 4096) := by rw [hj]
      omega
    have hcond : (s._indexToStream + CLUSTER_BYTES) % W64 < s._inputSize := by
      rw [hi, hsz]
      unfold CLUSTER_BYTES W64
      omega
    have hmod : (s._indexToStream + CLUSTER_BYTES) % W64 = 4096 * (j + 1) := by
      rw [hi]
      unfold CLUSTER_BYTES W64
      omega
    rw [if_pos hcond]
    obtain ⟨s2, hashes1, bytes, e1, e2, e3, e4, e5, e6, e7, e8⟩ := encryptCluster_nonfinal H
      padRaw
      { s with
        _currentBlockSet := storeBytes (CLUSTER_BYTES / BLOCK_BYTES)
          ((file.drop s._indexToStream).take CLUSTER_BYTES)
        _indexToStream := (s._indexToStream + CLUSTER_BYTES) % W64 } hashes sent
      (by show (s._indexToStream + CLUSTER_BYTES) % W64 < s._inputSize; exact hcond)
      (by rw [storeBytes_length]; rfl) (fun i => storeBytes_valid _ _ i) hlast
    simp only at e1 e4 e5 e6 e7 e8
    simp only
    rw [e1]
    simp only
    obtain ⟨hashes2, pre, x, i1, i2, i3⟩ := ih (j + 1) fuel s2 hashes1 (sent ++ bytes)
      (by omega) (by omega) (by rw [e8, hmod]) (by rw [e4, hb]; omega) (by rw [e5, hc])
      (by rw [e7, hsz]) (by rw [e6, hk]) e3
    refine ⟨hashes2, bytes ++ pre, x, ?_, ?_, i3⟩
    · rw [i1]
      simp only [List.append_assoc]
    · rw [List.length_append, e2, i2]
      omega

/-- What `encrypt` sends for a file whose length `L` is no multiple of 4096: the
length field, the name, the IV, `4096 * (L / 4096)` bytes of full clusters and the
real blocks of the last cluster but the last one, the last real block as encrypted,
the encrypted pad block, and the trailer. -/
theorem encrypt_stream (H : List Nat → List Nat) (ivRaw padRaw : List Nat) (key : Block)
    (name file : List Nat) (hkey : key ≠ Block.zero) (hname : name.length ≤ 4096)
    (h0 : file.length % 4096 ≠ 0) (hL : file.length < 2 ^ 62) :
    ∃ (pre : List Nat) (x trailer : Block), encrypt H ivRaw padRaw key name (some file) =
        ⟨leBytes 8 (roundedUpInputSize file.length) ++ leBytes 4 name.length ++ name ++
          (IVGenerator H ivRaw).toBytes ++
          (pre ++ x.toBytes ++
            (blockEnc key (file.length / 4096)
              (127 * (file.length / 4096) + tempBlockNum file.length)
              ((Padding H padRaw file.length x).xor x)).toBytes) ++ trailer.toBytes, .ok ()⟩ ∧
      pre.length = 4096 * (file.length / 4096) + 32 * (tempBlockNum file.length - 1) ∧
      x.valid := by
  have hiv : (IVGenerator H ivRaw).valid := by
    unfold IVGenerator HASHING_REPEATS
    rw [Function.iterate_succ_apply']
    exact block_ofBytes_valid _
  obtain ⟨hashes1, pre, x, e1, e2, e3⟩ := encryptLoop_stream H padRaw file key h0 hL
    (file.length / 4096) 0 (file.length / CLUSTER_BYTES + 1)
    { _indexToStream := 0, _blockNum := 0, _clusterNum := 0, _inputSize := file.length
      _baseKey := key, _lastBlockPrevCluster := IVGenerator H ivRaw, _currentBlockSet := [] }
    [] (leBytes 8 (roundedUpInputSize file.length) ++ leBytes 4 (name.length % 2 ^ 32) ++
      name.take (name.length % 2 ^ 32) ++ (IVGenerator H ivRaw).toBytes)
    (by omega) (by unfold CLUSTER_BYTES; omega) rfl rfl rfl rfl rfl hiv
  have hn : name.length % 2 ^ 32 = name.length := Nat.mod_eq_of_lt (by omega)
  refine ⟨pre, x, Hash_SHA256_Current_Cluster H hashes1, ?_, e2, e3⟩
  unfold encrypt
  simp only [if_neg hkey]
  rw [if_neg (by rw [hn]; omega), e1]
  simp only [hn, List.take_length]

end WilhelmSCP

namespace WilhelmSCP

/-! ## The reads of `decrypt` -/

theorem laneOfBytes_leBytes : ∀ (k x : Nat), laneOfBytes (leBytes k x) = x % 256 ^ k := by
  intro k
  induction k with
  | zero =>
    intro x
    simp [leBytes, laneOfBytes, Nat.mod_one]
  | succ k ih =>
    intro x
    rw [leBytes, laneOfBytes, ih, Nat.mod_mod, pow_succ, Nat.mul_comm (256 ^ k) 256,
      Nat.mod_mul]

theorem recvN_append (a b : List Nat) (n : Nat) (h : a.length = n) :
    recvN n (a ++ b) = some (a, b) := by
  unfold recvN
  rw [if_pos (by rw [List.length_append]; omega)]
  subst h
  rw [List.take_left', List.drop_left']
  · rfl
  · rfl

theorem slice_append (a b c : List Nat) (N : Nat) (hN : a.length + b.length ≤ N) :
    (((a ++ b ++ c).take N).drop a.length).take b.length = b := by
  rw [List.drop_take, List.append_assoc, List.drop_left', List.take_take,
    Nat.min_eq_left (by omega), List.take_left']
  · rfl
  · rfl

/-- One read of a cluster that is not the last one: `decCBC` returns whatever the
4096 bytes are, the counters advance by 127 blocks and one cluster. -/
theorem decryptLoop_nonfinal (H : List Nat → List Nat) (fuel : Nat) (s : Session)
    (stream : List Nat) (out : DecOut)
    (hcond : s._indexToStream + 4096 < s._inputSize) (hW : s._inputSize < 2 ^ 63)
    (hlen : 4096 ≤ stream.length) :
    ∃ s1 out1, decryptLoop H (fuel + 1) s stream out =
        decryptLoop H fuel s1 (stream.drop 4096) out1 ∧
      s1._indexToStream = s._indexToStream + 4096 ∧ s1._blockNum = s._blockNum + 127 ∧
      s1._clusterNum = s._clusterNum + 1 ∧ s1._inputSize = s._inputSize ∧
      s1._baseKey = s._baseKey ∧
      out1.received.map List.length = out.received.map List.length ++ [128] := by
  have hmod : (s._indexToStream + CLUSTER_BYTES) % W64 = s._indexToStream + 4096 := by
    unfold CLUSTER_BYTES W64
    omega
  have hrecv : recvN CLUSTER_BYTES stream = some (stream.take 4096, stream.drop 4096) := by
    unfold recvN CLUSTER_BYTES
    rw [if_pos hlen]
  obtain ⟨s2, d1, d2, d3, d4, d5, d6, d7, d8, d9⟩ := decCBC_nonfinal_spec H
    { s with
      _currentBlockSet := storeBytes (CLUSTER_BYTES / BLOCK_BYTES) (stream.take 4096)
      _indexToStream := (s._indexToStream + CLUSTER_BYTES) % W64 }
    (by show (s._indexToStream + CLUSTER_BYTES) % W64 < s._inputSize; rw [hmod]; exact hcond)
    (by rw [storeBytes_length]; rfl)
  simp only at d5 d6 d7 d8 d9
  have hws : writeSize s2 = CLUSTER_BYTES := by
    unfold writeSize
    rw [if_pos (by rw [d8, d9, hmod]; exact hcond)]
  have hsp : stripPad s2 = s2._currentBlockSet := by
    unfold stripPad
    rw [if_neg (by rw [d8, d9, hmod]; omega)]
  rw [decryptLoop]
  rw [if_pos (by rw [hmod]; exact hcond), hrecv]
  simp only
  unfold decryptCluster
  simp only [d1, hws, hsp]
  rw [if_pos (by rw [d2]; unfold CLUSTER_BYTES BLOCK_BYTES; omega)]
  refine ⟨_, _, rfl, ?_, d5, d6, d8, d7, ?_⟩
  · show s2._indexToStream = _
    rw [d9, hmod]
  · simp only [List.map_append, List.map_cons, List.map_nil, storeBytes_length]
    rfl

/-- The reads of `n` clusters that are not the last one. -/
theorem decryptLoop_skip (H : List Nat → List Nat) :
    ∀ (n fuel : Nat) (s : Session) (stream : List Nat) (out : DecOut),
      (n = 0 ∨ s._indexToStream + 4096 * n < s._inputSize) → s._inputSize < 2 ^ 63 →
      4096 * n ≤ stream.length →
      ∃ s1 out1, decryptLoop H (fuel + n) s stream out =
          decryptLoop H fuel s1 (stream.drop (4096 * n)) out1 ∧
        s1._indexToStream = s._indexToStream + 4096 * n ∧
        s1._blockNum = s._blockNum + 127 * n ∧ s1._clusterNum = s._clusterNum + n ∧
        s1._inputSize = s._inputSize ∧ s1._baseKey = s._baseKey ∧
        out1.received.map List.length =
          out.received.map List.length ++ List.replicate n 128 := by
  intro n
  induction n with
  | zero =>
    intro fuel s stream out _ _ _
    exact ⟨s, out, by simp, by simp, by simp, by simp, rfl, rfl, by simp⟩
  | succ n ih =>
    intro fuel s stream out hn hW hlen
    have hn' : s._indexToStream + 4096 * (n + 1) < s._inputSize := by
      rcases hn with h | h
      · omega
      · exact h
    obtain ⟨s1, out1, e1, e2, e3, e4, e5, e6, e7⟩ := decryptLoop_nonfinal H (fuel + n) s stream
      out (by omega) hW (by omega)
    obtain ⟨s2, out2, f1, f2, f3, f4, f5, f6, f7⟩ := ih fuel s1 (stream.drop 4096) out1
      (by
        by_cases h0 : n = 0
        · exact Or.inl h0
        · right
          rw [e2, e5]
          omega)
      (by rw [e5]; exact hW) (by rw [List.length_drop]; omega)
    refine ⟨s2, out2, ?_, ?_, ?_, ?_, ?_, ?_, ?_⟩
    · have hdd : (stream.drop 4096).drop (4096 * n) = stream.drop (4096 * (n + 1)) := by
        rw [List.drop_drop]
        congr 1
        omega
      rw [show fuel + (n + 1) = fuel + n + 1 by omega, e1, f1, hdd]
    · rw [f2, e2]
      omega
    · rw [f3, e3]
      omega
    · rw [f4, e4]
      omega
    · rw [f5, e5]
    · rw [f6, e6]
    · rw [f7, e7, List.append_assoc, List.replicate_succ]
      rfl

/-- The last read when it holds one or two blocks: `decCBC` leaves the vector and
`decrypt` ends with a memory fault. -/
theorem decryptLoop_short (H : List Nat → List Nat) (fuel : Nat) (s : Session)
    (stream : List Nat) (out : DecOut) (m : Nat) (hm : m = 1 ∨ m = 2)
    (hcond : ¬ s._indexToStream + 4096 < s._inputSize) (hW : s._inputSize < 2 ^ 63)
    (hcount : s._inputSize = s._indexToStream + 32 * m)
    (hrel : ((s._inputSize - 32) % 4096) / 32 + 1 = m) (hlen : 32 * m ≤ stream.length) :
    (decryptLoop H (fuel + 1) s stream out).status = .error .memory ∧
      (decryptLoop H (fuel + 1) s stream out).received.map List.length =
        out.received.map List.length ++ [m] := by
  have hmod : (s._indexToStream + CLUSTER_BYTES) % W64 = s._indexToStream + 4096 := by
    unfold CLUSTER_BYTES W64
    omega
  have hsub : sub64 s._inputSize s._indexToStream = 32 * m :=
    by rw [sub64_eq _ _ (by omega) (by unfold W64; omega)]; omega
  have hrecv : recvN (32 * m) stream = some (stream.take (32 * m), stream.drop (32 * m)) := by
    unfold recvN
    rw [if_pos hlen]
  have hdiv : 32 * m / BLOCK_BYTES = m := by
    unfold BLOCK_BYTES
    omega
  have hd := decCBC_short H
    { s with
      _currentBlockSet := storeBytes m (stream.take (32 * m))
      _indexToStream := s._inputSize }
    (le_refl _) (by show 32 ≤ s._inputSize; omega) hW
    (by
      show (storeBytes m _).length = 1 ∨ (storeBytes m _).length = 2
      rw [storeBytes_length]
      exact hm)
    (by
      show _ = (storeBytes m _).length
      rw [storeBytes_length]
      exact hrel)
  rw [decryptLoop]
  rw [if_neg (by rw [hmod]; exact hcond), hsub]
  simp only [hrecv, hdiv]
  rw [if_neg (by unfold BLOCK_BYTES; omega)]
  unfold decryptCluster
  simp only [hd]
  simp [storeBytes_length]

/-- The last read when it holds `k` real blocks (`1 ≤ k ≤ 126`), the pad block and
the trailer, the pad block being the encryption at block index `_blockNum + k` of a
pad block XORed with the block before it, and holding a count of at most 32 at the
offset given by the hash of that block: `decCBC` returns, the sizes fit and `decrypt`
ends with the comparison of the trailer. -/
theorem decryptLoop_last (H : List Nat → List Nat) (fuel : Nat) (s : Session)
    (stream : List Nat) (out : DecOut) (k : Nat) (hk : 1 ≤ k) (hk126 : k ≤ 126)
    (hcond : ¬ s._indexToStream + 4096 < s._inputSize) (hW : s._inputSize < 2 ^ 63)
    (hcount : s._inputSize = s._indexToStream + 32 * (k + 2))
    (h32 : s._inputSize % 32 = 0)
    (hrel : ((s._inputSize - 32) % 4096) / 32 = k + 1) (hlen : 32 * (k + 2) ≤ stream.length)
    (x pad : Block) (hx : x.valid) (hpad : pad.valid)
    (hsx : ((stream.take (32 * (k + 2))).drop (32 * (k - 1))).take 32 = x.toBytes)
    (hsp : ((stream.take (32 * (k + 2))).drop (32 * k)).take 32 =
      (blockEnc s._baseKey s._clusterNum (s._blockNum + k) (pad.xor x)).toBytes)
    (hbyte : pad.data ((Hash_SHA256_Block H x).data 0 % BLOCK_BYTES) ≤ 32) :
    (∃ b, (decryptLoop H (fuel + 1) s stream out).status = .ok b) ∧
      (decryptLoop H (fuel + 1) s stream out).received.map List.length =
        out.received.map List.length ++ [k + 2] := by
  have hmod : (s._indexToStream + CLUSTER_BYTES) % W64 = s._indexToStream + 4096 := by
    unfold CLUSTER_BYTES W64
    omega
  have hsub : sub64 s._inputSize s._indexToStream = 32 * (k + 2) :=
    by rw [sub64_eq _ _ (by omega) (by unfold W64; omega)]; omega
  have hrecv : recvN (32 * (k + 2)) stream =
      some (stream.take (32 * (k + 2)), stream.drop (32 * (k + 2))) := by
    unfold recvN
    rw [if_pos hlen]
  have hdiv : 32 * (k + 2) / BLOCK_BYTES = k + 2 := by
    unfold BLOCK_BYTES
    omega
  obtain ⟨r1, d1, d2, d3, d4, d5⟩ := decCBC_final_spec H
    { s with
      _currentBlockSet := storeBytes (k + 2) (stream.take (32 * (k + 2)))
      _indexToStream := s._inputSize }
    k hk (le_refl _) hW (by rw [storeBytes_length]) hrel (by show 32 ≤ s._inputSize; omega)
  simp only at d3 d4 d5
  have hgx : (storeBytes (k + 2) (stream.take (32 * (k + 2)))).getD (k - 1) Block.zero = x := by
    rw [storeBytes_getD _ _ _ (by omega), hsx]
    exact block_ofBytes_toBytes x hx
  have hgp : (storeBytes (k + 2) (stream.take (32 * (k + 2)))).getD k Block.zero =
      blockEnc s._baseKey s._clusterNum (s._blockNum + k) (pad.xor x) := by
    rw [storeBytes_getD _ _ _ (by omega), hsp]
    exact block_ofBytes_toBytes _ (blockEnc_valid _ _ _ _ (block_xor_valid _ _ hpad hx))
  have hpadD : r1._currentBlockSet.getD k Block.zero = pad := by
    apply getD_of_getElem
    rw [d3 k (by omega), if_neg (by omega), hgp, hgx, blockDec_blockEnc_cancel,
      block_xor_xor_cancel]
  rw [hpadD, hgx] at d4
  have hws : writeSize r1 ≤ (stripPad r1).length * BLOCK_BYTES := by
    have hsp' : stripPad r1 = r1._currentBlockSet.take (r1._currentBlockSet.length - 1) := by
      unfold stripPad
      rw [if_pos (by rw [d4, d5]; omega)]
    rw [hsp', List.length_take, d2]
    unfold writeSize
    rw [if_neg (by rw [d4, d5]; omega), d4]
    unfold CLUSTER_BYTES BLOCK_BYTES
    unfold BLOCK_BYTES at hbyte
    omega
  rw [decryptLoop]
  rw [if_neg (by rw [hmod]; exact hcond), hsub]
  simp only [hrecv, hdiv]
  rw [if_neg (by unfold BLOCK_BYTES; omega)]
  unfold decryptCluster
  simp only [d1]
  rw [if_pos hws]
  exact ⟨⟨_, rfl⟩, by simp [storeBytes_length]⟩

/-- `decrypt` on a stream that starts with a length field, a name of at most 4096
bytes and 32 bytes of IV: the loop starts on what follows, with the declared length
plus 64. -/
theorem decrypt_header (H : List Nat → List Nat) (key : Block) (hkey : key ≠ Block.zero)
    (D : Nat) (hD : D < 2 ^ 63) (name ivb body : List Nat) (hname : name.length ≤ 4096)
    (hiv : ivb.length = 32) :
    decrypt H key (leBytes 8 D ++ leBytes 4 name.length ++ name ++ ivb ++ body) =
      decryptLoop H (body.length / CLUSTER_BYTES + 1)
        { _indexToStream := 0, _blockNum := 0, _clusterNum := 0, _inputSize := D + 64
          _baseKey := key, _lastBlockPrevCluster := Block.ofBytes ivb, _currentBlockSet := [] }
        body (DecOut.start name (.error .transport)) := by
  have h8 : recvN 8 (leBytes 8 D ++ leBytes 4 name.length ++ name ++ ivb ++ body) =
      some (leBytes 8 D, leBytes 4 name.length ++ name ++ ivb ++ body) := by
    rw [List.append_assoc, List.append_assoc, List.append_assoc]
    rw [recvN_append _ _ 8 (leBytes_length _ _)]
    simp only [List.append_assoc]
  have h4 : recvN 4 (leBytes 4 name.length ++ name ++ ivb ++ body) =
      some (leBytes 4 name.length, name ++ ivb ++ body) := by
    rw [List.append_assoc, List.append_assoc]
    rw [recvN_append _ _ 4 (leBytes_length _ _)]
    simp only [List.append_assoc]
  have hl8 : laneOfBytes (leBytes 8 D) = D := by
    rw [laneOfBytes_leBytes]
    exact Nat.mod_eq_of_lt (by omega)
  have hl4 : laneOfBytes (leBytes 4 name.length) = name.length := by
    rw [laneOfBytes_leBytes]
    exact Nat.mod_eq_of_lt (by omega)
  have hn : recvN name.length (name ++ ivb ++ body) = some (name, ivb ++ body) := by
    rw [List.append_assoc]
    exact recvN_append _ _ _ rfl
  have hi : recvN BLOCK_BYTES (ivb ++ body) = some (ivb, body) :=
    recvN_append _ _ _ hiv
  unfold decrypt
  rw [if_neg hkey, h8]
  simp only [h4, hl8, hl4]
  rw [if_neg (by omega)]
  simp only [hn, hi]
  have : (D + 2 * BLOCK_BYTES) % W64 = D + 64 := by
    unfold BLOCK_BYTES W64
    omega
  rw [this]

end WilhelmSCP

namespace WilhelmSCP

/-! ## Sender and receiver: where the stream is split into clusters -/

theorem padding_valid (H : List Nat → List Nat) (padRaw : List Nat) (L : Nat) (x : Block) :
    (Padding H padRaw L x).valid ∧
      (Padding H padRaw L x).data ((Hash_SHA256_Block H x).data 0 % BLOCK_BYTES) =
        L % BLOCK_BYTES := by
  constructor
  · unfold Padding Block.setData
    exact block_ofBytes_valid _
  · have h := block_data_setData (IVGenerator H padRaw)
      ((Hash_SHA256_Block H x).data 0 % BLOCK_BYTES) (L % BLOCK_BYTES)
      (Nat.mod_lt _ (by decide))
    have hlt : L % BLOCK_BYTES % 256 = L % BLOCK_BYTES :=
      Nat.mod_eq_of_lt (lt_trans (Nat.mod_lt _ (by decide)) (by decide))
    rw [hlt] at h
    exact h

/-- C39. Where sender and receiver split the stream. For every file whose length `L`
is no multiple of 4096 (`encrypt` faults on the multiples), `encrypt` returns after
sending the header, `L / 4096` clusters of 128 blocks and a last cluster of the
remaining real blocks (at least one) and the pad block, then the trailer. When
`L % 4096` is at most 4032, `decrypt` reads `L / 4096` clusters of 128 blocks and one
last read of the remaining real blocks, the pad block and the trailer, and ends with
the comparison of the trailer. When `L % 4096` is 4033 or more, `decrypt` reads one
cluster of 128 blocks more than the sender formed, its last read holds one or two
blocks, none of them a real block, and it ends with a memory fault. -/
theorem receiver_cluster_split (H : List Nat → List Nat) (ivRaw padRaw : List Nat)
    (key : Block) (name file : List Nat) (hkey : key ≠ Block.zero)
    (hname : name.length ≤ 4096) (h0 : file.length % 4096 ≠ 0) (hL : file.length < 2 ^ 62) :
    (encrypt H ivRaw padRaw key name (some file)).status = .ok () ∧
    (encrypt H ivRaw padRaw key name (some file)).sent.length =
      8 + 4 + name.length + 32 +
        (4096 * (file.length / 4096) + 32 * (tempBlockNum file.length + 1)) + 32 ∧
    1 ≤ tempBlockNum file.length ∧
    (file.length % 4096 ≤ 4032 →
      (decrypt H key (encrypt H ivRaw padRaw key name (some file)).sent).received.map
          List.length =
        List.replicate (file.length / 4096) 128 ++ [tempBlockNum file.length + 2] ∧
      ∃ b, (decrypt H key (encrypt H ivRaw padRaw key name (some file)).sent).status =
        .ok b) ∧
    (4033 ≤ file.length % 4096 →
      (decrypt H key (encrypt H ivRaw padRaw key name (some file)).sent).received.map
          List.length =
        List.replicate (file.length / 4096 + 1) 128 ++ [tempBlockNum file.length - 126] ∧
      tempBlockNum file.length - 126 ≤ 2 ∧
      (decrypt H key (encrypt H ivRaw padRaw key name (some file)).sent).status =
        .error .memory) := by
  obtain ⟨pre, x, trailer, he, hpre, hx⟩ :=
    encrypt_stream H ivRaw padRaw key name file hkey hname h0 hL
  have hk1 : 1 ≤ tempBlockNum file.length := by
    unfold tempBlockNum CLUSTER_BYTES BLOCK_BYTES
    split_ifs <;> omega
  have hk128 : tempBlockNum file.length ≤ 128 := by
    unfold tempBlockNum CLUSTER_BYTES BLOCK_BYTES
    split_ifs <;> omega
  have hD : roundedUpInputSize file.length =
      4096 * (file.length / 4096) + 32 * tempBlockNum file.length := by
    unfold roundedUpInputSize tempBlockNum CLUSTER_BYTES BLOCK_BYTES W64
    split_ifs <;> omega
  have hkgood : file.length % 4096 ≤ 4032 → tempBlockNum file.length ≤ 126 := by
    intro h
    unfold tempBlockNum CLUSTER_BYTES BLOCK_BYTES
    split_ifs <;> omega
  have hkbad : 4033 ≤ file.length % 4096 → 127 ≤ tempBlockNum file.length := by
    intro h
    unfold tempBlockNum CLUSTER_BYTES BLOCK_BYTES
    split_ifs <;> omega
  obtain ⟨pv, pb⟩ := padding_valid H padRaw file.length x
  generalize hpe : blockEnc key (file.length / 4096)
    (127 * (file.length / 4096) + tempBlockNum file.length)
    ((Padding H padRaw file.length x).xor x) = padEnc at he
  generalize hq : file.length / 4096 = q at *
  generalize hk : tempBlockNum file.length = k at *
  have hbl : (pre ++ x.toBytes ++ padEnc.toBytes ++ trailer.toBytes).length =
      4096 * q + 32 * (k + 2) := by
    simp only [List.length_append, block_toBytes_length, hpre]
    omega
  have hstream : (encrypt H ivRaw padRaw key name (some file)).sent =
      leBytes 8 (roundedUpInputSize file.length) ++ leBytes 4 name.length ++ name ++
        (IVGenerator H ivRaw).toBytes ++
        (pre ++ x.toBytes ++ padEnc.toBytes ++ trailer.toBytes) := by
    rw [he]
    simp only [List.append_assoc]
  have hdec := decrypt_header H key hkey (roundedUpInputSize file.length) (by rw [hD]; omega)
    name (IVGenerator H ivRaw).toBytes (pre ++ x.toBytes ++ padEnc.toBytes ++ trailer.toBytes)
    hname (block_toBytes_length _)
  rw [← hstream] at hdec
  have hdrop : ∀ n, n ≤ 4096 * q →
      (pre ++ x.toBytes ++ padEnc.toBytes ++ trailer.toBytes).drop n =
        pre.drop n ++ x.toBytes ++ padEnc.toBytes ++ trailer.toBytes := by
    intro n hn
    rw [List.append_assoc, List.append_assoc, List.drop_append_of_le_length (by omega)]
    simp only [List.append_assoc]
  refine ⟨by rw [he], ?_, hk1, ?_, ?_⟩
  · rw [hstream]
    simp only [List.length_append, leBytes_length, block_toBytes_length, hpre]
    omega
  · intro hgood
    have hk126 := hkgood hgood
    rw [hdec, hbl]
    obtain ⟨f, hf⟩ : ∃ f, (4096 * q + 32 * (k + 2)) / CLUSTER_BYTES + 1 = f + 1 + q := by
      refine ⟨(4096 * q + 32 * (k + 2)) / CLUSTER_BYTES - q, ?_⟩
      unfold CLUSTER_BYTES
      omega
    rw [hf]
    obtain ⟨s1, out1, e1, e2, e3, e4, e5, e6, e7⟩ := decryptLoop_skip H q (f + 1)
      { _indexToStream := 0, _blockNum := 0, _clusterNum := 0
        _inputSize := roundedUpInputSize file.length + 64
        _baseKey := key, _lastBlockPrevCluster := Block.ofBytes (IVGenerator H ivRaw).toBytes
        _currentBlockSet := [] }
      (pre ++ x.toBytes ++ padEnc.toBytes ++ trailer.toBytes)
      (DecOut.start name (.error .transport))
      (by
        right
        show 0 + 4096 * q < roundedUpInputSize file.length + 64
        rw [hD]
        omega)
      (by
        show roundedUpInputSize file.length + 64 < 2 ^ 63
        rw [hD]
        omega)
      (by rw [hbl]; omega)
    simp only at e2 e3 e4 e5 e6
    rw [e1, hdrop _ (le_refl _)]
    have hpl : (pre.drop (4096 * q)).length = 32 * (k - 1) := by
      rw [List.length_drop, hpre]
      omega
    have hsx := slice_append (pre.drop (4096 * q)) x.toBytes
      (padEnc.toBytes ++ trailer.toBytes) (32 * (k + 2))
      (by rw [hpl, block_toBytes_length]; omega)
    have hsp := slice_append (pre.drop (4096 * q) ++ x.toBytes) padEnc.toBytes
      trailer.toBytes (32 * (k + 2))
      (by rw [List.length_append, hpl, block_toBytes_length, block_toBytes_length]; omega)
    rw [hpl, block_toBytes_length] at hsx
    rw [List.length_append, hpl, block_toBytes_length, block_toBytes_length] at hsp
    have h32k : 32 * (k - 1) + 32 = 32 * k := by omega
    rw [h32k] at hsp
    simp only [← List.append_assoc] at hsx hsp
    obtain ⟨⟨b, hb⟩, hrec⟩ := decryptLoop_last H f s1
      (pre.drop (4096 * q) ++ x.toBytes ++ padEnc.toBytes ++ trailer.toBytes) out1 k hk1 hk126
      (by rw [e2, e5, hD]; omega) (by rw [e5, hD]; omega) (by rw [e2, e5, hD]; omega)
      (by rw [e5, hD]; omega) (by rw [e5, hD]; omega)
      (by
        simp only [List.length_append, hpl, block_toBytes_length]
        omega)
      x (Padding H padRaw file.length x) hx pv hsx
      (by
        rw [hsp, e6, e4, e3, ← hpe]
        simp only [Nat.zero_add])
      (by
        rw [pb]
        exact le_of_lt (Nat.mod_lt _ (by decide)))
    refine ⟨?_, b, hb⟩
    rw [hrec, e7]
    rfl
  · intro hbad
    have hk127 := hkbad hbad
    rw [hdec, hbl]
    obtain ⟨f, hf⟩ : ∃ f, (4096 * q + 32 * (k + 2)) / CLUSTER_BYTES + 1 = f + 1 + (q + 1) := by
      refine ⟨(4096 * q + 32 * (k + 2)) / CLUSTER_BYTES - (q + 1), ?_⟩
      unfold CLUSTER_BYTES
      omega
    rw [hf]
    obtain ⟨s1, out1, e1, e2, e3, e4, e5, e6, e7⟩ := decryptLoop_skip H (q + 1) (f + 1)
      { _indexToStream := 0, _blockNum := 0, _clusterNum := 0
        _inputSize := roundedUpInputSize file.length + 64
        _baseKey := key, _lastBlockPrevCluster := Block.ofBytes (IVGenerator H ivRaw).toBytes
        _currentBlockSet := [] }
      (pre ++ x.toBytes ++ padEnc.toBytes ++ trailer.toBytes)
      (DecOut.start name (.error .transport))
      (by
        right
        show 0 + 4096 * (q + 1) < roundedUpInputSize file.length + 64
        rw [hD]
        omega)
      (by
        show roundedUpInputSize file.length + 64 < 2 ^ 63
        rw [hD]
        omega)
      (by rw [hbl]; omega)
    simp only at e2 e3 e4 e5 e6
    rw [e1]
    obtain ⟨hst, hrec⟩ := decryptLoop_short H f s1
      ((pre ++ x.toBytes ++ padEnc.toBytes ++ trailer.toBytes).drop (4096 * (q + 1))) out1
      (k - 126) (by omega)
      (by rw [e2, e5, hD]; omega) (by rw [e5, hD]; omega) (by rw [e2, e5, hD]; omega)
      (by rw [e5, hD]; omega)
      (by rw [List.length_drop, hbl]; omega)
    refine ⟨?_, by omega, hst⟩
    rw [hrec, e7]
    rfl

theorem receiver_cluster_split_witness :
    (decrypt sampleHash sampleKey
      (encrypt sampleHash [] [] sampleKey [] (some (sampleFile 5))).sent).received.map
        List.length = List.replicate (5 / 4096) 128 ++ [tempBlockNum 5 + 2] :=
  ((receiver_cluster_split sampleHash [] [] sampleKey [] (sampleFile 5) (by decide)
    (by decide) (by decide) (by decide)).2.2.2.1 (by decide)).1

end WilhelmSCP

namespace WilhelmSCP

/-! ## A file of at most 4032 bytes, sent and received -/

theorem storeBytes_succ_append (n : Nat) (a rest : List Nat) (ha : a.length = 32) :
    storeBytes (n + 1) (a ++ rest) = Block.ofBytes a :: storeBytes n rest := by
  unfold storeBytes
  rw [List.range_succ_eq_map, List.map_cons, List.map_map]
  congr 1
  · show Block.ofBytes (((a ++ rest).drop (BLOCK_BYTES * 0)).take 32) = _
    rw [Nat.mul_zero, List.drop_zero, List.take_left' ha]
  · apply List.map_congr_left
    intro i _
    show Block.ofBytes (((a ++ rest).drop (BLOCK_BYTES * (i + 1))).take BLOCK_BYTES) = _
    have h : BLOCK_BYTES * (i + 1) = a.length + BLOCK_BYTES * i := by
      rw [ha]
      unfold BLOCK_BYTES
      omega
    rw [h, ← List.drop_drop, List.drop_left]

/-- Blocks that fit 32 bytes, sent and followed by 32 more bytes, arrive as they
were, followed by the block of those bytes. -/
theorem storeBytes_blocks (X : List Block) (t : List Nat) (hX : ∀ b ∈ X, b.valid)
    (ht : t.length = 32) :
    storeBytes (X.length + 1) (bytesOfBlocks X ++ t) = X ++ [Block.ofBytes t] := by
  induction X with
  | nil =>
    have h := storeBytes_succ_append 0 t [] ht
    rw [List.append_nil] at h
    rw [List.length_nil, Nat.zero_add, List.nil_append]
    show storeBytes 1 ([] ++ t) = _
    rw [List.nil_append, h]
    rfl
  | cons b X ih =>
    have hb : bytesOfBlocks (b :: X) = b.toBytes ++ bytesOfBlocks X := by
      unfold bytesOfBlocks
      rw [List.flatMap_cons]
    rw [hb, List.append_assoc, List.length_cons,
      storeBytes_succ_append _ _ _ (block_toBytes_length b),
      block_ofBytes_toBytes b (hX b (List.mem_cons_self _ _)),
      ih (fun c hc => hX c (List.mem_cons_of_mem _ hc))]
    rfl

theorem iv_valid (H : List Nat → List Nat) (ivRaw : List Nat) : (IVGenerator H ivRaw).valid := by
  unfold IVGenerator HASHING_REPEATS
  rw [Function.iterate_succ_apply']
  exact block_ofBytes_valid _

/-- What `encrypt` sends for a file of 1 to 4032 bytes: the header, the blocks
`encCBC` leaves for the only cluster, and the hash of the hash of the plaintext
blocks. -/
theorem encrypt_short (H : List Nat → List Nat) (ivRaw padRaw : List Nat) (key : Block)
    (name file : List Nat) (hkey : key ≠ Block.zero) (hname : name.length ≤ 4096)
    (h0 : 0 < file.length) (h1 : file.length ≤ 4032) :
    ∃ s1, encCBC H padRaw
        { _indexToStream := file.length, _blockNum := 0, _clusterNum := 0
          _inputSize := file.length, _baseKey := key
          _lastBlockPrevCluster := IVGenerator H ivRaw
          _currentBlockSet := storeBytes (tempBlockNum file.length) file } = .ok s1 ∧
      encrypt H ivRaw padRaw key name (some file) =
        ⟨leBytes 8 (roundedUpInputSize file.length) ++ leBytes 4 name.length ++ name ++
          (IVGenerator H ivRaw).toBytes ++ bytesOfBlocks s1._currentBlockSet ++
          (Hash_SHA256_Current_Cluster H
            [Hash_SHA256_Current_Cluster H
              (storeBytes (tempBlockNum file.length) file)]).toBytes, .ok ()⟩ := by
  have hk1 : 1 ≤ tempBlockNum file.length := by
    unfold tempBlockNum CLUSTER_BYTES BLOCK_BYTES
    split_ifs <;> omega
  have hrelE : encRelativeBlockCount
      { _indexToStream := file.length, _blockNum := 0, _clusterNum := 0
        _inputSize := file.length, _baseKey := key
        _lastBlockPrevCluster := IVGenerator H ivRaw
        _currentBlockSet := storeBytes (tempBlockNum file.length) file } =
      (storeBytes (tempBlockNum file.length) file).length - 1 := by
    rw [storeBytes_length]
    unfold encRelativeBlockCount tempBlockNum CLUSTER_BYTES BLOCK_BYTES W64
    simp only [le_refl, if_true]
    split_ifs <;> omega
  obtain ⟨e, cs, e1, e2, e3, e4, e5, e6, e7, e8, e9, e10⟩ :=
    encCBC_final H padRaw
      { _indexToStream := file.length, _blockNum := 0, _clusterNum := 0
        _inputSize := file.length, _baseKey := key
        _lastBlockPrevCluster := IVGenerator H ivRaw
        _currentBlockSet := storeBytes (tempBlockNum file.length) file }
      (le_refl _) (by rw [storeBytes_length]; exact hk1) hrelE
  simp only [storeBytes_length] at e2
  simp only at e9 e10
  have hsz : encSendSize e = e._currentBlockSet.length * BLOCK_BYTES := by
    unfold encSendSize
    rw [if_neg (by rw [e9, e10]; omega), e9, e4]
    simp only [List.length_append, List.length_singleton, e2]
    unfold tempBlockNum CLUSTER_BYTES BLOCK_BYTES
    split_ifs <;> omega
  have hbl := bytesOfBlocks_length e._currentBlockSet
  have hn : name.length % 2 ^ 32 = name.length := Nat.mod_eq_of_lt (by omega)
  have hfuel : file.length / CLUSTER_BYTES + 1 = 0 + 1 := by
    unfold CLUSTER_BYTES
    omega
  have hcond : ¬ (0 + CLUSTER_BYTES) % W64 < file.length := by
    unfold CLUSTER_BYTES W64
    omega
  have hbytes : (file.drop 0).take (file.length - 0 + 1) = file := by
    rw [List.drop_zero, List.take_of_length_le (by omega)]
  have hfit : ¬ BLOCK_BYTES * tempBlockNum file.length < file.length := by
    unfold tempBlockNum CLUSTER_BYTES BLOCK_BYTES
    split_ifs <;> omega
  refine ⟨e, e1, ?_⟩
  unfold encrypt
  simp only [if_neg hkey]
  rw [if_neg (by rw [hn]; omega), hfuel, encryptLoop]
  simp only [if_neg hcond, hbytes, if_neg hfit]
  unfold encryptCluster
  simp only [e1, hsz]
  rw [if_pos (le_refl _)]
  simp only [hn, List.take_length, List.nil_append]
  rw [List.take_of_length_le (by rw [hbl]; unfold BLOCK_BYTES; omega)]

/-- The last read of `decrypt` when it holds blocks that fit 32 bytes followed by 32
bytes of trailer and `decCBC` returns on them: the pad block is dropped, the decoded
blocks are hashed and written up to the recovered size, and the trailer is compared
with the hash of the cluster hashes. -/
theorem decryptLoop_last_run (H : List Nat → List Nat) (fuel : Nat) (s : Session)
    (X : List Block) (t : List Nat) (out : DecOut) (r1 : Session) (orig : Block)
    (hcond : ¬ (s._indexToStream + CLUSTER_BYTES) % W64 < s._inputSize)
    (hsub : sub64 s._inputSize s._indexToStream = 32 * (X.length + 1))
    (hX : ∀ b ∈ X, b.valid) (ht : t.length = 32)
    (hdec : decCBC H { s with _currentBlockSet := X ++ [Block.ofBytes t]
                              _indexToStream := s._inputSize } = .ok (r1, orig))
    (hfin : r1._inputSize ≤ r1._indexToStream)
    (hws : r1._inputSize % CLUSTER_BYTES ≤ (r1._currentBlockSet.length - 1) * BLOCK_BYTES) :
    decryptLoop H (fuel + 1) s (bytesOfBlocks X ++ t) out =
      { out with
        received := out.received ++ [X ++ [Block.ofBytes t]]
        OrigHashChecksum := orig
        decoded := out.decoded ++ [r1._currentBlockSet.take (r1._currentBlockSet.length - 1)]
        clusterHashes := out.clusterHashes ++
          [Hash_SHA256_Current_Cluster H
            (r1._currentBlockSet.take (r1._currentBlockSet.length - 1))]
        written := out.written ++
          (bytesOfBlocks (r1._currentBlockSet.take (r1._currentBlockSet.length - 1))).take
            (r1._inputSize % CLUSTER_BYTES)
        status := .ok (decide (orig = Hash_SHA256_Current_Cluster H
          (out.clusterHashes ++
            [Hash_SHA256_Current_Cluster H
              (r1._currentBlockSet.take (r1._currentBlockSet.length - 1))]))) } := by
  have hlen : (bytesOfBlocks X ++ t).length = 32 * (X.length + 1) := by
    rw [List.length_append, bytesOfBlocks_length, ht]
    omega
  have hrecv : recvN (32 * (X.length + 1)) (bytesOfBlocks X ++ t) =
      some (bytesOfBlocks X ++ t, []) := by
    have h := recvN_append (bytesOfBlocks X ++ t) [] _ hlen
    rwa [List.append_nil] at h
  have hdiv : 32 * (X.length + 1) / BLOCK_BYTES = X.length + 1 := by
    unfold BLOCK_BYTES
    omega
  have hstore := storeBytes_blocks X t hX ht
  have hsp : stripPad r1 = r1._currentBlockSet.take (r1._currentBlockSet.length - 1) := by
    unfold stripPad
    rw [if_pos hfin]
  have hwsz : writeSize r1 = r1._inputSize % CLUSTER_BYTES := by
    unfold writeSize
    rw [if_neg (by omega)]
  have hws' : writeSize r1 ≤ (stripPad r1).length * BLOCK_BYTES := by
    rw [hwsz, hsp, List.length_take, Nat.min_eq_left (by omega)]
    exact hws
  rw [decryptLoop, if_neg hcond, hsub]
  simp only [hrecv, hdiv, hstore]
  rw [if_neg (by unfold BLOCK_BYTES; omega)]
  unfold decryptCluster
  simp only [hdec]
  rw [if_pos hws']
  simp only [hsp, hwsz]

/-- A file of 1 to 4032 bytes through `encrypt` and `decrypt`, for every hash, key, IV
and pad source. The stream ends with the trailer, the hash of the hash of the
plaintext blocks. Whatever 32 bytes arrive in the place of the trailer, `decrypt`
runs to the comparison: its result says whether the block of those bytes is that
hash, and it has written the bytes of the plaintext blocks up to the recovered size
`roundedUp(L) - 32 + L % 32`. -/
theorem short_file_run (H : List Nat → List Nat) (ivRaw padRaw : List Nat) (key : Block)
    (name file : List Nat) (hkey : key ≠ Block.zero) (hname : name.length ≤ 4096)
    (h0 : 0 < file.length) (h1 : file.length ≤ 4032) :
    ∃ pre : List Nat,
      encrypt H ivRaw padRaw key name (some file) =
        ⟨pre ++ (Hash_SHA256_Current_Cluster H
          [Hash_SHA256_Current_Cluster H
            (storeBytes (tempBlockNum file.length) file)]).toBytes, .ok ()⟩ ∧
      ∀ t : List Nat, t.length = 32 →
        (decrypt H key (pre ++ t)).status =
          .ok (decide (Block.ofBytes t = Hash_SHA256_Current_Cluster H
            [Hash_SHA256_Current_Cluster H (storeBytes (tempBlockNum file.length) file)])) ∧
        (decrypt H key (pre ++ t)).written =
          (bytesOfBlocks (storeBytes (tempBlockNum file.length) file)).take
            (roundedUpInputSize file.length - 32 + file.length % 32) := by
  obtain ⟨s1, e1, e2⟩ := encrypt_short H ivRaw padRaw key name file hkey hname h0 h1
  refine ⟨_, e2, ?_⟩
  intro t ht
  have hk1 : 1 ≤ tempBlockNum file.length := by
    unfold tempBlockNum CLUSTER_BYTES BLOCK_BYTES
    split_ifs <;> omega
  have hDk : roundedUpInputSize file.length = 32 * tempBlockNum file.length := by
    unfold roundedUpInputSize tempBlockNum CLUSTER_BYTES BLOCK_BYTES W64
    split_ifs <;> omega
  have hk126 : tempBlockNum file.length ≤ 126 := by
    unfold tempBlockNum CLUSTER_BYTES BLOCK_BYTES
    split_ifs <;> omega
  obtain ⟨s1', cs, pad, a1, a2, a3, a4, a5, a6, a7, r1, b1, b2, b3, b4, b5⟩ :=
    lastCluster_roundtrip H padRaw
      { _indexToStream := file.length, _blockNum := 0, _clusterNum := 0
        _inputSize := file.length, _baseKey := key
        _lastBlockPrevCluster := IVGenerator H ivRaw
        _currentBlockSet := storeBytes (tempBlockNum file.length) file }
      { _indexToStream := roundedUpInputSize file.length + 64, _blockNum := 0, _clusterNum := 0
        _inputSize := roundedUpInputSize file.length + 64, _baseKey := key
        _lastBlockPrevCluster := Block.ofBytes (IVGenerator H ivRaw).toBytes
        _currentBlockSet := [] }
      (Block.ofBytes t) (le_refl _) (by show file.length < 2 ^ 62; omega)
      (storeBytes_length _ _) (by show file.length % 4096 ≠ 0; omega)
      (by show file.length % 4096 ≤ 4032; omega) rfl (le_refl _) rfl rfl rfl
      (block_ofBytes_toBytes _ (iv_valid H ivRaw))
  have hs : s1' = s1 := by
    rw [e1] at a1
    exact (Except.ok.inj a1).symm
  subst hs
  simp only at a2 a4 a5 a6 a7 b1 b3 b4 b5
  have hv := chain_valid key 0 0 (IVGenerator H ivRaw)
    (storeBytes (tempBlockNum file.length) file) cs a7 (fun i => storeBytes_valid _ _ i)
    (iv_valid H ivRaw)
  have hXv : ∀ b ∈ s1'._currentBlockSet, b.valid := by
    intro b hb
    rw [a6, List.mem_append, List.mem_singleton] at hb
    rcases hb with hb | hb
    · obtain ⟨i, hi, rfl⟩ := List.getElem_of_mem hb
      have := hv i
      rw [List.getD_eq_getElem?_getD, List.getElem?_eq_getElem hi] at this
      exact this
    · rw [hb, a4]
      exact blockEnc_valid _ _ _ _ (block_xor_valid _ _ (padding_valid H padRaw _ _).1 (hv _))
  have hXl : s1'._currentBlockSet.length = tempBlockNum file.length + 1 := by
    rw [a6, List.length_append, List.length_singleton, a2]
  rw [List.append_assoc,
    decrypt_header H key hkey (roundedUpInputSize file.length) (by rw [hDk]; omega) name
      (IVGenerator H ivRaw).toBytes (bytesOfBlocks s1'._currentBlockSet ++ t) hname
      (block_toBytes_length _)]
  have hr1l : r1._currentBlockSet.length - 1 = tempBlockNum file.length := by
    rw [b3, List.length_append, List.length_singleton, storeBytes_length]
    omega
  have hstrip : r1._currentBlockSet.take (r1._currentBlockSet.length - 1) =
      storeBytes (tempBlockNum file.length) file := by
    rw [hr1l, b3]
    exact List.take_left' (storeBytes_length _ _)
  have hmod : file.length % BLOCK_BYTES < 32 := Nat.mod_lt _ (by decide)
  have hsz : r1._inputSize % CLUSTER_BYTES =
      roundedUpInputSize file.length - 32 + file.length % 32 := by
    rw [b4]
    unfold CLUSTER_BYTES BLOCK_BYTES
    unfold BLOCK_BYTES at hmod
    exact Nat.mod_eq_of_lt (by omega)
  rw [decryptLoop_last_run H _ _ s1'._currentBlockSet t _ r1 (Block.ofBytes t)
    (by
      show ¬ (0 + CLUSTER_BYTES) % W64 < roundedUpInputSize file.length + 64
      unfold CLUSTER_BYTES W64
      omega)
    (by
      show sub64 (roundedUpInputSize file.length + 64) 0 = _
      rw [sub64_eq _ _ (by omega) (by unfold W64; omega), hXl]
      omega)
    hXv ht b1
    (by
      rw [b4, b5]
      unfold BLOCK_BYTES at hmod ⊢
      omega)
    (by
      rw [hsz, hr1l]
      unfold BLOCK_BYTES
      have := Nat.mod_lt file.length (show 0 < 32 by decide)
      omega)]
  simp only [hstrip, hsz, DecOut.start, List.nil_append, and_self]

theorem hash_cluster_valid (H : List Nat → List Nat) (set : List Block) :
    (Hash_SHA256_Current_Cluster H set).valid :=
  block_ofBytes_valid _

/-- A file of 1 to 4032 bytes sent by `encrypt` and received by `decrypt`: both run
to completion, the hashes agree, and the bytes of the plaintext blocks are written up
to the recovered size `roundedUp(L) - 32 + L % 32`. -/
theorem short_file_roundtrip (H : List Nat → List Nat) (ivRaw padRaw : List Nat)
    (key : Block) (name file : List Nat) (hkey : key ≠ Block.zero)
    (hname : name.length ≤ 4096) (h0 : 0 < file.length) (h1 : file.length ≤ 4032) :
    (encrypt H ivRaw padRaw key name (some file)).status = .ok () ∧
    (decrypt H key (encrypt H ivRaw padRaw key name (some file)).sent).status = .ok true ∧
    (decrypt H key (encrypt H ivRaw padRaw key name (some file)).sent).written =
      (bytesOfBlocks (storeBytes (tempBlockNum file.length) file)).take
        (roundedUpInputSize file.length - 32 + file.length % 32) := by
  obtain ⟨pre, he, hd⟩ := short_file_run H ivRaw padRaw key name file hkey hname h0 h1
  obtain ⟨hs, hw⟩ := hd _ (block_toBytes_length _)
  rw [he]
  refine ⟨rfl, ?_, hw⟩
  rw [hs, block_ofBytes_toBytes _ (hash_cluster_valid H _)]
  simp only [decide_True]

theorem tamperLast_append (a b : List Nat) (hb : b ≠ []) :
    tamperLast (a ++ b) = a ++ tamperLast b := by
  unfold tamperLast
  rw [List.dropLast_append_of_ne_nil _ hb, List.append_assoc]
  congr 3
  rw [List.getLastD_eq_getLast?, List.getLastD_eq_getLast?, List.getLast?_append_of_ne_nil _ hb]

theorem tamperLast_length (b : List Nat) (hb : b ≠ []) : (tamperLast b).length = b.length := by
  unfold tamperLast
  rw [List.length_append, List.length_dropLast, List.length_singleton]
  have : 0 < b.length := List.length_pos.mpr hb
  omega

/-! ## Closed runs on the sample files -/

theorem sampleFile_length (n : Nat) : (sampleFile n).length = n := by
  simp [sampleFile]

set_option maxRecDepth 100000 in
theorem sampleStream_tampered_trailer :
    Block.ofBytes (tamperLast (Hash_SHA256_Current_Cluster sampleHash
      [Hash_SHA256_Current_Cluster sampleHash
        (storeBytes (tempBlockNum (sampleFile 5).length) (sampleFile 5))]).toBytes) ≠
    Hash_SHA256_Current_Cluster sampleHash
      [Hash_SHA256_Current_Cluster sampleHash
        (storeBytes (tempBlockNum (sampleFile 5).length) (sampleFile 5))] := by
  decide!

theorem sampleStream_run :
    (decrypt sampleHash sampleKey sampleStream).status = .ok true ∧
    (decrypt sampleHash sampleKey (tamperLast sampleStream)).status = .ok false := by
  have h0 : 0 < (sampleFile 5).length := by rw [sampleFile_length]; decide
  have h1 : (sampleFile 5).length ≤ 4032 := by rw [sampleFile_length]; decide
  refine ⟨(short_file_roundtrip sampleHash [] [] sampleKey [] (sampleFile 5) (by decide)
    (by decide) h0 h1).2.1, ?_⟩
  obtain ⟨pre, he, hd⟩ := short_file_run sampleHash [] [] sampleKey [] (sampleFile 5)
    (by decide) (by decide) h0 h1
  have hne : (Hash_SHA256_Current_Cluster sampleHash
      [Hash_SHA256_Current_Cluster sampleHash
        (storeBytes (tempBlockNum (sampleFile 5).length) (sampleFile 5))]).toBytes ≠ [] := by
    intro h
    have := block_toBytes_length (Hash_SHA256_Current_Cluster sampleHash
      [Hash_SHA256_Current_Cluster sampleHash
        (storeBytes (tempBlockNum (sampleFile 5).length) (sampleFile 5))])
    rw [h] at this
    exact absurd this (by decide)
  unfold sampleStream
  rw [he]
  show (decrypt sampleHash sampleKey (tamperLast (pre ++ _))).status = _
  rw [tamperLast_append _ _ hne,
    (hd _ (by rw [tamperLast_length _ hne, block_toBytes_length])).1,
    decide_eq_false sampleStream_tampered_trailer]

theorem sampleStream_status : (decrypt sampleHash sampleKey sampleStream).status = .ok true :=
  sampleStream_run.1

theorem sampleStream_tampered_status :
    (decrypt sampleHash sampleKey (tamperLast sampleStream)).status = .ok false :=
  sampleStream_run.2

/-- The stream of the five-byte sample file is accepted (the hashes agree), and the
same stream with its last byte changed is rejected with the value `false` (the
hashes differ). -/
theorem decrypt_result_witness :
    (decrypt sampleHash sampleKey sampleStream).status = .ok true ∧
    Hash_SHA256_Current_Cluster sampleHash (decrypt sampleHash sampleKey sampleStream).clusterHashes
      = (decrypt sampleHash sampleKey sampleStream).OrigHashChecksum ∧
    (decrypt sampleHash sampleKey (tamperLast sampleStream)).status = .ok false ∧
    Hash_SHA256_Current_Cluster sampleHash
        (decrypt sampleHash sampleKey (tamperLast sampleStream)).clusterHashes
      ≠ (decrypt sampleHash sampleKey (tamperLast sampleStream)).OrigHashChecksum :=
  ⟨sampleStream_status,
    ((decrypt_result sampleHash sampleKey sampleStream).2 true sampleStream_status).2.2.1.mp rfl,
    sampleStream_tampered_status,
    ((decrypt_result sampleHash sampleKey (tamperLast sampleStream)).2 false
      sampleStream_tampered_status).2.2.2.mp rfl⟩

theorem sample32_run :
    (encrypt sampleHash [] [] sampleKey [] (some (sampleFile 32))).status = .ok () ∧
    (decrypt sampleHash sampleKey
      (encrypt sampleHash [] [] sampleKey [] (some (sampleFile 32))).sent).status = .ok true ∧
    (decrypt sampleHash sampleKey
      (encrypt sampleHash [] [] sampleKey [] (some (sampleFile 32))).sent).written = [] := by
  have h := short_file_roundtrip sampleHash [] [] sampleKey [] (sampleFile 32) (by decide)
    (by decide) (by rw [sampleFile_length]; decide) (by rw [sampleFile_length]; decide)
  rw [sampleFile_length] at h
  exact h

/-- C1, at a file of exactly one block. Encrypting the 32-byte sample file and
decrypting the stream that was sent completes on both sides and reports success, but
the output file is empty: the 32 plaintext bytes are not written. -/
theorem roundtrip_one_block_writes_nothing :
    (sampleFile 32).length = 32 ∧
    (encrypt sampleHash [] [] sampleKey [] (some (sampleFile 32))).status = .ok () ∧
    (decrypt sampleHash sampleKey
      (encrypt sampleHash [] [] sampleKey [] (some (sampleFile 32))).sent).status = .ok true ∧
    (decrypt sampleHash sampleKey
      (encrypt sampleHash [] [] sampleKey [] (some (sampleFile 32))).sent).written = [] :=
  ⟨sampleFile_length 32, sample32_run.1, sample32_run.2.1, sample32_run.2.2⟩

set_option maxRecDepth 100000 in
theorem sample64_first_block :
    (bytesOfBlocks (storeBytes (tempBlockNum 64) (sampleFile 64))).take
      (roundedUpInputSize 64 - 32 + 64 % 32) = (sampleFile 64).take 32 := by
  decide!

theorem sample64_decrypt_run :
    (decrypt sampleHash sampleKey
      (encrypt sampleHash [] [] sampleKey [] (some (sampleFile 64))).sent).status = .ok true ∧
    (decrypt sampleHash sampleKey
      (encrypt sampleHash [] [] sampleKey [] (some (sampleFile 64))).sent).written
        = (sampleFile 64).take 32 := by
  have h := short_file_roundtrip sampleHash [] [] sampleKey [] (sampleFile 64) (by decide)
    (by decide) (by rw [sampleFile_length]; decide) (by rw [sampleFile_length]; decide)
  rw [sampleFile_length, sample64_first_block] at h
  exact h.2

/-- C3. Zero-remainder padding. The pad block does hold the count `L % 32` at its
offset, which is 0 for a multiple of 32; but the size recovery of the decrypt path
(declared length plus 64, minus 32, plus the stored count, minus 64) then gives
`L - 32`, not `L`; and on the 64-byte sample file `decrypt` reports success having
written only the first 32 bytes. -/
theorem zero_remainder_recovery :
    (∀ (H : List Nat → List Nat) (raw : List Nat) (L : Nat) (b : Block),
      (Padding H raw L b).data ((Hash_SHA256_Block H b).data 0 % BLOCK_BYTES) = L % 32) ∧
    (∀ L : Nat, 0 < L → L % 32 = 0 → L < 2 ^ 63 →
      sub64 ((sub64 ((roundedUpInputSize L + 2 * BLOCK_BYTES) % W64) BLOCK_BYTES + L % 32) % W64)
        (BLOCK_BYTES + BLOCK_BYTES) = L - 32) ∧
    (decrypt sampleHash sampleKey
      (encrypt sampleHash [] [] sampleKey [] (some (sampleFile 64))).sent).status = .ok true ∧
    (decrypt sampleHash sampleKey
      (encrypt sampleHash [] [] sampleKey [] (some (sampleFile 64))).sent).written
        = (sampleFile 64).take 32 := by
  refine ⟨?_, ?_, sample64_decrypt_run.1, sample64_decrypt_run.2⟩
  · intro H raw L b
    simp only [Padding, BLOCK_BYTES]
    rw [block_data_setData _ _ _ (Nat.mod_lt _ (by decide))]
    exact Nat.mod_eq_of_lt (by omega)
  · intro L hpos hmod hlt
    have hr : roundedUpInputSize L = L := by simp [roundedUpInputSize, BLOCK_BYTES, hmod]
    rw [hr, hmod]
    unfold sub64 BLOCK_BYTES W64
    omega

end WilhelmSCP

namespace OSL

/-! ## Arithmetic on components -/

theorem bi_radix_eq : bi_radix = 2147483648 := by
  norm_num [bi_radix, bi_radix_bits]

theorem wrap64_eq (x : Int) (h1 : -9223372036854775808 ≤ x) (h2 : x < 9223372036854775808) :
    wrap64 x = x := by
  unfold wrap64
  omega

theorem toInt32_eq (x : Int) (h1 : -2147483648 ≤ x) (h2 : x < 2147483648) : toInt32 x = x := by
  unfold toInt32
  omega

theorem tdiv_radix_nonneg (x : Int) (hx : 0 ≤ x) : Int.tdiv x 2147483648 = x / 2147483648 :=
  Int.tdiv_eq_ediv hx (by norm_num)

theorem tmod_radix_nonneg (x : Int) (hx : 0 ≤ x) : Int.tmod x 2147483648 = x % 2147483648 :=
  Int.tmod_eq_emod hx (by norm_num)

theorem tdiv_radix_neg (x : Int) (hx : x ≤ 0) :
    Int.tdiv x 2147483648 = -((-x) / 2147483648) := by
  have h := Int.neg_tdiv (-x) 2147483648
  rw [neg_neg] at h
  rw [h, Int.tdiv_eq_ediv (by omega) (by norm_num)]

theorem tmod_radix_neg (x : Int) (hx : x ≤ 0) :
    Int.tmod x 2147483648 = -((-x) % 2147483648) := by
  rw [Int.tmod_def, tdiv_radix_neg x hx]
  omega

theorem compsValue_cons (x : Int) (l : List Int) :
    compsValue (x :: l) = x + bi_radix * compsValue l := rfl

theorem compsValue_nil : compsValue [] = 0 := rfl

theorem compsValue_append (l m : List Int) :
    compsValue (l ++ m) = compsValue l + bi_radix ^ l.length * compsValue m := by
  induction l with
  | nil => simp [compsValue]
  | cons x l ih =>
    show x + bi_radix * compsValue (l ++ m) = (x + bi_radix * compsValue l) + bi_radix ^ (l.length + 1) * compsValue m
    rw [ih, pow_succ]
    ring

theorem compsValue_replicate_zero (k : Nat) : compsValue (List.replicate k 0) = 0 := by
  induction k with
  | zero => rfl
  | succ k ih => simp [List.replicate_succ, compsValue, ih]

theorem compsValue_nonneg (l : List Int) (h : ∀ x ∈ l, 0 ≤ x) : 0 ≤ compsValue l := by
  induction l with
  | nil => simp [compsValue]
  | cons x l ih =>
    simp only [compsValue]
    have h1 := h x (List.mem_cons_self _ _)
    have h2 := ih (fun y hy => h y (List.mem_cons_of_mem _ hy))
    have : 0 ≤ bi_radix * compsValue l := Int.mul_nonneg (by rw [bi_radix_eq]; norm_num) h2
    omega

theorem compsValue_lt (l : List Int) (h : Digits l) : compsValue l < bi_radix ^ l.length := by
  induction l with
  | nil => simp [compsValue]
  | cons x l ih =>
    simp only [compsValue, List.length_cons, pow_succ]
    have h1 := h x (List.mem_cons_self _ _)
    have h2 := ih (fun y hy => h y (List.mem_cons_of_mem _ hy))
    have h3 : bi_radix * (compsValue l + 1) ≤ bi_radix * bi_radix ^ l.length :=
      Int.mul_le_mul_of_nonneg_left (by omega) (by rw [bi_radix_eq]; norm_num)
    have h4 : bi_radix * (compsValue l + 1) = bi_radix * compsValue l + bi_radix := by ring
    have h5 : bi_radix ^ l.length * bi_radix = bi_radix * bi_radix ^ l.length := by ring
    omega

/-! ## normalize: the trimming loop -/

theorem trimTop_spec (m : List Int) :
    ∃ k, m = List.replicate k 0 ++ trimTop m ∧ (m ≠ [] → trimTop m ≠ []) ∧
      (1 < (trimTop m).length → (trimTop m).head? ≠ some 0) := by
  induction m with
  | nil => exact ⟨0, by simp [trimTop], by simp, by simp [trimTop]⟩
  | cons x m ih =>
    cases m with
    | nil => exact ⟨0, by simp [trimTop], by simp [trimTop], by simp [trimTop]⟩
    | cons y rest =>
      unfold trimTop
      split
      · rename_i hx
        obtain ⟨k, h1, h2, h3⟩ := ih
        refine ⟨k + 1, ?_, fun _ => h2 (by simp), h3⟩
        rw [List.replicate_succ, List.cons_append, ← h1, hx]
      · rename_i hx
        exact ⟨0, by simp, by simp, by simp [hx]⟩

theorem trim_spec (l : List Int) :
    ∃ k, l = trim l ++ List.replicate k 0 ∧ (l ≠ [] → trim l ≠ []) ∧
      (1 < (trim l).length → (trim l).getLast? ≠ some 0) := by
  obtain ⟨k, h1, h2, h3⟩ := trimTop_spec l.reverse
  refine ⟨k, ?_, ?_, ?_⟩
  · have := congrArg List.reverse h1
    simp only [List.reverse_reverse, List.reverse_append, List.reverse_replicate] at this
    exact this
  · intro hl
    unfold trim
    simpa using h2 (by simpa using hl)
  · intro hlen
    unfold trim at hlen ⊢
    rw [List.getLast?_reverse]
    exact h3 (by simpa using hlen)

theorem compsValue_trim (l : List Int) : compsValue (trim l) = compsValue l := by
  obtain ⟨k, h1, _, _⟩ := trim_spec l
  conv_rhs => rw [h1]
  rw [compsValue_append, compsValue_replicate_zero]
  ring

theorem trim_subset (l : List Int) : ∀ x ∈ trim l, x ∈ l := by
  obtain ⟨k, h1, _, _⟩ := trim_spec l
  intro x hx
  rw [h1]
  exact List.mem_append_left _ hx

theorem trim_length_le (l : List Int) : (trim l).length ≤ l.length := by
  obtain ⟨k, h1, _, _⟩ := trim_spec l
  conv_rhs => rw [h1]
  simp

theorem trim_normComps (l : List Int) (hl : l ≠ []) (hd : Digits l) : NormComps (trim l) := by
  obtain ⟨k, h1, h2, h3⟩ := trim_spec l
  exact ⟨h2 hl, fun x hx => hd x (trim_subset l x hx), h3⟩

theorem trim_of_normComps (l : List Int) (h : NormComps l) : trim l = l := by
  obtain ⟨hne, hd, hlast⟩ := h
  unfold trim
  have key : trimTop l.reverse = l.reverse := by
    cases hr : l.reverse with
    | nil => rfl
    | cons x m =>
      cases m with
      | nil => rfl
      | cons y rest =>
        unfold trimTop
        have hlen : 1 < l.length := by
          have := congrArg List.length hr
          simp at this
          omega
        have hx : l.getLast? = some x := by
          rw [← List.head?_reverse, hr]; rfl
        have : x ≠ 0 := by
          intro h0
          exact hlast hlen (by rw [hx, h0])
        simp [this]
  rw [key, List.reverse_reverse]

end OSL

namespace OSL

/-! ## normalize: borrow, flip and carry -/

theorem digits_nil : Digits [] := by
  intro x hx
  cases hx

theorem digits_cons (x : Int) (l : List Int) :
    Digits (x :: l) ↔ (0 ≤ x ∧ x < bi_radix) ∧ Digits l := by
  simp [Digits]

theorem digits_append (l m : List Int) : Digits (l ++ m) ↔ Digits l ∧ Digits m := by
  simp only [Digits, List.mem_append]
  constructor
  · intro h
    exact ⟨fun x hx => h x (Or.inl hx), fun x hx => h x (Or.inr hx)⟩
  · rintro ⟨h1, h2⟩ x (hx | hx)
    · exact h1 x hx
    · exact h2 x hx

theorem cdiv_radix_nonneg (x : Int) (h0 : 0 ≤ x) (h1 : x < 9223372036854775808) :
    cdiv x bi_radix = x / 2147483648 := by
  unfold cdiv
  rw [bi_radix_eq, tdiv_radix_nonneg x h0]
  exact wrap64_eq _ (by omega) (by omega)

theorem cmod_radix_nonneg (x : Int) (h0 : 0 ≤ x) : cmod x bi_radix = x % 2147483648 := by
  unfold cmod
  rw [bi_radix_eq, tmod_radix_nonneg x h0]

theorem carryLoop_spec (rest : List Int) : ∀ (x : Int), 0 ≤ x → x ≤ 4611686018427387903 →
    (∀ y ∈ rest, 0 ≤ y ∧ y ≤ 4611686016279904256) →
    Digits (carryLoop x rest) ∧
    compsValue (carryLoop x rest) = x + bi_radix * compsValue rest ∧
    rest.length + 1 ≤ (carryLoop x rest).length ∧ (carryLoop x rest).length ≤ rest.length + 2 := by
  induction rest with
  | nil =>
    intro x h0 h1 _
    unfold carryLoop
    split
    · rename_i hx
      rw [cmod_radix_nonneg x h0, cdiv_radix_nonneg x h0 (by omega)]
      have hc : cadd 0 (x / 2147483648) = x / 2147483648 := by
        unfold cadd
        rw [zero_add]
        exact wrap64_eq _ (by omega) (by omega)
      rw [hc]
      refine ⟨?_, ?_, by simp, by simp⟩
      · rw [digits_cons, digits_cons, bi_radix_eq]
        exact ⟨by omega, by omega, digits_nil⟩
      · simp only [compsValue, bi_radix_eq]
        omega
    · rename_i hx
      refine ⟨?_, by simp [compsValue], by simp, by simp⟩
      rw [digits_cons]
      exact ⟨by omega, digits_nil⟩
  | cons y rest ih =>
    intro x h0 h1 hrest
    have hy := hrest y (List.mem_cons_self _ _)
    have hrest2 : ∀ z ∈ rest, 0 ≤ z ∧ z ≤ 4611686016279904256 :=
      fun z hz => hrest z (List.mem_cons_of_mem _ hz)
    unfold carryLoop
    split
    · rename_i hx
      rw [cmod_radix_nonneg x h0, cdiv_radix_nonneg x h0 (by omega)]
      have hc : cadd y (x / 2147483648) = y + x / 2147483648 := by
        unfold cadd
        exact wrap64_eq _ (by omega) (by omega)
      rw [hc]
      obtain ⟨i1, i2, i3, i4⟩ := ih (y + x / 2147483648) (by omega) (by omega) hrest2
      refine ⟨?_, ?_, by simp; omega, by simp; omega⟩
      · rw [digits_cons, bi_radix_eq]
        exact ⟨by omega, i1⟩
      · simp only [compsValue, i2, bi_radix_eq]
        omega
    · rename_i hx
      obtain ⟨i1, i2, i3, i4⟩ := ih y (by omega) (by omega) hrest2
      refine ⟨?_, ?_, by simp; omega, by simp; omega⟩
      · rw [digits_cons]
        exact ⟨by omega, i1⟩
      · simp only [compsValue, i2]

theorem carryLoop_digits (rest : List Int) : ∀ (x : Int), Digits (x :: rest) →
    carryLoop x rest = x :: rest := by
  induction rest with
  | nil =>
    intro x h
    rw [digits_cons] at h
    unfold carryLoop
    rw [if_neg (by omega)]
  | cons y rest ih =>
    intro x h
    rw [digits_cons] at h
    unfold carryLoop
    rw [if_neg (by omega), ih y h.2]

theorem borrowLoop_nonneg (rest : List Int) : ∀ (x : Int), (∀ y ∈ x :: rest, 0 ≤ y) →
    borrowLoop x rest = x :: rest := by
  induction rest with
  | nil =>
    intro x _
    rfl
  | cons y rest ih =>
    intro x h
    have hx := h x (List.mem_cons_self _ _)
    unfold borrowLoop
    rw [if_neg (by omega), ih y (fun z hz => h z (List.mem_cons_of_mem _ hz))]

/-- The borrow loop on components in `(-r, r)` (the first one in `[-r, r)`):
every component but the top one becomes a digit, the top one stays in `[-r, r)`. -/
theorem borrowLoop_spec (rest : List Int) : ∀ (x : Int), -bi_radix ≤ x → x < bi_radix →
    (∀ y ∈ rest, -bi_radix < y ∧ y < bi_radix) →
    ∃ front top, borrowLoop x rest = front ++ [top] ∧ front.length = rest.length ∧
      Digits front ∧ -bi_radix ≤ top ∧ top < bi_radix ∧
      compsValue (front ++ [top]) = x + bi_radix * compsValue rest := by
  induction rest with
  | nil =>
    intro x h0 h1 _
    exact ⟨[], x, rfl, rfl, digits_nil, h0, h1, by simp [compsValue]⟩
  | cons y rest ih =>
    intro x h0 h1 hrest
    have hr := bi_radix_eq
    have hy := hrest y (List.mem_cons_self _ _)
    have hrest2 : ∀ z ∈ rest, -bi_radix < z ∧ z < bi_radix :=
      fun z hz => hrest z (List.mem_cons_of_mem _ hz)
    unfold borrowLoop
    split
    · rename_i hx
      have hd : cdiv x bi_radix = -((-x) / 2147483648) := by
        unfold cdiv
        rw [bi_radix_eq, tdiv_radix_neg x (by omega)]
        exact wrap64_eq _ (by omega) (by omega)
      have hm : cmod x bi_radix = -((-x) % 2147483648) := by
        unfold cmod
        rw [bi_radix_eq, tmod_radix_neg x (by omega)]
      have hs : csub (cdiv x bi_radix) 1 = -((-x) / 2147483648) - 1 := by
        unfold csub
        rw [hd]
        exact wrap64_eq _ (by omega) (by omega)
      have ha : cadd y (csub (cdiv x bi_radix) 1) = y - 1 - (-x) / 2147483648 := by
        unfold cadd
        rw [hs, wrap64_eq _ (by omega) (by omega)]
        omega
      simp only [ha, hm]
      split
      · rename_i hne
        have hc : cadd (-(-x % 2147483648)) bi_radix = 2147483648 - (-x) % 2147483648 := by
          unfold cadd
          rw [bi_radix_eq, wrap64_eq _ (by omega) (by omega)]
          omega
        rw [hc]
        obtain ⟨front, top, e1, e2, e3, e4, e5, e6⟩ :=
          ih (y - 1 - (-x) / 2147483648) (by omega) (by omega) hrest2
        refine ⟨(2147483648 - (-x) % 2147483648) :: front, top, by rw [e1]; rfl, by simp [e2],
          ?_, e4, e5, ?_⟩
        · rw [digits_cons]
          exact ⟨by omega, e3⟩
        · rw [List.cons_append, compsValue_cons, compsValue_cons, e6]
          simp only [bi_radix_eq]
          omega
      · rename_i hne
        have hz : -(-x % 2147483648) = 0 := by
          by_contra h
          exact hne h
        have hc : cadd (y - 1 - (-x) / 2147483648) 1 = y - (-x) / 2147483648 := by
          unfold cadd
          rw [wrap64_eq _ (by omega) (by omega)]
          omega
        rw [hc]
        obtain ⟨front, top, e1, e2, e3, e4, e5, e6⟩ :=
          ih (y - (-x) / 2147483648) (by omega) (by omega) hrest2
        refine ⟨(-(-x % 2147483648)) :: front, top, by rw [e1]; rfl, by simp [e2],
          ?_, e4, e5, ?_⟩
        · rw [digits_cons]
          exact ⟨by omega, e3⟩
        · rw [List.cons_append, compsValue_cons, compsValue_cons, e6]
          simp only [bi_radix_eq]
          omega
    · rename_i hx
      obtain ⟨front, top, e1, e2, e3, e4, e5, e6⟩ := ih y (by omega) (by omega) hrest2
      refine ⟨x :: front, top, by rw [e1]; rfl, by simp [e2], ?_, e4, e5, ?_⟩
      · rw [digits_cons]
        exact ⟨by omega, e3⟩
      · rw [List.cons_append, compsValue_cons, compsValue_cons, e6]

/-- The flip loop on digits below a negative top component: the result has every
component in `[0, r]` and stands for the negated number. -/
theorem flipLoop_spec (front : List Int) : ∀ (x top : Int), 0 ≤ x → x ≤ bi_radix →
    Digits front → -bi_radix ≤ top → top < 0 →
    (∀ y ∈ flipLoop x (front ++ [top]), 0 ≤ y ∧ y ≤ bi_radix) ∧
    compsValue (flipLoop x (front ++ [top])) = -(compsValue (x :: (front ++ [top]))) := by
  have hr := bi_radix_eq
  induction front with
  | nil =>
    intro x top h0 h1 _ h3 h4
    have e1 : csub bi_radix x = 2147483648 - x := by
      unfold csub
      rw [bi_radix_eq]
      exact wrap64_eq _ (by omega) (by omega)
    have e2 : cadd top 1 = top + 1 := by
      unfold cadd
      exact wrap64_eq _ (by omega) (by omega)
    have e3 : cneg (top + 1) = -(top + 1) := by
      unfold cneg
      exact wrap64_eq _ (by omega) (by omega)
    have e : flipLoop x ([] ++ [top]) = [2147483648 - x, -(top + 1)] := by
      show [csub bi_radix x, cneg (cadd top 1)] = _
      rw [e1, e2, e3]
    rw [e]
    refine ⟨?_, ?_⟩
    · intro y hy
      simp only [List.mem_cons, List.mem_singleton, List.not_mem_nil, or_false] at hy
      rcases hy with hy | hy <;> omega
    · simp only [List.nil_append, compsValue_cons, compsValue_nil, bi_radix_eq]
      omega
  | cons f front ih =>
    intro x top h0 h1 hd h3 h4
    rw [digits_cons] at hd
    have e1 : csub bi_radix x = 2147483648 - x := by
      unfold csub
      rw [bi_radix_eq]
      exact wrap64_eq _ (by omega) (by omega)
    have e2 : cadd f 1 = f + 1 := by
      unfold cadd
      exact wrap64_eq _ (by omega) (by omega)
    obtain ⟨i1, i2⟩ := ih (f + 1) top (by omega) (by omega) hd.2 h3 h4
    have e : flipLoop x ((f :: front) ++ [top]) =
        (2147483648 - x) :: flipLoop (f + 1) (front ++ [top]) := by
      show csub bi_radix x :: flipLoop (cadd f 1) (front ++ [top]) = _
      rw [e1, e2]
    rw [e]
    refine ⟨?_, ?_⟩
    · intro y hy
      simp only [List.mem_cons] at hy
      rcases hy with hy | hy
      · omega
      · exact i1 y hy
    · rw [compsValue_cons, i2, List.cons_append, compsValue_cons, compsValue_cons, compsValue_cons]
      simp only [bi_radix_eq]
      omega

end OSL

namespace OSL

theorem getLastD_append_singleton (l : List Int) (t d : Int) : (l ++ [t]).getLastD d = t := by
  cases l with
  | nil => rfl
  | cons x l => simp [List.getLastD]

theorem flipLoop_length (rest : List Int) : ∀ x, (flipLoop x rest).length = rest.length + 1 := by
  induction rest with
  | nil => intro x; rfl
  | cons y rest ih =>
    intro x
    show (csub bi_radix x :: flipLoop (cadd y 1) rest).length = _
    rw [List.length_cons, ih]
    rfl

theorem carryComps_spec (l : List Int) (hl : l ≠ [])
    (h : ∀ y ∈ l, 0 ≤ y ∧ y ≤ 4611686016279904256) :
    Digits (carryComps l) ∧ compsValue (carryComps l) = compsValue l ∧ carryComps l ≠ [] ∧
    l.length ≤ (carryComps l).length ∧ (carryComps l).length ≤ l.length + 1 := by
  cases l with
  | nil => exact absurd rfl hl
  | cons x rest =>
    have hx := h x (List.mem_cons_self _ _)
    obtain ⟨c1, c2, c3, c4⟩ := carryLoop_spec rest x hx.1 (by omega)
      (fun y hy => h y (List.mem_cons_of_mem _ hy))
    refine ⟨c1, c2, ?_, by simpa [carryComps] using c3, by simpa [carryComps] using c4⟩
    intro e
    have e2 : carryLoop x rest = [] := e
    rw [e2] at c3
    simp at c3

theorem flipComps_spec (front : List Int) (top : Int) (hd : Digits front)
    (h1 : -bi_radix ≤ top) (h2 : top < 0) :
    (∀ y ∈ flipComps (front ++ [top]), 0 ≤ y ∧ y ≤ 4611686016279904256) ∧
    compsValue (flipComps (front ++ [top])) = -compsValue (front ++ [top]) ∧
    flipComps (front ++ [top]) ≠ [] ∧
    (flipComps (front ++ [top])).length = front.length + 1 := by
  have hr := bi_radix_eq
  cases front with
  | nil =>
    have e : flipComps ([] ++ [top]) = [-top] := by
      show [cneg top] = _
      unfold cneg
      rw [wrap64_eq _ (by omega) (by omega)]
    rw [e]
    refine ⟨?_, by simp [compsValue], by simp, by simp⟩
    intro y hy
    simp only [List.mem_singleton] at hy
    omega
  | cons f front =>
    rw [digits_cons] at hd
    obtain ⟨i1, i2⟩ := flipLoop_spec front f top (by omega) (by omega) hd.2 h1 h2
    have e : flipComps ((f :: front) ++ [top]) = flipLoop f (front ++ [top]) := rfl
    rw [e]
    refine ⟨?_, i2, ?_, ?_⟩
    · intro y hy
      have := i1 y hy
      omega
    · cases front <;> simp [flipLoop]
    · rw [flipLoop_length]
      simp

/-- The end of `normalize`: trimming and the sign of zero. -/
theorem normalize_finish (s2 : Int) (c3 : List Int) (hs : s2 = 1 ∨ s2 = -1) (hd : Digits c3)
    (hne : c3 ≠ []) :
    bigint.NF ⟨if trim c3 = [0] ∧ s2 = -1 then 1 else s2, trim c3⟩ ∧
    bigint.value ⟨if trim c3 = [0] ∧ s2 = -1 then 1 else s2, trim c3⟩ = s2 * compsValue c3 := by
  have hN := trim_normComps _ hne hd
  have hV := compsValue_trim c3
  refine ⟨⟨?_, hN, ?_⟩, ?_⟩
  · split <;> simp [hs]
  · intro h0
    change trim c3 = [0] at h0
    rcases hs with hs | hs <;> simp [hs, h0]
  · simp only [bigint.value, hV]
    split
    · rename_i h0
      have hz0 : compsValue c3 = 0 := by
        rw [← hV, h0.1]
        simp [compsValue]
      rw [hz0]
      simp
    · rfl

theorem normalize_A (s x : Int) (rest : List Int) (hs : s = 1 ∨ s = -1)
    (h : ∀ y ∈ x :: rest, 0 ≤ y ∧ y ≤ 4611686016279904256) :
    (normalize ⟨s, x :: rest⟩).NF ∧
    (normalize ⟨s, x :: rest⟩).value = s * compsValue (x :: rest) := by
  have hb := borrowLoop_nonneg rest x (fun y hy => (h y hy).1)
  obtain ⟨c1, c2, c3, _⟩ := carryComps_spec (x :: rest) (by simp) h
  have hlast : ¬ (x :: rest).getLastD 0 < 0 := by
    have : (x :: rest).getLastD 0 ∈ x :: rest := by
      rw [List.getLastD_eq_getLast?]
      cases hl : (x :: rest).getLast? with
      | none => simp at hl
      | some z => exact List.mem_of_mem_getLast? hl
    have := (h _ this).1
    omega
  simp only [normalize, hb, hlast]
  simp only [if_false, Bool.false_eq_true, decide_False]
  have := normalize_finish s _ hs c1 c3
  rw [c2] at this
  exact this

/-- The sign of `normalize` on non-negative components: unchanged unless the value
is zero. -/
theorem normalize_A_sign (s x : Int) (rest : List Int)
    (h : ∀ y ∈ x :: rest, 0 ≤ y ∧ y ≤ 4611686016279904256) (hv : compsValue (x :: rest) ≠ 0) :
    (normalize ⟨s, x :: rest⟩).sign = s := by
  have hb := borrowLoop_nonneg rest x (fun y hy => (h y hy).1)
  obtain ⟨c1, c2, c3, _⟩ := carryComps_spec (x :: rest) (by simp) h
  have hlast : ¬ (x :: rest).getLastD 0 < 0 := by
    have : (x :: rest).getLastD 0 ∈ x :: rest := by
      rw [List.getLastD_eq_getLast?]
      cases hl : (x :: rest).getLast? with
      | none => simp at hl
      | some z => exact List.mem_of_mem_getLast? hl
    have := (h _ this).1
    omega
  simp only [normalize, hb, hlast]
  simp only [if_false, Bool.false_eq_true, decide_False]
  rw [if_neg]
  rintro ⟨h0, _⟩
  apply hv
  rw [← c2, ← compsValue_trim, h0]
  simp [compsValue]

theorem normalize_B (s x : Int) (rest : List Int) (hs : s = 1 ∨ s = -1)
    (hx0 : -bi_radix ≤ x) (hx1 : x < bi_radix)
    (h : ∀ y ∈ rest, -bi_radix < y ∧ y < bi_radix) :
    (normalize ⟨s, x :: rest⟩).NF ∧
    (normalize ⟨s, x :: rest⟩).value = s * compsValue (x :: rest) := by
  have hr := bi_radix_eq
  obtain ⟨front, top, e1, e2, e3, e4, e5, e6⟩ := borrowLoop_spec rest x hx0 hx1 h
  have hl := getLastD_append_singleton front top 0
  simp only [normalize, e1, hl]
  by_cases ht : top < 0
  · obtain ⟨f1, f2, f3, _⟩ := flipComps_spec front top e3 e4 ht
    obtain ⟨c1, c2, c3, _⟩ := carryComps_spec _ f3 f1
    simp only [ht, if_true, decide_True]
    have := normalize_finish (-s) _ (by omega) c1 c3
    rw [c2, f2, e6, ← compsValue_cons] at this
    rw [neg_mul_neg] at this
    exact this
  · have hd : Digits (front ++ [top]) := by
      rw [digits_append]
      refine ⟨e3, ?_⟩
      rw [digits_cons]
      exact ⟨by omega, digits_nil⟩
    obtain ⟨c1, c2, c3, _⟩ := carryComps_spec (front ++ [top]) (by simp) (by
      intro y hy
      have := hd y hy
      omega)
    simp only [ht, if_false, decide_False, Bool.false_eq_true]
    have := normalize_finish s _ hs c1 c3
    rw [c2, e6, ← compsValue_cons] at this
    exact this

end OSL

namespace OSL

/-! ## Normal form and value -/

theorem bi_radix_pos : 0 < bi_radix := by
  rw [bi_radix_eq]
  norm_num

theorem bi_radix_pow_pos (k : Nat) : 0 < bi_radix ^ k := pow_pos bi_radix_pos k

theorem digits_nonneg (l : List Int) (h : Digits l) : 0 ≤ compsValue l :=
  compsValue_nonneg l (fun x hx => (h x hx).1)

theorem compsValue_concat (front : List Int) (top : Int) :
    compsValue (front ++ [top]) = compsValue front + bi_radix ^ front.length * top := by
  rw [compsValue_append]
  simp [compsValue]

/-- A nonempty list is its lower components followed by the top one. -/
theorem exists_concat (l : List Int) (h : l ≠ []) : ∃ front top, l = front ++ [top] :=
  ⟨l.dropLast, l.getLast h, (List.dropLast_append_getLast h).symm⟩

theorem normComps_concat (front : List Int) (top : Int) (h : NormComps (front ++ [top])) :
    Digits front ∧ 0 ≤ top ∧ top < bi_radix ∧ (front ≠ [] → 1 ≤ top) := by
  obtain ⟨_, hd, hl⟩ := h
  rw [digits_append, digits_cons] at hd
  refine ⟨hd.1, hd.2.1.1, hd.2.1.2, ?_⟩
  intro hf
  have hlen : 1 < (front ++ [top]).length := by
    cases front with
    | nil => exact absurd rfl hf
    | cons x f => simp
  have := hl hlen
  simp at this
  have h0 := hd.2.1.1
  omega

/-- Lower bound of the value of normal-form components with more than one
component. -/
theorem normComps_lower (l : List Int) (h : NormComps l) (hlen : 1 < l.length) :
    bi_radix ^ (l.length - 1) ≤ compsValue l := by
  obtain ⟨front, top, rfl⟩ := exists_concat l h.1
  obtain ⟨hd, _, _, h4⟩ := normComps_concat front top h
  have hf : front ≠ [] := by
    intro e
    rw [e] at hlen
    simp at hlen
  have h1 := h4 hf
  rw [compsValue_concat]
  simp only [List.length_append, List.length_singleton, Nat.add_sub_cancel]
  have h5 := digits_nonneg front hd
  have h6 : bi_radix ^ front.length * 1 ≤ bi_radix ^ front.length * top :=
    Int.mul_le_mul_of_nonneg_left h1 (le_of_lt (bi_radix_pow_pos _))
  omega

theorem normComps_length_le (l : List Int) (h : NormComps l) (k : Nat) (hk : 1 ≤ k)
    (hv : compsValue l < bi_radix ^ k) : l.length ≤ k := by
  by_contra hc
  have hlen : 1 < l.length := by omega
  have h1 := normComps_lower l h hlen
  have h2 : bi_radix ^ k ≤ bi_radix ^ (l.length - 1) :=
    pow_le_pow_right₀ (by rw [bi_radix_eq]; norm_num) (by omega)
  omega

theorem normComps_zero (l : List Int) (h : NormComps l) (hv : compsValue l = 0) : l = [0] := by
  obtain ⟨front, top, rfl⟩ := exists_concat l h.1
  obtain ⟨hd, h2, _, h4⟩ := normComps_concat front top h
  rw [compsValue_concat] at hv
  have h5 := digits_nonneg front hd
  have h6 : 0 ≤ bi_radix ^ front.length * top :=
    Int.mul_nonneg (le_of_lt (bi_radix_pow_pos _)) h2
  have h7 : bi_radix ^ front.length * top = 0 := by omega
  have h8 : top = 0 := by
    rcases Int.mul_eq_zero.mp h7 with h | h
    · have := bi_radix_pow_pos front.length
      omega
    · exact h
  have hf : front = [] := by
    by_contra hf
    have := h4 hf
    omega
  rw [hf, h8]
  rfl

theorem nf_comps_nonneg {b : bigint} (h : b.NF) : 0 ≤ compsValue b.comps :=
  digits_nonneg _ h.2.1.2.1

theorem nf_sign_one_iff {b : bigint} (h : b.NF) : b.sign = 1 ↔ 0 ≤ b.value := by
  have h1 := (nf_comps_nonneg h)
  unfold bigint.value
  constructor
  · intro hs
    rw [hs]
    omega
  · intro hv
    rcases h.1 with hs | hs
    · exact hs
    · rw [hs] at hv
      have hz : compsValue b.comps = 0 := by omega
      exact h.2.2 (normComps_zero _ h.2.1 hz)

theorem nf_value_of_nonneg {b : bigint} (h : b.NF) (hv : 0 ≤ b.value) :
    compsValue b.comps = b.value := by
  have := (nf_sign_one_iff h).mpr hv
  unfold bigint.value
  rw [this]
  omega

theorem nf_sign_neg_iff {b : bigint} (h : b.NF) : b.sign = -1 ↔ b.value < 0 := by
  have h1 := (nf_sign_one_iff h)
  rcases h.1 with hs | hs
  · constructor
    · intro h2; omega
    · intro h2
      have := h1.mp hs
      omega
  · constructor
    · intro _
      by_contra hc
      have := h1.mpr (by omega)
      omega
    · intro _; exact hs

theorem nf_length_le {b : bigint} (h : b.NF) (k : Nat) (hk : 1 ≤ k) (h0 : 0 ≤ b.value)
    (hv : b.value < bi_radix ^ k) : b.num_comps ≤ k := by
  rw [← (nf_value_of_nonneg h) h0] at hv
  exact normComps_length_le _ h.2.1 k hk hv

theorem nf_comps_ne_nil {b : bigint} (h : b.NF) : b.comps ≠ [] := h.2.1.1

theorem nf_digits {b : bigint} (h : b.NF) : Digits b.comps := h.2.1.2.1

theorem nf_value_lt {b : bigint} (h : b.NF) (h0 : 0 ≤ b.value) :
    b.value < bi_radix ^ b.num_comps := by
  rw [← (nf_value_of_nonneg h) h0]
  exact compsValue_lt _ (nf_digits h)

theorem nf_eq_zero {b : bigint} (h : b.NF) (hv : b.value = 0) : b = ⟨1, [0]⟩ := by
  have hs := (nf_sign_one_iff h).mpr (by omega)
  have hc := (nf_value_of_nonneg h) (by omega)
  rw [hv] at hc
  have := normComps_zero _ h.2.1 hc
  cases b
  simp_all

theorem normalize_A_list (s : Int) (l : List Int) (hs : s = 1 ∨ s = -1) (hl : l ≠ [])
    (h : ∀ y ∈ l, 0 ≤ y ∧ y ≤ 4611686016279904256) :
    (normalize ⟨s, l⟩).NF ∧ (normalize ⟨s, l⟩).value = s * compsValue l := by
  cases l with
  | nil => exact absurd rfl hl
  | cons x rest => exact normalize_A s x rest hs h

theorem normalize_B_list (s : Int) (l : List Int) (hs : s = 1 ∨ s = -1) (hl : l ≠ [])
    (h : ∀ y ∈ l, -bi_radix < y ∧ y < bi_radix) :
    (normalize ⟨s, l⟩).NF ∧ (normalize ⟨s, l⟩).value = s * compsValue l := by
  cases l with
  | nil => exact absurd rfl hl
  | cons x rest =>
    have hx := h x (List.mem_cons_self _ _)
    exact normalize_B s x rest hs (by omega) hx.2 (fun y hy => h y (List.mem_cons_of_mem _ hy))

end OSL

namespace OSL

/-! ## Addition and subtraction -/

theorem more_comps_value (l : List Int) (n : Nat) : compsValue (more_comps l n) = compsValue l := by
  unfold more_comps
  rw [compsValue_append, compsValue_replicate_zero]
  ring

theorem more_comps_length (l : List Int) (n : Nat) :
    (more_comps l n).length = max l.length n := by
  unfold more_comps
  rw [List.length_append, List.length_replicate]
  omega

theorem more_comps_digits (l : List Int) (n : Nat) (h : Digits l) : Digits (more_comps l n) := by
  unfold more_comps
  rw [digits_append]
  refine ⟨h, ?_⟩
  intro x hx
  rw [List.mem_replicate] at hx
  rw [hx.2, bi_radix_eq]
  omega

theorem more_comps_ne_nil (l : List Int) (n : Nat) (h : l ≠ []) : more_comps l n ≠ [] := by
  unfold more_comps
  simp [h]

theorem zipComps_value (op : Int → Int → Int) (e : Int) (xs : List Int) :
    ∀ (ys : List Int), (∀ x ∈ xs, ∀ y ∈ ys, op x y = x + e * y) → ys.length ≤ xs.length →
    compsValue (zipComps op xs ys) = compsValue xs + e * compsValue ys ∧
    (zipComps op xs ys).length = xs.length := by
  induction xs with
  | nil =>
    intro ys _ hlen
    cases ys with
    | nil => simp [zipComps, compsValue]
    | cons y ys => simp at hlen
  | cons x xs ih =>
    intro ys h hlen
    cases ys with
    | nil => simp [zipComps, compsValue]
    | cons y ys =>
      have h1 := h x (List.mem_cons_self _ _) y (List.mem_cons_self _ _)
      obtain ⟨i1, i2⟩ := ih ys
        (fun a ha b hb => h a (List.mem_cons_of_mem _ ha) b (List.mem_cons_of_mem _ hb))
        (by simpa using hlen)
      refine ⟨?_, by simp [zipComps, i2]⟩
      show compsValue (op x y :: zipComps op xs ys) = _
      rw [compsValue_cons, compsValue_cons, compsValue_cons, i1, h1]
      ring

theorem zipComps_mem (op : Int → Int → Int) (P : Int → Prop) (xs : List Int) :
    ∀ (ys : List Int), (∀ x ∈ xs, P x) → (∀ x ∈ xs, ∀ y ∈ ys, P (op x y)) →
    ∀ z ∈ zipComps op xs ys, P z := by
  induction xs with
  | nil =>
    intro ys _ _ z hz
    cases ys <;> simp [zipComps] at hz
  | cons x xs ih =>
    intro ys h1 h2 z hz
    cases ys with
    | nil =>
      simp only [zipComps] at hz
      exact h1 z hz
    | cons y ys =>
      simp only [zipComps, List.mem_cons] at hz
      rcases hz with hz | hz
      · rw [hz]
        exact h2 x (List.mem_cons_self _ _) y (List.mem_cons_self _ _)
      · exact ih ys (fun a ha => h1 a (List.mem_cons_of_mem _ ha))
          (fun a ha b hb => h2 a (List.mem_cons_of_mem _ ha) b (List.mem_cons_of_mem _ hb)) z hz

theorem zipComps_ne_nil (op : Int → Int → Int) (xs ys : List Int) (h : xs ≠ [])
    (hlen : ys.length ≤ xs.length) : zipComps op xs ys ≠ [] := by
  cases xs with
  | nil => exact absurd rfl h
  | cons x xs =>
    cases ys <;> simp [zipComps]

theorem cadd_eq (x y : Int) (h1 : -4611686018427387904 ≤ x) (h2 : x ≤ 4611686018427387904)
    (h3 : -4611686018427387904 ≤ y) (h4 : y < 4611686018427387904) : cadd x y = x + y := by
  unfold cadd
  exact wrap64_eq _ (by omega) (by omega)

theorem csub_eq (x y : Int) (h1 : -4611686018427387904 ≤ x) (h2 : x ≤ 4611686018427387904)
    (h3 : -4611686018427387904 < y) (h4 : y ≤ 4611686018427387904) : csub x y = x - y := by
  unfold csub
  exact wrap64_eq _ (by omega) (by omega)

/-- The components `bi_add` and `bi_subtract` hand to `normalize`, when the
operation on the components is an addition. -/
theorem zip_add_spec (s : Int) (hs : s = 1 ∨ s = -1) (xs ys : List Int) (hx : Digits xs)
    (hy : Digits ys) (hne : xs ≠ []) :
    (normalize ⟨s, zipComps cadd (more_comps xs (max xs.length ys.length)) ys⟩).NF ∧
    (normalize ⟨s, zipComps cadd (more_comps xs (max xs.length ys.length)) ys⟩).value =
      s * (compsValue xs + compsValue ys) := by
  have hr := bi_radix_eq
  have hm := more_comps_digits xs (max xs.length ys.length) hx
  have hl := more_comps_length xs (max xs.length ys.length)
  have hop : ∀ x ∈ more_comps xs (max xs.length ys.length), ∀ y ∈ ys, cadd x y = x + 1 * y := by
    intro x hx1 y hy1
    have := hm x hx1
    have := hy y hy1
    rw [cadd_eq x y (by omega) (by omega) (by omega) (by omega)]
    ring
  obtain ⟨v1, v2⟩ := zipComps_value cadd 1 _ ys hop (by omega)
  have hmem := zipComps_mem cadd (fun z => 0 ≤ z ∧ z ≤ 4611686016279904256) _ ys
    (fun x hx1 => by have := hm x hx1; constructor <;> omega)
    (fun x hx1 y hy1 => by
      have := hm x hx1
      have := hy y hy1
      rw [hop x hx1 y hy1]
      constructor <;> omega)
  have hne2 := zipComps_ne_nil cadd (more_comps xs (max xs.length ys.length)) ys
    (more_comps_ne_nil xs _ hne) (by omega)
  have := normalize_A_list s _ hs hne2 hmem
  rw [v1, more_comps_value, one_mul] at this
  exact this

/-- The same, when the operation on the components is a subtraction. -/
theorem zip_sub_spec (s : Int) (hs : s = 1 ∨ s = -1) (xs ys : List Int) (hx : Digits xs)
    (hy : Digits ys) (hne : xs ≠ []) :
    (normalize ⟨s, zipComps csub (more_comps xs (max xs.length ys.length)) ys⟩).NF ∧
    (normalize ⟨s, zipComps csub (more_comps xs (max xs.length ys.length)) ys⟩).value =
      s * (compsValue xs - compsValue ys) := by
  have hr := bi_radix_eq
  have hm := more_comps_digits xs (max xs.length ys.length) hx
  have hl := more_comps_length xs (max xs.length ys.length)
  have hop : ∀ x ∈ more_comps xs (max xs.length ys.length), ∀ y ∈ ys,
      csub x y = x + (-1) * y := by
    intro x hx1 y hy1
    have := hm x hx1
    have := hy y hy1
    rw [csub_eq x y (by omega) (by omega) (by omega) (by omega)]
    ring
  obtain ⟨v1, v2⟩ := zipComps_value csub (-1) _ ys hop (by omega)
  have hmem := zipComps_mem csub (fun z => -bi_radix < z ∧ z < bi_radix) _ ys
    (fun x hx1 => by have := hm x hx1; constructor <;> omega)
    (fun x hx1 y hy1 => by
      have := hm x hx1
      have := hy y hy1
      rw [hop x hx1 y hy1]
      constructor <;> omega)
  have hne2 := zipComps_ne_nil csub (more_comps xs (max xs.length ys.length)) ys
    (more_comps_ne_nil xs _ hne) (by omega)
  have := normalize_B_list s _ hs hne2 hmem
  rw [v1, more_comps_value] at this
  refine ⟨this.1, ?_⟩
  rw [this.2]
  ring

theorem bi_add_spec (a b : bigint) (ha : a.NF) (hb : b.NF) :
    (bi_add a b).NF ∧ (bi_add a b).value = a.value + b.value := by
  unfold bi_add
  simp only [bigint.num_comps]
  by_cases hs : a.sign = b.sign
  · rw [if_pos hs]
    have := zip_add_spec a.sign ha.1 a.comps b.comps (nf_digits ha) (nf_digits hb)
      (nf_comps_ne_nil ha)
    refine ⟨this.1, ?_⟩
    rw [this.2]
    unfold bigint.value
    rw [← hs]
    ring
  · rw [if_neg hs]
    have := zip_sub_spec a.sign ha.1 a.comps b.comps (nf_digits ha) (nf_digits hb)
      (nf_comps_ne_nil ha)
    refine ⟨this.1, ?_⟩
    rw [this.2]
    unfold bigint.value
    have hsb : b.sign = -a.sign := by
      rcases ha.1 with h1 | h1 <;> rcases hb.1 with h2 | h2 <;> simp_all
    rw [hsb]
    ring

theorem bi_subtract_spec (a b : bigint) (ha : a.NF) (hb : b.NF) :
    (bi_subtract a b).NF ∧ (bi_subtract a b).value = a.value - b.value := by
  unfold bi_subtract
  simp only [bigint.num_comps]
  by_cases hs : a.sign = b.sign
  · rw [if_pos hs]
    have := zip_sub_spec a.sign ha.1 a.comps b.comps (nf_digits ha) (nf_digits hb)
      (nf_comps_ne_nil ha)
    refine ⟨this.1, ?_⟩
    rw [this.2]
    unfold bigint.value
    rw [← hs]
    ring
  · rw [if_neg hs]
    have := zip_add_spec a.sign ha.1 a.comps b.comps (nf_digits ha) (nf_digits hb)
      (nf_comps_ne_nil ha)
    refine ⟨this.1, ?_⟩
    rw [this.2]
    unfold bigint.value
    have hsb : b.sign = -a.sign := by
      rcases ha.1 with h1 | h1 <;> rcases hb.1 with h2 | h2 <;> simp_all
    rw [hsb]
    ring

end OSL

namespace OSL

/-! ## Operations with an `int` -/

theorem nf_comps_cons {b : bigint} (h : b.NF) : ∃ x rest, b.comps = x :: rest := by
  have := nf_comps_ne_nil h
  cases hc : b.comps with
  | nil => exact absurd hc this
  | cons x rest => exact ⟨x, rest, rfl⟩

/-- `comps[0] += d` followed by `normalize`, for `d` in `[-r, r]`. -/
theorem addToFirst_spec (a : bigint) (ha : a.NF) (d : Int) (h1 : -bi_radix ≤ d)
    (h2 : d ≤ bi_radix) :
    (normalize ⟨a.sign, addToFirst a.comps d⟩).NF ∧
    (normalize ⟨a.sign, addToFirst a.comps d⟩).value = a.value + a.sign * d := by
  have hr := bi_radix_eq
  obtain ⟨x, rest, hc⟩ := nf_comps_cons ha
  have hd := nf_digits ha
  rw [hc, digits_cons] at hd
  have hv : a.value = a.sign * compsValue (x :: rest) := by
    unfold bigint.value
    rw [hc]
  have e : addToFirst a.comps d = (x + d) :: rest := by
    rw [hc]
    show cadd x d :: rest = _
    rw [cadd_eq x d (by omega) (by omega) (by omega) (by omega)]
  rw [e, hv]
  have hval : a.sign * compsValue ((x + d) :: rest) =
      a.sign * compsValue (x :: rest) + a.sign * d := by
    rw [compsValue_cons, compsValue_cons]
    ring
  rw [← hval]
  by_cases hneg : x + d < 0
  · exact normalize_B a.sign (x + d) rest ha.1 (by omega) (by omega) (fun y hy => by
      have := hd.2 y hy
      constructor <;> omega)
  · refine normalize_A a.sign (x + d) rest ha.1 ?_
    intro y hy
    rw [List.mem_cons] at hy
    rcases hy with hy | hy
    · rw [hy]
      constructor <;> omega
    · have := hd.2 y hy
      constructor <;> omega

theorem bi_int_add_spec (a : bigint) (ha : a.NF) (i : Int) (h1 : -bi_radix ≤ i)
    (h2 : i < bi_radix) :
    (bi_int_add a i).NF ∧ (bi_int_add a i).value = a.value + i := by
  unfold bi_int_add
  rcases ha.1 with hs | hs
  · have := addToFirst_spec a ha i (by omega) (by omega)
    rw [if_pos hs]
    rw [hs, one_mul] at this
    rw [hs]
    exact this
  · have := addToFirst_spec a ha (-i) (by omega) (by omega)
    rw [if_neg (by omega)]
    rw [hs] at this
    rw [hs]
    refine ⟨this.1, ?_⟩
    rw [this.2]
    ring

theorem bi_int_subtract_spec (a : bigint) (ha : a.NF) (i : Int) (h1 : -bi_radix ≤ i)
    (h2 : i < bi_radix) :
    (bi_int_subtract a i).NF ∧ (bi_int_subtract a i).value = a.value - i := by
  unfold bi_int_subtract
  rcases ha.1 with hs | hs
  · have := addToFirst_spec a ha (-i) (by omega) (by omega)
    rw [if_pos hs]
    rw [hs] at this
    rw [hs]
    refine ⟨this.1, ?_⟩
    rw [this.2]
    ring
  · have := addToFirst_spec a ha i (by omega) (by omega)
    rw [if_neg (by omega)]
    rw [hs] at this
    rw [hs]
    refine ⟨this.1, ?_⟩
    rw [this.2]
    ring

theorem digit_mul_bound (x y : Int) (hx0 : 0 ≤ x) (hx : x < 2147483648) (hy0 : 0 ≤ y)
    (hy : y < 2147483648) : 0 ≤ x * y ∧ x * y ≤ 4611686014132420609 := by
  constructor
  · exact Int.mul_nonneg hx0 hy0
  · nlinarith

theorem cmul_digit (x y : Int) (hx0 : 0 ≤ x) (hx : x < 2147483648) (hy0 : 0 ≤ y)
    (hy : y < 2147483648) : cmul x y = x * y := by
  have := digit_mul_bound x y hx0 hx hy0 hy
  unfold cmul
  exact wrap64_eq _ (by omega) (by omega)

theorem compsValue_map_mul (l : List Int) (i : Int) :
    compsValue (l.map (fun x => x * i)) = compsValue l * i := by
  induction l with
  | nil => simp [compsValue]
  | cons x l ih =>
    rw [List.map_cons, compsValue_cons, compsValue_cons, ih]
    ring

theorem bi_int_multiply_spec (a : bigint) (ha : a.NF) (i : Int) (h1 : 0 ≤ i)
    (h2 : i < bi_radix) :
    (bi_int_multiply a i).NF ∧ (bi_int_multiply a i).value = a.value * i := by
  have hr := bi_radix_eq
  unfold bi_int_multiply
  simp only [if_neg (show ¬ i < 0 by omega)]
  have hd := nf_digits ha
  have e : a.comps.map (fun x => cmul x i) = a.comps.map (fun x => x * i) := by
    apply List.map_congr_left
    intro x hx
    have := hd x hx
    exact cmul_digit x i (by omega) (by omega) h1 (by omega)
  rw [e]
  have hne : a.comps.map (fun x => x * i) ≠ [] := by
    simp [nf_comps_ne_nil ha]
  have hmem : ∀ y ∈ a.comps.map (fun x => x * i), 0 ≤ y ∧ y ≤ 4611686016279904256 := by
    intro y hy
    rw [List.mem_map] at hy
    obtain ⟨x, hx, rfl⟩ := hy
    have := hd x hx
    have := digit_mul_bound x i (by omega) (by omega) h1 (by omega)
    constructor <;> omega
  have := normalize_A_list a.sign _ ha.1 hne hmem
  refine ⟨this.1, ?_⟩
  rw [this.2, compsValue_map_mul]
  unfold bigint.value
  ring

theorem intDivideLoop_spec (d : Int) (hd0 : 0 < d) (hd1 : d < bi_radix) (xs : List Int) :
    ∀ (r : Int), 0 ≤ r → r < d → Digits xs →
    ∃ rem, 0 ≤ rem ∧ rem < d ∧ Digits (intDivideLoop d r xs) ∧
      (intDivideLoop d r xs).length = xs.length ∧
      compsValue (intDivideLoop d r xs).reverse * d + rem =
        r * bi_radix ^ xs.length + compsValue xs.reverse := by
  have hr := bi_radix_eq
  induction xs with
  | nil =>
    intro r h0 h1 _
    exact ⟨r, h0, h1, digits_nil, rfl, by simp [intDivideLoop, compsValue]⟩
  | cons x rest ih =>
    intro r h0 h1 hx
    rw [digits_cons] at hx
    have e1 : cadd (cmul r bi_radix) x = r * 2147483648 + x := by
      have : cmul r bi_radix = r * 2147483648 := by
        unfold cmul
        rw [bi_radix_eq]
        exact wrap64_eq _ (by omega) (by omega)
      rw [this]
      exact cadd_eq _ _ (by omega) (by omega) (by omega) (by omega)
    have hq0 : 0 ≤ (r * 2147483648 + x) / d := Int.ediv_nonneg (by omega) (by omega)
    have hq1 : (r * 2147483648 + x) / d < 2147483648 :=
      Int.ediv_lt_of_lt_mul hd0 (by omega)
    have e2 : cdiv (r * 2147483648 + x) d = (r * 2147483648 + x) / d := by
      unfold cdiv
      rw [Int.tdiv_eq_ediv (by omega) (by omega)]
      exact wrap64_eq _ (by omega) (by omega)
    have e3 : cmod (r * 2147483648 + x) d = (r * 2147483648 + x) % d := by
      unfold cmod
      rw [Int.tmod_eq_emod (by omega) (by omega)]
    have hm0 : 0 ≤ (r * 2147483648 + x) % d := Int.emod_nonneg _ (by omega)
    have hm1 : (r * 2147483648 + x) % d < d := Int.emod_lt_of_pos _ hd0
    obtain ⟨rem, r0, r1, i1, i2, i3⟩ := ih ((r * 2147483648 + x) % d) hm0 hm1 hx.2
    have e : intDivideLoop d r (x :: rest) =
        (r * 2147483648 + x) / d :: intDivideLoop d ((r * 2147483648 + x) % d) rest := by
      show cdiv (cadd (cmul r bi_radix) x) d ::
        intDivideLoop d (cmod (cadd (cmul r bi_radix) x) d) rest = _
      rw [e1, e2, e3]
    rw [e]
    refine ⟨rem, r0, r1, ?_, by simp [i2], ?_⟩
    · rw [digits_cons]
      exact ⟨⟨hq0, by omega⟩, i1⟩
    · rw [List.reverse_cons, List.reverse_cons, compsValue_concat, compsValue_concat,
        List.length_reverse, List.length_reverse, i2, List.length_cons, pow_succ, bi_radix_eq]
      rw [bi_radix_eq] at i3
      have hdm := Int.ediv_add_emod (r * 2147483648 + x) d
      linear_combination i3 + (2147483648 : Int) ^ rest.length * hdm

theorem digits_reverse (l : List Int) (h : Digits l) : Digits l.reverse := by
  intro x hx
  exact h x (List.mem_reverse.mp hx)

theorem bi_int_divide_spec (a : bigint) (ha : a.NF) (d : Int) (hd0 : 0 < d) (hd1 : d < bi_radix) :
    ∃ q, bi_int_divide a d = .ok q ∧ q.NF ∧ q.value = a.sign * (compsValue a.comps / d) := by
  unfold bi_int_divide
  rw [if_neg (by omega)]
  simp only [if_neg (show ¬ d < 0 by omega)]
  refine ⟨_, rfl, ?_⟩
  obtain ⟨rem, r0, r1, i1, i2, i3⟩ := intDivideLoop_spec d hd0 hd1 a.comps.reverse 0
    (le_refl 0) hd0 (digits_reverse _ (nf_digits ha))
  rw [List.reverse_reverse, zero_mul, zero_add] at i3
  have hq : compsValue a.comps / d = compsValue (intDivideLoop d 0 a.comps.reverse).reverse := by
    have := (Int.ediv_emod_unique hd0).mpr ⟨(by rw [← i3]; ring :
      rem + d * compsValue (intDivideLoop d 0 a.comps.reverse).reverse = compsValue a.comps),
      r0, r1⟩
    exact this.1
  have hne : (intDivideLoop d 0 a.comps.reverse).reverse ≠ [] := by
    intro e
    have := congrArg List.length e
    rw [List.length_reverse, i2, List.length_reverse] at this
    have h2 := nf_comps_ne_nil ha
    cases hc : a.comps with
    | nil => exact h2 hc
    | cons x l =>
      rw [hc] at this
      simp at this
  have := normalize_A_list a.sign _ ha.1 hne (fun y hy => by
    have := digits_reverse _ i1 y hy
    have hr := bi_radix_eq
    constructor <;> omega)
  rw [hq]
  exact this

theorem emod_step (a b c m : Int) : (a % m + (b % m) * c) % m = (a + b * c) % m :=
  Int.ModEq.add (Int.mod_modEq a m) (Int.ModEq.mul_right c (Int.mod_modEq b m))

theorem intRemLoop_spec (m : Int) (hm0 : 0 < m) (hm1 : m < bi_radix) (xs : List Int) :
    ∀ (rad r : Int), 0 ≤ rad → rad ≤ m → 0 ≤ r → r < m → Digits xs →
    intRemLoop m rad r xs = (r + rad * compsValue xs) % m := by
  have hr := bi_radix_eq
  induction xs with
  | nil =>
    intro rad r _ _ h3 h4 _
    simp only [intRemLoop, compsValue, mul_zero, add_zero]
    rw [Int.emod_eq_of_lt h3 h4]
  | cons x rest ih =>
    intro rad r h1 h2 h3 h4 hx
    rw [digits_cons] at hx
    have e1 : cmul rad bi_radix = rad * 2147483648 := by
      unfold cmul
      rw [bi_radix_eq]
      exact wrap64_eq _ (by omega) (by omega)
    have e2 : cmul x rad = x * rad :=
      cmul_digit x rad (by omega) (by omega) h1 (by omega)
    have hb := digit_mul_bound x rad (by omega) (by omega) h1 (by omega)
    have e3 : cadd r (x * rad) = r + x * rad :=
      cadd_eq _ _ (by omega) (by omega) (by omega) (by omega)
    have e4 : cmod (rad * 2147483648) m = (rad * 2147483648) % m := by
      unfold cmod
      rw [Int.tmod_eq_emod (by omega) (by omega)]
    have e5 : cmod (r + x * rad) m = (r + x * rad) % m := by
      unfold cmod
      rw [Int.tmod_eq_emod (by omega) (by omega)]
    have e : intRemLoop m rad r (x :: rest) =
        intRemLoop m ((rad * 2147483648) % m) ((r + x * rad) % m) rest := by
      show intRemLoop m (cmod (cmul rad bi_radix) m) (cmod (cadd r (cmul x rad)) m) rest = _
      rw [e1, e2, e3, e4, e5]
    rw [e, ih _ _ (Int.emod_nonneg _ (by omega)) (le_of_lt (Int.emod_lt_of_pos _ hm0))
      (Int.emod_nonneg _ (by omega)) (Int.emod_lt_of_pos _ hm0) hx.2, emod_step, compsValue_cons,
      bi_radix_eq]
    congr 1
    ring

theorem bi_int_rem_spec (a : bigint) (ha : a.NF) (hs : a.sign = 1) (m : Int) (hm0 : 0 < m)
    (hm1 : m < bi_radix) : bi_int_rem a m = .ok (a.value % m) := by
  have hr := bi_radix_eq
  unfold bi_int_rem
  rw [if_neg (by omega)]
  simp only [if_neg (show ¬ m < 0 by omega), hs, if_neg (show ¬ (1 : Int) < 1 by omega)]
  rw [intRemLoop_spec m hm0 hm1 a.comps 1 0 (by omega) (by omega) (le_refl 0) hm0 (nf_digits ha)]
  have h1 := Int.emod_nonneg (0 + 1 * compsValue a.comps) (Int.ne_of_gt hm0)
  have h2 := Int.emod_lt_of_pos (0 + 1 * compsValue a.comps) hm0
  rw [toInt32_eq _ (by omega) (by omega)]
  unfold bigint.value
  rw [hs]
  simp

end OSL

namespace OSL

/-! ## Comparison -/

theorem compareTop_spec (s : Int) (xs : List Int) : ∀ (ys : List Int), xs.length = ys.length →
    Digits xs → Digits ys →
    compareTop s xs ys = s * Int.sign (compsValue xs.reverse - compsValue ys.reverse) := by
  induction xs with
  | nil =>
    intro ys hlen _ _
    cases ys with
    | nil => simp [compareTop, compsValue]
    | cons y ys => simp at hlen
  | cons x xs ih =>
    intro ys hlen hx hy
    cases ys with
    | nil => simp at hlen
    | cons y ys =>
      rw [digits_cons] at hx hy
      have hl : xs.length = ys.length := by simpa using hlen
      have h1 := digits_nonneg _ (digits_reverse _ hx.2)
      have h2 := digits_nonneg _ (digits_reverse _ hy.2)
      have h3 := compsValue_lt _ (digits_reverse _ hx.2)
      have h4 := compsValue_lt _ (digits_reverse _ hy.2)
      rw [List.length_reverse] at h3 h4
      rw [hl] at h3
      have hp := bi_radix_pow_pos ys.length
      rw [List.reverse_cons, List.reverse_cons, compsValue_concat, compsValue_concat,
        List.length_reverse, List.length_reverse, hl]
      unfold compareTop
      by_cases hgt : x > y
      · rw [if_pos hgt]
        have : bi_radix ^ ys.length * (y + 1) ≤ bi_radix ^ ys.length * x :=
          Int.mul_le_mul_of_nonneg_left (by omega) (le_of_lt hp)
        rw [mul_add, mul_one] at this
        rw [Int.sign_eq_one_of_pos (by omega), mul_one]
      · rw [if_neg hgt]
        by_cases hlt : x < y
        · rw [if_pos hlt]
          have : bi_radix ^ ys.length * (x + 1) ≤ bi_radix ^ ys.length * y :=
            Int.mul_le_mul_of_nonneg_left (by omega) (le_of_lt hp)
          rw [mul_add, mul_one] at this
          rw [Int.sign_eq_neg_one_of_neg (by omega)]
          ring
        · rw [if_neg hlt, ih ys hl hx.2 hy.2]
          have : x = y := by omega
          rw [this]
          congr 2
          ring

theorem nf_num_comps_pos {b : bigint} (h : b.NF) : 1 ≤ b.num_comps := by
  obtain ⟨x, rest, hc⟩ := nf_comps_cons h
  unfold bigint.num_comps
  rw [hc]
  simp

theorem nf_lower {b : bigint} (h : b.NF) (hlen : 1 < b.num_comps) :
    bi_radix ^ (b.num_comps - 1) ≤ compsValue b.comps :=
  normComps_lower _ h.2.1 hlen

theorem nf_comps_pos_of_sign_neg {b : bigint} (h : b.NF) (hs : b.sign = -1) :
    0 < compsValue b.comps := by
  have := (nf_sign_neg_iff h).mp hs
  unfold bigint.value at this
  rw [hs] at this
  omega

/-- `bi_compare` on normal-form numbers is the sign of the difference. -/
theorem bi_compare_spec (a b : bigint) (ha : a.NF) (hb : b.NF) :
    bi_compare a b = Int.sign (a.value - b.value) := by
  have hva : a.value = a.sign * compsValue a.comps := rfl
  have hvb : b.value = b.sign * compsValue b.comps := rfl
  have ha0 := nf_comps_nonneg ha
  have hb0 := nf_comps_nonneg hb
  unfold bi_compare
  by_cases h1 : a.sign > b.sign
  · rw [if_pos h1]
    have hsa : a.sign = 1 := by rcases ha.1 with h | h <;> rcases hb.1 with h' | h' <;> omega
    have hsb : b.sign = -1 := by rcases ha.1 with h | h <;> rcases hb.1 with h' | h' <;> omega
    have := nf_comps_pos_of_sign_neg hb hsb
    rw [hva, hvb, hsa, hsb, Int.sign_eq_one_of_pos (by omega)]
  · rw [if_neg h1]
    by_cases h2 : a.sign < b.sign
    · rw [if_pos h2]
      have hsa : a.sign = -1 := by rcases ha.1 with h | h <;> rcases hb.1 with h' | h' <;> omega
      have hsb : b.sign = 1 := by rcases ha.1 with h | h <;> rcases hb.1 with h' | h' <;> omega
      have := nf_comps_pos_of_sign_neg ha hsa
      rw [hva, hvb, hsa, hsb, Int.sign_eq_neg_one_of_neg (by omega)]
    · rw [if_neg h2]
      have hs : b.sign = a.sign := by omega
      have hda := compsValue_lt _ (nf_digits ha)
      have hdb := compsValue_lt _ (nf_digits hb)
      have hpa := nf_num_comps_pos ha
      have hpb := nf_num_comps_pos hb
      by_cases h3 : a.num_comps > b.num_comps
      · rw [if_pos h3]
        have hl := nf_lower ha (by omega)
        have hp : bi_radix ^ b.num_comps ≤ bi_radix ^ (a.num_comps - 1) :=
          pow_le_pow_right₀ (by rw [bi_radix_eq]; norm_num) (by omega)
        have hlt : compsValue b.comps < compsValue a.comps := by
          unfold bigint.num_comps at hp hl
          omega
        rw [hva, hvb, hs]
        rcases ha.1 with h | h
        · rw [h, Int.sign_eq_one_of_pos (by omega)]
        · rw [h, Int.sign_eq_neg_one_of_neg (by omega)]
      · rw [if_neg h3]
        by_cases h4 : a.num_comps < b.num_comps
        · rw [if_pos h4]
          have hl := nf_lower hb (by omega)
          have hp : bi_radix ^ a.num_comps ≤ bi_radix ^ (b.num_comps - 1) :=
            pow_le_pow_right₀ (by rw [bi_radix_eq]; norm_num) (by omega)
          have hlt : compsValue a.comps < compsValue b.comps := by
            unfold bigint.num_comps at hp hl
            omega
          rw [hva, hvb, hs]
          rcases ha.1 with h | h
          · rw [h, Int.sign_eq_neg_one_of_neg (by omega)]
          · rw [h, Int.sign_eq_one_of_pos (by omega)]
            rfl
        · rw [if_neg h4]
          have hlen : a.comps.reverse.length = b.comps.reverse.length := by
            rw [List.length_reverse, List.length_reverse]
            unfold bigint.num_comps at h3 h4
            omega
          rw [compareTop_spec a.sign _ _ hlen (digits_reverse _ (nf_digits ha))
            (digits_reverse _ (nf_digits hb)), List.reverse_reverse, List.reverse_reverse,
            hva, hvb, hs, ← mul_sub, Int.sign_mul]
          rcases ha.1 with h | h <;> rw [h] <;> simp

theorem bi_0_eq : bi_0 = ⟨1, [0]⟩ := by decide

theorem bi_1_eq : bi_1 = ⟨1, [1]⟩ := by decide

theorem bi_0_nf : bi_0.NF := by
  rw [bi_0_eq]
  refine ⟨Or.inl rfl, ⟨by simp, ?_, by simp⟩, fun _ => rfl⟩
  rw [digits_cons, bi_radix_eq]
  exact ⟨by omega, digits_nil⟩

theorem bi_1_nf : bi_1.NF := by
  rw [bi_1_eq]
  refine ⟨Or.inl rfl, ⟨by simp, ?_, by simp⟩, fun _ => rfl⟩
  rw [digits_cons, bi_radix_eq]
  exact ⟨by omega, digits_nil⟩

theorem bi_0_value : bi_0.value = 0 := by
  rw [bi_0_eq]
  simp [bigint.value, compsValue]

theorem bi_1_value : bi_1.value = 1 := by
  rw [bi_1_eq]
  simp [bigint.value, compsValue]

theorem bi_is_zero_spec (a : bigint) (ha : a.NF) : bi_is_zero a = true ↔ a.value = 0 := by
  unfold bi_is_zero
  simp only [decide_eq_true_eq]
  constructor
  · rintro ⟨h1, h2⟩
    unfold bigint.value
    rw [h1, h2]
    simp [compsValue]
  · intro hv
    have := nf_eq_zero ha hv
    rw [this]
    exact ⟨rfl, rfl⟩

theorem bi_is_negative_spec (a : bigint) (ha : a.NF) : bi_is_negative a = true ↔ a.value < 0 := by
  unfold bi_is_negative
  simp only [decide_eq_true_eq]
  exact nf_sign_neg_iff ha

/-! ## Halving and parity -/

theorem bi_is_odd_spec (a : bigint) (ha : a.NF) (hs : a.sign = 1) :
    bi_is_odd a = true ↔ a.value % 2 = 1 := by
  obtain ⟨x, rest, hc⟩ := nf_comps_cons ha
  unfold bi_is_odd bigint.comp bigint.value
  rw [hc, hs]
  simp only [List.getD_cons_zero, decide_eq_true_eq, compsValue_cons, bi_radix_eq, one_mul]
  omega

theorem halfLoop_spec (rest : List Int) : ∀ (x : Int), Digits (x :: rest) →
    Digits (halfLoop x rest) ∧ compsValue (halfLoop x rest) = compsValue (x :: rest) / 2 ∧
    (halfLoop x rest).length = rest.length + 1 := by
  have hr := bi_radix_eq
  induction rest with
  | nil =>
    intro x hx
    rw [digits_cons] at hx
    refine ⟨?_, by simp [halfLoop, compsValue], rfl⟩
    unfold halfLoop
    rw [digits_cons]
    exact ⟨by omega, digits_nil⟩
  | cons y rest ih =>
    intro x hx
    rw [digits_cons] at hx
    have hy := hx.2
    rw [digits_cons] at hy
    obtain ⟨i1, i2, i3⟩ := ih y hx.2
    have e : halfLoop x (y :: rest) =
        (if y % 2 = 1 then x / 2 + 1073741824 else x / 2) :: halfLoop y rest := by
      show (if y % 2 = 1 then cadd (x / 2) (bi_radix / 2) else x / 2) :: halfLoop y rest = _
      rw [bi_radix_eq, cadd_eq _ _ (by omega) (by omega) (by omega) (by omega)]
      rfl
    rw [e]
    refine ⟨?_, ?_, by simp [i3]⟩
    · rw [digits_cons]
      refine ⟨?_, i1⟩
      split <;> constructor <;> omega
    · rw [compsValue_cons, i2, compsValue_cons, compsValue_cons, compsValue_cons, bi_radix_eq]
      split <;> omega

theorem bi_half_spec (a : bigint) (ha : a.NF) (hs : a.sign = 1) :
    (bi_half a).NF ∧ (bi_half a).value = a.value / 2 ∧ (bi_half a).sign = 1 := by
  have hr := bi_radix_eq
  obtain ⟨x, rest, hc⟩ := nf_comps_cons ha
  have hd := nf_digits ha
  rw [hc] at hd
  obtain ⟨i1, i2, i3⟩ := halfLoop_spec rest x hd
  have hav : a.value = compsValue (x :: rest) := by
    unfold bigint.value
    rw [hs, hc, one_mul]
  have hne : halfLoop x rest ≠ [] := by
    intro e
    rw [e] at i3
    simp at i3
  obtain ⟨front, top, hft⟩ := exists_concat _ hne
  have hfl : front.length = rest.length := by
    have := congrArg List.length hft
    rw [i3] at this
    simp at this
    omega
  have hdf := i1
  rw [hft, digits_append, digits_cons] at hdf
  have e : bi_half a = ⟨1, if (halfLoop x rest).length > 1 ∧ (halfLoop x rest).getLastD 0 = 0
      then (halfLoop x rest).dropLast else halfLoop x rest⟩ := by
    unfold bi_half
    rw [hc, hs]
  rw [e, hav]
  by_cases hcond : (halfLoop x rest).length > 1 ∧ (halfLoop x rest).getLastD 0 = 0
  · rw [if_pos hcond]
    have ht : top = 0 := by
      have := hcond.2
      rw [hft, getLastD_append_singleton] at this
      exact this
    have hdl : (halfLoop x rest).dropLast = front := by
      rw [hft]
      simp
    rw [hdl]
    have hv : compsValue front = compsValue (x :: rest) / 2 := by
      rw [← i2, hft, compsValue_concat, ht]
      ring
    have hfne : front ≠ [] := by
      intro e0
      have := hcond.1
      rw [hft, e0] at this
      simp at this
    refine ⟨⟨Or.inl rfl, ⟨hfne, hdf.1, ?_⟩, fun _ => rfl⟩, by simp [bigint.value, hv], rfl⟩
    intro hlen
    -- the value is at least `r ^ (n - 2)`, so the new top component is not zero
    obtain ⟨f2, t2, hf2⟩ := exists_concat _ hfne
    have hlow := nf_lower ha (by
      unfold bigint.num_comps
      rw [hc]
      simp only [List.length_cons]
      omega)
    unfold bigint.num_comps at hlow
    rw [hc] at hlow
    simp only [List.length_cons, Nat.add_sub_cancel] at hlow
    have hd2 := hdf.1
    rw [hf2, digits_append, digits_cons] at hd2
    have hlt := compsValue_lt _ hd2.1
    rw [hf2, compsValue_concat] at hv
    have hlen2 : rest.length = f2.length + 1 := by
      rw [← hfl, hf2]
      simp
    rw [hlen2, pow_succ, bi_radix_eq] at hlow
    rw [bi_radix_eq] at hlt hv
    rw [hf2, List.getLast?_append]
    simp only [List.getLast?_singleton, Option.or_some, ne_eq, Option.some.injEq]
    intro ht2
    rw [ht2] at hv
    have hp : (0 : Int) < 2147483648 ^ f2.length := by positivity
    omega
  · rw [if_neg hcond]
    refine ⟨⟨Or.inl rfl, ⟨hne, i1, ?_⟩, fun _ => rfl⟩, by simp [bigint.value, i2], rfl⟩
    intro hlen h0
    apply hcond
    refine ⟨hlen, ?_⟩
    rw [List.getLastD_eq_getLast?, h0]
    rfl

end OSL

namespace OSL

/-! ## regular_multiply -/

theorem addRow_spec (x : Int) (hx0 : 0 ≤ x) (hx1 : x < bi_radix) (rs : List Int) :
    ∀ (ys : List Int), Digits rs → Digits ys → ys.length ≤ rs.length →
    (∀ z ∈ addRow x rs ys, 0 ≤ z ∧ z ≤ 4611686016279904256) ∧
    compsValue (addRow x rs ys) = compsValue rs + x * compsValue ys ∧
    (addRow x rs ys).length = rs.length := by
  have hr := bi_radix_eq
  induction rs with
  | nil =>
    intro ys _ _ hlen
    cases ys with
    | nil => simp [addRow, compsValue]
    | cons y ys => simp at hlen
  | cons r rs ih =>
    intro ys hrs hys hlen
    rw [digits_cons] at hrs
    cases ys with
    | nil =>
      refine ⟨?_, by simp [addRow, compsValue], by simp [addRow]⟩
      intro z hz
      simp only [addRow, List.mem_cons] at hz
      rcases hz with hz | hz
      · rw [hz]; constructor <;> omega
      · have := hrs.2 z hz
        constructor <;> omega
    | cons y ys =>
      rw [digits_cons] at hys
      obtain ⟨i1, i2, i3⟩ := ih ys hrs.2 hys.2 (by simpa using hlen)
      have hb := digit_mul_bound x y hx0 (by omega) (by omega) (by omega)
      have e : addRow x (r :: rs) (y :: ys) = (r + x * y) :: addRow x rs ys := by
        show cadd r (cmul x y) :: addRow x rs ys = _
        rw [cmul_digit x y hx0 (by omega) (by omega) (by omega),
          cadd_eq _ _ (by omega) (by omega) (by omega) (by omega)]
      rw [e]
      refine ⟨?_, ?_, by simp [i3]⟩
      · intro z hz
        rw [List.mem_cons] at hz
        rcases hz with hz | hz
        · rw [hz]; constructor <;> omega
        · exact i1 z hz
      · rw [compsValue_cons, i2, compsValue_cons, compsValue_cons]
        ring

theorem digits_take (l : List Int) (n : Nat) (h : Digits l) : Digits (l.take n) :=
  fun x hx => h x (List.mem_of_mem_take hx)

theorem digits_drop (l : List Int) (n : Nat) (h : Digits l) : Digits (l.drop n) :=
  fun x hx => h x (List.mem_of_mem_drop hx)

theorem compsValue_take_drop (l : List Int) (n : Nat) (h : n ≤ l.length) :
    compsValue l = compsValue (l.take n) + bi_radix ^ n * compsValue (l.drop n) := by
  conv_lhs => rw [← List.take_append_drop n l]
  rw [compsValue_append, List.length_take, Nat.min_eq_left h]

/-- One row of `regular_multiply`: the row of `x` is added at offset `c1`. -/
theorem row_spec (x : Int) (hx0 : 0 ≤ x) (hx1 : x < bi_radix) (comps b : List Int) (c1 : Nat)
    (hc : Digits comps) (hb : Digits b) (hlen : c1 + b.length ≤ comps.length) :
    (∀ z ∈ comps.take c1 ++ addRow x (comps.drop c1) b, 0 ≤ z ∧ z ≤ 4611686016279904256) ∧
    compsValue (comps.take c1 ++ addRow x (comps.drop c1) b) =
      compsValue comps + bi_radix ^ c1 * x * compsValue b ∧
    (comps.take c1 ++ addRow x (comps.drop c1) b).length = comps.length := by
  have hr := bi_radix_eq
  obtain ⟨i1, i2, i3⟩ := addRow_spec x hx0 hx1 (comps.drop c1) b (digits_drop _ _ hc) hb
    (by rw [List.length_drop]; omega)
  refine ⟨?_, ?_, ?_⟩
  · intro z hz
    rw [List.mem_append] at hz
    rcases hz with hz | hz
    · have := digits_take _ c1 hc z hz
      constructor <;> omega
    · exact i1 z hz
  · rw [compsValue_append, i2, List.length_take, Nat.min_eq_left (by omega),
      compsValue_take_drop comps c1 (by omega)]
    ring
  · rw [List.length_append, i3, List.length_take, List.length_drop]
    omega

theorem mul_lt_pow (P V : Int) (i j : Nat) (hP0 : 0 ≤ P) (hP : P < bi_radix ^ i) (hV0 : 0 ≤ V)
    (hV : V < bi_radix ^ j) : P * V < bi_radix ^ (i + j) := by
  rw [pow_add]
  exact mul_lt_mul'' hP hV hP0 hV0

theorem rowsLoop_spec (new_comps : Nat) (b : List Int) (hb : Digits b) (as : List Int) :
    ∀ (c1 : Nat) (biR : bigint) (P : Int), biR.sign = 1 → Digits biR.comps → biR.comps ≠ [] →
    biR.comps.length ≤ new_comps → compsValue biR.comps = P * compsValue b → 0 ≤ P →
    P < bi_radix ^ c1 → Digits as → c1 + as.length + b.length ≤ new_comps →
    (rowsLoop new_comps b c1 as biR).sign = 1 ∧
    compsValue (rowsLoop new_comps b c1 as biR).comps =
      (P + bi_radix ^ c1 * compsValue as) * compsValue b ∧
    (as ≠ [] → (rowsLoop new_comps b c1 as biR).NF) := by
  have hr := bi_radix_eq
  induction as with
  | nil =>
    intro c1 biR P h1 _ _ _ h5 _ _ _ _
    refine ⟨h1, ?_, fun h => absurd rfl h⟩
    simp only [rowsLoop, compsValue, mul_zero, add_zero]
    exact h5
  | cons x rest ih =>
    intro c1 biR P h1 h2 h3 h4 h5 h6 h7 h8 h9
    rw [digits_cons] at h8
    simp only [List.length_cons] at h9
    have hpad : (more_comps biR.comps new_comps).take new_comps = more_comps biR.comps new_comps := by
      apply List.take_of_length_le
      rw [more_comps_length]
      omega
    have hpl : (more_comps biR.comps new_comps).length = new_comps := by
      rw [more_comps_length]
      omega
    obtain ⟨r1, r2, r3⟩ := row_spec x h8.1.1 h8.1.2 (more_comps biR.comps new_comps) b c1
      (more_comps_digits _ _ h2) hb (by omega)
    have hne : (more_comps biR.comps new_comps).take c1 ++
        addRow x ((more_comps biR.comps new_comps).drop c1) b ≠ [] := by
      intro e
      have := congrArg List.length e
      rw [r3, hpl] at this
      simp at this
      omega
    obtain ⟨n1, n2⟩ := normalize_A_list 1 _ (Or.inl rfl) hne r1
    rw [r2, more_comps_value, h5, one_mul] at n2
    have hbv0 := digits_nonneg b hb
    have hbv1 := compsValue_lt b hb
    have hP' : P + bi_radix ^ c1 * x < bi_radix ^ (c1 + 1) := by
      have : bi_radix ^ c1 * (x + 1) ≤ bi_radix ^ c1 * bi_radix :=
        Int.mul_le_mul_of_nonneg_left (by omega) (le_of_lt (bi_radix_pow_pos _))
      rw [pow_succ]
      rw [mul_add, mul_one] at this
      omega
    have hP0 : 0 ≤ P + bi_radix ^ c1 * x := by
      have : 0 ≤ bi_radix ^ c1 * x := Int.mul_nonneg (le_of_lt (bi_radix_pow_pos _)) h8.1.1
      omega
    have hval : (normalize ⟨1, (more_comps biR.comps new_comps).take c1 ++
        addRow x ((more_comps biR.comps new_comps).drop c1) b⟩).value =
        (P + bi_radix ^ c1 * x) * compsValue b := by
      rw [n2]
      ring
    have hv0 : 0 ≤ (P + bi_radix ^ c1 * x) * compsValue b := Int.mul_nonneg hP0 hbv0
    have hvlt := mul_lt_pow _ _ _ _ hP0 hP' hbv0 hbv1
    have hvlt2 : (P + bi_radix ^ c1 * x) * compsValue b < bi_radix ^ new_comps := by
      have : bi_radix ^ (c1 + 1 + b.length) ≤ bi_radix ^ new_comps :=
        pow_le_pow_right₀ (by rw [bi_radix_eq]; norm_num) (by omega)
      omega
    have hsign := (nf_sign_one_iff n1).mpr (by rw [hval]; exact hv0)
    have hcv := nf_value_of_nonneg n1 (by rw [hval]; exact hv0)
    rw [hval] at hcv
    have hlen := nf_length_le n1 new_comps (by omega) (by rw [hval]; exact hv0)
      (by rw [hval]; exact hvlt2)
    obtain ⟨i1, i2, i3⟩ := ih (c1 + 1) _ (P + bi_radix ^ c1 * x) hsign (nf_digits n1)
      (nf_comps_ne_nil n1) hlen hcv hP0 hP' h8.2 (by omega)
    have e : rowsLoop new_comps b c1 (x :: rest) biR = rowsLoop new_comps b (c1 + 1) rest
        (normalize ⟨1, (more_comps biR.comps new_comps).take c1 ++
          addRow x ((more_comps biR.comps new_comps).drop c1) b⟩) := by
      show rowsLoop new_comps b (c1 + 1) rest (normalize ⟨biR.sign,
        ((more_comps biR.comps new_comps).take new_comps).take c1 ++
          addRow x (((more_comps biR.comps new_comps).take new_comps).drop c1) b⟩) = _
      rw [hpad, h1]
    rw [e]
    refine ⟨i1, ?_, ?_⟩
    · rw [i2, compsValue_cons, pow_succ]
      ring
    · intro _
      cases rest with
      | nil => exact n1
      | cons y rest2 => exact i3 (by simp)

theorem regular_multiply_spec (a b : bigint) (ha : a.NF) (hb : b.NF) :
    (regular_multiply a b).NF ∧ (regular_multiply a b).value = a.value * b.value := by
  have hr := bi_radix_eq
  have hpa := nf_num_comps_pos ha
  have hpb := nf_num_comps_pos hb
  have hinit_d : Digits (more_comps [0] (a.num_comps + b.num_comps)) :=
    more_comps_digits _ _ (by rw [digits_cons]; exact ⟨by omega, digits_nil⟩)
  obtain ⟨i1, i2, i3⟩ := rowsLoop_spec (a.num_comps + b.num_comps) b.comps (nf_digits hb) a.comps
    0 ⟨1, more_comps [0] (a.num_comps + b.num_comps)⟩ 0 rfl hinit_d
    (more_comps_ne_nil _ _ (by simp))
    (by
      show (more_comps [0] (a.num_comps + b.num_comps)).length ≤ _
      rw [more_comps_length]
      simp only [List.length_singleton]
      omega)
    (by
      show compsValue (more_comps [0] (a.num_comps + b.num_comps)) = _
      rw [more_comps_value]
      simp [compsValue])
    (le_refl 0) (by simp) (nf_digits ha) (by unfold bigint.num_comps; omega)
  have hnf := i3 (nf_comps_ne_nil ha)
  simp only [zero_add, pow_zero, one_mul] at i2
  have hval : (rowsLoop (a.num_comps + b.num_comps) b.comps 0 a.comps
      ⟨1, more_comps [0] (a.num_comps + b.num_comps)⟩).value =
      compsValue a.comps * compsValue b.comps := by
    unfold bigint.value
    rw [i1, i2, one_mul]
  unfold regular_multiply
  simp only []
  by_cases hz : bi_is_zero (rowsLoop (a.num_comps + b.num_comps) b.comps 0 a.comps
      ⟨1, more_comps [0] (a.num_comps + b.num_comps)⟩) = true
  · rw [hz]
    simp only [Bool.not_true, Bool.false_eq_true, if_false]
    refine ⟨hnf, ?_⟩
    have h0 := (bi_is_zero_spec _ hnf).mp hz
    rw [hval] at h0
    rw [hval, h0]
    unfold bigint.value
    have : compsValue a.comps * compsValue b.comps = 0 := h0
    rcases Int.mul_eq_zero.mp this with h | h <;> rw [h] <;> ring
  · have hz2 : bi_is_zero (rowsLoop (a.num_comps + b.num_comps) b.comps 0 a.comps
      ⟨1, more_comps [0] (a.num_comps + b.num_comps)⟩) = false := by
      cases h : bi_is_zero (rowsLoop (a.num_comps + b.num_comps) b.comps 0 a.comps
        ⟨1, more_comps [0] (a.num_comps + b.num_comps)⟩)
      · rfl
      · exact absurd h hz
    rw [hz2]
    simp only [Bool.not_false, if_true]
    refine ⟨⟨?_, hnf.2.1, ?_⟩, ?_⟩
    · show a.sign * b.sign = 1 ∨ a.sign * b.sign = -1
      rcases ha.1 with h | h <;> rcases hb.1 with h' | h' <;> rw [h, h'] <;> simp
    · intro h0
      exfalso
      apply hz
      unfold bi_is_zero
      simp only [decide_eq_true_eq]
      exact ⟨i1, h0⟩
    · show a.sign * b.sign * compsValue _ = _
      rw [i2]
      unfold bigint.value
      ring

end OSL

namespace OSL

/-! ## Karatsuba multiplication -/

theorem splitComps_eq (comps : List Int) (start n : Nat) :
    splitComps comps start n = (List.range n).map (fun c => comps.getD (c + start) 0) := by
  unfold splitComps
  apply List.map_congr_left
  intro c _
  split
  · rfl
  · rename_i h
    rw [List.getD_eq_default]
    omega

theorem splitComps_succ (comps : List Int) (start n : Nat) :
    splitComps comps start (n + 1) = splitComps comps start n ++ [comps.getD (n + start) 0] := by
  rw [splitComps_eq, splitComps_eq, List.range_succ, List.map_append]
  rfl

theorem splitComps_length (comps : List Int) (start n : Nat) :
    (splitComps comps start n).length = n := by
  simp [splitComps]

theorem getD_digit (comps : List Int) (h : Digits comps) (i : Nat) :
    0 ≤ comps.getD i 0 ∧ comps.getD i 0 < bi_radix := by
  by_cases hi : i < comps.length
  · rw [List.getD_eq_getElem _ _ hi]
    exact h _ (List.getElem_mem hi)
  · rw [List.getD_eq_default _ _ (by omega), bi_radix_eq]
    omega

theorem splitComps_digits (comps : List Int) (h : Digits comps) (start n : Nat) :
    Digits (splitComps comps start n) := by
  rw [splitComps_eq]
  intro x hx
  rw [List.mem_map] at hx
  obtain ⟨c, _, rfl⟩ := hx
  exact getD_digit comps h _

theorem compsValue_take_succ (l : List Int) (n : Nat) :
    compsValue (l.take (n + 1)) = compsValue (l.take n) + bi_radix ^ n * l.getD n 0 := by
  by_cases hn : n < l.length
  · rw [List.take_succ, compsValue_append, List.length_take, Nat.min_eq_left (by omega),
      List.getD_eq_getElem _ _ hn, List.getElem?_eq_getElem hn]
    simp [compsValue]
  · rw [List.take_of_length_le (by omega), List.take_of_length_le (by omega),
      List.getD_eq_default _ _ (by omega)]
    ring

theorem splitComps_value (comps : List Int) (start n : Nat) :
    compsValue (splitComps comps start n) = compsValue ((comps.drop start).take n) := by
  induction n with
  | zero => simp [splitComps, compsValue]
  | succ n ih =>
    rw [splitComps_succ, compsValue_concat, ih, splitComps_length, compsValue_take_succ]
    congr 2
    by_cases h : n + start < comps.length
    · rw [List.getD_eq_getElem _ _ h, List.getD_eq_getElem _ _ (by rw [List.length_drop]; omega),
        List.getElem_drop]
      congr 1
      omega
    · rw [List.getD_eq_default _ _ (by omega),
        List.getD_eq_default _ _ (by rw [List.length_drop]; omega)]

/-- The two halves `j` (low) and `i` (high) of the splitting loop stand for the
number: `i * r^n + j`. -/
theorem splitComps_split (comps : List Int) (n : Nat) (h : comps.length ≤ n * 2) :
    compsValue comps =
      compsValue (splitComps comps 0 n) + bi_radix ^ n * compsValue (splitComps comps n n) := by
  rw [splitComps_value, splitComps_value, List.drop_zero,
    List.take_of_length_le (l := comps.drop n) (by rw [List.length_drop]; omega)]
  by_cases hn : n ≤ comps.length
  · exact compsValue_take_drop comps n hn
  · rw [List.take_of_length_le (by omega), List.drop_of_length_le (by omega)]
    simp [compsValue]

theorem addShifted_spec (B : Int) (hB0 : 0 ≤ B) (hB : B ≤ 8589934592) (comps other : List Int)
    (off : Nat) (hc : ∀ x ∈ comps, 0 ≤ x ∧ x ≤ B) (ho : Digits other)
    (hlen : off + other.length ≤ comps.length) :
    (∀ z ∈ addShifted comps off other, 0 ≤ z ∧ z ≤ B + bi_radix) ∧
    compsValue (addShifted comps off other) =
      compsValue comps + bi_radix ^ off * compsValue other ∧
    (addShifted comps off other).length = comps.length := by
  have hr := bi_radix_eq
  have hop : ∀ x ∈ comps.drop off, ∀ y ∈ other, cadd x y = x + 1 * y := by
    intro x hx y hy
    have := hc x (List.mem_of_mem_drop hx)
    have := ho y hy
    rw [cadd_eq x y (by omega) (by omega) (by omega) (by omega)]
    ring
  obtain ⟨v1, v2⟩ := zipComps_value cadd 1 (comps.drop off) other hop
    (by rw [List.length_drop]; omega)
  have hmem := zipComps_mem cadd (fun z => 0 ≤ z ∧ z ≤ B + bi_radix) (comps.drop off) other
    (fun x hx => by
      have := hc x (List.mem_of_mem_drop hx)
      constructor <;> omega)
    (fun x hx y hy => by
      have := hc x (List.mem_of_mem_drop hx)
      have := ho y hy
      rw [hop x hx y hy]
      constructor <;> omega)
  unfold addShifted
  refine ⟨?_, ?_, ?_⟩
  · intro z hz
    rw [List.mem_append] at hz
    rcases hz with hz | hz
    · have := hc z (List.mem_of_mem_take hz)
      constructor <;> omega
    · exact hmem z hz
  · rw [compsValue_append, v1, List.length_take, Nat.min_eq_left (by omega),
      compsValue_take_drop comps off (by omega)]
    ring
  · rw [List.length_append, v2, List.length_take, List.length_drop]
    omega

/-- The recombination step of the Karatsuba branch. -/
theorem karatsuba_combine (s : Int) (hs : s = 1 ∨ s = -1) (n : Nat) (jl mid ik : bigint)
    (hjl : jl.NF) (hmid : mid.NF) (hik : ik.NF) (vjl : 0 ≤ jl.value) (vmid : 0 ≤ mid.value)
    (vik : 0 ≤ ik.value) :
    (normalize ⟨s, addShifted (addShifted
      (more_comps jl.comps (max (mid.num_comps + n) (ik.num_comps + n * 2))) n mid.comps)
      (n * 2) ik.comps⟩).NF ∧
    (normalize ⟨s, addShifted (addShifted
      (more_comps jl.comps (max (mid.num_comps + n) (ik.num_comps + n * 2))) n mid.comps)
      (n * 2) ik.comps⟩).value =
      s * (jl.value + bi_radix ^ n * mid.value + bi_radix ^ (n * 2) * ik.value) := by
  have hr := bi_radix_eq
  have h0d := more_comps_digits jl.comps (max (mid.num_comps + n) (ik.num_comps + n * 2))
    (nf_digits hjl)
  have h0l := more_comps_length jl.comps (max (mid.num_comps + n) (ik.num_comps + n * 2))
  obtain ⟨a1, a2, a3⟩ := addShifted_spec 2147483648 (by omega) (by omega) _ mid.comps n
    (fun x hx => by have := h0d x hx; constructor <;> omega) (nf_digits hmid)
    (by rw [h0l]; unfold bigint.num_comps; omega)
  obtain ⟨b1, b2, b3⟩ := addShifted_spec 4294967296 (by omega) (by omega) _ ik.comps (n * 2)
    (fun x hx => by have := a1 x hx; constructor <;> omega) (nf_digits hik)
    (by rw [a3, h0l]; unfold bigint.num_comps; omega)
  have hne : addShifted (addShifted
      (more_comps jl.comps (max (mid.num_comps + n) (ik.num_comps + n * 2))) n mid.comps)
      (n * 2) ik.comps ≠ [] := by
    intro e
    have := congrArg List.length e
    rw [b3, a3, h0l, List.length_nil] at this
    have := nf_num_comps_pos hjl
    unfold bigint.num_comps at *
    omega
  obtain ⟨n1, n2⟩ := normalize_A_list s _ hs hne (fun z hz => by
    have := b1 z hz
    constructor <;> omega)
  refine ⟨n1, ?_⟩
  rw [n2, b2, a2, more_comps_value, nf_value_of_nonneg hjl vjl, nf_value_of_nonneg hmid vmid,
    nf_value_of_nonneg hik vik]

theorem split_nf (comps : List Int) (h : Digits comps) (start n : Nat) (hn : 1 ≤ n) :
    (normalize ⟨1, splitComps comps start n⟩).NF ∧
    (normalize ⟨1, splitComps comps start n⟩).value = compsValue (splitComps comps start n) ∧
    0 ≤ compsValue (splitComps comps start n) ∧
    compsValue (splitComps comps start n) < bi_radix ^ n ∧
    (normalize ⟨1, splitComps comps start n⟩).num_comps ≤ n := by
  have hr := bi_radix_eq
  have hd := splitComps_digits comps h start n
  have hne : splitComps comps start n ≠ [] := by
    intro e
    have := congrArg List.length e
    rw [splitComps_length] at this
    simp at this
    omega
  obtain ⟨n1, n2⟩ := normalize_A_list 1 _ (Or.inl rfl) hne (fun y hy => by
    have := hd y hy
    constructor <;> omega)
  rw [one_mul] at n2
  have h0 := digits_nonneg _ hd
  have h1 := compsValue_lt _ hd
  rw [splitComps_length] at h1
  exact ⟨n1, n2, h0, h1, nf_length_le n1 n hn (by rw [n2]; exact h0) (by rw [n2]; exact h1)⟩

theorem bi_multiply_aux_spec : ∀ (fuel : Nat) (a b : bigint), a.NF → b.NF →
    max a.num_comps b.num_comps < fuel →
    (bi_multiply_aux fuel a b).NF ∧ (bi_multiply_aux fuel a b).value = a.value * b.value := by
  intro fuel
  induction fuel with
  | zero =>
    intro a b _ _ h
    omega
  | succ fuel ih =>
    intro a b ha hb hfuel
    rw [bi_multiply_aux]
    by_cases hmin : min a.num_comps b.num_comps < KARATSUBA_THRESH
    · rw [if_pos hmin]
      exact regular_multiply_spec a b ha hb
    · rw [if_neg hmin]
      have hr := bi_radix_eq
      unfold KARATSUBA_THRESH at hmin
      have hn1 : 1 ≤ (max a.num_comps b.num_comps + 1) / 2 := by omega
      obtain ⟨i1, i2, i3, i4, i5⟩ := split_nf a.comps (nf_digits ha)
        ((max a.num_comps b.num_comps + 1) / 2) ((max a.num_comps b.num_comps + 1) / 2) hn1
      obtain ⟨j1, j2, j3, j4, j5⟩ := split_nf a.comps (nf_digits ha) 0
        ((max a.num_comps b.num_comps + 1) / 2) hn1
      obtain ⟨k1, k2, k3, k4, k5⟩ := split_nf b.comps (nf_digits hb)
        ((max a.num_comps b.num_comps + 1) / 2) ((max a.num_comps b.num_comps + 1) / 2) hn1
      obtain ⟨l1, l2, l3, l4, l5⟩ := split_nf b.comps (nf_digits hb) 0
        ((max a.num_comps b.num_comps + 1) / 2) hn1
      have hsa := splitComps_split a.comps ((max a.num_comps b.num_comps + 1) / 2)
        (by unfold bigint.num_comps at *; omega)
      have hsb := splitComps_split b.comps ((max a.num_comps b.num_comps + 1) / 2)
        (by unfold bigint.num_comps at *; omega)
      obtain ⟨ik1, ik2⟩ := ih _ _ i1 k1 (by omega)
      obtain ⟨jl1, jl2⟩ := ih _ _ j1 l1 (by omega)
      obtain ⟨ij1, ij2⟩ := bi_add_spec _ _ i1 j1
      obtain ⟨kl1, kl2⟩ := bi_add_spec _ _ k1 l1
      have hp : bi_radix ^ ((max a.num_comps b.num_comps + 1) / 2 + 1) =
          bi_radix ^ ((max a.num_comps b.num_comps + 1) / 2) * 2147483648 := by
        rw [pow_succ, bi_radix_eq]
      have hp0 := bi_radix_pow_pos ((max a.num_comps b.num_comps + 1) / 2)
      have ijl := nf_length_le ij1 ((max a.num_comps b.num_comps + 1) / 2 + 1) (by omega)
        (by rw [ij2, i2, j2]; omega) (by rw [ij2, i2, j2, hp]; omega)
      have kll := nf_length_le kl1 ((max a.num_comps b.num_comps + 1) / 2 + 1) (by omega)
        (by rw [kl2, k2, l2]; omega) (by rw [kl2, k2, l2, hp]; omega)
      obtain ⟨m1, m2⟩ := ih _ _ ij1 kl1 (by omega)
      obtain ⟨s1, s2⟩ := bi_subtract_spec _ _ m1 ik1
      obtain ⟨t1, t2⟩ := bi_subtract_spec _ _ s1 jl1
      rw [s2, m2, ik2, jl2, ij2, kl2, i2, j2, k2, l2] at t2
      rw [i2, k2] at ik2
      rw [j2, l2] at jl2
      have hmidv : (compsValue (splitComps a.comps ((max a.num_comps b.num_comps + 1) / 2)
            ((max a.num_comps b.num_comps + 1) / 2)) +
          compsValue (splitComps a.comps 0 ((max a.num_comps b.num_comps + 1) / 2))) *
          (compsValue (splitComps b.comps ((max a.num_comps b.num_comps + 1) / 2)
            ((max a.num_comps b.num_comps + 1) / 2)) +
          compsValue (splitComps b.comps 0 ((max a.num_comps b.num_comps + 1) / 2))) -
          compsValue (splitComps a.comps ((max a.num_comps b.num_comps + 1) / 2)
            ((max a.num_comps b.num_comps + 1) / 2)) *
          compsValue (splitComps b.comps ((max a.num_comps b.num_comps + 1) / 2)
            ((max a.num_comps b.num_comps + 1) / 2)) -
          compsValue (splitComps a.comps 0 ((max a.num_comps b.num_comps + 1) / 2)) *
          compsValue (splitComps b.comps 0 ((max a.num_comps b.num_comps + 1) / 2)) =
          compsValue (splitComps a.comps ((max a.num_comps b.num_comps + 1) / 2)
            ((max a.num_comps b.num_comps + 1) / 2)) *
          compsValue (splitComps b.comps 0 ((max a.num_comps b.num_comps + 1) / 2)) +
          compsValue (splitComps a.comps 0 ((max a.num_comps b.num_comps + 1) / 2)) *
          compsValue (splitComps b.comps ((max a.num_comps b.num_comps + 1) / 2)
            ((max a.num_comps b.num_comps + 1) / 2)) := by ring
      rw [hmidv] at t2
      have hs : a.sign * b.sign = 1 ∨ a.sign * b.sign = -1 := by
        rcases ha.1 with h | h <;> rcases hb.1 with h' | h' <;> rw [h, h'] <;> simp
      obtain ⟨c1, c2⟩ := karatsuba_combine (a.sign * b.sign) hs
        ((max a.num_comps b.num_comps + 1) / 2) _ _ _ jl1 t1 ik1
        (by rw [jl2]; exact Int.mul_nonneg j3 l3)
        (by rw [t2]; exact Int.add_nonneg (Int.mul_nonneg i3 l3) (Int.mul_nonneg j3 k3))
        (by rw [ik2]; exact Int.mul_nonneg i3 k3)
      refine ⟨c1, ?_⟩
      rw [c2, jl2, t2, ik2]
      unfold bigint.value
      rw [hsa, hsb, pow_mul]
      ring

theorem bi_multiply_spec (a b : bigint) (ha : a.NF) (hb : b.NF) :
    (bi_multiply a b).NF ∧ (bi_multiply a b).value = a.value * b.value :=
  bi_multiply_aux_spec _ a b ha hb (by omega)

end OSL

namespace OSL

/-! ## Division: arithmetic of the approximation -/

theorem ediv_eq_of_bounds (N D Q : Int) (hD : 0 < D) (h1 : Q * D ≤ N) (h2 : N < (Q + 1) * D) :
    N / D = Q := by
  have := (Int.ediv_emod_unique hD (a := N) (q := Q) (r := N - Q * D)).mpr
    ⟨by ring, by omega, by
      have : (Q + 1) * D = Q * D + D := by ring
      omega⟩
  exact this.1

/-- The approximate quotient `A = N / top / r^o` of `multi_divide2` for the
denominator `D = F + r^o * top`, `0 <= F < r^o`. -/
theorem approx_bounds (N D top Ro F : Int) (hRo : 0 < Ro) (hF0 : 0 ≤ F) (hF : F < Ro)
    (hD : D = F + Ro * top) (htop : 2 ≤ top) (hN : D ≤ N) :
    Ro ≤ N / top ∧ 1 ≤ N / top / Ro ∧ N / top / Ro * (top * Ro) ≤ N ∧
    N < (N / top / Ro + 1) * (top * Ro) ∧
    N / top / Ro * D - N < N / top / Ro * Ro ∧ 2 * (N / top / Ro * D - N) ≤ N := by
  have htop0 : 0 < top := by omega
  have q1a : N / top * top ≤ N := Int.ediv_mul_le N (ne_of_gt htop0)
  have q1b : N < (N / top + 1) * top := Int.lt_ediv_add_one_mul_self N htop0
  have a1 : N / top / Ro * Ro ≤ N / top := Int.ediv_mul_le _ (ne_of_gt hRo)
  have a2 : N / top < (N / top / Ro + 1) * Ro := Int.lt_ediv_add_one_mul_self _ hRo
  have hq1 : Ro ≤ N / top := Int.le_ediv_of_mul_le htop0 (by omega)
  have hA : 1 ≤ N / top / Ro := Int.le_ediv_of_mul_le hRo (by omega)
  have h1 : N / top / Ro * (top * Ro) ≤ N := by
    have : N / top / Ro * Ro * top ≤ N / top * top :=
      Int.mul_le_mul_of_nonneg_right a1 (by omega)
    have e : N / top / Ro * (top * Ro) = N / top / Ro * Ro * top := by ring
    omega
  have h2 : N < (N / top / Ro + 1) * (top * Ro) := by
    have : (N / top + 1) * top ≤ (N / top / Ro + 1) * Ro * top :=
      Int.mul_le_mul_of_nonneg_right (by omega) (by omega)
    have e : (N / top / Ro + 1) * (top * Ro) = (N / top / Ro + 1) * Ro * top := by ring
    omega
  have h3 : N / top / Ro * D - N < N / top / Ro * Ro := by
    have e1 : N / top / Ro * D = N / top / Ro * F + N / top / Ro * (top * Ro) := by
      rw [hD]
      ring
    have e2 : N / top / Ro * F < N / top / Ro * Ro :=
      Int.mul_lt_mul_of_pos_left hF (by omega)
    have e3 : (N / top / Ro + 1) * (top * Ro) = N / top / Ro * (top * Ro) + top * Ro := by
      ring
    have htR : 0 < top * Ro := Int.mul_pos htop0 hRo
    omega
  refine ⟨hq1, hA, h1, h2, h3, ?_⟩
  have h4 : N / top / Ro * Ro * 2 ≤ N / top / Ro * Ro * top :=
    Int.mul_le_mul_of_nonneg_left htop (Int.mul_nonneg (by omega) (le_of_lt hRo))
  have e4 : N / top / Ro * Ro * top = N / top / Ro * (top * Ro) := by ring
  omega

theorem div_case_pos (N D A : Int) (hD : 0 < D) (h1 : 0 < A * D - N) (h2 : A * D - N < D) :
    N / D = A - 1 := by
  apply ediv_eq_of_bounds _ _ _ hD
  · have : (A - 1) * D = A * D - D := by ring
    omega
  · have : (A - 1 + 1) * D = A * D := by ring
    omega

theorem div_case_zero (N D A : Int) (hD : 0 < D) (h : A * D - N = 0) : D ∣ N ∧ N / D = A := by
  have hN : N = A * D := by omega
  refine ⟨⟨A, by rw [hN]; ring⟩, ?_⟩
  rw [hN]
  exact Int.mul_ediv_cancel _ (ne_of_gt hD)

theorem div_case_neg (N D A M : Int) (hD : 0 < D) (h1 : A * D - N < 0) (h2 : N < (A + 1) * M)
    (h3 : M ≤ D) (hA : 0 ≤ A) : N / D = A := by
  apply ediv_eq_of_bounds _ _ _ hD
  · omega
  · have : (A + 1) * M ≤ (A + 1) * D := Int.mul_le_mul_of_nonneg_left h3 (by omega)
    omega

/-- The correction after the recursive call: with `S` the quotient of the remainder
`A * D - N`, possibly one too small when the division is exact, the corrected
quotient is exact. -/
theorem div_case_rec (N D A S : Int) (hD : 0 < D)
    (hS : S = (A * D - N) / D ∨ (D ∣ A * D - N ∧ S = (A * D - N) / D - 1)) :
    (N - (A - S) * D < 0 → N / D = A - S - 1) ∧ (¬ N - (A - S) * D < 0 → N / D = A - S) := by
  have hdm := Int.ediv_add_emod (A * D - N) D
  have hm0 := Int.emod_nonneg (A * D - N) (ne_of_gt hD)
  have hm1 := Int.emod_lt_of_pos (A * D - N) hD
  have e1 : (A - S) * D = A * D - D * S := by ring
  have e2 : (A - S - 1) * D = A * D - D * S - D := by ring
  have e3 : (A - S - 1 + 1) * D = A * D - D * S := by ring
  have e4 : (A - S + 1) * D = A * D - D * S + D := by ring
  rcases hS with hS | ⟨hdvd, hS⟩
  · have e5 : D * S = D * ((A * D - N) / D) := by rw [hS]
    constructor
    · intro hneg
      apply ediv_eq_of_bounds _ _ _ hD <;> omega
    · intro hneg
      apply ediv_eq_of_bounds _ _ _ hD <;> omega
  · have hz := Int.emod_eq_zero_of_dvd hdvd
    have e5 : D * S = D * ((A * D - N) / D) - D := by
      rw [hS]
      ring
    constructor
    · intro hneg
      apply ediv_eq_of_bounds _ _ _ hD <;> omega
    · intro hneg
      exfalso
      omega

/-! ## Division: multi_divide2 -/

theorem nf_top (d : bigint) (hd : d.NF) :
    ∃ front top, d.comps = front ++ [top] ∧ front.length = d.num_comps - 1 ∧
      d.comp (d.num_comps - 1) = top ∧ Digits front ∧ 0 ≤ top ∧ top < bi_radix ∧
      compsValue d.comps = compsValue front + bi_radix ^ (d.num_comps - 1) * top := by
  obtain ⟨front, top, hft⟩ := exists_concat _ (nf_comps_ne_nil hd)
  have hl : front.length = d.num_comps - 1 := by
    unfold bigint.num_comps
    rw [hft]
    simp
  have hdig := nf_digits hd
  rw [hft, digits_append, digits_cons] at hdig
  refine ⟨front, top, hft, hl, ?_, hdig.1, hdig.2.1.1, hdig.2.1.2, ?_⟩
  · unfold bigint.comp
    rw [← hl, hft, List.getD_eq_getElem _ _ (by simp)]
    simp
  · rw [hft, compsValue_concat, hl]

/-- The downshift of the approximation: `comps[c - o] = comps[c]`,
`num_comps -= o`. -/
theorem downshift_spec (q : bigint) (hq : q.NF) (o : Nat) (hv : bi_radix ^ o ≤ q.value) :
    bigint.NF ⟨q.sign, q.comps.drop o⟩ ∧
    bigint.value ⟨q.sign, q.comps.drop o⟩ = q.value / bi_radix ^ o := by
  have hp := bi_radix_pow_pos o
  have h0 : 0 ≤ q.value := by omega
  have hs := (nf_sign_one_iff hq).mpr h0
  have hV := nf_value_of_nonneg hq h0
  have hlt := compsValue_lt _ (nf_digits hq)
  have hlen : o < q.comps.length := by
    by_contra hc
    have : bi_radix ^ q.comps.length ≤ bi_radix ^ o :=
      pow_le_pow_right₀ (by rw [bi_radix_eq]; norm_num) (by omega)
    omega
  have htd := compsValue_take_drop q.comps o (by omega)
  have ht0 := digits_nonneg _ (digits_take _ o (nf_digits hq))
  have ht1 := compsValue_lt _ (digits_take _ o (nf_digits hq))
  rw [List.length_take, Nat.min_eq_left (by omega)] at ht1
  have hval : compsValue (q.comps.drop o) = q.value / bi_radix ^ o := by
    symm
    apply ediv_eq_of_bounds _ _ _ hp
    · rw [← hV, htd]
      have : compsValue (List.drop o q.comps) * bi_radix ^ o =
        bi_radix ^ o * compsValue (List.drop o q.comps) := by ring
      omega
    · rw [← hV, htd]
      have : (compsValue (List.drop o q.comps) + 1) * bi_radix ^ o =
        bi_radix ^ o * compsValue (List.drop o q.comps) + bi_radix ^ o := by ring
      omega
  refine ⟨⟨hq.1, ⟨?_, digits_drop _ o (nf_digits hq), ?_⟩, fun _ => hs⟩, ?_⟩
  · intro e
    have := congrArg List.length e
    rw [List.length_drop] at this
    simp at this
    omega
  · intro h1
    show (q.comps.drop o).getLast? ≠ some 0
    rw [List.length_drop] at h1
    rw [List.getLast?_drop, if_neg (by omega)]
    exact hq.2.1.2.2 (by omega)
  · show q.sign * compsValue (q.comps.drop o) = _
    rw [hs, one_mul, hval]

theorem multi_divide2_spec : ∀ (fuel : Nat) (n d : bigint), n.NF → d.NF → 0 < d.value →
    d.value ≤ n.value → 2 ≤ d.comp (d.num_comps - 1) → n.value < 2 ^ fuel →
    ∃ q, multi_divide2 fuel n d = .ok q ∧ q.NF ∧
      (q.value = n.value / d.value ∨
        (d.value ∣ n.value ∧ q.value = n.value / d.value - 1)) := by
  intro fuel
  induction fuel with
  | zero =>
    intro n d _ _ h1 h2 _ h3
    simp at h3
    omega
  | succ fuel ih =>
    intro n d hn hd hd0 hnd htop hfuel
    have hr := bi_radix_eq
    have hn0 : 0 ≤ n.value := by omega
    have hns := (nf_sign_one_iff hn).mpr hn0
    have hds := (nf_sign_one_iff hd).mpr (by omega)
    obtain ⟨front, top, hft, hfl, hcomp, hfd, ht0, ht1, hdv⟩ := nf_top d hd
    have htop2 : 2 ≤ top := by rw [← hcomp]; exact htop
    have hDv : d.value = compsValue front + bi_radix ^ (d.num_comps - 1) * top := by
      rw [← hdv]
      unfold bigint.value
      rw [hds, one_mul]
    have hF0 := digits_nonneg _ hfd
    have hF1 := compsValue_lt _ hfd
    rw [hfl] at hF1
    have hRo := bi_radix_pow_pos (d.num_comps - 1)
    obtain ⟨q, hq, hqnf, hqv⟩ := bi_int_divide_spec n hn top (by omega) ht1
    rw [hns, one_mul, nf_value_of_nonneg hn hn0] at hqv
    obtain ⟨b0, b1, b2, b3, b4, b5⟩ := approx_bounds n.value d.value top
      (bi_radix ^ (d.num_comps - 1)) (compsValue front) hRo hF0 hF1 hDv htop2 hnd
    obtain ⟨anf, av⟩ := downshift_spec q hqnf (d.num_comps - 1) (by rw [hqv]; exact b0)
    rw [hqv] at av
    obtain ⟨m1, m2⟩ := bi_multiply_spec _ d anf hd
    obtain ⟨r1, r2⟩ := bi_subtract_spec _ n m1 hn
    rw [m2, av] at r2
    have hcmp := bi_compare_spec _ d r1 hd
    have e : toInt32 (d.comp (d.num_comps - 1)) = top := by
      rw [hcomp]
      exact toInt32_eq _ (by omega) (by omega)
    have htR : top * bi_radix ^ (d.num_comps - 1) ≤ d.value := by
      have : top * bi_radix ^ (d.num_comps - 1) = bi_radix ^ (d.num_comps - 1) * top := by ring
      omega
    rw [multi_divide2]
    simp only [e, hq]
    generalize hA : (⟨q.sign, q.comps.drop (d.num_comps - 1)⟩ : bigint) = approx at *
    generalize hB : bi_subtract (bi_multiply approx d) n = birem at *
    by_cases hlt : birem.value < d.value
    · have hc : bi_compare birem d < 0 := by
        rw [hcmp, Int.sign_eq_neg_one_of_neg (by omega)]
        omega
      rw [if_pos hc]
      by_cases hb : 0 ≤ birem.value
      · have hbs := (nf_sign_one_iff r1).mpr hb
        have hneg : bi_is_negative (bi_negate birem) = true := by
          unfold bi_is_negative bi_negate
          simp [hbs]
        rw [hneg, if_pos rfl]
        obtain ⟨s1, s2⟩ := bi_int_subtract_spec approx anf 1 (by omega) (by omega)
        refine ⟨_, rfl, s1, ?_⟩
        rw [s2, av]
        by_cases hz : birem.value = 0
        · right
          have := div_case_zero n.value d.value _ hd0 (by rw [← r2]; exact hz)
          exact ⟨this.1, by rw [this.2]⟩
        · left
          have := div_case_pos n.value d.value _ hd0 (by rw [← r2]; omega) (by rw [← r2]; exact hlt)
          rw [this]
      · have hbs := (nf_sign_neg_iff r1).mpr (by omega)
        have hneg : bi_is_negative (bi_negate birem) = false := by
          unfold bi_is_negative bi_negate
          simp [hbs]
        rw [hneg]
        simp only [Bool.false_eq_true, if_false]
        refine ⟨_, rfl, anf, Or.inl ?_⟩
        rw [av]
        exact (div_case_neg n.value d.value _ _ hd0 (by rw [← r2]; omega) b3 htR (by omega)).symm
    · have hc : ¬ bi_compare birem d < 0 := by
        rw [hcmp]
        have := Int.sign_nonneg.mpr (show 0 ≤ birem.value - d.value by omega)
        omega
      rw [if_neg hc]
      obtain ⟨sub, hsub, snf, sv⟩ := ih birem d r1 hd hd0 (by omega) htop (by
        rw [pow_succ] at hfuel
        omega)
      simp only [hsub]
      obtain ⟨q1, q2⟩ := bi_subtract_spec approx sub anf snf
      obtain ⟨p1, p2⟩ := bi_multiply_spec _ d q1 hd
      obtain ⟨t1, t2⟩ := bi_subtract_spec n _ hn p1
      rw [p2, q2, av] at t2
      rw [r2] at sv
      obtain ⟨c1, c2⟩ := div_case_rec n.value d.value _ sub.value hd0 sv
      by_cases hneg : bi_is_negative (bi_subtract n (bi_multiply (bi_subtract approx sub) d)) = true
      · rw [hneg, if_pos rfl]
        obtain ⟨s1, s2⟩ := bi_int_subtract_spec _ q1 1 (by omega) (by omega)
        refine ⟨_, rfl, s1, Or.inl ?_⟩
        rw [s2, q2, av]
        have := (bi_is_negative_spec _ t1).mp hneg
        rw [t2] at this
        exact (c1 this).symm
      · have hneg2 : bi_is_negative (bi_subtract n (bi_multiply (bi_subtract approx sub) d)) =
            false := by
          cases h : bi_is_negative (bi_subtract n (bi_multiply (bi_subtract approx sub) d))
          · rfl
          · exact absurd h hneg
        rw [hneg2]
        simp only [Bool.false_eq_true, if_false]
        refine ⟨_, rfl, q1, Or.inl ?_⟩
        rw [q2, av]
        have : ¬ (bi_subtract n (bi_multiply (bi_subtract approx sub) d)).value < 0 := by
          intro h
          exact hneg ((bi_is_negative_spec _ t1).mpr h)
        rw [t2] at this
        exact (c2 this).symm

end OSL

namespace OSL

/-! ## bi_divide, bi_rem, bi_mod -/

theorem bi_radix_sqrt_eq : bi_radix_sqrt = 46340 := by decide

theorem two_pow_31 (k : Nat) : bi_radix ^ k = (2 : Int) ^ (bi_radix_bits * k) := by
  unfold bi_radix
  rw [pow_mul]

theorem multi_divide_spec (n d : bigint) (hn : n.NF) (hd : d.NF) (hd0 : 0 < d.value)
    (hnd : d.value ≤ n.value) (hc : Conditioned d) :
    ∃ q, multi_divide n d = .ok q ∧ q.NF ∧
      (q.value = n.value / d.value ∨
        (d.value ∣ n.value ∧ q.value = n.value / d.value - 1)) := by
  unfold Conditioned at hc
  have hs := bi_radix_sqrt_eq
  unfold multi_divide
  rw [if_neg (by omega)]
  apply multi_divide2_spec _ n d hn hd hd0 hnd (by omega)
  have h1 := nf_value_lt hn (by omega)
  rw [two_pow_31] at h1
  have h2 : (2 : Int) ^ (bi_radix_bits * n.num_comps) ≤
      2 ^ (bi_radix_bits * (n.num_comps + 1) + 1) :=
    pow_le_pow_right₀ (by norm_num) (by
      rw [Nat.mul_add]
      omega)
  omega

theorem bi_compare_zero (a : bigint) (ha : a.NF) : bi_compare a bi_0 = Int.sign a.value := by
  rw [bi_compare_spec a bi_0 ha bi_0_nf, bi_0_value, sub_zero]

theorem single_comp_value (d : bigint) (hd : d.NF) (h0 : 0 ≤ d.value) (h1 : d.num_comps = 1) :
    d.value = d.comp 0 := by
  rw [← nf_value_of_nonneg hd h0]
  unfold bigint.num_comps at h1
  unfold bigint.comp
  cases hc : d.comps with
  | nil => rw [hc] at h1; simp at h1
  | cons x rest =>
    rw [hc] at h1
    simp at h1
    rw [h1]
    simp [compsValue]

/-- `bi_divide` on a non-negative numerator and a positive denominator that is a
single component or conditioned: the floor quotient, or one less when the
denominator divides the numerator and is smaller. -/
theorem bi_divide_spec (n d : bigint) (hn : n.NF) (hd : d.NF) (hn0 : 0 ≤ n.value)
    (hd0 : 0 < d.value) (hc : d.num_comps = 1 ∨ Conditioned d) :
    ∃ q, bi_divide n d = .ok q ∧ q.NF ∧
      (q.value = n.value / d.value ∨
        (d.value ∣ n.value ∧ d.value < n.value ∧ q.value = n.value / d.value - 1)) := by
  have hr := bi_radix_eq
  have hcd : bi_compare d bi_0 = 1 := by
    rw [bi_compare_zero d hd, Int.sign_eq_one_of_pos hd0]
  unfold bi_divide
  simp only [hcd]
  simp only [show ¬ ((1 : Int) = 0) by omega, show ¬ ((1 : Int) = -1) by omega, if_false]
  by_cases hz : n.value = 0
  · have hcn : bi_compare n bi_0 = 0 := by
      rw [bi_compare_zero n hn, hz]
      rfl
    simp only [hcn, if_true]
    refine ⟨bi_0, rfl, bi_0_nf, Or.inl ?_⟩
    rw [bi_0_value, hz, Int.zero_ediv]
  · have hcn : bi_compare n bi_0 = 1 := by
      rw [bi_compare_zero n hn, Int.sign_eq_one_of_pos (by omega)]
    simp only [hcn]
    simp only [show ¬ ((1 : Int) = 0) by omega, show ¬ ((1 : Int) = -1) by omega, if_false]
    have hcmp := bi_compare_spec n d hn hd
    by_cases hlt : n.value < d.value
    · have h1 : bi_compare n d = -1 := by
        rw [hcmp, Int.sign_eq_neg_one_of_neg (by omega)]
      simp only [h1, if_true]
      refine ⟨bi_0, rfl, bi_0_nf, Or.inl ?_⟩
      rw [bi_0_value, Int.ediv_eq_zero_of_lt hn0 hlt]
    · by_cases heq : n.value = d.value
      · have h1 : bi_compare n d = 0 := by
          rw [hcmp, heq, sub_self]
          rfl
        simp only [h1]
        simp only [show ¬ ((0 : Int) = -1) by omega, if_false, if_true]
        refine ⟨bi_1, rfl, bi_1_nf, Or.inl ?_⟩
        rw [bi_1_value, heq, Int.ediv_self (by omega)]
      · have h1 : bi_compare n d = 1 := by
          rw [hcmp, Int.sign_eq_one_of_pos (by omega)]
        simp only [h1]
        simp only [show ¬ ((1 : Int) = 0) by omega, show ¬ ((1 : Int) = -1) by omega, if_false]
        by_cases hone : d.num_comps = 1
        · rw [if_pos hone]
          have hv := single_comp_value d hd (by omega) hone
          have hdig := getD_digit d.comps (nf_digits hd) 0
          have hcomp : d.comp 0 = d.value := hv.symm
          have hd1 : d.comp 0 = d.comps.getD 0 0 := rfl
          obtain ⟨q, hq, hqnf, hqv⟩ := bi_int_divide_spec n hn d.value hd0 (by
            rw [hv, hd1]
            exact hdig.2)
          rw [hcomp, toInt32_eq _ (by omega) (by
            rw [hv, hd1]
            have := hdig.2
            omega), hq]
          refine ⟨q, rfl, hqnf, Or.inl ?_⟩
          rw [hqv, (nf_sign_one_iff hn).mpr hn0, one_mul, nf_value_of_nonneg hn hn0]
        · rw [if_neg hone]
          have hcond : Conditioned d := by
            rcases hc with h | h
            · exact absurd h hone
            · exact h
          obtain ⟨q, hq, hqnf, hqv⟩ := multi_divide_spec n d hn hd hd0 (by omega) hcond
          rw [hq]
          refine ⟨q, rfl, hqnf, ?_⟩
          rcases hqv with h | ⟨h2, h3⟩
          · exact Or.inl h
          · exact Or.inr ⟨h2, by omega, h3⟩

theorem bi_rem_spec (n d : bigint) (hn : n.NF) (hd : d.NF) (hn0 : 0 ≤ n.value)
    (hd0 : 0 < d.value) (hc : d.num_comps = 1 ∨ Conditioned d) :
    ∃ m, bi_rem n d = .ok m ∧ m.NF ∧
      (m.value = n.value % d.value ∨
        (d.value ∣ n.value ∧ d.value < n.value ∧ m.value = d.value)) := by
  obtain ⟨q, hq, hqnf, hqv⟩ := bi_divide_spec n d hn hd hn0 hd0 hc
  obtain ⟨p1, p2⟩ := bi_multiply_spec q d hqnf hd
  obtain ⟨s1, s2⟩ := bi_subtract_spec n _ hn p1
  unfold bi_rem
  rw [hq]
  refine ⟨_, rfl, s1, ?_⟩
  rw [s2, p2]
  have hdm := Int.ediv_add_emod n.value d.value
  rcases hqv with h | ⟨h1, h2, h3⟩
  · left
    rw [h]
    have : n.value / d.value * d.value = d.value * (n.value / d.value) := by ring
    omega
  · right
    refine ⟨h1, h2, ?_⟩
    rw [h3]
    have hz := Int.emod_eq_zero_of_dvd h1
    have : (n.value / d.value - 1) * d.value = d.value * (n.value / d.value) - d.value := by ring
    omega

theorem bi_mod_spec (n d : bigint) (hn : n.NF) (hd : d.NF) (hn0 : 0 ≤ n.value)
    (hd0 : 0 < d.value) (hc : d.num_comps = 1 ∨ Conditioned d) :
    ∃ m, bi_mod n d = .ok m ∧ m.NF ∧
      (m.value = n.value % d.value ∨
        (d.value ∣ n.value ∧ d.value < n.value ∧ m.value = d.value)) := by
  obtain ⟨m, hm, hmnf, hmv⟩ := bi_rem_spec n d hn hd hn0 hd0 hc
  have hcd : ¬ bi_compare d bi_0 ≤ 0 := by
    rw [bi_compare_zero d hd, Int.sign_eq_one_of_pos hd0]
    omega
  have hm0 : 0 ≤ m.value := by
    rcases hmv with h | ⟨_, _, h⟩
    · rw [h]
      exact Int.emod_nonneg _ (by omega)
    · omega
  have hneg : bi_is_negative m = false := by
    cases h : bi_is_negative m
    · rfl
    · have := (bi_is_negative_spec m hmnf).mp h
      omega
  unfold bi_mod
  rw [if_neg hcd, hm]
  simp only [hneg, Bool.false_eq_true, if_false]
  exact ⟨m, rfl, hmnf, hmv⟩

end OSL

namespace OSL

/-! ## bi_mod_power -/

theorem not_dvd_of_coprime (x M : Int) (hM : 1 < M) (h : IsCoprime x M) : ¬ M ∣ x := by
  intro hd
  have h1 : IsCoprime M M := IsCoprime.of_isCoprime_of_dvd_left h hd
  have h2 := isCoprime_self.mp h1
  rcases Int.isUnit_iff.mp h2 with h3 | h3 <;> omega

theorem coprime_emod (x M : Int) (h : IsCoprime x M) : IsCoprime (x % M) M := by
  have e : x % M = x + M * (-(x / M)) := by
    have := Int.ediv_add_emod x M
    have e2 : M * (-(x / M)) = -(M * (x / M)) := by ring
    omega
  rw [e]
  exact (IsCoprime.add_mul_left_left_iff).mpr h

/-- `bi_mod` of a number coprime to the modulus is the residue. -/
theorem bi_mod_coprime (x m : bigint) (hx : x.NF) (hm : m.NF) (hx0 : 0 ≤ x.value)
    (hM : 1 < m.value) (hc : m.num_comps = 1 ∨ Conditioned m) (hco : IsCoprime x.value m.value) :
    ∃ r, bi_mod x m = .ok r ∧ r.NF ∧ r.value = x.value % m.value ∧ 0 ≤ r.value ∧
      r.value < m.value ∧ IsCoprime r.value m.value := by
  obtain ⟨r, hr, hrnf, hrv⟩ := bi_mod_spec x m hx hm hx0 (by omega) hc
  have hv : r.value = x.value % m.value := by
    rcases hrv with h | ⟨h, _, _⟩
    · exact h
    · exact absurd h (not_dvd_of_coprime _ _ hM hco)
  refine ⟨r, hr, hrnf, hv, ?_, ?_, ?_⟩
  · rw [hv]
    exact Int.emod_nonneg _ (by omega)
  · rw [hv]
    exact Int.emod_lt_of_pos _ (by omega)
  · rw [hv]
    exact coprime_emod _ _ hco

theorem bi_mul_mod_coprime (x y m : bigint) (hx : x.NF) (hy : y.NF) (hm : m.NF)
    (hx0 : 0 ≤ x.value) (hy0 : 0 ≤ y.value) (hM : 1 < m.value)
    (hc : m.num_comps = 1 ∨ Conditioned m) (hcx : IsCoprime x.value m.value)
    (hcy : IsCoprime y.value m.value) :
    ∃ r, bi_mod (bi_multiply x y) m = .ok r ∧ r.NF ∧ r.value = (x.value * y.value) % m.value ∧
      0 ≤ r.value ∧ r.value < m.value ∧ IsCoprime r.value m.value := by
  obtain ⟨p1, p2⟩ := bi_multiply_spec x y hx hy
  have := bi_mod_coprime _ m p1 hm (by rw [p2]; exact Int.mul_nonneg hx0 hy0) hM hc
    (by rw [p2]; exact IsCoprime.mul_left hcx hcy)
  rw [p2] at this
  exact this

theorem pow_split (b : Int) (E : Nat) : b ^ E = b ^ (E % 2) * (b * b) ^ (E / 2) := by
  rw [← pow_two, ← pow_mul, ← pow_add]
  congr 1
  omega

/-- One pass of the loop of `bi_mod_power`. -/
theorem modPowerLoop_step (m : bigint) (hm : m.NF) (hM : 1 < m.value)
    (hc : m.num_comps = 1 ∨ Conditioned m) (fuel : Nat) (b e R : bigint) (hb : b.NF)
    (hb0 : 0 ≤ b.value) (hbc : IsCoprime b.value m.value) (he : e.NF) (he0 : 0 ≤ e.value)
    (hR : R.NF) (hR0 : 0 ≤ R.value) (hR1 : R.value < m.value)
    (hRc : IsCoprime R.value m.value) :
    ∃ R1, R1.NF ∧ 0 ≤ R1.value ∧ R1.value < m.value ∧ IsCoprime R1.value m.value ∧
      R1.value = (R.value * b.value ^ (e.value.toNat % 2)) % m.value ∧
      ((e.value / 2 ≤ 0 ∧ modPowerLoop m (fuel + 1) b e R = .ok R1) ∨
       (0 < e.value / 2 ∧ ∃ b1, b1.NF ∧ 0 ≤ b1.value ∧ IsCoprime b1.value m.value ∧
          b1.value = (b.value * b.value) % m.value ∧
          modPowerLoop m (fuel + 1) b e R = modPowerLoop m fuel b1 (bi_half e) R1)) := by
  have hes := (nf_sign_one_iff he).mpr he0
  obtain ⟨h1, h2, h3⟩ := bi_half_spec e he hes
  have hcmp := bi_compare_zero _ h1
  rw [h2] at hcmp
  have hodd := bi_is_odd_spec e he hes
  obtain ⟨b1, hb1, b1nf, b1v, b10, _, b1c⟩ :=
    bi_mul_mod_coprime b b m hb hb hm hb0 hb0 hM hc hbc hbc
  -- the first statement of the loop
  have hfirst : ∃ R1, (if bi_is_odd e then bi_mod (bi_multiply R b) m else .ok R) = .ok R1 ∧
      R1.NF ∧ 0 ≤ R1.value ∧ R1.value < m.value ∧ IsCoprime R1.value m.value ∧
      R1.value = (R.value * b.value ^ (e.value.toNat % 2)) % m.value := by
    by_cases ho : bi_is_odd e = true
    · rw [if_pos ho]
      obtain ⟨r, hr, rnf, rv, r0, r1, rc⟩ :=
        bi_mul_mod_coprime R b m hR hb hm hR0 hb0 hM hc hRc hbc
      refine ⟨r, hr, rnf, r0, r1, rc, ?_⟩
      have h := hodd.mp ho
      have : e.value.toNat % 2 = 1 := by omega
      rw [rv, this, pow_one]
    · rw [if_neg ho]
      refine ⟨R, rfl, hR, hR0, hR1, hRc, ?_⟩
      have h : ¬ e.value % 2 = 1 := fun h => ho (hodd.mpr h)
      have : e.value.toNat % 2 = 0 := by omega
      rw [this, pow_zero, mul_one, Int.emod_eq_of_lt hR0 hR1]
  obtain ⟨R1, hR1eq, r1nf, r10, r11, r1c, r1v⟩ := hfirst
  refine ⟨R1, r1nf, r10, r11, r1c, r1v, ?_⟩
  rw [modPowerLoop, hR1eq]
  by_cases hz : e.value / 2 ≤ 0
  · left
    refine ⟨hz, ?_⟩
    have : bi_compare (bi_half e) bi_0 ≤ 0 := by
      rw [hcmp]
      have : e.value / 2 = 0 := by omega
      rw [this]
      decide
    simp only [this, if_true]
  · right
    refine ⟨by omega, b1, b1nf, b10, b1c, b1v, ?_⟩
    have : ¬ bi_compare (bi_half e) bi_0 ≤ 0 := by
      rw [hcmp, Int.sign_eq_one_of_pos (by omega)]
      omega
    simp only [this, if_false, hb1]

theorem modPowerLoop_spec (m : bigint) (hm : m.NF) (hM : 1 < m.value)
    (hc : m.num_comps = 1 ∨ Conditioned m) : ∀ (fuel : Nat) (b e R : bigint), b.NF →
    0 ≤ b.value → IsCoprime b.value m.value → e.NF → 0 ≤ e.value → e.value < 2 ^ fuel →
    1 ≤ fuel → R.NF → 0 ≤ R.value → R.value < m.value → IsCoprime R.value m.value →
    ∃ res, modPowerLoop m fuel b e R = .ok res ∧ res.NF ∧ 0 ≤ res.value ∧
      res.value < m.value ∧ IsCoprime res.value m.value ∧
      res.value = (R.value * b.value ^ e.value.toNat) % m.value := by
  intro fuel
  induction fuel with
  | zero =>
    intro b e R _ _ _ _ _ _ h
    omega
  | succ fuel ih =>
    intro b e R hb hb0 hbc he he0 he1 _ hR hR0 hR1 hRc
    obtain ⟨R1, r1nf, r10, r11, r1c, r1v, hstep⟩ :=
      modPowerLoop_step m hm hM hc fuel b e R hb hb0 hbc he he0 hR hR0 hR1 hRc
    have hes := (nf_sign_one_iff he).mpr he0
    obtain ⟨h1, h2, h3⟩ := bi_half_spec e he hes
    rcases hstep with ⟨hz, hret⟩ | ⟨hpos, b1, b1nf, b10, b1c, b1v, hrec⟩
    · refine ⟨R1, hret, r1nf, r10, r11, r1c, ?_⟩
      have : e.value.toNat % 2 = e.value.toNat := by omega
      rw [r1v, this]
    · have hf : 1 ≤ fuel := by
        by_contra hc0
        have : fuel = 0 := by omega
        rw [this] at he1
        simp at he1
        omega
      have he2 : (bi_half e).value < 2 ^ fuel := by
        rw [h2]
        rw [pow_succ] at he1
        omega
      obtain ⟨res, hres, rnf, r0, r1, rc, rv⟩ := ih b1 (bi_half e) R1 b1nf b10 b1c h1
        (by rw [h2]; omega) he2 hf r1nf r10 r11 r1c
      refine ⟨res, by rw [hrec]; exact hres, rnf, r0, r1, rc, ?_⟩
      rw [rv, h2, r1v, b1v]
      have hE : (e.value / 2).toNat = e.value.toNat / 2 := by omega
      rw [hE]
      conv_rhs => rw [pow_split b.value e.value.toNat, ← mul_assoc]
      exact Int.ModEq.mul (Int.mod_modEq _ _) (Int.ModEq.pow _ (Int.mod_modEq _ _))

theorem bi_mod_power_spec (b e m : bigint) (hb : b.NF) (hb0 : 0 ≤ b.value) (he : e.NF)
    (he0 : 0 ≤ e.value) (hm : m.NF) (hM : 1 < m.value) (hc : m.num_comps = 1 ∨ Conditioned m)
    (hbc : IsCoprime b.value m.value) :
    ∃ res, bi_mod_power b e m = .ok res ∧ res.NF ∧ 0 ≤ res.value ∧ res.value < m.value ∧
      IsCoprime res.value m.value ∧ res.value = b.value ^ e.value.toNat % m.value := by
  have hneg : bi_is_negative e = false := by
    cases h : bi_is_negative e
    · rfl
    · have := (bi_is_negative_spec e he).mp h
      omega
  have hfuel : e.value < 2 ^ (bi_radix_bits * e.num_comps + 1) := by
    have h1 := nf_value_lt he he0
    rw [two_pow_31] at h1
    have h2 : (2 : Int) ^ (bi_radix_bits * e.num_comps) ≤ 2 ^ (bi_radix_bits * e.num_comps + 1) :=
      pow_le_pow_right₀ (by norm_num) (by omega)
    omega
  obtain ⟨res, hres, rnf, r0, r1, rc, rv⟩ := modPowerLoop_spec m hm hM hc _ b e bi_1 hb hb0 hbc he
    he0 hfuel (by omega) bi_1_nf (by rw [bi_1_value]; omega) (by rw [bi_1_value]; exact hM)
    (by rw [bi_1_value]; exact isCoprime_one_left)
  unfold bi_mod_power
  simp only [hneg, Bool.false_eq_true, if_false, hres]
  refine ⟨res, rfl, rnf, r0, r1, rc, ?_⟩
  rw [rv, bi_1_value, one_mul]

end OSL

namespace OSL

/-! ## Normal form is unique -/

theorem digits_value_inj (l : List Int) : ∀ (m : List Int), Digits l → Digits m →
    l.length = m.length → compsValue l = compsValue m → l = m := by
  have hr := bi_radix_eq
  induction l with
  | nil =>
    intro m _ _ hlen _
    cases m with
    | nil => rfl
    | cons y m => simp at hlen
  | cons x l ih =>
    intro m hl hm hlen hv
    cases m with
    | nil => simp at hlen
    | cons y m =>
      rw [digits_cons] at hl hm
      rw [compsValue_cons, compsValue_cons, bi_radix_eq] at hv
      have hxy : x = y := by omega
      have hvv : compsValue l = compsValue m := by omega
      rw [hxy, ih m hl.2 hm.2 (by simpa using hlen) hvv]

theorem normComps_length_eq (l m : List Int) (hl : NormComps l) (hm : NormComps m)
    (hv : compsValue l = compsValue m) : l.length = m.length := by
  have h1 := compsValue_lt l hl.2.1
  have h2 := compsValue_lt m hm.2.1
  have a : l.length ≤ m.length := by
    apply normComps_length_le l hl
    · have := hm.1
      cases m with
      | nil => exact absurd rfl this
      | cons y m => simp
    · omega
  have b : m.length ≤ l.length := by
    apply normComps_length_le m hm
    · have := hl.1
      cases l with
      | nil => exact absurd rfl this
      | cons y l => simp
    · omega
  omega

/-- Two normal-form numbers with the same value are the same bigint. -/
theorem nf_ext (a b : bigint) (ha : a.NF) (hb : b.NF) (hv : a.value = b.value) : a = b := by
  have hsa := nf_sign_one_iff ha
  have hsb := nf_sign_one_iff hb
  have hs : a.sign = b.sign := by
    rcases ha.1 with h1 | h1 <;> rcases hb.1 with h2 | h2
    · rw [h1, h2]
    · have := hsa.mp h1
      have := (nf_sign_neg_iff hb).mp h2
      omega
    · have := hsb.mp h2
      have := (nf_sign_neg_iff ha).mp h1
      omega
    · rw [h1, h2]
  have hc : compsValue a.comps = compsValue b.comps := by
    unfold bigint.value at hv
    rw [hs] at hv
    rcases hb.1 with h | h <;> rw [h] at hv <;> omega
  have hl := normComps_length_eq _ _ ha.2.1 hb.2.1 hc
  have := digits_value_inj _ _ (nf_digits ha) (nf_digits hb) hl hc
  cases a
  cases b
  simp_all

/-! ## readBinary, writeBinary, readHex -/

theorem int_to_bi_zero : int_to_bi 0 = bi_0 := rfl

theorem beValue_nil (acc : Int) : beValue acc [] = acc := rfl

theorem beValue_cons (acc : Int) (b : Nat) (data : List Nat) :
    beValue acc (b :: data) = beValue (acc * 256 + (b : Int)) data := rfl

theorem beValue_concat (acc : Int) (data : List Nat) (b : Nat) :
    beValue acc (data ++ [b]) = beValue acc data * 256 + (b : Int) := by
  unfold beValue
  rw [List.foldl_append]
  rfl

theorem beValue_nonneg (data : List Nat) : ∀ (acc : Int), 0 ≤ acc → 0 ≤ beValue acc data := by
  induction data with
  | nil => intro acc h; exact h
  | cons b data ih =>
    intro acc h
    rw [beValue_cons]
    exact ih _ (by omega)

theorem readStep_spec (v : bigint) (hv : v.NF) (k : Int) (hk0 : 0 ≤ k) (hk : k < bi_radix)
    (d : Int) (hd0 : -bi_radix ≤ d) (hd : d < bi_radix) :
    (bi_int_add (bi_int_multiply v k) d).NF ∧
    (bi_int_add (bi_int_multiply v k) d).value = v.value * k + d := by
  obtain ⟨m1, m2⟩ := bi_int_multiply_spec v hv k hk0 hk
  obtain ⟨a1, a2⟩ := bi_int_add_spec _ m1 d hd0 hd
  exact ⟨a1, by rw [a2, m2]⟩

theorem readBinary_fold (data : List Nat) : ∀ (v : bigint), v.NF → (∀ b ∈ data, b < 256) →
    (data.foldl (fun (v : bigint) (b : Nat) => bi_int_add (bi_int_multiply v 256) (b : Int)) v).NF ∧
    (data.foldl (fun (v : bigint) (b : Nat) => bi_int_add (bi_int_multiply v 256) (b : Int)) v).value =
      beValue v.value data := by
  have hr := bi_radix_eq
  induction data with
  | nil =>
    intro v hv _
    exact ⟨hv, rfl⟩
  | cons b data ih =>
    intro v hv hb
    have hb1 := hb b (List.mem_cons_self _ _)
    obtain ⟨s1, s2⟩ := readStep_spec v hv 256 (by omega) (by omega) (b : Int) (by omega) (by omega)
    obtain ⟨i1, i2⟩ := ih _ s1 (fun c hc => hb c (List.mem_cons_of_mem _ hc))
    rw [List.foldl_cons]
    refine ⟨i1, ?_⟩
    rw [i2, s2, beValue_cons]

theorem readBinary_spec (data : List Nat) (h : ∀ b ∈ data, b < 256) :
    (readBinary data).NF ∧ (readBinary data).value = beValue 0 data ∧
    0 ≤ (readBinary data).value := by
  unfold readBinary
  rw [int_to_bi_zero]
  obtain ⟨h1, h2⟩ := readBinary_fold data bi_0 bi_0_nf h
  rw [bi_0_value] at h2
  exact ⟨h1, h2, by rw [h2]; exact beValue_nonneg _ _ (le_refl 0)⟩

theorem emod_mul_256 (V P : Int) (hP : 0 < P) :
    V % (P * 256) = (V / 256 % P) * 256 + V % 256 := by
  have h1 := Int.ediv_add_emod V 256
  have h2 := Int.ediv_add_emod (V / 256) P
  have h3 := Int.emod_nonneg (V / 256) (ne_of_gt hP)
  have h4 := Int.emod_lt_of_pos (V / 256) hP
  have h5 : (0 : Int) < P * 256 := by omega
  have := (Int.ediv_emod_unique h5 (a := V) (q := V / 256 / P)
    (r := (V / 256 % P) * 256 + V % 256)).mpr ⟨by
      have e : P * 256 * (V / 256 / P) = 256 * (P * (V / 256 / P)) := by ring
      rw [e]
      omega, by omega, by omega⟩
  exact this.2

theorem writeBinaryLoop_spec (len : Nat) : ∀ (v : bigint), v.NF → 0 ≤ v.value →
    ∃ bytes, writeBinaryLoop len v = .ok bytes ∧ bytes.length = len ∧
      (∀ b ∈ bytes, b < 256) ∧ beValue 0 bytes.reverse = v.value % 256 ^ len := by
  have hr := bi_radix_eq
  induction len with
  | zero =>
    intro v _ _
    refine ⟨[], rfl, rfl, by simp, ?_⟩
    simp [beValue]
  | succ len ih =>
    intro v hv hv0
    have hs := (nf_sign_one_iff hv).mpr hv0
    have hrem := bi_int_rem_spec v hv hs 256 (by omega) (by omega)
    obtain ⟨q, hq, hqnf, hqv⟩ := bi_int_divide_spec v hv 256 (by omega) (by omega)
    rw [hs, one_mul, nf_value_of_nonneg hv hv0] at hqv
    obtain ⟨bytes, hb, hlen, hlt, hval⟩ := ih q hqnf (by rw [hqv]; omega)
    rw [writeBinaryLoop, hrem, hq]
    simp only [hb]
    refine ⟨_, rfl, by simp [hlen], ?_, ?_⟩
    · intro b hb2
      rw [List.mem_cons] at hb2
      rcases hb2 with h | h
      · rw [h]
        omega
      · exact hlt b h
    · rw [List.reverse_cons, beValue_concat, hval, hqv, pow_succ,
        emod_mul_256 _ _ (by positivity)]
      congr 1
      omega

theorem writeBinary_spec (v : bigint) (hv : v.NF) (hv0 : 0 ≤ v.value) (len : Nat) :
    ∃ bytes, writeBinary v len = .ok bytes ∧ bytes.length = len ∧
      (∀ b ∈ bytes, b < 256) ∧ beValue 0 bytes = v.value % 256 ^ len := by
  obtain ⟨bytes, hb, hlen, hlt, hval⟩ := writeBinaryLoop_spec len v hv hv0
  unfold writeBinary
  rw [hb]
  exact ⟨bytes.reverse, rfl, by simp [hlen], fun b h => hlt b (List.mem_reverse.mp h), hval⟩

theorem hexDigit_range (c : Char) (d : Int) (h : hexDigit c = some d) :
    -bi_radix ≤ d ∧ d < bi_radix := by
  have hr := bi_radix_eq
  have hc : c.toNat < 1114112 := by
    have := c.valid
    unfold Char.toNat
    rcases this with h1 | ⟨_, h2⟩
    · have : c.val.toNat < 55296 := h1
      omega
    · exact h2
  unfold hexDigit at h
  have e0 : ('0'.toNat : Int) = 48 := rfl
  have ea : ('a'.toNat : Int) = 97 := rfl
  have eA : ('A'.toNat : Int) = 65 := rfl
  split at h
  · cases h
    constructor <;> omega
  · split at h
    · cases h
      constructor <;> omega
    · split at h
      · cases h
        constructor <;> omega
      · cases h

theorem readHexLoop_spec (str : List Char) : ∀ (v : bigint), v.NF →
    (readHexLoop v str).NF ∧ (readHexLoop v str).value = hexValue v.value str := by
  have hr := bi_radix_eq
  induction str with
  | nil =>
    intro v hv
    exact ⟨hv, rfl⟩
  | cons c rest ih =>
    intro v hv
    cases hd : hexDigit c with
    | some d =>
      have hrange := hexDigit_range c d hd
      obtain ⟨s1, s2⟩ := readStep_spec v hv 16 (by omega) (by omega) d hrange.1 hrange.2
      obtain ⟨i1, i2⟩ := ih _ s1
      have e1 : readHexLoop v (c :: rest) =
          readHexLoop (bi_int_add (bi_int_multiply v 16) d) rest := by
        rw [readHexLoop, hd]
      have e2 : hexValue v.value (c :: rest) = hexValue (v.value * 16 + d) rest := by
        rw [hexValue, hd]
      rw [e1, e2, ← s2]
      exact ⟨i1, i2⟩
    | none =>
      by_cases hw : c = ':' ∨ c = ' ' ∨ c = '\n' ∨ c = '\t'
      · have e1 : readHexLoop v (c :: rest) = readHexLoop v rest := by
          rw [readHexLoop, hd]
          simp only [hw, if_true]
        have e2 : hexValue v.value (c :: rest) = hexValue v.value rest := by
          rw [hexValue, hd]
          simp only [hw, if_true]
        rw [e1, e2]
        exact ih v hv
      · have e1 : readHexLoop v (c :: rest) = v := by
          rw [readHexLoop, hd]
          simp only [hw, if_false]
        have e2 : hexValue v.value (c :: rest) = v.value := by
          rw [hexValue, hd]
          simp only [hw, if_false]
        rw [e1, e2]
        exact ⟨hv, rfl⟩

theorem readHex_spec (str : List Char) :
    (readHex str).NF ∧ (readHex str).value = hexValue 0 str := by
  unfold readHex
  rw [int_to_bi_zero]
  have := readHexLoop_spec str bi_0 bi_0_nf
  rw [bi_0_value] at this
  exact this

/-- A normal-form number in `[46340 * r^k, r^(k+1))` is conditioned. -/
theorem conditioned_of_value (d : bigint) (hd : d.NF) (k : Nat)
    (h1 : 46340 * bi_radix ^ k ≤ d.value) (h2 : d.value < bi_radix ^ (k + 1)) :
    Conditioned d := by
  have hp := bi_radix_pow_pos k
  have hd0 : 0 ≤ d.value := by omega
  have hle := nf_length_le hd (k + 1) (by omega) hd0 h2
  have hlt := nf_value_lt hd hd0
  have hge : k + 1 ≤ d.num_comps := by
    by_contra hc
    have : bi_radix ^ d.num_comps ≤ bi_radix ^ k :=
      pow_le_pow_right₀ (by rw [bi_radix_eq]; norm_num) (by omega)
    omega
  have hnum : d.num_comps = k + 1 := by omega
  obtain ⟨front, top, _, hfl, hcomp, hfd, _, _, hdv⟩ := nf_top d hd
  rw [nf_value_of_nonneg hd hd0, hnum, Nat.add_sub_cancel] at hdv
  have hF := compsValue_lt _ hfd
  rw [hfl, hnum, Nat.add_sub_cancel] at hF
  unfold Conditioned
  rw [bi_radix_sqrt_eq, hcomp]
  by_contra hc
  have : bi_radix ^ k * top ≤ bi_radix ^ k * 46339 :=
    Int.mul_le_mul_of_nonneg_left (by omega) (le_of_lt hp)
  omega

end OSL

namespace WilhelmSCP
open OSL

/-! ## The protocol constants -/

set_option maxRecDepth 100000 in
theorem prime_hexValue : hexValue 0 PRIME.toList =
    2410312426921032588552076022197566074856950548502459942654116941958108831682612228890093858261341614673227141477904012196503648957050582631942730706805009223062734745341073406696246014589361659774041027169249453200378729434170325843778659198143763193776859869524088940195577346119843545301547043747207749969763750084308926339295559968882457872412993810129130294592999947926365264059284647209730384947211681434464714438488520940127459844288859336526896320919633919 := by
  decide

set_option maxRecDepth 100000 in
theorem g_hexValue : hexValue 0 G.toList =
    78624864327671956939927763028751171437373494762524013742017385600321538812688 := by
  decide!

theorem g_coprime_prime : IsCoprime (hexValue 0 G.toList) (hexValue 0 PRIME.toList) := by
  rw [prime_hexValue, g_hexValue, Int.isCoprime_iff_gcd_eq_one]
  decide

theorem prime_bounds : 46340 * bi_radix ^ 49 ≤ hexValue 0 PRIME.toList ∧
    hexValue 0 PRIME.toList < bi_radix ^ 50 ∧ hexValue 0 PRIME.toList < 256 ^ PRIME_BYTES ∧
    1 < hexValue 0 PRIME.toList := by
  rw [prime_hexValue, bi_radix_eq]
  unfold PRIME_BYTES
  norm_num

theorem prime_spec : (readHex PRIME.toList).NF ∧ 1 < (readHex PRIME.toList).value ∧
    (readHex PRIME.toList).value < 256 ^ PRIME_BYTES ∧
    ((readHex PRIME.toList).num_comps = 1 ∨ Conditioned (readHex PRIME.toList)) := by
  obtain ⟨h1, h2⟩ := readHex_spec PRIME.toList
  obtain ⟨b1, b2, b3, b4⟩ := prime_bounds
  rw [← h2] at b1 b2 b3 b4
  exact ⟨h1, b4, b3, Or.inr (conditioned_of_value _ h1 49 b1 b2)⟩

theorem g_spec : (readHex G.toList).NF ∧ 0 ≤ (readHex G.toList).value ∧
    IsCoprime (readHex G.toList).value (readHex PRIME.toList).value := by
  obtain ⟨h1, h2⟩ := readHex_spec G.toList
  obtain ⟨_, h3⟩ := readHex_spec PRIME.toList
  refine ⟨h1, ?_, ?_⟩
  · rw [h2, g_hexValue]
    norm_num
  · rw [h2, h3]
    exact g_coprime_prime

/-! ## Key agreement -/

/-- `modPow` to the modulus of the protocol, and the `PRIME_BYTES` bytes of the
result. -/
theorem modPow_prime_spec (base priv : bigint) (hb : base.NF) (hb0 : 0 ≤ base.value)
    (hbc : IsCoprime base.value (readHex PRIME.toList).value) (hp : priv.NF)
    (hp0 : 0 ≤ priv.value) :
    ∃ res bytes, modPow base priv (readHex PRIME.toList) = .ok res ∧ res.NF ∧ 0 ≤ res.value ∧
      IsCoprime res.value (readHex PRIME.toList).value ∧
      res.value = base.value ^ priv.value.toNat % (readHex PRIME.toList).value ∧
      writeBinary res PRIME_BYTES = .ok bytes ∧ bytes.length = PRIME_BYTES ∧
      (∀ b ∈ bytes, b < 256) ∧ beValue 0 bytes = res.value := by
  obtain ⟨p1, p2, p3, p4⟩ := prime_spec
  obtain ⟨res, hres, rnf, r0, r1, rc, rv⟩ :=
    bi_mod_power_spec base priv (readHex PRIME.toList) hb hb0 hp hp0 p1 p2 p4 hbc
  obtain ⟨bytes, hw, hlen, hlt, hval⟩ := writeBinary_spec res rnf r0 PRIME_BYTES
  refine ⟨res, bytes, hres, rnf, r0, rc, rv, hw, hlen, hlt, ?_⟩
  rw [hval]
  exact Int.emod_eq_of_lt r0 (by omega)

/-- What `exchangeValues` returns for a private exponent and the bytes of a peer
value coprime to the modulus. -/
theorem exchangeValues_spec (priv : bigint) (hp : priv.NF) (hp0 : 0 ≤ priv.value)
    (peerBytes : List Nat) (hlen : peerBytes.length = PRIME_BYTES)
    (hlt : ∀ b ∈ peerBytes, b < 256)
    (hco : IsCoprime (beValue 0 peerBytes) (readHex PRIME.toList).value) :
    ∃ pub pubBytes secret ss,
      modPow (readHex G.toList) priv (readHex PRIME.toList) = .ok pub ∧
      writeBinary pub PRIME_BYTES = .ok pubBytes ∧
      exchangeValues priv peerBytes = .ok (pubBytes, ss) ∧ secret.NF ∧
      secret.value = beValue 0 peerBytes ^ priv.value.toNat % (readHex PRIME.toList).value ∧
      writeBinary secret PRIME_BYTES = .ok ss := by
  obtain ⟨g1, g2, g3⟩ := g_spec
  obtain ⟨pub, pubBytes, hpub, _, _, _, _, hw, _, _, _⟩ :=
    modPow_prime_spec (readHex G.toList) priv g1 g2 g3 hp hp0
  have htake : peerBytes.take PRIME_BYTES = peerBytes := List.take_of_length_le (by omega)
  obtain ⟨r1, r2, r3⟩ := readBinary_spec peerBytes hlt
  obtain ⟨secret, ss, hsec, snf, _, _, sv, hsw, _, _, _⟩ :=
    modPow_prime_spec (readBinary peerBytes) priv r1 r3 (by rw [r2]; exact hco) hp hp0
  refine ⟨pub, pubBytes, secret, ss, hpub, hw, ?_, snf, by rw [sv, r2], hsw⟩
  unfold exchangeValues
  simp only [hpub, hw, htake, hsec, hsw]

end WilhelmSCP

namespace WilhelmSCP
open OSL

/-! ## The session key depends on the first block of the shared secret only -/

theorem rawOne_value : (randIntGenerator rawOne).NF ∧ (randIntGenerator rawOne).value = 1 := by
  obtain ⟨h1, h2, _⟩ := readBinary_spec (rawOne.take BLOCK_BYTES) (by decide)
  refine ⟨h1, ?_⟩
  show (readBinary (rawOne.take BLOCK_BYTES)).value = 1
  rw [h2]
  decide

set_option maxRecDepth 100000 in
theorem writeBinary_small : writeBinary ⟨1, [1]⟩ PRIME_BYTES = .ok (peerSmall 1) ∧
    writeBinary ⟨1, [2]⟩ PRIME_BYTES = .ok (peerSmall 2) := by
  decide!

set_option maxRecDepth 100000 in
theorem peerSmall_props :
    ((peerSmall 1).length = PRIME_BYTES ∧ (∀ b ∈ peerSmall 1, b < 256) ∧
      beValue 0 (peerSmall 1) = 1) ∧
    ((peerSmall 2).length = PRIME_BYTES ∧ (∀ b ∈ peerSmall 2, b < 256) ∧
      beValue 0 (peerSmall 2) = 2) := by
  decide!

set_option maxRecDepth 100000 in
theorem sampleHash_secret_ne :
    Block.ofBytes (sampleHash (peerSmall 1)) ≠ Block.ofBytes (sampleHash (List.replicate 32 0)) := by
  decide!

set_option maxRecDepth 100000 in
theorem peerSmall_take : (peerSmall 1).take BLOCK_BYTES = List.replicate 32 0 ∧
    (peerSmall 2).take BLOCK_BYTES = List.replicate 32 0 := by
  decide!

theorem small_nf (v : Int) (h0 : 0 ≤ v) (h1 : v < 256) :
    bigint.NF ⟨1, [v]⟩ ∧ bigint.value ⟨1, [v]⟩ = v := by
  refine ⟨⟨Or.inl rfl, ⟨by simp, ?_, by simp⟩, fun _ => rfl⟩, by simp [bigint.value, compsValue]⟩
  rw [digits_cons, bi_radix_eq]
  exact ⟨by omega, digits_nil⟩

/-- With private exponent 1 the shared secret is the peer value: the bytes
`exchangeValues` returns for the peer values 1 and 2. -/
theorem exchangeValues_small (v : Nat) (hv : v = 1 ∨ v = 2) :
    ∃ pub pubBytes,
      modPow (readHex G.toList) (randIntGenerator rawOne) (readHex PRIME.toList) = .ok pub ∧
      writeBinary pub PRIME_BYTES = .ok pubBytes ∧
      exchangeValues (randIntGenerator rawOne) (peerSmall v) = .ok (pubBytes, peerSmall v) := by
  obtain ⟨a1, a2⟩ := rawOne_value
  obtain ⟨p1, p2, p3, p4⟩ := prime_spec
  obtain ⟨⟨l1, lt1, be1⟩, ⟨l2, lt2, be2⟩⟩ := peerSmall_props
  have hbe : beValue 0 (peerSmall v) = (v : Int) := by
    rcases hv with h | h <;> rw [h]
    · exact be1
    · exact be2
  have hP := (readHex_spec PRIME.toList).2
  have hco : IsCoprime (beValue 0 (peerSmall v)) (readHex PRIME.toList).value := by
    rw [hbe, hP, prime_hexValue, Int.isCoprime_iff_gcd_eq_one]
    rcases hv with h | h <;> rw [h] <;> decide
  obtain ⟨pub, pubBytes, secret, ss, e1, e2, e3, nf, sv, sw⟩ :=
    exchangeValues_spec (randIntGenerator rawOne) a1 (by omega) (peerSmall v)
      (by
        rcases hv with h | h <;> rw [h]
        · exact l1
        · exact l2)
      (by
        rcases hv with h | h <;> rw [h]
        · exact lt1
        · exact lt2) hco
  refine ⟨pub, pubBytes, e1, e2, ?_⟩
  rw [a2, hbe] at sv
  have hsv : secret.value = (v : Int) := by
    rw [sv]
    simp only [Int.toNat_one, pow_one]
    apply Int.emod_eq_of_lt
    · omega
    · rw [hP, prime_hexValue]
      rcases hv with h | h <;> rw [h] <;> norm_num
  obtain ⟨s1, s2⟩ := small_nf (v : Int) (by omega) (by rcases hv with h | h <;> rw [h] <;> omega)
  have hsec : secret = ⟨1, [(v : Int)]⟩ := nf_ext _ _ nf s1 (by rw [hsv, s2])
  rw [hsec] at sw
  have hss : ss = peerSmall v := by
    rcases hv with h | h
    · rw [h] at sw ⊢
      have := writeBinary_small.1
      rw [show ((1 : Nat) : Int) = 1 from rfl, this] at sw
      cases sw
      rfl
    · rw [h] at sw ⊢
      have := writeBinary_small.2
      rw [show ((2 : Nat) : Int) = 2 from rfl, this] at sw
      cases sw
      rfl
  rw [e3, hss]

/-- Both sides set `_baseKey` to the hash of the first `BLOCK_BYTES` bytes of the
shared secret that `exchangeValues` returns. -/
theorem exchangeKey_of_values (H : List Nat → List Nat) (raw peer temp ss : List Nat)
    (h : exchangeValues (randIntGenerator raw) peer = .ok (temp, ss)) :
    exchangeKeyServer H raw peer = .ok (temp, Block.ofBytes (H (ss.take BLOCK_BYTES))) ∧
    exchangeKeyClient H raw peer = .ok (temp, Block.ofBytes (H (ss.take BLOCK_BYTES))) := by
  unfold exchangeKeyServer exchangeKeyClient
  rw [h]
  exact ⟨rfl, rfl⟩

/-- C8. The session key is the hash of the first `BLOCK_BYTES` bytes of the shared
secret, not of its `PRIME_BYTES` bytes: whenever the exchange succeeds with shared
secret bytes `ss`, both `exchangeKeyServer` and `exchangeKeyClient` set `_baseKey` to
`H` of the first 32 bytes of `ss`. With private exponent 1 and the peer values 1 and
2 the shared secrets are `0..01` and `0..02`, and `_baseKey` is the hash of 32 zero
bytes in both cases, for every hash `H`; for the sample hash this is not the hash of
the shared secret. -/
theorem session_key_hashes_first_block_only (H : List Nat → List Nat) :
    (∀ raw peer temp ss : List Nat,
      exchangeValues (randIntGenerator raw) peer = .ok (temp, ss) →
      exchangeKeyServer H raw peer = .ok (temp, Block.ofBytes (H (ss.take BLOCK_BYTES))) ∧
      exchangeKeyClient H raw peer = .ok (temp, Block.ofBytes (H (ss.take BLOCK_BYTES)))) ∧
    ∃ temp,
      exchangeValues (randIntGenerator rawOne) (peerSmall 1) = .ok (temp, peerSmall 1) ∧
      exchangeValues (randIntGenerator rawOne) (peerSmall 2) = .ok (temp, peerSmall 2) ∧
      exchangeKeyServer H rawOne (peerSmall 1) =
        .ok (temp, Block.ofBytes (H (List.replicate 32 0))) ∧
      exchangeKeyServer H rawOne (peerSmall 2) =
        .ok (temp, Block.ofBytes (H (List.replicate 32 0))) ∧
      exchangeKeyClient H rawOne (peerSmall 1) =
        .ok (temp, Block.ofBytes (H (List.replicate 32 0))) ∧
      exchangeKeyClient H rawOne (peerSmall 2) =
        .ok (temp, Block.ofBytes (H (List.replicate 32 0))) ∧
      Block.ofBytes (sampleHash (peerSmall 1)) ≠
        Block.ofBytes (sampleHash (List.replicate 32 0)) := by
  refine ⟨fun raw peer temp ss h => exchangeKey_of_values H raw peer temp ss h, ?_⟩
  obtain ⟨pub1, t1, e1, w1, x1⟩ := exchangeValues_small 1 (Or.inl rfl)
  obtain ⟨pub2, t2, e2, w2, x2⟩ := exchangeValues_small 2 (Or.inr rfl)
  rw [e1] at e2
  cases e2
  rw [w1] at w2
  cases w2
  obtain ⟨s1, c1⟩ := exchangeKey_of_values H rawOne (peerSmall 1) t1 (peerSmall 1) x1
  obtain ⟨s2, c2⟩ := exchangeKey_of_values H rawOne (peerSmall 2) t1 (peerSmall 2) x2
  rw [peerSmall_take.1] at s1 c1
  rw [peerSmall_take.2] at s2 c2
  exact ⟨t1, x1, x2, s1, s2, c1, c2, sampleHash_secret_ne⟩

end WilhelmSCP

namespace OSL

theorem int_to_bi_digit (n : Int) (h0 : 0 ≤ n) (h1 : n < bi_radix) : int_to_bi n = ⟨1, [n]⟩ := by
  have hr := bi_radix_eq
  have h2 : ¬ n < 0 := by omega
  have h3 : ¬ n ≥ bi_radix := by omega
  simp [int_to_bi, normalize, borrowLoop, carryComps, carryLoop, trim, trimTop, h2, h3]

theorem bi_maxint_eq : bi_maxint = ⟨1, [2147483647]⟩ := by decide

theorem bi_minint_eq : bi_minint = ⟨-1, [0, 1]⟩ := by decide

/-- C9. For every `n` with `0 <= n <= 2^31 - 1`, `bi_to_int (int_to_bi n)` returns
`n`; the overflow error is not raised. -/
theorem bi_to_int_int_to_bi (n : Int) (h0 : 0 ≤ n) (h1 : n ≤ 2 ^ 31 - 1) :
    bi_to_int (int_to_bi n) = .ok n := by
  have hr := bi_radix_eq
  rw [int_to_bi_digit n h0 (by omega)]
  unfold bi_to_int
  rw [bi_maxint_eq, bi_minint_eq]
  have h2 : ¬ n > 2147483647 := by omega
  have hw : wrap64 n = n := wrap64_eq n (by omega) (by omega)
  have ht : toInt32 n = n := toInt32_eq n (by omega) (by omega)
  simp [bi_compare, bigint.num_comps, compareTop, h2, toIntLoop, cadd, cmul, hw, ht]
  split <;> simp

theorem bi_to_int_int_to_bi_witness :
    bi_to_int (int_to_bi 2147483647) = .ok 2147483647 :=
  bi_to_int_int_to_bi 2147483647 (by decide) (by decide)

end OSL

namespace OSL

/-! ## str_to_bi and bi_print -/

theorem digit_char_range (c : Char) (h : '0' ≤ c ∧ c ≤ '9') : 48 ≤ c.toNat ∧ c.toNat ≤ 57 := by
  obtain ⟨h1, h2⟩ := h
  exact ⟨h1, h2⟩

theorem bi_10_eq : bi_10 = ⟨1, [10]⟩ := by decide

theorem bi_10_nf : bi_10.NF ∧ bi_10.value = 10 := by
  rw [bi_10_eq]
  refine ⟨⟨Or.inl rfl, ⟨by simp, ?_, by simp⟩, fun _ => rfl⟩, by simp [bigint.value, compsValue]⟩
  rw [digits_cons, bi_radix_eq]
  exact ⟨by omega, digits_nil⟩

theorem decValue_nil (acc : Int) : decValue acc [] = acc := rfl

theorem decValue_cons (acc : Int) (c : Char) (ds : List Char) :
    decValue acc (c :: ds) = decValue (acc * 10 + ((c.toNat : Int) - 48)) ds := rfl

theorem decValue_concat (acc : Int) (ds : List Char) (c : Char) :
    decValue acc (ds ++ [c]) = decValue acc ds * 10 + ((c.toNat : Int) - 48) := by
  unfold decValue
  rw [List.foldl_append]
  rfl

theorem decValue_ge (ds : List Char) (hd : ∀ c ∈ ds, '0' ≤ c ∧ c ≤ '9') :
    ∀ (acc : Int), 0 ≤ acc → acc ≤ decValue acc ds := by
  induction ds with
  | nil => intro acc _; exact le_refl _
  | cons c ds ih =>
    intro acc h
    have hc := digit_char_range c (hd c (List.mem_cons_self _ _))
    rw [decValue_cons]
    have := ih (fun x hx => hd x (List.mem_cons_of_mem _ hx)) (acc * 10 + ((c.toNat : Int) - 48))
      (by omega)
    omega

theorem decValue_zero_head (c : Char) (ds : List Char)
    (hd : ∀ x ∈ c :: ds, '0' ≤ x ∧ x ≤ '9') (hv : decValue 0 (c :: ds) = 0) :
    c = '0' ∧ decValue 0 ds = 0 := by
  have hc := digit_char_range c (hd c (List.mem_cons_self _ _))
  rw [decValue_cons] at hv
  have h1 := decValue_ge ds (fun x hx => hd x (List.mem_cons_of_mem _ hx))
    (0 * 10 + ((c.toNat : Int) - 48)) (by omega)
  have h2 : c.toNat = 48 := by omega
  have h3 : c = '0' := by
    rw [← Char.ofNat_toNat c, h2]
  refine ⟨h3, ?_⟩
  rw [h2] at hv
  simpa using hv

theorem stripZeros_zero_cons (d : Char) (rest : List Char) :
    stripZeros ('0' :: d :: rest) = stripZeros (d :: rest) := by
  rw [stripZeros, if_pos rfl]

theorem stripZeros_nonzero_cons (c : Char) (rest : List Char) (h : c ≠ '0') :
    stripZeros (c :: rest) = c :: rest := by
  cases rest with
  | nil => rfl
  | cons d rest => rw [stripZeros, if_neg h]

/-- Leading zeros in front of a last digit are stripped. -/
theorem stripZeros_of_zero (ds : List Char) (c : Char) (hd : ∀ x ∈ ds, '0' ≤ x ∧ x ≤ '9')
    (hv : decValue 0 ds = 0) : stripZeros (ds ++ [c]) = [c] := by
  induction ds with
  | nil => rfl
  | cons x r ih =>
    obtain ⟨h1, h2⟩ := decValue_zero_head x r hd hv
    rw [h1]
    have : r ++ [c] ≠ [] := by simp
    cases hr : r ++ [c] with
    | nil => exact absurd hr this
    | cons y ys =>
      rw [List.cons_append, hr, stripZeros_zero_cons, ← hr]
      exact ih (fun z hz => hd z (List.mem_cons_of_mem _ hz)) h2

theorem stripZeros_of_pos (ds : List Char) (c : Char) (hd : ∀ x ∈ ds, '0' ≤ x ∧ x ≤ '9')
    (hv : 1 ≤ decValue 0 ds) : stripZeros (ds ++ [c]) = stripZeros ds ++ [c] := by
  induction ds with
  | nil =>
    rw [decValue_nil] at hv
    omega
  | cons x r ih =>
    by_cases hx : x = '0'
    · rw [hx] at hv ⊢
      have hv2 : 1 ≤ decValue 0 r := by
        rw [decValue_cons] at hv
        simpa using hv
      cases r with
      | nil =>
        rw [decValue_nil] at hv2
        omega
      | cons y ys =>
        rw [List.cons_append, List.cons_append, stripZeros_zero_cons, stripZeros_zero_cons,
          ← List.cons_append]
        exact ih (fun z hz => hd z (List.mem_cons_of_mem _ hz)) hv2
    · rw [List.cons_append, stripZeros_nonzero_cons _ _ hx, stripZeros_nonzero_cons _ _ hx]
      rfl

theorem bi_int_mod_spec (a : bigint) (ha : a.NF) (hs : a.sign = 1) (m : Int) (hm0 : 0 < m)
    (hm1 : m < bi_radix) : bi_int_mod a m = .ok (a.value % m) := by
  unfold bi_int_mod
  rw [if_neg (by omega), bi_int_rem_spec a ha hs m hm0 hm1]
  have := Int.emod_nonneg a.value (Int.ne_of_gt hm0)
  simp only [if_neg (show ¬ a.value % m < 0 by omega)]

/-- `print_pos` writes the digits it was read from, without leading zeros. -/
theorem print_pos_spec (ds : List Char) :
    ∀ (fuel : Nat) (b : bigint), b.NF → b.value = decValue 0 ds → b.value < 10 ^ fuel →
    1 ≤ fuel → ds ≠ [] → (∀ x ∈ ds, '0' ≤ x ∧ x ≤ '9') →
    print_pos fuel b = .ok (stripZeros ds) := by
  have hr := bi_radix_eq
  induction ds using List.reverseRecOn with
  | nil => intro _ _ _ _ _ _ h; exact absurd rfl h
  | append_singleton ds c ih =>
    intro fuel b hb hv hfuel hf1 _ hd
    have hdc := digit_char_range c (hd c (by simp))
    have hds : ∀ x ∈ ds, '0' ≤ x ∧ x ≤ '9' := fun x hx => hd x (by simp [hx])
    rw [decValue_concat] at hv
    have hv0 := decValue_ge ds hds 0 (le_refl 0)
    have hb0 : 0 ≤ b.value := by omega
    have hs := (nf_sign_one_iff hb).mpr hb0
    have hmod := bi_int_mod_spec b hb hs 10 (by omega) (by omega)
    have hchar : Char.ofNat ((b.value % 10 + ('0'.toNat : Int)).toNat) = c := by
      have e0 : ('0'.toNat : Int) = 48 := rfl
      have : (b.value % 10 + ('0'.toNat : Int)).toNat = c.toNat := by
        rw [e0]
        omega
      rw [this, Char.ofNat_toNat]
    have hcmp := bi_compare_spec b bi_10 hb bi_10_nf.1
    rw [bi_10_nf.2] at hcmp
    cases fuel with
    | zero => omega
    | succ fuel =>
      rw [print_pos]
      by_cases hge : 10 ≤ b.value
      · have hc : bi_compare b bi_10 ≥ 0 := by
          rw [hcmp]
          exact Int.sign_nonneg.mpr (by omega)
        rw [if_pos hc]
        obtain ⟨q, hq, hqnf, hqv⟩ := bi_int_divide_spec b hb 10 (by omega) (by omega)
        rw [hs, one_mul, nf_value_of_nonneg hb hb0] at hqv
        have hqd : q.value = decValue 0 ds := by
          rw [hqv]
          omega
        have hne : ds ≠ [] := by
          intro e
          rw [e, decValue_nil] at hqd
          omega
        have hf2 : 1 ≤ fuel := by
          by_contra h0
          have : fuel = 0 := by omega
          rw [this] at hfuel
          simp at hfuel
          omega
        have hrec := ih fuel q hqnf hqd (by
          rw [hqv]
          rw [pow_succ] at hfuel
          omega) hf2 hne hds
        rw [hq]
        simp only [hrec, print_digit, hmod, hchar]
        rw [stripZeros_of_pos ds c hds (by omega)]
      · have hc : ¬ bi_compare b bi_10 ≥ 0 := by
          rw [hcmp, Int.sign_eq_neg_one_of_neg (by omega)]
          omega
        rw [if_neg hc]
        simp only [print_digit, hmod, hchar, List.nil_append]
        rw [stripZeros_of_zero ds c hds (by omega)]

theorem takeWhile_all (p : Char → Bool) (l : List Char) (h : ∀ x ∈ l, p x = true) :
    l.takeWhile p = l := by
  induction l with
  | nil => rfl
  | cons x l ih =>
    rw [List.takeWhile_cons, h x (List.mem_cons_self _ _)]
    simp only [if_true]
    rw [ih (fun y hy => h y (List.mem_cons_of_mem _ hy))]

theorem decRead_fold (ds : List Char) (hd : ∀ x ∈ ds, '0' ≤ x ∧ x ≤ '9') :
    ∀ (v : bigint), v.NF →
    (ds.foldl (fun (acc : bigint) c =>
      bi_int_add (bi_int_multiply acc 10) ((c.toNat : Int) - ('0'.toNat : Int))) v).NF ∧
    (ds.foldl (fun (acc : bigint) c =>
      bi_int_add (bi_int_multiply acc 10) ((c.toNat : Int) - ('0'.toNat : Int))) v).value =
      decValue v.value ds := by
  have hr := bi_radix_eq
  induction ds with
  | nil =>
    intro v hv
    exact ⟨hv, rfl⟩
  | cons c ds ih =>
    intro v hv
    have hc := digit_char_range c (hd c (List.mem_cons_self _ _))
    have e0 : ('0'.toNat : Int) = 48 := rfl
    obtain ⟨s1, s2⟩ := readStep_spec v hv 10 (by omega) (by omega)
      ((c.toNat : Int) - ('0'.toNat : Int)) (by omega) (by omega)
    obtain ⟨i1, i2⟩ := ih (fun x hx => hd x (List.mem_cons_of_mem _ hx)) _ s1
    rw [List.foldl_cons]
    refine ⟨i1, ?_⟩
    rw [i2, s2, decValue_cons, e0]

/-- The digits `str_to_bi` reads and `print_pos` prints: for a string of decimal
digits the number read is in normal form, non-negative, and printed without the
leading zeros. -/
theorem digits_roundtrip (ds : List Char) (hne : ds ≠ [])
    (hd : ∀ x ∈ ds, '0' ≤ x ∧ x ≤ '9') :
    ∃ b : bigint, ds.foldl (fun (acc : bigint) c =>
        bi_int_add (bi_int_multiply acc 10) ((c.toNat : Int) - ('0'.toNat : Int))) bi_0 = b ∧
      b.NF ∧ b.sign = 1 ∧
      print_pos (bi_radix_bits * b.num_comps + 1) b = .ok (stripZeros ds) := by
  obtain ⟨h1, h2⟩ := decRead_fold ds hd bi_0 bi_0_nf
  rw [bi_0_value] at h2
  have h0 := decValue_ge ds hd 0 (le_refl 0)
  generalize ds.foldl (fun (acc : bigint) c =>
      bi_int_add (bi_int_multiply acc 10) ((c.toNat : Int) - ('0'.toNat : Int))) bi_0 = b at h1 h2
  refine ⟨b, rfl, h1, (nf_sign_one_iff h1).mpr (by rw [h2]; exact h0), ?_⟩
  apply print_pos_spec ds _ _ h1 h2 _ (by omega) hne hd
  have hlt := nf_value_lt h1 (by rw [h2]; exact h0)
  rw [two_pow_31] at hlt
  have hp1 : (2 : Int) ^ (bi_radix_bits * b.num_comps) ≤ 10 ^ (bi_radix_bits * b.num_comps) :=
    pow_le_pow_left₀ (by norm_num) (by norm_num) _
  have hp2 : (10 : Int) ^ (bi_radix_bits * b.num_comps) ≤
      10 ^ (bi_radix_bits * b.num_comps + 1) :=
    pow_le_pow_right₀ (by norm_num) (Nat.le_succ _)
  exact lt_of_lt_of_le hlt (le_trans hp1 hp2)

theorem str_to_bi_digits (ds : List Char) (hne : ds ≠ [])
    (hd : ∀ x ∈ ds, '0' ≤ x ∧ x ≤ '9') :
    str_to_bi ds = ds.foldl (fun (acc : bigint) c =>
        bi_int_add (bi_int_multiply acc 10) ((c.toNat : Int) - ('0'.toNat : Int))) bi_0 ∧
    str_to_bi ('-' :: ds) = bi_negate (ds.foldl (fun (acc : bigint) c =>
        bi_int_add (bi_int_multiply acc 10) ((c.toNat : Int) - ('0'.toNat : Int))) bi_0) := by
  have htw : ds.takeWhile (fun c => decide ('0' ≤ c ∧ c ≤ '9')) = ds :=
    takeWhile_all _ ds (fun x hx => decide_eq_true (hd x hx))
  constructor
  · cases ds with
    | nil => exact absurd rfl hne
    | cons c r =>
      have hc := digit_char_range c (hd c (List.mem_cons_self _ _))
      have hneg : ¬ ((c :: r).head? = some '-') := by
        intro h
        simp only [List.head?_cons, Option.some.injEq] at h
        rw [h] at hc
        have : '-'.toNat = 45 := rfl
        omega
      unfold str_to_bi
      simp only [hneg, if_false, htw]
  · unfold str_to_bi
    simp only [List.head?_cons, List.tail_cons, if_true, htw]

/-- C10. What `bi_print` writes for `str_to_bi s`: for a string `ds` of one or more
decimal digits, `ds` without its leading zeros; for `-` followed by `ds`, a `-`
followed by `ds` without its leading zeros, also when the number is zero. So
`000` prints as `0` as claimed, but `-0` prints as `-0`, not as `0`: `bi_negate`
gives the zero that `str_to_bi` read the sign -1, and `bi_print` prints that sign. -/
theorem bi_print_str_to_bi :
    (∀ ds : List Char, ds ≠ [] → (∀ x ∈ ds, '0' ≤ x ∧ x ≤ '9') →
      bi_print (str_to_bi ds) = .ok (stripZeros ds) ∧
      bi_print (str_to_bi ('-' :: ds)) = .ok ('-' :: stripZeros ds)) ∧
    bi_print (str_to_bi ['-', '0']) = .ok ['-', '0'] ∧
    bi_print (str_to_bi ['0', '0', '0']) = .ok ['0'] := by
  refine ⟨?_, by decide, by decide⟩
  intro ds hne hd
  obtain ⟨e1, e2⟩ := str_to_bi_digits ds hne hd
  obtain ⟨b, hb, hnf, hs, hp⟩ := digits_roundtrip ds hne hd
  rw [hb] at e1 e2
  rw [e1, e2]
  constructor
  · have hneg : bi_is_negative b = false := by
      unfold bi_is_negative
      simp [hs]
    unfold bi_print
    simp only [hneg, Bool.false_eq_true, if_false]
    exact hp
  · have hneg : bi_is_negative (bi_negate b) = true := by
      unfold bi_is_negative bi_negate
      simp [hs]
    have hnn : bi_negate (bi_negate b) = b := by
      cases b
      simp [bi_negate]
    have hnc : (bi_negate b).num_comps = b.num_comps := rfl
    unfold bi_print
    simp only [hneg, if_true, hnn, hnc, hp]

theorem bi_print_str_to_bi_witness :
    bi_print (str_to_bi ['0', '0', '7']) = .ok (stripZeros ['0', '0', '7']) ∧
    bi_print (str_to_bi ('-' :: ['0', '0', '7'])) = .ok ('-' :: stripZeros ['0', '0', '7']) :=
  bi_print_str_to_bi.1 ['0', '0', '7'] (by decide) (by decide)

end OSL

namespace OSL

/-! ## Algebraic laws of addition and multiplication -/

/-- C11. For all normal-form `a` and `b`, `bi_subtract (bi_add a b) b` is `a` (the
same sign and the same components), and `bi_compare` of it with `a` is 0. -/
theorem bi_add_subtract_cancel (a b : bigint) (ha : a.NF) (hb : b.NF) :
    bi_subtract (bi_add a b) b = a ∧ bi_compare (bi_subtract (bi_add a b) b) a = 0 := by
  obtain ⟨s1, s2⟩ := bi_add_spec a b ha hb
  obtain ⟨d1, d2⟩ := bi_subtract_spec _ b s1 hb
  have hv : (bi_subtract (bi_add a b) b).value = a.value := by
    rw [d2, s2]
    ring
  have he := nf_ext _ _ d1 ha hv
  refine ⟨he, ?_⟩
  rw [bi_compare_spec _ a d1 ha, hv, sub_self]
  rfl

theorem bi_add_subtract_cancel_witness :
    bi_subtract (bi_add ⟨-1, [5, 7]⟩ ⟨1, [2147483647, 3, 9]⟩) ⟨1, [2147483647, 3, 9]⟩
        = ⟨-1, [5, 7]⟩ ∧
      bi_compare (bi_subtract (bi_add ⟨-1, [5, 7]⟩ ⟨1, [2147483647, 3, 9]⟩)
        ⟨1, [2147483647, 3, 9]⟩) ⟨-1, [5, 7]⟩ = 0 :=
  bi_add_subtract_cancel ⟨-1, [5, 7]⟩ ⟨1, [2147483647, 3, 9]⟩ (by decide) (by decide)

/-- C12. Multiplication is commutative: for all normal-form `a` and `b`,
`bi_multiply a b` and `bi_multiply b a` are the same bigint (the same sign and the
same components). -/
theorem bi_multiply_comm (a b : bigint) (ha : a.NF) (hb : b.NF) :
    bi_multiply a b = bi_multiply b a ∧
    (bi_multiply a b).sign = (bi_multiply b a).sign ∧
    (bi_multiply a b).comps = (bi_multiply b a).comps := by
  obtain ⟨p1, p2⟩ := bi_multiply_spec a b ha hb
  obtain ⟨q1, q2⟩ := bi_multiply_spec b a hb ha
  have he := nf_ext _ _ p1 q1 (by rw [p2, q2]; ring)
  exact ⟨he, by rw [he], by rw [he]⟩

theorem bi_multiply_comm_witness :
    bi_multiply ⟨-1, [5, 7]⟩ ⟨1, [2147483647, 3, 9]⟩ =
        bi_multiply ⟨1, [2147483647, 3, 9]⟩ ⟨-1, [5, 7]⟩ ∧
      (bi_multiply ⟨-1, [5, 7]⟩ ⟨1, [2147483647, 3, 9]⟩).sign =
        (bi_multiply ⟨1, [2147483647, 3, 9]⟩ ⟨-1, [5, 7]⟩).sign ∧
      (bi_multiply ⟨-1, [5, 7]⟩ ⟨1, [2147483647, 3, 9]⟩).comps =
        (bi_multiply ⟨1, [2147483647, 3, 9]⟩ ⟨-1, [5, 7]⟩).comps :=
  bi_multiply_comm ⟨-1, [5, 7]⟩ ⟨1, [2147483647, 3, 9]⟩ (by decide) (by decide)

/-- C13. Karatsuba and regular multiplication agree: for all normal-form `a` and
`b`, whatever their component counts, `bi_multiply a b` (which runs the Karatsuba
branch, recursively, as soon as both counts are at least `KARATSUBA_THRESH`) is the
same bigint as `regular_multiply a b`, sign included; and so is every call of the
recursion whose depth bound exceeds the larger component count. -/
theorem karatsuba_eq_regular (a b : bigint) (ha : a.NF) (hb : b.NF) :
    bi_multiply a b = regular_multiply a b ∧
    ∀ fuel, max a.num_comps b.num_comps < fuel →
      bi_multiply_aux fuel a b = regular_multiply a b := by
  obtain ⟨r1, r2⟩ := regular_multiply_spec a b ha hb
  have key : ∀ fuel, max a.num_comps b.num_comps < fuel →
      bi_multiply_aux fuel a b = regular_multiply a b := by
    intro fuel hf
    obtain ⟨p1, p2⟩ := bi_multiply_aux_spec fuel a b ha hb hf
    exact nf_ext _ _ p1 r1 (by rw [p2, r2])
  exact ⟨key _ (by omega), key⟩

theorem karatsuba_eq_regular_witness :
    bi_multiply ⟨-1, [1, 2, 3, 4, 5, 6, 7, 8, 9, 10, 11, 12, 13]⟩
        ⟨1, [2147483647, 0, 5, 0, 0, 7, 2147483647, 1, 2, 3, 4, 5]⟩ =
      regular_multiply ⟨-1, [1, 2, 3, 4, 5, 6, 7, 8, 9, 10, 11, 12, 13]⟩
        ⟨1, [2147483647, 0, 5, 0, 0, 7, 2147483647, 1, 2, 3, 4, 5]⟩ :=
  (karatsuba_eq_regular ⟨-1, [1, 2, 3, 4, 5, 6, 7, 8, 9, 10, 11, 12, 13]⟩
    ⟨1, [2147483647, 0, 5, 0, 0, 7, 2147483647, 1, 2, 3, 4, 5]⟩ (by decide) (by decide)).1

end OSL

namespace OSL

/-! ## Division for every operand -/

theorem nf_top_pos (d : bigint) (hd : d.NF) (hd0 : 0 < d.value) :
    1 ≤ d.comp (d.num_comps - 1) ∧ bi_radix ^ (d.num_comps - 1) ≤ d.value ∧
    d.value < bi_radix ^ (d.num_comps - 1) * (d.comp (d.num_comps - 1) + 1) := by
  obtain ⟨front, top, hft, hfl, hcomp, hfd, ht0, ht1, hdv⟩ := nf_top d hd
  have hV := nf_value_of_nonneg hd (by omega)
  rw [hV] at hdv
  have hF0 := digits_nonneg _ hfd
  have hF1 := compsValue_lt _ hfd
  rw [hfl] at hF1
  have hp := bi_radix_pow_pos (d.num_comps - 1)
  have hn := hd.2.1
  rw [hft] at hn
  obtain ⟨_, _, _, h4⟩ := normComps_concat front top hn
  have htop : 1 ≤ top := by
    by_cases hf : front = []
    · rw [hf] at hdv hfl
      simp only [compsValue_nil, List.length_nil] at hdv hfl
      rw [← hfl] at hdv
      simp only [pow_zero, one_mul, zero_add] at hdv
      omega
    · exact h4 hf
  rw [hcomp]
  refine ⟨htop, ?_, ?_⟩
  · have : bi_radix ^ (d.num_comps - 1) * 1 ≤ bi_radix ^ (d.num_comps - 1) * top :=
      Int.mul_le_mul_of_nonneg_left htop (le_of_lt hp)
    omega
  · rw [mul_add, mul_one]
    omega

/-- `multi_divide`, both branches: the floor quotient, or one less when the
denominator divides the numerator. -/
theorem multi_divide_full (n d : bigint) (hn : n.NF) (hd : d.NF) (hd0 : 0 < d.value)
    (hnd : d.value ≤ n.value) :
    ∃ q, multi_divide n d = .ok q ∧ q.NF ∧
      (q.value = n.value / d.value ∨
        (d.value ∣ n.value ∧ q.value = n.value / d.value - 1)) := by
  by_cases hc : Conditioned d
  · exact multi_divide_spec n d hn hd hd0 hnd hc
  · unfold Conditioned at hc
    have hr := bi_radix_eq
    have hs := bi_radix_sqrt_eq
    obtain ⟨t1, t2, t3⟩ := nf_top_pos d hd hd0
    have hp := bi_radix_pow_pos (d.num_comps - 1)
    obtain ⟨dn, dv⟩ := bi_int_multiply_spec d hd bi_radix_sqrt (by omega) (by omega)
    obtain ⟨nn, nv⟩ := bi_int_multiply_spec n hn bi_radix_sqrt (by omega) (by omega)
    have dv2 : (bi_int_multiply d bi_radix_sqrt).value = d.value * 46340 := by
      rw [dv, hs]
    have nv2 : (bi_int_multiply n bi_radix_sqrt).value = n.value * 46340 := by
      rw [nv, hs]
    clear dv nv
    have hX : bi_radix ^ (d.num_comps - 1) * (d.comp (d.num_comps - 1) + 1) ≤
        bi_radix ^ (d.num_comps - 1) * 46340 :=
      Int.mul_le_mul_of_nonneg_left (by omega) (le_of_lt hp)
    have hcond : Conditioned (bi_int_multiply d bi_radix_sqrt) := by
      apply conditioned_of_value _ dn (d.num_comps - 1)
      · rw [dv2]
        omega
      · rw [dv2, pow_succ, bi_radix_eq]
        rw [bi_radix_eq] at hX t3 hp
        omega
    have hfuel : (bi_int_multiply n bi_radix_sqrt).value <
        2 ^ (bi_radix_bits * (n.num_comps + 1) + 1) := by
      rw [nv2]
      have h1 := nf_value_lt hn (by omega)
      rw [two_pow_31] at h1
      have h2 : (2 : Int) ^ (bi_radix_bits * (n.num_comps + 1) + 1) =
          2 ^ (bi_radix_bits * n.num_comps) * 4294967296 := by
        rw [show bi_radix_bits * (n.num_comps + 1) + 1 = bi_radix_bits * n.num_comps + 32 by
          unfold bi_radix_bits
          omega, pow_add]
        norm_num
      rw [h2]
      have h3 : (0 : Int) < 2 ^ (bi_radix_bits * n.num_comps) := by positivity
      omega
    unfold Conditioned at hcond
    obtain ⟨q, hq, hqnf, hqv⟩ := multi_divide2_spec _ _ _ nn dn (by rw [dv2]; omega)
      (by rw [dv2, nv2]; omega) (by omega) hfuel
    unfold multi_divide
    rw [if_pos (by omega), hq]
    refine ⟨q, rfl, hqnf, ?_⟩
    rw [dv2, nv2, Int.mul_ediv_mul_of_pos_left _ _ (by omega)] at hqv
    rcases hqv with h | ⟨h1, h2⟩
    · exact Or.inl h
    · exact Or.inr ⟨(mul_dvd_mul_iff_right (by omega)).mp h1, h2⟩

/-- The division proper of `bi_divide`, for `0 < d < n`. -/
theorem divide_core (n d : bigint) (hn : n.NF) (hd : d.NF) (hd0 : 0 < d.value)
    (hlt : d.value < n.value) :
    ∃ q, (if d.num_comps = 1 then bi_int_divide n (toInt32 (d.comp 0))
        else multi_divide n d) = .ok q ∧ q.NF ∧ 1 ≤ q.value ∧
      (q.value = n.value / d.value ∨
        (d.value ∣ n.value ∧ 1 < d.num_comps ∧ q.value = n.value / d.value - 1)) := by
  have hr := bi_radix_eq
  have hn0 : 0 ≤ n.value := by omega
  have hfl : 1 ≤ n.value / d.value := Int.le_ediv_of_mul_le hd0 (by omega)
  by_cases hone : d.num_comps = 1
  · rw [if_pos hone]
    have hv := single_comp_value d hd (by omega) hone
    have hdig := getD_digit d.comps (nf_digits hd) 0
    have hcomp : d.comp 0 = d.value := hv.symm
    have hd1 : d.comp 0 = d.comps.getD 0 0 := rfl
    obtain ⟨q, hq, hqnf, hqv⟩ := bi_int_divide_spec n hn d.value hd0 (by
      rw [hv, hd1]
      exact hdig.2)
    rw [hcomp, toInt32_eq _ (by omega) (by
      rw [hv, hd1]
      have := hdig.2
      omega), hq]
    rw [(nf_sign_one_iff hn).mpr hn0, one_mul, nf_value_of_nonneg hn hn0] at hqv
    exact ⟨q, rfl, hqnf, by omega, Or.inl hqv⟩
  · rw [if_neg hone]
    obtain ⟨q, hq, hqnf, hqv⟩ := multi_divide_full n d hn hd hd0 (by omega)
    have hnum := nf_num_comps_pos hd
    refine ⟨q, hq, hqnf, ?_, ?_⟩
    · rcases hqv with h | ⟨h1, h2⟩
      · omega
      · obtain ⟨k, hk⟩ := h1
        have hk2 : 2 ≤ k := by
          by_contra hc
          have : k ≤ 1 := by omega
          have : d.value * k ≤ d.value * 1 := Int.mul_le_mul_of_nonneg_left this (by omega)
          omega
        have : n.value / d.value = k := by
          rw [hk, Int.mul_ediv_cancel_left _ (by omega)]
        omega
    · rcases hqv with h | ⟨h1, h2⟩
      · exact Or.inl h
      · exact Or.inr ⟨h1, by omega, h2⟩

theorem bi_negate_value (x : bigint) : (bi_negate x).value = -x.value := by
  unfold bi_negate bigint.value
  simp only [neg_mul]

theorem bi_negate_nf (x : bigint) (hx : x.NF) (h0 : x.value ≠ 0) : (bi_negate x).NF := by
  obtain ⟨h1, h2, h3⟩ := hx
  refine ⟨?_, h2, ?_⟩
  · unfold bi_negate
    simp only
    omega
  · intro hc
    exfalso
    apply h0
    unfold bi_negate at hc
    simp only at hc
    unfold bigint.value
    rw [hc]
    simp [compsValue_cons, compsValue_nil]

theorem bi_m1_eq : bi_m1 = ⟨-1, [1]⟩ := by decide

theorem bi_m1_nf : bi_m1.NF := by decide

theorem bi_m1_value : bi_m1.value = -1 := by decide

/-- The magnitude `bi_divide` works on. -/
theorem abs_operand (x : bigint) (hx : x.NF) (h0 : x.value ≠ 0) :
    (if x.value < 0 then bi_negate x else x).NF ∧
    (if x.value < 0 then bi_negate x else x).value = |x.value| ∧
    (if x.value < 0 then bi_negate x else x).num_comps = x.num_comps := by
  by_cases h : x.value < 0
  · rw [if_pos h]
    exact ⟨bi_negate_nf x hx h0, by rw [bi_negate_value, abs_of_neg h], rfl⟩
  · rw [if_neg h]
    exact ⟨hx, by rw [abs_of_nonneg (by omega)], rfl⟩

theorem divideTail_spec (s : Int) (n d : bigint) (hs : s = 1 ∨ s = -1) (hn : n.NF) (hd : d.NF)
    (hn0 : 0 < n.value) (hd0 : 0 < d.value) :
    ∃ q, divideTail s n d = .ok q ∧ q.NF ∧
      (q.value = s * (n.value / d.value) ∨
        (d.value ∣ n.value ∧ 1 < d.num_comps ∧ d.value < n.value ∧
          q.value = s * (n.value / d.value - 1))) := by
  unfold divideTail
  have hcmp := bi_compare_spec n d hn hd
  by_cases hlt : n.value < d.value
  · have h1 : bi_compare n d = -1 := by
      rw [hcmp, Int.sign_eq_neg_one_of_neg (by omega)]
    simp only [h1, if_true]
    refine ⟨bi_0, rfl, bi_0_nf, Or.inl ?_⟩
    rw [bi_0_value, Int.ediv_eq_zero_of_lt (by omega) hlt, mul_zero]
  · by_cases heq : n.value = d.value
    · have h1 : bi_compare n d = 0 := by
        rw [hcmp, heq, sub_self]
        rfl
      simp only [h1]
      simp only [show ¬ ((0 : Int) = -1) by omega, if_false, if_true]
      rw [heq, Int.ediv_self (by omega), mul_one]
      rcases hs with h | h
      · rw [if_pos h]
        exact ⟨bi_1, rfl, bi_1_nf, Or.inl (by rw [bi_1_value, h])⟩
      · rw [if_neg (by omega)]
        exact ⟨bi_m1, rfl, bi_m1_nf, Or.inl (by rw [bi_m1_value, h])⟩
    · have h1 : bi_compare n d = 1 := by
        rw [hcmp, Int.sign_eq_one_of_pos (by omega)]
      simp only [h1]
      simp only [show ¬ ((1 : Int) = 0) by omega, show ¬ ((1 : Int) = -1) by omega, if_false]
      obtain ⟨q, hq, hqnf, hq1, hqv⟩ := divide_core n d hn hd hd0 (by omega)
      rw [hq]
      simp only
      rcases hs with h | h
      · rw [if_neg (by omega)]
        refine ⟨q, rfl, hqnf, ?_⟩
        rw [h, one_mul, one_mul]
        rcases hqv with e | ⟨e1, e2, e3⟩
        · exact Or.inl e
        · exact Or.inr ⟨e1, e2, by omega, e3⟩
      · rw [if_pos h]
        refine ⟨bi_negate q, rfl, bi_negate_nf q hqnf (by omega), ?_⟩
        rw [bi_negate_value, h]
        rcases hqv with e | ⟨e1, e2, e3⟩
        · exact Or.inl (by rw [e]; ring)
        · exact Or.inr ⟨e1, e2, by omega, by rw [e3]; ring⟩

theorem bi_divide_signs (a b : bigint) (ha : a.NF) (hb : b.NF) (ha0 : a.value ≠ 0)
    (hb0 : b.value ≠ 0) :
    bi_divide a b = divideTail (Int.sign a.value * Int.sign b.value)
      (if a.value < 0 then bi_negate a else a) (if b.value < 0 then bi_negate b else b) := by
  unfold bi_divide divideTail
  simp only [bi_compare_zero a ha, bi_compare_zero b hb]
  rcases lt_or_gt_of_ne ha0 with h1 | h1 <;> rcases lt_or_gt_of_ne hb0 with h2 | h2
  · rw [Int.sign_eq_neg_one_of_neg h1, Int.sign_eq_neg_one_of_neg h2]
    simp [h1, h2]
  · rw [Int.sign_eq_neg_one_of_neg h1, Int.sign_eq_one_of_pos h2]
    simp [h1, not_lt_of_gt h2]
  · rw [Int.sign_eq_one_of_pos h1, Int.sign_eq_neg_one_of_neg h2]
    simp [not_lt_of_gt h1, h2]
  · rw [Int.sign_eq_one_of_pos h1, Int.sign_eq_one_of_pos h2]
    simp [not_lt_of_gt h1, not_lt_of_gt h2]

theorem tdiv_signs (a b : Int) :
    Int.tdiv a b = Int.sign a * Int.sign b * (|a| / |b|) := by
  rcases lt_trichotomy a 0 with h1 | h1 | h1 <;> rcases lt_trichotomy b 0 with h2 | h2 | h2
  all_goals first
    | (subst h1; simp)
    | (subst h2; simp)
    | skip
  · rw [Int.sign_eq_neg_one_of_neg h1, Int.sign_eq_neg_one_of_neg h2, abs_of_neg h1,
      abs_of_neg h2]
    have : Int.tdiv a b = Int.tdiv (-(-a)) (-(-b)) := by rw [neg_neg, neg_neg]
    rw [this, Int.neg_tdiv, Int.tdiv_neg, neg_neg, Int.tdiv_eq_ediv (by omega) (by omega)]
    ring
  · rw [Int.sign_eq_neg_one_of_neg h1, Int.sign_eq_one_of_pos h2, abs_of_neg h1,
      abs_of_pos h2]
    have : Int.tdiv a b = Int.tdiv (-(-a)) b := by rw [neg_neg]
    rw [this, Int.neg_tdiv, Int.tdiv_eq_ediv (by omega) (by omega)]
    ring
  · rw [Int.sign_eq_one_of_pos h1, Int.sign_eq_neg_one_of_neg h2, abs_of_pos h1,
      abs_of_neg h2]
    have : Int.tdiv a b = Int.tdiv a (-(-b)) := by rw [neg_neg]
    rw [this, Int.tdiv_neg, Int.tdiv_eq_ediv (by omega) (by omega)]
    ring
  · rw [Int.sign_eq_one_of_pos h1, Int.sign_eq_one_of_pos h2, abs_of_pos h1,
      abs_of_pos h2, Int.tdiv_eq_ediv (by omega) (by omega)]
    ring

/-- `bi_divide` for every numerator and every non-zero denominator: the quotient of
C (truncated towards zero), or, when the denominator has more than one component,
divides the numerator and is smaller in magnitude, that quotient moved by one
towards zero. -/
theorem bi_divide_full (a b : bigint) (ha : a.NF) (hb : b.NF) (hb0 : b.value ≠ 0) :
    ∃ q, bi_divide a b = .ok q ∧ q.NF ∧
      (q.value = Int.tdiv a.value b.value ∨
        (b.value ∣ a.value ∧ 1 < b.num_comps ∧ |b.value| < |a.value| ∧
          q.value = Int.tdiv a.value b.value - Int.sign a.value * Int.sign b.value)) := by
  by_cases ha0 : a.value = 0
  · have hcd : bi_compare b bi_0 ≠ 0 := by
      rw [bi_compare_zero b hb]
      intro h
      exact hb0 (Int.sign_eq_zero_iff_zero.mp h)
    have hcn : bi_compare a bi_0 = 0 := by
      rw [bi_compare_zero a ha, ha0]
      rfl
    unfold bi_divide
    simp only [hcn, if_neg hcd, if_true]
    refine ⟨bi_0, rfl, bi_0_nf, Or.inl ?_⟩
    rw [bi_0_value, ha0, Int.zero_tdiv]
  · rw [bi_divide_signs a b ha hb ha0 hb0]
    obtain ⟨an, av, -⟩ := abs_operand a ha ha0
    obtain ⟨bn, bv, bc⟩ := abs_operand b hb hb0
    have hs : Int.sign a.value * Int.sign b.value = 1 ∨
        Int.sign a.value * Int.sign b.value = -1 := by
      rcases lt_or_gt_of_ne ha0 with h1 | h1 <;> rcases lt_or_gt_of_ne hb0 with h2 | h2
      · rw [Int.sign_eq_neg_one_of_neg h1, Int.sign_eq_neg_one_of_neg h2]
        decide
      · rw [Int.sign_eq_neg_one_of_neg h1, Int.sign_eq_one_of_pos h2]
        decide
      · rw [Int.sign_eq_one_of_pos h1, Int.sign_eq_neg_one_of_neg h2]
        decide
      · rw [Int.sign_eq_one_of_pos h1, Int.sign_eq_one_of_pos h2]
        decide
    obtain ⟨q, hq, hqnf, hqv⟩ := divideTail_spec _ _ _ hs an bn
      (by rw [av]; exact abs_pos.mpr ha0) (by rw [bv]; exact abs_pos.mpr hb0)
    refine ⟨q, hq, hqnf, ?_⟩
    rw [av, bv, bc] at hqv
    rw [tdiv_signs]
    rcases hqv with e | ⟨e1, e2, e3, e4⟩
    · exact Or.inl e
    · refine Or.inr ⟨?_, e2, e3, ?_⟩
      · exact (abs_dvd_abs _ _).mp e1
      · rw [e4]
        ring

end OSL

namespace OSL

/-! ## Remainder and modulus for every operand -/

theorem sign_mul_self_of_ne (b : Int) (hb : b ≠ 0) : Int.sign b * Int.sign b = 1 := by
  rcases lt_or_gt_of_ne hb with h | h
  · rw [Int.sign_eq_neg_one_of_neg h]
    decide
  · rw [Int.sign_eq_one_of_pos h]
    decide

/-- The remainder that goes with the truncated quotient. -/
theorem tmod_signs (a b : Int) (hb : b ≠ 0) :
    a - Int.tdiv a b * b = Int.sign a * (|a| % |b|) := by
  rw [tdiv_signs]
  have h1 := Int.sign_mul_abs a
  have h2 := Int.sign_mul_abs b
  have h3 := Int.ediv_add_emod |a| |b|
  have h4 := sign_mul_self_of_ne b hb
  have e1 : Int.sign a * Int.sign b * (|a| / |b|) * b =
      Int.sign a * (Int.sign b * Int.sign b) * (|b| * (|a| / |b|)) := by
    have e0 : Int.sign a * Int.sign b * (|a| / |b|) * b =
        Int.sign a * Int.sign b * (|a| / |b|) * (Int.sign b * |b|) := by rw [h2]
    rw [e0]
    ring
  rw [e1, h4, mul_one]
  have e2 : Int.sign a * (|a| % |b|) = Int.sign a * |a| - Int.sign a * (|b| * (|a| / |b|)) := by
    rw [← mul_sub]
    congr 1
    omega
  rw [e2, h1]

theorem abs_sign_mul (a t : Int) (ha : a ≠ 0) : |Int.sign a * t| = |t| := by
  rcases lt_or_gt_of_ne ha with h | h
  · rw [Int.sign_eq_neg_one_of_neg h, neg_one_mul, abs_neg]
  · rw [Int.sign_eq_one_of_pos h, one_mul]

/-- `bi_divide` and `bi_rem` for every numerator and every non-zero denominator. -/
theorem bi_rem_full (a b : bigint) (ha : a.NF) (hb : b.NF) (hb0 : b.value ≠ 0) :
    ∃ q r, bi_divide a b = .ok q ∧ bi_rem a b = .ok r ∧ q.NF ∧ r.NF ∧
      q.value * b.value + r.value = a.value ∧
      ((q.value = Int.tdiv a.value b.value ∧ r.value = Int.sign a.value * (|a.value| % |b.value|)) ∨
        (b.value ∣ a.value ∧ 1 < b.num_comps ∧ |b.value| < |a.value| ∧
          q.value = Int.tdiv a.value b.value - Int.sign a.value * Int.sign b.value ∧
          r.value = Int.sign a.value * |b.value|)) := by
  obtain ⟨q, hq, hqnf, hqv⟩ := bi_divide_full a b ha hb hb0
  obtain ⟨p1, p2⟩ := bi_multiply_spec q b hqnf hb
  obtain ⟨s1, s2⟩ := bi_subtract_spec a _ ha p1
  refine ⟨q, bi_subtract a (bi_multiply q b), hq, ?_, hqnf, s1, ?_, ?_⟩
  · unfold bi_rem
    rw [hq]
  · rw [s2, p2]
    ring
  · rw [s2, p2]
    have ht := tmod_signs a.value b.value hb0
    rcases hqv with h | ⟨h1, h2, h3, h4⟩
    · left
      refine ⟨h, ?_⟩
      rw [h, ht]
    · right
      refine ⟨h1, h2, h3, h4, ?_⟩
      rw [h4]
      have hz : |a.value| % |b.value| = 0 :=
        Int.emod_eq_zero_of_dvd ((abs_dvd_abs _ _).mpr h1)
      rw [hz, mul_zero] at ht
      have e : a.value - (Int.tdiv a.value b.value - Int.sign a.value * Int.sign b.value) * b.value
          = (a.value - Int.tdiv a.value b.value * b.value) +
            Int.sign a.value * (Int.sign b.value * b.value) := by ring
      rw [e, ht, zero_add]
      congr 1
      have h5 := Int.sign_mul_abs b.value
      have h6 := sign_mul_self_of_ne b.value hb0
      calc Int.sign b.value * b.value = Int.sign b.value * (Int.sign b.value * |b.value|) := by
            rw [h5]
        _ = (Int.sign b.value * Int.sign b.value) * |b.value| := by ring
        _ = |b.value| := by rw [h6, one_mul]

/-- The residue from the remainder of the truncated division. -/
theorem emod_of_signed (a m : Int) (hm : 0 < m) :
    a % m = (if Int.sign a * (|a| % m) < 0 then Int.sign a * (|a| % m) + m
             else Int.sign a * (|a| % m)) := by
  have h0 := Int.emod_nonneg |a| (show m ≠ 0 by omega)
  have h1 := Int.emod_lt_of_pos |a| hm
  have h3 := Int.ediv_add_emod |a| m
  rcases lt_trichotomy a 0 with h | h | h
  · rw [Int.sign_eq_neg_one_of_neg h, neg_one_mul]
    have habs := abs_of_neg h
    have ea : a = (-(|a| % m) + m) + m * (-(|a| / m) - 1) := by
      have : m * (-(|a| / m) - 1) = -(m * (|a| / m)) - m := by ring
      omega
    by_cases ht : |a| % m = 0
    · rw [if_neg (by omega), ht, neg_zero]
      exact Int.emod_eq_zero_of_dvd ((dvd_abs _ _).mp (Int.dvd_of_emod_eq_zero ht))
    · rw [if_pos (by omega)]
      conv_lhs => rw [ea]
      rw [Int.add_mul_emod_self_left]
      exact Int.emod_eq_of_lt (by omega) (by omega)
  · subst h
    simp
  · rw [Int.sign_eq_one_of_pos h, one_mul, abs_of_pos h, if_neg (by
      have := Int.emod_nonneg a (show m ≠ 0 by omega)
      omega)]

/-- `bi_mod` for every number and every positive modulus: the residue in `[0, m)`,
or `m` itself when `m` has more than one component, divides the number and is
smaller than it. -/
theorem bi_mod_full (a m : bigint) (ha : a.NF) (hm : m.NF) (hm0 : 0 < m.value) :
    ∃ r, bi_mod a m = .ok r ∧ r.NF ∧
      (r.value = a.value % m.value ∨
        (m.value ∣ a.value ∧ 1 < m.num_comps ∧ m.value < a.value ∧ r.value = m.value)) := by
  obtain ⟨q, r, hq, hr, hqnf, hrnf, hsum, hcase⟩ := bi_rem_full a m ha hm (by omega)
  have hcd : ¬ bi_compare m bi_0 ≤ 0 := by
    rw [bi_compare_zero m hm, Int.sign_eq_one_of_pos hm0]
    omega
  have habs := abs_of_pos hm0
  rw [habs] at hcase
  obtain ⟨a1, a2⟩ := bi_add_spec r m hrnf hm
  unfold bi_mod
  rw [if_neg hcd, hr]
  simp only
  have hnegiff := bi_is_negative_spec r hrnf
  have hem := emod_of_signed a.value m.value hm0
  by_cases hneg : bi_is_negative r = true
  · rw [if_pos hneg]
    have hlt := hnegiff.mp hneg
    refine ⟨_, rfl, a1, Or.inl ?_⟩
    rw [a2]
    rcases hcase with ⟨-, h2⟩ | ⟨h1, -, -, -, h5⟩
    · rw [hem, ← h2, if_pos hlt]
    · have han : a.value < 0 := by
        by_contra hc
        rcases eq_or_lt_of_le (not_lt.mp hc) with h | h
        · rw [← h] at h5
          simp at h5
          omega
        · rw [Int.sign_eq_one_of_pos h] at h5
          omega
      rw [Int.sign_eq_neg_one_of_neg han] at h5
      rw [h5, Int.emod_eq_zero_of_dvd h1]
      ring
  · rw [if_neg hneg]
    have hge : ¬ r.value < 0 := fun h => hneg (hnegiff.mpr h)
    refine ⟨r, rfl, hrnf, ?_⟩
    rcases hcase with ⟨-, h2⟩ | ⟨h1, h2, h3, -, h5⟩
    · left
      rw [hem, ← h2, if_neg hge]
    · have hap : 0 < a.value := by
        by_contra hc
        rcases eq_or_lt_of_le (not_lt.mp hc) with h | h
        · rw [h] at h3
          simp at h3
          omega
        · rw [Int.sign_eq_neg_one_of_neg h] at h5
          omega
      rw [Int.sign_eq_one_of_pos hap, one_mul] at h5
      rw [abs_of_pos hap] at h3
      exact Or.inr ⟨h1, h2, h3, h5⟩

/-- `bi_mod` of a number coprime to the modulus is the residue, for every sign of
the number and every modulus above one. -/
theorem bi_mod_coprime_gen (x m : bigint) (hx : x.NF) (hm : m.NF) (hM : 1 < m.value)
    (hco : IsCoprime x.value m.value) :
    ∃ r, bi_mod x m = .ok r ∧ r.NF ∧ r.value = x.value % m.value ∧ 0 ≤ r.value ∧
      r.value < m.value ∧ IsCoprime r.value m.value := by
  obtain ⟨r, hr, hrnf, hrv⟩ := bi_mod_full x m hx hm (by omega)
  have hv : r.value = x.value % m.value := by
    rcases hrv with h | ⟨h, _, _⟩
    · exact h
    · exact absurd h (not_dvd_of_coprime _ _ hM hco)
  refine ⟨r, hr, hrnf, hv, ?_, ?_, ?_⟩
  · rw [hv]
    exact Int.emod_nonneg _ (by omega)
  · rw [hv]
    exact Int.emod_lt_of_pos _ (by omega)
  · rw [hv]
    exact coprime_emod _ _ hco

end OSL

namespace OSL

/-! ## bi_egcd -/

/-- The quotient and the new `c1` of one pass of the loop of `bi_egcd`. -/
theorem egcd_rem (c0 c1 : bigint) (h0 : c0.NF) (h1 : c1.NF) (hc0 : 0 ≤ c0.value)
    (hc1 : 0 < c1.value) :
    ∃ q, bi_divide c0 c1 = .ok q ∧ q.NF ∧
      0 ≤ c0.value - q.value * c1.value ∧ c0.value - q.value * c1.value ≤ c1.value ∧
      (c1.value ≤ c0.value → 2 * (c0.value - q.value * c1.value) ≤ c0.value) ∧
      (c0.value < c1.value → q.value = 0) := by
  obtain ⟨q, r, hq, hr, hqnf, hrnf, hsum, hcase⟩ := bi_rem_full c0 c1 h0 h1 (by omega)
  refine ⟨q, hq, hqnf, ?_⟩
  have hq0 : c0.value < c1.value → q.value = 0 := by
    intro hlt
    rcases hcase with ⟨h2, -⟩ | ⟨-, -, h3, -, -⟩
    · rw [h2, Int.tdiv_eq_ediv hc0 (by omega), Int.ediv_eq_zero_of_lt hc0 hlt]
    · rw [abs_of_pos hc1, abs_of_nonneg hc0] at h3
      omega
  rw [← and_assoc, ← and_assoc]
  refine ⟨?_, hq0⟩
  rw [and_assoc]
  have hr2 : c0.value - q.value * c1.value = r.value := by omega
  rw [hr2]
  have habs1 := abs_of_pos hc1
  have habs0 := abs_of_nonneg hc0
  rw [habs1, habs0] at hcase
  have hm0 := Int.emod_nonneg c0.value (show c1.value ≠ 0 by omega)
  have hm1 := Int.emod_lt_of_pos c0.value hc1
  have hdm := Int.ediv_add_emod c0.value c1.value
  rcases hcase with ⟨-, h2⟩ | ⟨h2, -, h3, -, h5⟩
  · have hrv : r.value = 0 ∨ r.value = c0.value % c1.value := by
      rcases eq_or_lt_of_le hc0 with h | h
      · left
        rw [h2, ← h]
        simp
      · right
        rw [h2, Int.sign_eq_one_of_pos h, one_mul]
    rcases hrv with h | h
    · rw [h]
      omega
    · rw [h]
      refine ⟨hm0, by omega, ?_⟩
      intro hle
      have : 1 ≤ c0.value / c1.value := Int.le_ediv_of_mul_le hc1 (by omega)
      have : c1.value * 1 ≤ c1.value * (c0.value / c1.value) :=
        Int.mul_le_mul_of_nonneg_left this (by omega)
      omega
  · rw [Int.sign_eq_one_of_pos (by omega), one_mul] at h5
    rw [h5]
    refine ⟨by omega, by omega, ?_⟩
    intro _
    obtain ⟨k, hk⟩ := h2
    have hk2 : 2 ≤ k := by
      by_contra hc
      have : k ≤ 1 := by omega
      have : c1.value * k ≤ c1.value * 1 := Int.mul_le_mul_of_nonneg_left this (by omega)
      omega
    have : c1.value * 2 ≤ c1.value * k := Int.mul_le_mul_of_nonneg_left hk2 (by omega)
    omega

/-- One pass of the loop of `bi_egcd` with `c1` not zero. -/
theorem egcdLoop_step (fuel : Nat) (a0 b0 c0 a1 b1 c1 : bigint) (ha0 : a0.NF) (hb0 : b0.NF)
    (h0 : c0.NF) (ha1 : a1.NF) (hb1 : b1.NF) (h1 : c1.NF) (hc0 : 0 ≤ c0.value)
    (hc1 : 0 < c1.value) :
    ∃ q a2 b2 c2 : bigint, a2.NF ∧ b2.NF ∧ c2.NF ∧
      a2.value = a0.value - q.value * a1.value ∧ b2.value = b0.value - q.value * b1.value ∧
      c2.value = c0.value - q.value * c1.value ∧
      0 ≤ c2.value ∧ c2.value ≤ c1.value ∧ (c1.value ≤ c0.value → 2 * c2.value ≤ c0.value) ∧
      (c0.value < c1.value → q.value = 0) ∧
      egcdLoop (fuel + 1) a0 b0 c0 a1 b1 c1 = egcdLoop fuel a1 b1 c1 a2 b2 c2 := by
  obtain ⟨q, hq, hqnf, r0, r1, r2, r3⟩ := egcd_rem c0 c1 h0 h1 hc0 hc1
  obtain ⟨pa1, pa2⟩ := bi_multiply_spec q a1 hqnf ha1
  obtain ⟨pb1, pb2⟩ := bi_multiply_spec q b1 hqnf hb1
  obtain ⟨pc1, pc2⟩ := bi_multiply_spec q c1 hqnf h1
  obtain ⟨sa1, sa2⟩ := bi_subtract_spec a0 _ ha0 pa1
  obtain ⟨sb1, sb2⟩ := bi_subtract_spec b0 _ hb0 pb1
  obtain ⟨sc1, sc2⟩ := bi_subtract_spec c0 _ h0 pc1
  rw [pa2] at sa2
  rw [pb2] at sb2
  rw [pc2] at sc2
  refine ⟨q, _, _, _, sa1, sb1, sc1, sa2, sb2, sc2, by rw [sc2]; exact r0,
    by rw [sc2]; exact r1, by rw [sc2]; exact r2, r3, ?_⟩
  have hz : bi_is_zero c1 = false := by
    cases h : bi_is_zero c1
    · rfl
    · have := (bi_is_zero_spec c1 h1).mp h
      omega
  have hneg : bi_is_negative (bi_subtract c0 (bi_multiply q c1)) = false := by
    cases h : bi_is_negative (bi_subtract c0 (bi_multiply q c1))
    · rfl
    · have := (bi_is_negative_spec _ sc1).mp h
      omega
  rw [egcdLoop]
  simp only [hz, Bool.false_eq_true, if_false, hq, hneg]

/-- The loop of `bi_egcd` from a state with `c1 <= c0`: it ends within `k + 1`
passes when `c0 * c1 < 2 ^ k`, with a common divisor of `c0` and `c1` that is the
combination of `M` and `N` the multipliers say. -/
theorem egcdLoop_spec (M N : Int) : ∀ (k fuel : Nat), k + 1 ≤ fuel →
    ∀ a0 b0 c0 a1 b1 c1 : bigint, a0.NF → b0.NF → c0.NF → a1.NF → b1.NF → c1.NF →
    a0.value * M + b0.value * N = c0.value → a1.value * M + b1.value * N = c1.value →
    0 ≤ c1.value → c1.value ≤ c0.value → c0.value * c1.value < 2 ^ k →
    ∃ g x y, egcdLoop fuel a0 b0 c0 a1 b1 c1 = .ok (g, x, y) ∧ g.NF ∧ x.NF ∧ y.NF ∧
      x.value * M + y.value * N = g.value ∧ 0 ≤ g.value ∧
      g.value ∣ c0.value ∧ g.value ∣ c1.value := by
  intro k
  induction k with
  | zero =>
    intro fuel hf a0 b0 c0 a1 b1 c1 ha0 hb0 h0 ha1 hb1 h1 i0 i1 hc1 hle hP
    have hz : c1.value = 0 := by
      by_contra hne
      have h2 : c1.value * 1 ≤ c1.value * c0.value :=
        Int.mul_le_mul_of_nonneg_left (by omega) (by omega)
      have h3 : c0.value * c1.value = c1.value * c0.value := by ring
      simp only [pow_zero] at hP
      omega
    obtain ⟨f, rfl⟩ : ∃ f, fuel = f + 1 := ⟨fuel - 1, by omega⟩
    rw [egcdLoop, if_pos ((bi_is_zero_spec c1 h1).mpr hz)]
    exact ⟨c0, a0, b0, rfl, h0, ha0, hb0, i0, by omega, dvd_refl _, by rw [hz]; exact dvd_zero _⟩
  | succ k ih =>
    intro fuel hf a0 b0 c0 a1 b1 c1 ha0 hb0 h0 ha1 hb1 h1 i0 i1 hc1 hle hP
    obtain ⟨f, rfl⟩ : ∃ f, fuel = f + 1 := ⟨fuel - 1, by omega⟩
    by_cases hz : c1.value = 0
    · rw [egcdLoop, if_pos ((bi_is_zero_spec c1 h1).mpr hz)]
      exact ⟨c0, a0, b0, rfl, h0, ha0, hb0, i0, by omega, dvd_refl _,
        by rw [hz]; exact dvd_zero _⟩
    · obtain ⟨q, a2, b2, c2, na, nb, nc, va, vb, vc, c20, c21, c22, c23, hstep⟩ :=
        egcdLoop_step f a0 b0 c0 a1 b1 c1 ha0 hb0 h0 ha1 hb1 h1 (by omega) (by omega)
      have i2 : a2.value * M + b2.value * N = c2.value := by
        rw [va, vb, vc]
        linear_combination i0 - q.value * i1
      have hP2 : c1.value * c2.value < 2 ^ k := by
        have h2 := c22 hle
        have h3 : c1.value * (2 * c2.value) ≤ c1.value * c0.value :=
          Int.mul_le_mul_of_nonneg_left h2 (by omega)
        have h4 : c1.value * (2 * c2.value) = 2 * (c1.value * c2.value) := by ring
        have h5 : c1.value * c0.value = c0.value * c1.value := by ring
        have h6 : (2 : Int) ^ (k + 1) = 2 * 2 ^ k := by ring
        omega
      obtain ⟨g, x, y, hres, gn, xn, yn, hlin, g0, gd1, gd2⟩ :=
        ih f (by omega) a1 b1 c1 a2 b2 c2 ha1 hb1 h1 na nb nc i1 i2 c20 c21 hP2
      refine ⟨g, x, y, by rw [hstep]; exact hres, gn, xn, yn, hlin, g0, ?_, gd1⟩
      have e : c0.value = c2.value + q.value * c1.value := by omega
      rw [e]
      exact dvd_add gd2 (Dvd.dvd.mul_left gd1 _)

/-- The loop of `bi_egcd` from its start state, for non-negative `m` and `n`. -/
theorem egcdLoop_start (m n : bigint) (hm : m.NF) (hn : n.NF) (hm0 : 0 ≤ m.value)
    (hn0 : 0 ≤ n.value) :
    ∃ g x y, egcdLoop (bi_radix_bits * (m.num_comps + n.num_comps) + 2) bi_1 bi_0 m bi_0 bi_1 n
        = .ok (g, x, y) ∧ g.NF ∧ x.NF ∧ y.NF ∧
      x.value * m.value + y.value * n.value = g.value ∧
      g.value = (Int.gcd m.value n.value : Int) := by
  have hmlt := nf_value_lt hm hm0
  have hnlt := nf_value_lt hn hn0
  rw [two_pow_31] at hmlt hnlt
  have hprod : m.value * n.value < 2 ^ (bi_radix_bits * (m.num_comps + n.num_comps)) := by
    rw [mul_add, pow_add]
    have hp1 : (0 : Int) < 2 ^ (bi_radix_bits * m.num_comps) := by positivity
    have hp2 : (0 : Int) < 2 ^ (bi_radix_bits * n.num_comps) := by positivity
    by_cases hz : n.value = 0
    · rw [hz, mul_zero]
      positivity
    · calc m.value * n.value < 2 ^ (bi_radix_bits * m.num_comps) * n.value :=
            Int.mul_lt_mul_of_pos_right hmlt (by omega)
        _ ≤ 2 ^ (bi_radix_bits * m.num_comps) * 2 ^ (bi_radix_bits * n.num_comps) :=
            Int.mul_le_mul_of_nonneg_left (by omega) (by omega)
  have i0 : bi_1.value * m.value + bi_0.value * n.value = m.value := by
    rw [bi_1_value, bi_0_value]
    ring
  have i1 : bi_0.value * m.value + bi_1.value * n.value = n.value := by
    rw [bi_1_value, bi_0_value]
    ring
  have hfin : ∀ g x y : bigint, g.NF → x.NF → y.NF →
      x.value * m.value + y.value * n.value = g.value → 0 ≤ g.value → g.value ∣ m.value →
      g.value ∣ n.value → g.value = (Int.gcd m.value n.value : Int) := by
    intro g x y _ _ _ hlin g0 d1 d2
    apply Int.gcd_greatest g0 d1 d2
    intro e e1 e2
    rw [← hlin]
    exact dvd_add (Dvd.dvd.mul_left e1 _) (Dvd.dvd.mul_left e2 _)
  by_cases hle : n.value ≤ m.value
  · obtain ⟨g, x, y, hres, gn, xn, yn, hlin, g0, gd1, gd2⟩ :=
      egcdLoop_spec m.value n.value (bi_radix_bits * (m.num_comps + n.num_comps))
        (bi_radix_bits * (m.num_comps + n.num_comps) + 2) (by omega)
        bi_1 bi_0 m bi_0 bi_1 n bi_1_nf bi_0_nf hm bi_0_nf bi_1_nf hn i0 i1 hn0 hle hprod
    exact ⟨g, x, y, hres, gn, xn, yn, hlin, hfin g x y gn xn yn hlin g0 gd1 gd2⟩
  · obtain ⟨q, a2, b2, c2, na, nb, nc, va, vb, vc, c20, c21, c22, c23, hstep⟩ :=
      egcdLoop_step (bi_radix_bits * (m.num_comps + n.num_comps) + 1) bi_1 bi_0 m bi_0 bi_1 n
        bi_1_nf bi_0_nf hm bi_0_nf bi_1_nf hn hm0 (by omega)
    have i2 : a2.value * m.value + b2.value * n.value = c2.value := by
      rw [va, vb, vc]
      linear_combination i0 - q.value * i1
    -- the quotient is zero: the first pass only exchanges the two numbers
    have hq0 : q.value = 0 := c23 (by omega)
    have hc2 : c2.value = m.value := by
      rw [vc, hq0]
      ring
    have hprod2 : n.value * c2.value < 2 ^ (bi_radix_bits * (m.num_comps + n.num_comps)) := by
      rw [hc2, mul_comm]
      exact hprod
    obtain ⟨g, x, y, hres, gn, xn, yn, hlin, g0, gd1, gd2⟩ :=
      egcdLoop_spec m.value n.value (bi_radix_bits * (m.num_comps + n.num_comps)) _ (le_refl _)
        bi_0 bi_1 n a2 b2 c2 bi_0_nf bi_1_nf hn na nb nc i1 i2 c20 (by omega) hprod2
    rw [hc2] at gd2
    exact ⟨g, x, y, by rw [hstep]; exact hres, gn, xn, yn, hlin,
      hfin g x y gn xn yn hlin g0 gd2 gd1⟩

end OSL

namespace OSL

/-! ## bi_egcd and bi_mod_inverse -/

/-- The operand `bi_egcd` works on: the magnitude. -/
theorem egcd_operand (m : bigint) (hm : m.NF) :
    (if bi_is_negative m then bi_negate m else m).NF ∧
    0 ≤ (if bi_is_negative m then bi_negate m else m).value ∧
    (if bi_is_negative m then bi_negate m else m).value = |m.value| ∧
    (if bi_is_negative m then bi_negate m else m).num_comps = m.num_comps := by
  have hiff := bi_is_negative_spec m hm
  by_cases h : bi_is_negative m = true
  · have hlt := hiff.mp h
    rw [if_pos h, bi_negate_value, abs_of_neg hlt]
    exact ⟨bi_negate_nf m hm (by omega), by omega, rfl, rfl⟩
  · have hge : ¬ m.value < 0 := fun hc => h (hiff.mpr hc)
    rw [if_neg h, abs_of_nonneg (by omega)]
    exact ⟨hm, by omega, rfl, rfl⟩

/-- The multiplier `bi_egcd` hands back for an operand it negated. -/
theorem egcd_multiplier (m x : bigint) (hm : m.NF) (hx : x.NF) :
    (if bi_is_negative m then bi_negate x else x).value * m.value = x.value * |m.value| ∧
    ((if bi_is_negative m then bi_negate x else x).value ≠ 0 →
      (if bi_is_negative m then bi_negate x else x).NF) ∧
    ((if bi_is_negative m then bi_negate x else x).value = 0 →
      (if bi_is_negative m then bi_negate x else x) = bi_0 ∨
      ((if bi_is_negative m then bi_negate x else x) = bi_negate bi_0 ∧ m.value < 0)) := by
  have hiff := bi_is_negative_spec m hm
  by_cases h : bi_is_negative m = true
  · have hlt := hiff.mp h
    rw [if_pos h, bi_negate_value, abs_of_neg hlt]
    refine ⟨by ring, ?_, ?_⟩
    · intro hne
      exact bi_negate_nf x hx (by omega)
    · intro hz
      right
      have : x = bi_0 := by
        rw [bi_0_eq]
        exact nf_eq_zero hx (by omega)
      rw [this]
      exact ⟨rfl, hlt⟩
  · have hge : ¬ m.value < 0 := fun hc => h (hiff.mpr hc)
    rw [if_neg h, abs_of_nonneg (by omega)]
    refine ⟨rfl, fun _ => hx, ?_⟩
    intro hz
    left
    rw [bi_0_eq]
    exact nf_eq_zero hx hz

theorem gcd_abs_abs (a b : Int) : Int.gcd |a| |b| = Int.gcd a b := by
  rw [Int.gcd_eq_natAbs, Int.gcd_eq_natAbs, Int.natAbs_abs, Int.natAbs_abs]

/-- `bi_egcd` for every pair of numbers: the greatest common divisor and two
multipliers that combine the numbers to it. A multiplier that is zero for a
negative number has sign -1. -/
theorem bi_egcd_spec (m n : bigint) (hm : m.NF) (hn : n.NF) :
    ∃ g x y, bi_egcd m n = .ok (g, x, y) ∧ g.NF ∧ g.value = (Int.gcd m.value n.value : Int) ∧
      x.value * m.value + y.value * n.value = g.value ∧
      (x.value ≠ 0 → x.NF) ∧ (y.value ≠ 0 → y.NF) ∧
      (y.value = 0 → y = bi_0 ∨ (y = bi_negate bi_0 ∧ n.value < 0)) := by
  obtain ⟨m1, m2, m3, m4⟩ := egcd_operand m hm
  obtain ⟨n1, n2, n3, n4⟩ := egcd_operand n hn
  obtain ⟨g, x, y, hres, gn, xn, yn, hlin, hg⟩ := egcdLoop_start _ _ m1 n1 m2 n2
  obtain ⟨x1, x2, -⟩ := egcd_multiplier m x hm xn
  obtain ⟨y1, y2, y3⟩ := egcd_multiplier n y hn yn
  rw [m3, n3] at hlin hg
  rw [gcd_abs_abs] at hg
  unfold bi_egcd
  simp only [hres]
  exact ⟨g, _, _, rfl, gn, hg, by rw [x1, y1]; exact hlin, x2, y2, y3⟩

theorem bi_is_one_spec (g : bigint) (hg : g.NF) : bi_is_one g = true ↔ g.value = 1 := by
  unfold bi_is_one
  simp only [decide_eq_true_eq]
  constructor
  · rintro ⟨h1, h2⟩
    unfold bigint.value
    rw [h1, h2]
    simp [compsValue_cons, compsValue_nil]
  · intro hv
    have : g = bi_1 := nf_ext g bi_1 hg bi_1_nf (by rw [hv, bi_1_value])
    rw [this, bi_1_eq]
    exact ⟨rfl, rfl⟩

/-- `bi_mod_inverse` for every number and every positive modulus: the error `not
relatively prime` when the greatest common divisor is not one, and else the
inverse in `[0, m)`. -/
theorem bi_mod_inverse_spec (a m : bigint) (ha : a.NF) (hm : m.NF) (hm0 : 0 < m.value) :
    (Int.gcd a.value m.value ≠ 1 → bi_mod_inverse a m = .error .notRelativelyPrime) ∧
    (Int.gcd a.value m.value = 1 → ∃ r, bi_mod_inverse a m = .ok r ∧ r.NF ∧ 0 ≤ r.value ∧
      r.value < m.value ∧ (a.value * r.value) % m.value = 1 % m.value) := by
  obtain ⟨g, x, y, hres, gn, hg, hlin, -, yn, yz⟩ := bi_egcd_spec m a hm ha
  rw [Int.gcd_comm] at hg
  have hone := bi_is_one_spec g gn
  constructor
  · intro hne
    have h1 : bi_is_one g = false := by
      cases h : bi_is_one g
      · rfl
      · have := hone.mp h
        rw [hg] at this
        exact absurd (by exact_mod_cast this) hne
    unfold bi_mod_inverse
    simp only [hres, h1, Bool.not_false, if_true]
  · intro hgcd
    have hg1 : g.value = 1 := by
      rw [hg, hgcd]
      rfl
    have h1 : bi_is_one g = true := hone.mpr hg1
    rw [hg1] at hlin
    unfold bi_mod_inverse
    simp only [hres, h1, Bool.not_true, Bool.false_eq_true, if_false]
    have hfin : ∀ r : bigint, r.value = y.value % m.value →
        0 ≤ r.value ∧ r.value < m.value ∧ (a.value * r.value) % m.value = 1 % m.value := by
      intro r hr
      refine ⟨by rw [hr]; exact Int.emod_nonneg _ (by omega),
        by rw [hr]; exact Int.emod_lt_of_pos _ hm0, ?_⟩
      rw [hr]
      have e1 : (a.value * (y.value % m.value)) % m.value = (a.value * y.value) % m.value :=
        Int.ModEq.mul_left _ (Int.mod_modEq _ _)
      rw [e1]
      have e2 : a.value * y.value = 1 + m.value * (-x.value) := by
        linear_combination hlin
      rw [e2, Int.add_mul_emod_self_left]
    by_cases hy : y.value = 0
    · have hm1 : m.value = 1 := by
        rw [hy, zero_mul, add_zero] at hlin
        have h2 : x.value ∣ 1 := Dvd.intro _ hlin
        have h3 : m.value ∣ 1 := Dvd.intro_left _ hlin
        have h4 := Int.le_of_dvd (by decide) h3
        omega
      have hmeq : m = bi_1 := nf_ext m bi_1 hm bi_1_nf (by rw [hm1, bi_1_value])
      have hres0 : bi_mod y m = .ok bi_0 := by
        rw [hmeq]
        rcases yz hy with h | ⟨h, -⟩
        · rw [h]
          decide
        · rw [h]
          decide
      refine ⟨bi_0, hres0, bi_0_nf, ?_⟩
      exact hfin bi_0 (by rw [bi_0_value, hy, Int.zero_emod])
    · have ynf := yn hy
      obtain ⟨r, hr, hrnf, hrv⟩ := bi_mod_full y m ynf hm hm0
      have hv : r.value = y.value % m.value := by
        rcases hrv with h | ⟨h, h2, -, -⟩
        · exact h
        · exfalso
          -- a modulus that divides the multiplier divides one
          have h3 : m.value ∣ 1 := by
            rw [← hlin]
            exact dvd_add (Dvd.intro_left _ rfl) (Dvd.dvd.mul_right h _)
          have h4 := Int.le_of_dvd (by decide) h3
          have hm1 : m.value = 1 := by omega
          have hmeq : m = bi_1 := nf_ext m bi_1 hm bi_1_nf (by rw [hm1, bi_1_value])
          rw [hmeq] at h2
          exact absurd h2 (by decide)
      exact ⟨r, hr, hrnf, hfin r hv⟩

end OSL

namespace OSL

/-! ## bi_mod_power for every base -/

/-- `bi_mod` is the residue when the modulus has one component or is coprime to
the number. -/
theorem bi_mod_exact (x m : bigint) (hx : x.NF) (hm : m.NF) (hM : 1 < m.value)
    (hP : m.num_comps = 1 ∨ IsCoprime x.value m.value) :
    ∃ r, bi_mod x m = .ok r ∧ r.NF ∧ r.value = x.value % m.value ∧ 0 ≤ r.value ∧
      r.value < m.value ∧ (m.num_comps = 1 ∨ IsCoprime r.value m.value) := by
  obtain ⟨r, hr, hrnf, hrv⟩ := bi_mod_full x m hx hm (by omega)
  have hv : r.value = x.value % m.value := by
    rcases hrv with h | ⟨h, h2, _, _⟩
    · exact h
    · rcases hP with h3 | h3
      · omega
      · exact absurd h (not_dvd_of_coprime _ _ hM h3)
  refine ⟨r, hr, hrnf, hv, ?_, ?_, ?_⟩
  · rw [hv]
    exact Int.emod_nonneg _ (by omega)
  · rw [hv]
    exact Int.emod_lt_of_pos _ (by omega)
  · rcases hP with h3 | h3
    · exact Or.inl h3
    · rw [hv]
      exact Or.inr (coprime_emod _ _ h3)

theorem bi_mul_mod_exact (x y m : bigint) (hx : x.NF) (hy : y.NF) (hm : m.NF)
    (hM : 1 < m.value) (hPx : m.num_comps = 1 ∨ IsCoprime x.value m.value)
    (hPy : m.num_comps = 1 ∨ IsCoprime y.value m.value) :
    ∃ r, bi_mod (bi_multiply x y) m = .ok r ∧ r.NF ∧ r.value = (x.value * y.value) % m.value ∧
      0 ≤ r.value ∧ r.value < m.value ∧ (m.num_comps = 1 ∨ IsCoprime r.value m.value) := by
  obtain ⟨p1, p2⟩ := bi_multiply_spec x y hx hy
  have hP : m.num_comps = 1 ∨ IsCoprime (bi_multiply x y).value m.value := by
    rcases hPx with h | h
    · exact Or.inl h
    · rcases hPy with h2 | h2
      · exact Or.inl h2
      · rw [p2]
        exact Or.inr (IsCoprime.mul_left h h2)
  have := bi_mod_exact _ m p1 hm hM hP
  rw [p2] at this
  exact this

/-- One pass of the loop of `bi_mod_power`, for a base of either sign. -/
theorem modPowerLoop_step_gen (m : bigint) (hm : m.NF) (hM : 1 < m.value)
    (fuel : Nat) (b e R : bigint) (hb : b.NF)
    (hbc : m.num_comps = 1 ∨ IsCoprime b.value m.value) (he : e.NF) (he0 : 0 ≤ e.value)
    (hR : R.NF) (hR0 : 0 ≤ R.value) (hR1 : R.value < m.value)
    (hRc : m.num_comps = 1 ∨ IsCoprime R.value m.value) :
    ∃ R1, R1.NF ∧ 0 ≤ R1.value ∧ R1.value < m.value ∧
      (m.num_comps = 1 ∨ IsCoprime R1.value m.value) ∧
      R1.value = (R.value * b.value ^ (e.value.toNat % 2)) % m.value ∧
      ((e.value / 2 ≤ 0 ∧ modPowerLoop m (fuel + 1) b e R = .ok R1) ∨
       (0 < e.value / 2 ∧ ∃ b1, b1.NF ∧ (m.num_comps = 1 ∨ IsCoprime b1.value m.value) ∧
          b1.value = (b.value * b.value) % m.value ∧
          modPowerLoop m (fuel + 1) b e R = modPowerLoop m fuel b1 (bi_half e) R1)) := by
  have hes := (nf_sign_one_iff he).mpr he0
  obtain ⟨h1, h2, h3⟩ := bi_half_spec e he hes
  have hcmp := bi_compare_zero _ h1
  rw [h2] at hcmp
  have hodd := bi_is_odd_spec e he hes
  obtain ⟨b1, hb1, b1nf, b1v, b10, _, b1c⟩ :=
    bi_mul_mod_exact b b m hb hb hm hM hbc hbc
  -- the first statement of the loop
  have hfirst : ∃ R1, (if bi_is_odd e then bi_mod (bi_multiply R b) m else .ok R) = .ok R1 ∧
      R1.NF ∧ 0 ≤ R1.value ∧ R1.value < m.value ∧
      (m.num_comps = 1 ∨ IsCoprime R1.value m.value) ∧
      R1.value = (R.value * b.value ^ (e.value.toNat % 2)) % m.value := by
    by_cases ho : bi_is_odd e = true
    · rw [if_pos ho]
      obtain ⟨r, hr, rnf, rv, r0, r1, rc⟩ :=
        bi_mul_mod_exact R b m hR hb hm hM hRc hbc
      refine ⟨r, hr, rnf, r0, r1, rc, ?_⟩
      have h := hodd.mp ho
      have : e.value.toNat % 2 = 1 := by omega
      rw [rv, this, pow_one]
    · rw [if_neg ho]
      refine ⟨R, rfl, hR, hR0, hR1, hRc, ?_⟩
      have h : ¬ e.value % 2 = 1 := fun h => ho (hodd.mpr h)
      have : e.value.toNat % 2 = 0 := by omega
      rw [this, pow_zero, mul_one, Int.emod_eq_of_lt hR0 hR1]
  obtain ⟨R1, hR1eq, r1nf, r10, r11, r1c, r1v⟩ := hfirst
  refine ⟨R1, r1nf, r10, r11, r1c, r1v, ?_⟩
  rw [modPowerLoop, hR1eq]
  by_cases hz : e.value / 2 ≤ 0
  · left
    refine ⟨hz, ?_⟩
    have : bi_compare (bi_half e) bi_0 ≤ 0 := by
      rw [hcmp]
      have : e.value / 2 = 0 := by omega
      rw [this]
      decide
    simp only [this, if_true]
  · right
    refine ⟨by omega, b1, b1nf, b1c, b1v, ?_⟩
    have : ¬ bi_compare (bi_half e) bi_0 ≤ 0 := by
      rw [hcmp, Int.sign_eq_one_of_pos (by omega)]
      omega
    simp only [this, if_false, hb1]

theorem modPowerLoop_gen (m : bigint) (hm : m.NF) (hM : 1 < m.value) :
    ∀ (fuel : Nat) (b e R : bigint), b.NF →
    (m.num_comps = 1 ∨ IsCoprime b.value m.value) → e.NF → 0 ≤ e.value → e.value < 2 ^ fuel →
    1 ≤ fuel → R.NF → 0 ≤ R.value → R.value < m.value →
    (m.num_comps = 1 ∨ IsCoprime R.value m.value) →
    ∃ res, modPowerLoop m fuel b e R = .ok res ∧ res.NF ∧ 0 ≤ res.value ∧
      res.value < m.value ∧ (m.num_comps = 1 ∨ IsCoprime res.value m.value) ∧
      res.value = (R.value * b.value ^ e.value.toNat) % m.value := by
  intro fuel
  induction fuel with
  | zero =>
    intro b e R _ _ _ _ _ h
    omega
  | succ fuel ih =>
    intro b e R hb hbc he he0 he1 _ hR hR0 hR1 hRc
    obtain ⟨R1, r1nf, r10, r11, r1c, r1v, hstep⟩ :=
      modPowerLoop_step_gen m hm hM fuel b e R hb hbc he he0 hR hR0 hR1 hRc
    have hes := (nf_sign_one_iff he).mpr he0
    obtain ⟨h1, h2, h3⟩ := bi_half_spec e he hes
    rcases hstep with ⟨hz, hret⟩ | ⟨hpos, b1, b1nf, b1c, b1v, hrec⟩
    · refine ⟨R1, hret, r1nf, r10, r11, r1c, ?_⟩
      have : e.value.toNat % 2 = e.value.toNat := by omega
      rw [r1v, this]
    · have hf : 1 ≤ fuel := by
        by_contra hc0
        have : fuel = 0 := by omega
        rw [this] at he1
        simp at he1
        omega
      have he2 : (bi_half e).value < 2 ^ fuel := by
        rw [h2]
        rw [pow_succ] at he1
        omega
      obtain ⟨res, hres, rnf, r0, r1, rc, rv⟩ := ih b1 (bi_half e) R1 b1nf b1c h1
        (by rw [h2]; omega) he2 hf r1nf r10 r11 r1c
      refine ⟨res, by rw [hrec]; exact hres, rnf, r0, r1, rc, ?_⟩
      rw [rv, h2, r1v, b1v]
      have hE : (e.value / 2).toNat = e.value.toNat / 2 := by omega
      rw [hE]
      conv_rhs => rw [pow_split b.value e.value.toNat, ← mul_assoc]
      exact Int.ModEq.mul (Int.mod_modEq _ _) (Int.ModEq.pow _ (Int.mod_modEq _ _))

theorem modPower_fuel (e : bigint) (he : e.NF) (he0 : 0 ≤ e.value) :
    e.value < 2 ^ (bi_radix_bits * e.num_comps + 1) := by
  have h1 := nf_value_lt he he0
  rw [two_pow_31] at h1
  have h2 : (2 : Int) ^ (bi_radix_bits * e.num_comps) ≤ 2 ^ (bi_radix_bits * e.num_comps + 1) :=
    pow_le_pow_right₀ (by norm_num) (by omega)
  omega

/-- `bi_mod_power` with an exponent that is not negative, a modulus above one and
a base of either sign, when the modulus has one component or is coprime to the
base: the power reduced into `[0, m)`. -/
theorem bi_mod_power_gen (b e m : bigint) (hb : b.NF) (he : e.NF) (he0 : 0 ≤ e.value)
    (hm : m.NF) (hM : 1 < m.value) (hbc : m.num_comps = 1 ∨ IsCoprime b.value m.value) :
    ∃ res, bi_mod_power b e m = .ok res ∧ res.NF ∧ 0 ≤ res.value ∧ res.value < m.value ∧
      (m.num_comps = 1 ∨ IsCoprime res.value m.value) ∧
      res.value = b.value ^ e.value.toNat % m.value := by
  have hneg : bi_is_negative e = false := by
    cases h : bi_is_negative e
    · rfl
    · have := (bi_is_negative_spec e he).mp h
      omega
  obtain ⟨res, hres, rnf, r0, r1, rc, rv⟩ := modPowerLoop_gen m hm hM _ b e bi_1 hb hbc he
    he0 (modPower_fuel e he he0) (by omega) bi_1_nf (by rw [bi_1_value]; omega)
    (by rw [bi_1_value]; exact hM) (by rw [bi_1_value]; exact Or.inr isCoprime_one_left)
  unfold bi_mod_power
  simp only [hneg, Bool.false_eq_true, if_false, hres]
  refine ⟨res, rfl, rnf, r0, r1, rc, ?_⟩
  rw [rv, bi_1_value, one_mul]

/-- `bi_mod_power` with a negative exponent `-e`, a modulus above one and a base
coprime to it: the inverse of the power `b ^ e` in `[0, m)`. -/
theorem bi_mod_power_neg (b e m : bigint) (hb : b.NF) (he : e.NF) (he0 : 0 < e.value)
    (hm : m.NF) (hM : 1 < m.value) (hbc : IsCoprime b.value m.value) :
    ∃ res, bi_mod_power b (bi_negate e) m = .ok res ∧ res.NF ∧ 0 ≤ res.value ∧
      res.value < m.value ∧
      (b.value ^ e.value.toNat % m.value * res.value) % m.value = 1 := by
  have hnnf := bi_negate_nf e he (by omega)
  have hneg : bi_is_negative (bi_negate e) = true :=
    (bi_is_negative_spec _ hnnf).mpr (by rw [bi_negate_value]; omega)
  have hnn : bi_negate (bi_negate e) = e := by
    cases e
    simp [bi_negate]
  obtain ⟨R, hres, rnf, r0, r1, rc, rv⟩ := modPowerLoop_gen m hm hM _ b e bi_1 hb (Or.inr hbc)
    he (by omega) (modPower_fuel e he (by omega)) (by omega) bi_1_nf
    (by rw [bi_1_value]; omega) (by rw [bi_1_value]; exact hM)
    (by rw [bi_1_value]; exact Or.inr isCoprime_one_left)
  rw [bi_1_value, one_mul] at rv
  have hco : IsCoprime R.value m.value := by
    rw [rv]
    exact coprime_emod _ _ (IsCoprime.pow_left hbc)
  obtain ⟨-, hinv⟩ := bi_mod_inverse_spec R m rnf hm (by omega)
  obtain ⟨r, hr, hrnf, hr0, hr1, hrv⟩ := hinv (Int.isCoprime_iff_gcd_eq_one.mp hco)
  unfold bi_mod_power
  simp only [hneg, if_true, hnn, hres]
  refine ⟨r, hr, hrnf, hr0, hr1, ?_⟩
  rw [← rv, hrv]
  exact Int.emod_eq_of_lt (by omega) hM

end OSL

namespace OSL

/-! ## Division, modulus, modular power and inverse: the contract -/

/-- C14. `bi_divide` and `bi_rem` for every `a` and every non-zero `b` return `q`
and `r` with `q * b + r = a`; either `q` is the quotient truncated towards zero,
`|r| < |b|` and `r` is zero or has the sign of `a`, or `b` has more than one
component, divides `a`, is smaller in magnitude, and then `q` is one step nearer
to zero and `|r| = |b|`. That second case happens: `4294967296 / 2147483648` gives
quotient 1 and remainder 2147483648, not 2 and 0. The numbers of the claim give
quotient 1. -/
theorem bi_divide_rem_truncated :
    (∀ a b : bigint, a.NF → b.NF → b.value ≠ 0 →
      ∃ q r, bi_divide a b = .ok q ∧ bi_rem a b = .ok r ∧
        q.value * b.value + r.value = a.value ∧
        ((q.value = Int.tdiv a.value b.value ∧ |r.value| < |b.value| ∧
            (r.value = 0 ∨ Int.sign r.value = Int.sign a.value)) ∨
          (b.value ∣ a.value ∧ 1 < b.num_comps ∧ |b.value| < |a.value| ∧
            q.value = Int.tdiv a.value b.value - Int.sign a.value * Int.sign b.value ∧
            |r.value| = |b.value|))) ∧
    (str_to_bi ("4294967296".toList) = ⟨1, [0, 2]⟩ ∧
      str_to_bi ("2147483648".toList) = ⟨1, [0, 1]⟩ ∧
      bi_divide ⟨1, [0, 2]⟩ ⟨1, [0, 1]⟩ = .ok ⟨1, [1]⟩ ∧
      bi_rem ⟨1, [0, 2]⟩ ⟨1, [0, 1]⟩ = .ok ⟨1, [0, 1]⟩) ∧
    bi_divide (str_to_bi ("5444762750983890360126153101805222686888682531235746".toList))
      (str_to_bi ("2722411696957513455170161256334998600190073951237223".toList)) = .ok bi_1 := by
  refine ⟨?_, by decide, by
    set_option maxRecDepth 100000 in
    decide!⟩
  intro a b ha hb hb0
  obtain ⟨q, r, hq, hr, -, -, hsum, hcase⟩ := bi_rem_full a b ha hb hb0
  refine ⟨q, r, hq, hr, hsum, ?_⟩
  rcases hcase with ⟨h1, h2⟩ | ⟨h1, h2, h3, h4, h5⟩
  · left
    have ht0 := Int.emod_nonneg |a.value| (show |b.value| ≠ 0 by
      exact abs_ne_zero.mpr hb0)
    have ht1 := Int.emod_lt_of_pos |a.value| (abs_pos.mpr hb0)
    refine ⟨h1, ?_, ?_⟩
    · by_cases ha0 : a.value = 0
      · rw [h2, ha0]
        simp only [Int.sign_zero, zero_mul, abs_zero]
        exact abs_pos.mpr hb0
      · rw [h2, abs_sign_mul _ _ ha0, abs_of_nonneg ht0]
        exact ht1
    · rw [h2]
      by_cases ht : |a.value| % |b.value| = 0
      · left
        rw [ht, mul_zero]
      · right
        have htp : 0 < |a.value| % |b.value| := by omega
        rw [Int.sign_mul, Int.sign_sign, Int.sign_eq_one_of_pos htp, mul_one]
  · right
    refine ⟨h1, h2, h3, h4, ?_⟩
    have ha0 : a.value ≠ 0 := by
      intro hz
      rw [hz, abs_zero] at h3
      have := abs_nonneg b.value
      omega
    rw [h5, abs_sign_mul _ _ ha0, abs_abs]

theorem bi_divide_rem_truncated_witness :
    ∃ q r, bi_divide ⟨-1, [7]⟩ ⟨1, [2]⟩ = .ok q ∧ bi_rem ⟨-1, [7]⟩ ⟨1, [2]⟩ = .ok r ∧
      q.value * bigint.value ⟨1, [2]⟩ + r.value = bigint.value ⟨-1, [7]⟩ ∧
      ((q.value = Int.tdiv (bigint.value ⟨-1, [7]⟩) (bigint.value ⟨1, [2]⟩) ∧
          |r.value| < |bigint.value ⟨1, [2]⟩| ∧
          (r.value = 0 ∨ Int.sign r.value = Int.sign (bigint.value ⟨-1, [7]⟩))) ∨
        (bigint.value ⟨1, [2]⟩ ∣ bigint.value ⟨-1, [7]⟩ ∧ 1 < bigint.num_comps ⟨1, [2]⟩ ∧
          |bigint.value ⟨1, [2]⟩| < |bigint.value ⟨-1, [7]⟩| ∧
          q.value = Int.tdiv (bigint.value ⟨-1, [7]⟩) (bigint.value ⟨1, [2]⟩) -
            Int.sign (bigint.value ⟨-1, [7]⟩) * Int.sign (bigint.value ⟨1, [2]⟩) ∧
          |r.value| = |bigint.value ⟨1, [2]⟩|)) :=
  bi_divide_rem_truncated.1 ⟨-1, [7]⟩ ⟨1, [2]⟩ (by decide) (by decide) (by decide)

/-- C15. `bi_mod` for every `a` and every `m > 0` returns `r` congruent to `a`
modulo `m` with `0 <= r <= m`; `r < m` unless `m` has more than one component,
divides `a` and is smaller than `a`, and then `r = m`. That case happens:
`4294967296 mod 2147483648` is 2147483648, not 0. For a negative `a` the result is
always in `[0, m)`. -/
theorem bi_mod_range :
    (∀ a m : bigint, a.NF → m.NF → 0 < m.value →
      ∃ r, bi_mod a m = .ok r ∧ r.value % m.value = a.value % m.value ∧ 0 ≤ r.value ∧
        ((r.value < m.value ∧ r.value = a.value % m.value) ∨
          (r.value = m.value ∧ 1 < m.num_comps ∧ m.value ∣ a.value ∧ m.value < a.value))) ∧
    bi_mod ⟨1, [0, 2]⟩ ⟨1, [0, 1]⟩ = .ok ⟨1, [0, 1]⟩ := by
  refine ⟨?_, by decide⟩
  intro a m ha hm hm0
  obtain ⟨r, hr, -, hrv⟩ := bi_mod_full a m ha hm hm0
  refine ⟨r, hr, ?_⟩
  rcases hrv with h | ⟨h1, h2, h3, h4⟩
  · have h0 := Int.emod_nonneg a.value (show m.value ≠ 0 by omega)
    have h1 := Int.emod_lt_of_pos a.value hm0
    refine ⟨by rw [h, Int.emod_emod_of_dvd _ (dvd_refl _)], by omega, Or.inl ⟨by omega, h⟩⟩
  · refine ⟨?_, by omega, Or.inr ⟨h4, h2, h1, h3⟩⟩
    rw [h4, Int.emod_self, Int.emod_eq_zero_of_dvd h1]

theorem bi_mod_range_witness :
    ∃ r, bi_mod ⟨-1, [7]⟩ ⟨1, [3]⟩ = .ok r ∧
      r.value % bigint.value ⟨1, [3]⟩ = bigint.value ⟨-1, [7]⟩ % bigint.value ⟨1, [3]⟩ ∧
      0 ≤ r.value ∧
      ((r.value < bigint.value ⟨1, [3]⟩ ∧
          r.value = bigint.value ⟨-1, [7]⟩ % bigint.value ⟨1, [3]⟩) ∨
        (r.value = bigint.value ⟨1, [3]⟩ ∧ 1 < bigint.num_comps ⟨1, [3]⟩ ∧
          bigint.value ⟨1, [3]⟩ ∣ bigint.value ⟨-1, [7]⟩ ∧
          bigint.value ⟨1, [3]⟩ < bigint.value ⟨-1, [7]⟩)) :=
  bi_mod_range.1 ⟨-1, [7]⟩ ⟨1, [3]⟩ (by decide) (by decide) (by decide)

/-- C16. `bi_mod_power` for every base `a`, every exponent `e >= 0` and every
modulus `m > 1` that has one component or is coprime to `a` returns `a ^ e mod m`,
the value in `[0, m)`. Outside that it can differ: `4294967296 ^ 1 mod 2147483648`
comes out as 2147483648, not 0, and `5 ^ 0 mod 1` comes out as 1, not 0. -/
theorem bi_mod_power_value :
    (∀ a e m : bigint, a.NF → e.NF → m.NF → 0 ≤ e.value → 1 < m.value →
      (m.num_comps = 1 ∨ IsCoprime a.value m.value) →
      ∃ r, bi_mod_power a e m = .ok r ∧ r.value = a.value ^ e.value.toNat % m.value ∧
        0 ≤ r.value ∧ r.value < m.value) ∧
    bi_mod_power ⟨1, [0, 2]⟩ ⟨1, [1]⟩ ⟨1, [0, 1]⟩ = .ok ⟨1, [0, 1]⟩ ∧
    bi_mod_power ⟨1, [5]⟩ ⟨1, [0]⟩ ⟨1, [1]⟩ = .ok ⟨1, [1]⟩ := by
  refine ⟨?_, by decide, by decide⟩
  intro a e m ha he hm he0 hM hP
  obtain ⟨r, hr, -, r0, r1, -, rv⟩ := bi_mod_power_gen a e m ha he he0 hm hM hP
  exact ⟨r, hr, rv, r0, r1⟩

theorem bi_mod_power_value_witness :
    ∃ r, bi_mod_power ⟨-1, [3]⟩ ⟨1, [5]⟩ ⟨1, [7]⟩ = .ok r ∧
      r.value = bigint.value ⟨-1, [3]⟩ ^ (bigint.value ⟨1, [5]⟩).toNat % bigint.value ⟨1, [7]⟩ ∧
      0 ≤ r.value ∧ r.value < bigint.value ⟨1, [7]⟩ :=
  bi_mod_power_value.1 ⟨-1, [3]⟩ ⟨1, [5]⟩ ⟨1, [7]⟩ (by decide) (by decide) (by decide)
    (by decide) (by decide) (Or.inl (by decide))

/-- C17. For every `a`, every `e > 0` and every `m > 1` with `gcd(a, m) = 1`,
`bi_mod_power a e m` and `bi_mod_power a (-e) m` return numbers `p` and `n` with
`(p * n) mod m = 1`: `bi_mod` of `bi_multiply p n` is the bigint one. -/
theorem bi_mod_power_inverse (a e m : bigint) (ha : a.NF) (he : e.NF) (hm : m.NF)
    (he0 : 0 < e.value) (hM : 1 < m.value) (hg : Int.gcd a.value m.value = 1) :
    ∃ p n, bi_mod_power a e m = .ok p ∧ bi_mod_power a (bi_negate e) m = .ok n ∧
      bi_mod (bi_multiply p n) m = .ok bi_1 ∧ (p.value * n.value) % m.value = 1 := by
  have hco := Int.isCoprime_iff_gcd_eq_one.mpr hg
  obtain ⟨p, hp, pnf, -, -, -, pv⟩ :=
    bi_mod_power_gen a e m ha he (by omega) hm hM (Or.inr hco)
  obtain ⟨n, hn, nnf, -, -, nv⟩ := bi_mod_power_neg a e m ha he he0 hm hM hco
  rw [← pv] at nv
  obtain ⟨m1, m2⟩ := bi_multiply_spec p n pnf nnf
  obtain ⟨r, hr, rnf, rv⟩ := bi_mod_full _ m m1 hm (by omega)
  rw [m2] at rv
  have hv : r.value = 1 := by
    rcases rv with h | ⟨h, -, -, -⟩
    · rw [h, nv]
    · have := Int.emod_eq_zero_of_dvd h
      omega
  have hr1 : r = bi_1 := nf_ext r bi_1 rnf bi_1_nf (by rw [hv, bi_1_value])
  rw [hr1] at hr
  exact ⟨p, n, hp, hn, hr, nv⟩

theorem bi_mod_power_inverse_witness :
    ∃ p n, bi_mod_power ⟨1, [3]⟩ ⟨1, [5]⟩ ⟨1, [7]⟩ = .ok p ∧
      bi_mod_power ⟨1, [3]⟩ (bi_negate ⟨1, [5]⟩) ⟨1, [7]⟩ = .ok n ∧
      bi_mod (bi_multiply p n) ⟨1, [7]⟩ = .ok bi_1 ∧
      (p.value * n.value) % bigint.value ⟨1, [7]⟩ = 1 :=
  bi_mod_power_inverse ⟨1, [3]⟩ ⟨1, [5]⟩ ⟨1, [7]⟩ (by decide) (by decide) (by decide)
    (by decide) (by decide) (by decide)

/-- C18. For every `a` of either sign and every `m > 1` with `gcd(a, m) = 1`,
`bi_mod_inverse a m` returns `r` with `0 <= r < m` and `(a * r) mod m = 1`. -/
theorem bi_mod_inverse_correct (a m : bigint) (ha : a.NF) (hm : m.NF) (hM : 1 < m.value)
    (hg : Int.gcd a.value m.value = 1) :
    ∃ r, bi_mod_inverse a m = .ok r ∧ 0 ≤ r.value ∧ r.value < m.value ∧
      (a.value * r.value) % m.value = 1 := by
  obtain ⟨-, hinv⟩ := bi_mod_inverse_spec a m ha hm (by omega)
  obtain ⟨r, hr, -, r0, r1, rv⟩ := hinv hg
  refine ⟨r, hr, r0, r1, ?_⟩
  rw [rv]
  exact Int.emod_eq_of_lt (by omega) hM

theorem bi_mod_inverse_correct_witness :
    ∃ r, bi_mod_inverse ⟨-1, [3]⟩ ⟨1, [7]⟩ = .ok r ∧ 0 ≤ r.value ∧
      r.value < bigint.value ⟨1, [7]⟩ ∧
      (bigint.value ⟨-1, [3]⟩ * r.value) % bigint.value ⟨1, [7]⟩ = 1 :=
  bi_mod_inverse_correct ⟨-1, [3]⟩ ⟨1, [7]⟩ (by decide) (by decide) (by decide) (by decide)

/-- C19. For every `a` and every `m > 0`, `bi_mod_inverse a m` raises `not
relatively prime` if and only if `gcd(a, m)` is not 1. -/
theorem bi_mod_inverse_error_iff (a m : bigint) (ha : a.NF) (hm : m.NF) (hm0 : 0 < m.value) :
    bi_mod_inverse a m = .error .notRelativelyPrime ↔ Int.gcd a.value m.value ≠ 1 := by
  obtain ⟨h1, h2⟩ := bi_mod_inverse_spec a m ha hm hm0
  constructor
  · intro herr hg
    obtain ⟨r, hr, -⟩ := h2 hg
    rw [hr] at herr
    exact absurd herr (by simp)
  · exact h1

theorem bi_mod_inverse_error_iff_witness :
    bi_mod_inverse ⟨1, [6]⟩ ⟨1, [9]⟩ = .error .notRelativelyPrime ↔
      Int.gcd (bigint.value ⟨1, [6]⟩) (bigint.value ⟨1, [9]⟩) ≠ 1 :=
  bi_mod_inverse_error_iff ⟨1, [6]⟩ ⟨1, [9]⟩ (by decide) (by decide) (by decide)

end OSL

namespace OSL

/-! ## Comparison, binary encoding, the loop of bi_egcd -/

theorem compareTop_prefix (s : Int) (p : List Int) (x y : Int) (xs ys : List Int)
    (hxy : x ≠ y) :
    compareTop s (p ++ x :: xs) (p ++ y :: ys) = if x > y then s else -s := by
  induction p with
  | nil =>
    simp only [List.nil_append, compareTop]
    by_cases h : x > y
    · simp [h]
    · have : x < y := by omega
      simp [h, this]
  | cons z p ih =>
    simp only [List.cons_append, compareTop]
    simp [ih]

theorem int_sign_cases (z : Int) : Int.sign z = -1 ∨ Int.sign z = 0 ∨ Int.sign z = 1 := by
  rcases lt_trichotomy z 0 with h | h | h
  · exact Or.inl (Int.sign_eq_neg_one_of_neg h)
  · exact Or.inr (Or.inl (by rw [h]; rfl))
  · exact Or.inr (Or.inr (Int.sign_eq_one_of_pos h))

/-- C21. For normal-form `a` and `b`, `bi_compare a b` is -1, 0 or 1 and is the
sign of `value a - value b`. It is 1 or -1 by the signs when they differ; with
equal signs and different component counts it is the sign of `a` for the longer
`a` and the opposite for the shorter; with equal signs and counts it is decided by
the most significant component in which the two differ. -/
theorem bi_compare_three_way (a b : bigint) (ha : a.NF) (hb : b.NF) :
    (bi_compare a b = -1 ∨ bi_compare a b = 0 ∨ bi_compare a b = 1) ∧
    bi_compare a b = Int.sign (a.value - b.value) ∧
    (a.sign > b.sign → bi_compare a b = 1) ∧
    (a.sign < b.sign → bi_compare a b = -1) ∧
    (a.sign = b.sign → a.num_comps > b.num_comps → bi_compare a b = a.sign) ∧
    (a.sign = b.sign → a.num_comps < b.num_comps → bi_compare a b = -a.sign) ∧
    (a.sign = b.sign → ∀ (la lb hi : List Int) (x y : Int), a.comps = la ++ x :: hi →
      b.comps = lb ++ y :: hi → la.length = lb.length → x ≠ y →
      bi_compare a b = if x > y then a.sign else -a.sign) := by
  have hspec := bi_compare_spec a b ha hb
  refine ⟨?_, hspec, ?_, ?_, ?_, ?_, ?_⟩
  · rw [hspec]
    exact int_sign_cases _
  · intro h
    unfold bi_compare
    rw [if_pos h]
  · intro h
    unfold bi_compare
    rw [if_neg (by omega), if_pos h]
  · intro hs h
    unfold bi_compare
    rw [if_neg (by omega), if_neg (by omega), if_pos h]
  · intro hs h
    unfold bi_compare
    rw [if_neg (by omega), if_neg (by omega), if_neg (by omega), if_pos h]
  · intro hs la lb hi x y ea eb hlen hxy
    have hn : a.num_comps = b.num_comps := by
      unfold bigint.num_comps
      rw [ea, eb]
      simp [hlen]
    unfold bi_compare
    rw [if_neg (by omega), if_neg (by omega), if_neg (by omega), if_neg (by omega), ea, eb]
    simp only [List.reverse_append, List.reverse_cons, List.append_assoc, List.singleton_append]
    exact compareTop_prefix a.sign hi.reverse x y la.reverse lb.reverse hxy

theorem bi_compare_three_way_witness :
    (bi_compare ⟨-1, [5, 7]⟩ ⟨-1, [6, 7]⟩ = -1 ∨ bi_compare ⟨-1, [5, 7]⟩ ⟨-1, [6, 7]⟩ = 0 ∨
      bi_compare ⟨-1, [5, 7]⟩ ⟨-1, [6, 7]⟩ = 1) ∧
    bi_compare ⟨-1, [5, 7]⟩ ⟨-1, [6, 7]⟩ =
      Int.sign (bigint.value ⟨-1, [5, 7]⟩ - bigint.value ⟨-1, [6, 7]⟩) :=
  ⟨(bi_compare_three_way ⟨-1, [5, 7]⟩ ⟨-1, [6, 7]⟩ (by decide) (by decide)).1,
    (bi_compare_three_way ⟨-1, [5, 7]⟩ ⟨-1, [6, 7]⟩ (by decide) (by decide)).2.1⟩

/-- C27. For every `len` and every `v >= 0`, `writeBinary v len` writes `len`
bytes whose big-endian value is `v mod 256 ^ len`; when `v < 256 ^ len` that value
is `v` itself (the encoding of `v` with zero bytes on the left) and `readBinary` of
the bytes gives back `v`. -/
theorem writeBinary_readBinary (v : bigint) (hv : v.NF) (hv0 : 0 ≤ v.value) (len : Nat) :
    ∃ bytes, writeBinary v len = .ok bytes ∧ bytes.length = len ∧ (∀ b ∈ bytes, b < 256) ∧
      beValue 0 bytes = v.value % 256 ^ len ∧
      (readBinary bytes).value = v.value % 256 ^ len ∧
      (v.value < 256 ^ len → beValue 0 bytes = v.value ∧ readBinary bytes = v) := by
  obtain ⟨bytes, hb, hlen, hlt, hval⟩ := writeBinary_spec v hv hv0 len
  obtain ⟨r1, r2, -⟩ := readBinary_spec bytes hlt
  refine ⟨bytes, hb, hlen, hlt, hval, by rw [r2, hval], ?_⟩
  intro hsmall
  have e : v.value % 256 ^ len = v.value := Int.emod_eq_of_lt hv0 hsmall
  refine ⟨by rw [hval, e], ?_⟩
  exact nf_ext _ _ r1 hv (by rw [r2, hval, e])

theorem writeBinary_readBinary_witness :
    ∃ bytes, writeBinary ⟨1, [258]⟩ 4 = .ok bytes ∧ bytes.length = 4 ∧
      (∀ b ∈ bytes, b < 256) ∧
      beValue 0 bytes = bigint.value ⟨1, [258]⟩ % 256 ^ 4 ∧
      (readBinary bytes).value = bigint.value ⟨1, [258]⟩ % 256 ^ 4 ∧
      (bigint.value ⟨1, [258]⟩ < 256 ^ 4 →
        beValue 0 bytes = bigint.value ⟨1, [258]⟩ ∧ readBinary bytes = ⟨1, [258]⟩) :=
  writeBinary_readBinary ⟨1, [258]⟩ (by decide) (by decide) 4

/-- One pass of the loop of `bi_egcd`: the new remainder. -/
theorem egcd_new_remainder (c0 c1 : bigint) (h0 : c0.NF) (h1 : c1.NF) (hc0 : 0 ≤ c0.value)
    (hc1 : 0 < c1.value) :
    ∃ q, bi_divide c0 c1 = .ok q ∧
      (bi_subtract c0 (bi_multiply q c1)).value = c0.value - q.value * c1.value ∧
      bi_is_negative (bi_subtract c0 (bi_multiply q c1)) = false ∧
      0 ≤ (bi_subtract c0 (bi_multiply q c1)).value ∧
      ((bi_subtract c0 (bi_multiply q c1)).value < c1.value ∨
        ((bi_subtract c0 (bi_multiply q c1)).value = c1.value ∧ c1.value ∣ c0.value ∧
          1 < c1.num_comps ∧ c1.value < c0.value)) := by
  obtain ⟨q, r, hq, hr, hqnf, hrnf, hsum, hcase⟩ := bi_rem_full c0 c1 h0 h1 (by omega)
  have hreq : r = bi_subtract c0 (bi_multiply q c1) := by
    unfold bi_rem at hr
    rw [hq] at hr
    simp only [Except.ok.injEq] at hr
    exact hr.symm
  refine ⟨q, hq, ?_⟩
  rw [← hreq]
  have habs1 := abs_of_pos hc1
  have habs0 := abs_of_nonneg hc0
  rw [habs1, habs0] at hcase
  have hm0 := Int.emod_nonneg c0.value (show c1.value ≠ 0 by omega)
  have hm1 := Int.emod_lt_of_pos c0.value hc1
  have hval : 0 ≤ r.value ∧ (r.value < c1.value ∨
      (r.value = c1.value ∧ c1.value ∣ c0.value ∧ 1 < c1.num_comps ∧ c1.value < c0.value)) := by
    rcases hcase with ⟨-, h2⟩ | ⟨h2, h3, h4, -, h5⟩
    · rcases eq_or_lt_of_le hc0 with h | h
      · have : r.value = 0 := by
          rw [h2, ← h]
          simp
        rw [this]
        exact ⟨le_refl 0, Or.inl hc1⟩
      · rw [Int.sign_eq_one_of_pos h, one_mul] at h2
        rw [h2]
        exact ⟨hm0, Or.inl hm1⟩
    · rw [Int.sign_eq_one_of_pos (by omega), one_mul] at h5
      rw [h5]
      exact ⟨by omega, Or.inr ⟨rfl, h2, h3, h4⟩⟩
  have hneg : bi_is_negative r = false := by
    cases h : bi_is_negative r
    · rfl
    · have := (bi_is_negative_spec r hrnf).mp h
      omega
  exact ⟨by omega, hneg, hval.1, hval.2⟩

/-- C30. In a pass of the loop of `bi_egcd` (`c0 >= 0`, `c1 > 0`) the new remainder
`c0 - q * c1` with `q = bi_divide c0 c1` is not negative, so the check before the
`abort()` is never true, and for all `m, n >= 0` the loop ends and `bi_egcd` returns.
The new remainder is below `c1`, or it is equal to `c1`, which happens when `c1` has
more than one component, divides `c0` and is smaller: for `m = 4294967296` and
`n = 2147483648` the first pass has `q = 1` and the new remainder 2147483648. -/
theorem egcd_sanity_check :
    (∀ c0 c1 : bigint, c0.NF → c1.NF → 0 ≤ c0.value → 0 < c1.value →
      ∃ q, bi_divide c0 c1 = .ok q ∧
        bi_is_negative (bi_subtract c0 (bi_multiply q c1)) = false ∧
        0 ≤ (bi_subtract c0 (bi_multiply q c1)).value ∧
        ((bi_subtract c0 (bi_multiply q c1)).value < c1.value ∨
          ((bi_subtract c0 (bi_multiply q c1)).value = c1.value ∧ c1.value ∣ c0.value ∧
            1 < c1.num_comps ∧ c1.value < c0.value))) ∧
    (∀ m n : bigint, m.NF → n.NF → 0 ≤ m.value → 0 ≤ n.value →
      ∃ g x y, bi_egcd m n = .ok (g, x, y)) ∧
    (bi_divide ⟨1, [0, 2]⟩ ⟨1, [0, 1]⟩ = .ok ⟨1, [1]⟩ ∧
      bi_subtract ⟨1, [0, 2]⟩ (bi_multiply ⟨1, [1]⟩ ⟨1, [0, 1]⟩) = ⟨1, [0, 1]⟩ ∧
      bi_egcd ⟨1, [0, 2]⟩ ⟨1, [0, 1]⟩ = .ok (⟨1, [0, 1]⟩, ⟨1, [1]⟩, ⟨-1, [1]⟩)) := by
  refine ⟨?_, ?_, by decide⟩
  · intro c0 c1 h0 h1 hc0 hc1
    obtain ⟨q, hq, -, hneg, hnn, hlt⟩ := egcd_new_remainder c0 c1 h0 h1 hc0 hc1
    exact ⟨q, hq, hneg, hnn, hlt⟩
  · intro m n hm hn _ _
    obtain ⟨g, x, y, hres, -⟩ := bi_egcd_spec m n hm hn
    exact ⟨g, x, y, hres⟩

theorem egcd_sanity_check_witness :
    ∃ q, bi_divide ⟨1, [17]⟩ ⟨1, [5]⟩ = .ok q ∧
      bi_is_negative (bi_subtract ⟨1, [17]⟩ (bi_multiply q ⟨1, [5]⟩)) = false ∧
      0 ≤ (bi_subtract ⟨1, [17]⟩ (bi_multiply q ⟨1, [5]⟩)).value ∧
      ((bi_subtract ⟨1, [17]⟩ (bi_multiply q ⟨1, [5]⟩)).value < bigint.value ⟨1, [5]⟩ ∨
        ((bi_subtract ⟨1, [17]⟩ (bi_multiply q ⟨1, [5]⟩)).value = bigint.value ⟨1, [5]⟩ ∧
          bigint.value ⟨1, [5]⟩ ∣ bigint.value ⟨1, [17]⟩ ∧
          1 < bigint.num_comps ⟨1, [5]⟩ ∧ bigint.value ⟨1, [5]⟩ < bigint.value ⟨1, [17]⟩)) :=
  egcd_sanity_check.1 ⟨1, [17]⟩ ⟨1, [5]⟩ (by decide) (by decide) (by decide) (by decide)

end OSL

namespace OSL

/-! ## bi_gcd -/

theorem int_gcd_step (c0 c1 r q : Int) (h : q * c1 + r = c0) : Int.gcd c1 r = Int.gcd c0 c1 := by
  apply Nat.dvd_antisymm
  · apply Int.natCast_dvd_natCast.mp
    apply Int.dvd_gcd
    · rw [← h]
      exact dvd_add (Dvd.dvd.mul_left Int.gcd_dvd_left _) Int.gcd_dvd_right
    · exact Int.gcd_dvd_left
  · apply Int.natCast_dvd_natCast.mp
    apply Int.dvd_gcd
    · exact Int.gcd_dvd_right
    · have e : r = c0 - q * c1 := by omega
      rw [e]
      exact dvd_sub Int.gcd_dvd_left (Dvd.dvd.mul_left Int.gcd_dvd_right _)

/-- The `bi_mod` of one pass of the loop of `bi_gcd`. -/
theorem gcd_mod_step (c0 c1 : bigint) (h0 : c0.NF) (h1 : c1.NF) (hc0 : 0 ≤ c0.value)
    (hc1 : 0 < c1.value) :
    ∃ r, bi_mod c0 c1 = .ok r ∧ r.NF ∧ 0 ≤ r.value ∧ r.value ≤ c1.value ∧
      (c1.value ≤ c0.value → 2 * r.value ≤ c0.value) ∧
      (c0.value < c1.value → r.value = c0.value) ∧
      Int.gcd c1.value r.value = Int.gcd c0.value c1.value := by
  obtain ⟨r, hr, hrnf, hrv⟩ := bi_mod_full c0 c1 h0 h1 hc1
  have hm0 := Int.emod_nonneg c0.value (show c1.value ≠ 0 by omega)
  have hm1 := Int.emod_lt_of_pos c0.value hc1
  have hdm := Int.ediv_add_emod c0.value c1.value
  refine ⟨r, hr, hrnf, ?_⟩
  rcases hrv with h | ⟨h2, -, h3, h4⟩
  · rw [h]
    refine ⟨hm0, by omega, ?_, ?_, ?_⟩
    · intro hle
      have : 1 ≤ c0.value / c1.value := Int.le_ediv_of_mul_le hc1 (by omega)
      have : c1.value * 1 ≤ c1.value * (c0.value / c1.value) :=
        Int.mul_le_mul_of_nonneg_left this (by omega)
      omega
    · intro hlt
      exact Int.emod_eq_of_lt hc0 hlt
    · exact int_gcd_step _ _ _ (c0.value / c1.value) (by
        have : c0.value / c1.value * c1.value = c1.value * (c0.value / c1.value) := by ring
        omega)
  · rw [h4]
    obtain ⟨k, hk⟩ := h2
    have hk2 : 2 ≤ k := by
      by_contra hc
      have : k ≤ 1 := by omega
      have : c1.value * k ≤ c1.value * 1 := Int.mul_le_mul_of_nonneg_left this (by omega)
      omega
    have h5 : c1.value * 2 ≤ c1.value * k := Int.mul_le_mul_of_nonneg_left hk2 (by omega)
    refine ⟨by omega, le_refl _, fun _ => by omega, fun h => by omega, ?_⟩
    exact int_gcd_step _ _ _ (k - 1) (by
      rw [hk]
      ring)

/-- The loop of `bi_gcd` from a state with `c1 <= c0`: it ends within `k + 1` passes
when `c0 * c1 < 2 ^ k`, with the greatest common divisor. -/
theorem gcdLoop_spec : ∀ (k fuel : Nat), k + 1 ≤ fuel → ∀ c0 c1 : bigint, c0.NF → c1.NF →
    0 ≤ c1.value → c1.value ≤ c0.value → c0.value * c1.value < 2 ^ k →
    ∃ g, gcdLoop fuel c0 c1 = .ok g ∧ g.NF ∧ g.value = (Int.gcd c0.value c1.value : Int) := by
  intro k
  induction k with
  | zero =>
    intro fuel hf c0 c1 h0 h1 hc1 hle hP
    have hz : c1.value = 0 := by
      by_contra hne
      have h2 : c1.value * 1 ≤ c1.value * c0.value :=
        Int.mul_le_mul_of_nonneg_left (by omega) (by omega)
      have h3 : c0.value * c1.value = c1.value * c0.value := by ring
      simp only [pow_zero] at hP
      omega
    obtain ⟨f, rfl⟩ : ∃ f, fuel = f + 1 := ⟨fuel - 1, by omega⟩
    rw [gcdLoop, if_pos ((bi_is_zero_spec c1 h1).mpr hz)]
    refine ⟨c0, rfl, h0, ?_⟩
    rw [hz, Int.gcd_zero_right, Int.natCast_natAbs, abs_of_nonneg (by omega)]
  | succ k ih =>
    intro fuel hf c0 c1 h0 h1 hc1 hle hP
    obtain ⟨f, rfl⟩ : ∃ f, fuel = f + 1 := ⟨fuel - 1, by omega⟩
    by_cases hz : c1.value = 0
    · rw [gcdLoop, if_pos ((bi_is_zero_spec c1 h1).mpr hz)]
      refine ⟨c0, rfl, h0, ?_⟩
      rw [hz, Int.gcd_zero_right, Int.natCast_natAbs, abs_of_nonneg (by omega)]
    · obtain ⟨r, hr, hrnf, r0, r1, r2, -, hg⟩ := gcd_mod_step c0 c1 h0 h1 (by omega) (by omega)
      have hP2 : c1.value * r.value < 2 ^ k := by
        have h2 := r2 hle
        have h3 : c1.value * (2 * r.value) ≤ c1.value * c0.value :=
          Int.mul_le_mul_of_nonneg_left h2 (by omega)
        have h4 : c1.value * (2 * r.value) = 2 * (c1.value * r.value) := by ring
        have h5 : c1.value * c0.value = c0.value * c1.value := by ring
        have h6 : (2 : Int) ^ (k + 1) = 2 * 2 ^ k := by ring
        omega
      obtain ⟨g, hres, gn, gv⟩ := ih f (by omega) c1 r h1 hrnf r0 r1 hP2
      have hzf : bi_is_zero c1 = false := by
        cases h : bi_is_zero c1
        · rfl
        · exact absurd ((bi_is_zero_spec c1 h1).mp h) hz
      refine ⟨g, ?_, gn, by rw [gv, hg]⟩
      rw [gcdLoop]
      simp only [hzf, Bool.false_eq_true, if_false, hr]
      exact hres

theorem bi_abs_spec (m : bigint) (hm : m.NF) :
    (bi_abs m).NF ∧ (bi_abs m).value = |m.value| ∧ (bi_abs m).num_comps = m.num_comps := by
  have hc := nf_comps_nonneg hm
  refine ⟨⟨Or.inl rfl, hm.2.1, fun _ => rfl⟩, ?_, rfl⟩
  unfold bi_abs bigint.value
  simp only [one_mul]
  rcases hm.1 with h | h
  · rw [h, one_mul, abs_of_nonneg hc]
  · rw [h, neg_one_mul, abs_neg, abs_of_nonneg hc]

/-- `bi_gcd` for every pair of numbers: the greatest common divisor. -/
theorem bi_gcd_spec (m n : bigint) (hm : m.NF) (hn : n.NF) :
    ∃ g, bi_gcd m n = .ok g ∧ g.NF ∧ g.value = (Int.gcd m.value n.value : Int) := by
  obtain ⟨m1, m2, m3⟩ := bi_abs_spec m hm
  obtain ⟨n1, n2, n3⟩ := bi_abs_spec n hn
  have hm0 : 0 ≤ (bi_abs m).value := by rw [m2]; exact abs_nonneg _
  have hn0 : 0 ≤ (bi_abs n).value := by rw [n2]; exact abs_nonneg _
  have hmlt := nf_value_lt m1 hm0
  have hnlt := nf_value_lt n1 hn0
  rw [two_pow_31] at hmlt hnlt
  have hprod : (bi_abs m).value * (bi_abs n).value <
      2 ^ (bi_radix_bits * ((bi_abs m).num_comps + (bi_abs n).num_comps)) := by
    rw [mul_add, pow_add]
    have hp1 : (0 : Int) < 2 ^ (bi_radix_bits * (bi_abs m).num_comps) := by positivity
    have hp2 : (0 : Int) < 2 ^ (bi_radix_bits * (bi_abs n).num_comps) := by positivity
    by_cases hz : (bi_abs n).value = 0
    · rw [hz, mul_zero]
      positivity
    · calc (bi_abs m).value * (bi_abs n).value
          < 2 ^ (bi_radix_bits * (bi_abs m).num_comps) * (bi_abs n).value :=
            Int.mul_lt_mul_of_pos_right hmlt (by omega)
        _ ≤ 2 ^ (bi_radix_bits * (bi_abs m).num_comps) *
              2 ^ (bi_radix_bits * (bi_abs n).num_comps) :=
            Int.mul_le_mul_of_nonneg_left (by omega) (by omega)
  have hfin : (Int.gcd (bi_abs m).value (bi_abs n).value : Int) = Int.gcd m.value n.value := by
    rw [m2, n2, gcd_abs_abs]
  unfold bi_gcd
  by_cases hle : (bi_abs n).value ≤ (bi_abs m).value
  · obtain ⟨g, hres, gn, gv⟩ := gcdLoop_spec
      (bi_radix_bits * ((bi_abs m).num_comps + (bi_abs n).num_comps))
      (bi_radix_bits * ((bi_abs m).num_comps + (bi_abs n).num_comps) + 2) (by omega)
      (bi_abs m) (bi_abs n) m1 n1 hn0 hle hprod
    exact ⟨g, hres, gn, by rw [gv, hfin]⟩
  · obtain ⟨r, hr, hrnf, r0, r1, -, r3, hg⟩ :=
      gcd_mod_step (bi_abs m) (bi_abs n) m1 n1 hm0 (by omega)
    have hrv := r3 (by omega)
    have hprod2 : (bi_abs n).value * r.value <
        2 ^ (bi_radix_bits * ((bi_abs m).num_comps + (bi_abs n).num_comps)) := by
      rw [hrv, mul_comm]
      exact hprod
    obtain ⟨g, hres, gn, gv⟩ := gcdLoop_spec
      (bi_radix_bits * ((bi_abs m).num_comps + (bi_abs n).num_comps))
      (bi_radix_bits * ((bi_abs m).num_comps + (bi_abs n).num_comps) + 1) (le_refl _)
      (bi_abs n) r n1 hrnf r0 (by omega) hprod2
    have hzf : bi_is_zero (bi_abs n) = false := by
      cases h : bi_is_zero (bi_abs n)
      · rfl
      · have := (bi_is_zero_spec _ n1).mp h
        omega
    refine ⟨g, ?_, gn, by rw [gv, hg, hfin]⟩
    rw [gcdLoop]
    simp only [hzf, Bool.false_eq_true, if_false, hr]
    exact hres

/-- C25. For every pair `m`, `n` of any signs, `bi_egcd m n` returns `g` and
multipliers `x`, `y` with `m * x + n * y = g` and `g = gcd(|m|, |n|) >= 0`, and
`bi_gcd m n` returns the same `g`. -/
theorem bi_egcd_bi_gcd (m n : bigint) (hm : m.NF) (hn : n.NF) :
    ∃ g x y, bi_egcd m n = .ok (g, x, y) ∧ m.value * x.value + n.value * y.value = g.value ∧
      g.value = (Int.gcd |m.value| |n.value| : Int) ∧ 0 ≤ g.value ∧ bi_gcd m n = .ok g := by
  obtain ⟨g, x, y, hres, gn, gv, hlin, -⟩ := bi_egcd_spec m n hm hn
  obtain ⟨g2, hres2, gn2, gv2⟩ := bi_gcd_spec m n hm hn
  have hg : g2 = g := nf_ext g2 g gn2 gn (by rw [gv, gv2])
  rw [hg] at hres2
  refine ⟨g, x, y, hres, ?_, by rw [gv, gcd_abs_abs], by rw [gv]; exact Int.natCast_nonneg _,
    hres2⟩
  rw [← hlin]
  ring

theorem bi_egcd_bi_gcd_witness :
    ∃ g x y, bi_egcd ⟨-1, [12]⟩ ⟨1, [18]⟩ = .ok (g, x, y) ∧
      bigint.value ⟨-1, [12]⟩ * x.value + bigint.value ⟨1, [18]⟩ * y.value = g.value ∧
      g.value = (Int.gcd |bigint.value ⟨-1, [12]⟩| |bigint.value ⟨1, [18]⟩| : Int) ∧
      0 ≤ g.value ∧ bi_gcd ⟨-1, [12]⟩ ⟨1, [18]⟩ = .ok g :=
  bi_egcd_bi_gcd ⟨-1, [12]⟩ ⟨1, [18]⟩ (by decide) (by decide)

end OSL

namespace OSL

/-! ## Normal form of the results -/

theorem doubleLoop_spec (l : List Int) (hd : Digits l) :
    Digits (doubleLoop l) ∧ compsValue (doubleLoop l) = 2 * compsValue l ∧
    (2 * compsValue l < bi_radix ^ l.length → (doubleLoop l).length = l.length) ∧
    (bi_radix ^ l.length ≤ 2 * compsValue l → (doubleLoop l).length = l.length + 1) ∧
    (∀ y t, doubleLoop l = y :: t → y % 2 = 0) := by
  have hr := bi_radix_eq
  induction l with
  | nil =>
    refine ⟨by simp [doubleLoop, digits_nil], by simp [doubleLoop, compsValue_nil],
      fun _ => rfl, ?_, ?_⟩
    · intro h
      simp [compsValue_nil] at h
    · intro y t h
      simp [doubleLoop] at h
  | cons x rest ih =>
    rw [digits_cons] at hd
    obtain ⟨hx, hrest⟩ := hd
    obtain ⟨i1, i2, i3, i4, i5⟩ := ih hrest
    have hw : wrap64 (x * 2) = x * 2 := wrap64_eq _ (by omega) (by omega)
    have hv0 := digits_nonneg rest hrest
    have hv1 := compsValue_lt rest hrest
    have hp := bi_radix_pow_pos rest.length
    have hpow : bi_radix ^ (x :: rest).length = 2147483648 * bi_radix ^ rest.length := by
      rw [List.length_cons, pow_succ, hr]
      ring
    have hval : compsValue (x :: rest) = x + 2147483648 * compsValue rest := by
      rw [compsValue_cons, hr]
    by_cases hc : x * 2 ≥ bi_radix
    · -- the component overflows the radix
      have hcs : csub (x * 2) bi_radix = x * 2 - 2147483648 := by
        rw [hr]
        exact csub_eq _ _ (by omega) (by omega) (by omega) (by omega)
      cases hrl : rest with
      | nil =>
        have e : doubleLoop [x] = [x * 2 - 2147483648, 1] := by
          simp only [doubleLoop, hw, if_pos hc, hcs, more_comps, addToFirst]
          simp [cadd, wrap64]
        rw [hrl] at hpow hval
        rw [e]
        refine ⟨?_, ?_, ?_, ?_, ?_⟩
        · rw [digits_cons, digits_cons]
          exact ⟨by omega, by omega, digits_nil⟩
        · rw [hval]
          simp only [compsValue_cons, compsValue_nil, hr]
          omega
        · intro h
          rw [hval, hpow] at h
          simp only [compsValue_nil, List.length_nil, pow_zero] at h
          omega
        · intro _
          rfl
        · intro y t h
          simp only [List.cons.injEq] at h
          omega
      | cons z rest' =>
        rw [← hrl]
        have hbe : bi_radix ^ rest.length = 2 * (1073741824 * bi_radix ^ rest'.length) := by
          rw [hrl, List.length_cons, pow_succ, hr]
          ring
        have hlen1 : 1 ≤ (doubleLoop rest).length := by
          rw [hrl] at i3 i4
          by_cases h : 2 * compsValue (z :: rest') < bi_radix ^ (z :: rest').length
          · rw [hrl, i3 h]
            simp
          · rw [hrl, i4 (by omega)]
            simp
        cases hdl : doubleLoop rest with
        | nil =>
          rw [hdl] at hlen1
          simp at hlen1
        | cons y t =>
          have hy := i5 y t hdl
          rw [hdl, digits_cons] at i1
          have hca : cadd y 1 = y + 1 := cadd_eq _ _ (by omega) (by omega) (by omega) (by omega)
          have e : doubleLoop (x :: rest) = (x * 2 - 2147483648) :: (y + 1) :: t := by
            simp only [doubleLoop, hw, if_pos hc, hcs, hdl]
            simp [addToFirst, hca]
          have hten : (t.length + 1 : Nat) = (doubleLoop rest).length := by
            rw [hdl]
            rfl
          rw [hdl, compsValue_cons] at i2
          rw [e]
          refine ⟨?_, ?_, ?_, ?_, ?_⟩
          · rw [digits_cons, digits_cons]
            exact ⟨by omega, by omega, i1.2⟩
          · rw [hval, compsValue_cons, compsValue_cons, hr]
            rw [hr] at i2
            omega
          · intro h
            rw [hval, hpow] at h
            have := i3 (by omega)
            simp only [List.length_cons]
            omega
          · intro h
            rw [hval, hpow] at h
            have := i4 (by omega)
            simp only [List.length_cons]
            omega
          · intro y' t' h
            simp only [List.cons.injEq] at h
            omega
    · have e : doubleLoop (x :: rest) = (x * 2) :: doubleLoop rest := by
        simp only [doubleLoop, hw, if_neg hc]
      rw [e]
      refine ⟨?_, ?_, ?_, ?_, ?_⟩
      · rw [digits_cons]
        exact ⟨by omega, i1⟩
      · rw [hval, compsValue_cons, i2, hr]
        omega
      · intro h
        rw [hval, hpow] at h
        have := i3 (by omega)
        simp only [List.length_cons]
        omega
      · intro h
        rw [hval, hpow] at h
        have := i4 (by omega)
        simp only [List.length_cons]
        omega
      · intro y' t' h
        simp only [List.cons.injEq] at h
        omega

theorem bi_double_spec (a : bigint) (ha : a.NF) :
    (bi_double a).NF ∧ (bi_double a).value = 2 * a.value := by
  have hr := bi_radix_eq
  obtain ⟨d1, d2, d3, d4, -⟩ := doubleLoop_spec a.comps (nf_digits ha)
  have hne := nf_comps_ne_nil ha
  have hlen : 1 ≤ a.comps.length := by
    cases hc : a.comps with
    | nil => exact absurd hc hne
    | cons x l => simp
  have hv0 := nf_comps_nonneg ha
  have hlen2 : a.comps.length ≤ (doubleLoop a.comps).length := by
    by_cases h : 2 * compsValue a.comps < bi_radix ^ a.comps.length
    · rw [d3 h]
    · rw [d4 (by omega)]
      omega
  have hone : (doubleLoop a.comps) ≠ [] := by
    intro e
    rw [e] at hlen2
    simp only [List.length_nil] at hlen2
    omega
  have hval : (bi_double a).value = 2 * a.value := by
    unfold bi_double bigint.value
    simp only
    rw [d2]
    ring
  refine ⟨⟨ha.1, ⟨hone, d1, ?_⟩, ?_⟩, hval⟩
  · intro hl0 hlast0
    have hl : 1 < (doubleLoop a.comps).length := hl0
    have hlast : (doubleLoop a.comps).getLast? = some 0 := hlast0
    obtain ⟨front, top, hft⟩ := exists_concat _ hone
    have hd := d1
    rw [hft] at hlast hl hd
    rw [digits_append] at hd
    have ht : top = 0 := by
      simp at hlast
      exact hlast
    have hfv := compsValue_lt front hd.1
    have hov : compsValue (doubleLoop a.comps) = compsValue front := by
      rw [hft, compsValue_concat, ht]
      ring
    rw [d2] at hov
    have hfl : front.length + 1 = (doubleLoop a.comps).length := by
      rw [hft]
      simp
    by_cases h : 2 * compsValue a.comps < bi_radix ^ a.comps.length
    · have e1 := d3 h
      have hn1 : 1 < a.comps.length := by
        simp at hl
        omega
      have hlow := normComps_lower _ ha.2.1 hn1
      have e2 : front.length = a.comps.length - 1 := by omega
      rw [e2] at hfv
      have := bi_radix_pow_pos (a.comps.length - 1)
      omega
    · have e1 := d4 (by omega)
      have e2 : front.length = a.comps.length := by omega
      rw [e2] at hfv
      omega
  · intro hc
    have hc2 : (doubleLoop a.comps) = [0] := hc
    have : compsValue (doubleLoop a.comps) = 0 := by
      rw [hc2]
      simp [compsValue_cons, compsValue_nil]
    rw [d2] at this
    exact (nf_sign_one_iff ha).mpr (by
      unfold bigint.value
      rw [show compsValue a.comps = 0 by omega, mul_zero])

/-- `bi_half` of a negative number halves the magnitude and keeps the sign. -/
theorem bi_half_abs (a : bigint) :
    bi_half a = ⟨a.sign, (bi_half (bi_abs a)).comps⟩ := by
  obtain ⟨s, c⟩ := a
  unfold bi_half bi_abs
  cases c with
  | nil => rfl
  | cons x rest => rfl

theorem bi_half_nf_iff (a : bigint) (ha : a.NF) : (bi_half a).NF ↔ a.value ≠ -1 := by
  obtain ⟨m1, m2, -⟩ := bi_abs_spec a ha
  obtain ⟨h1, h2, h3⟩ := bi_half_spec (bi_abs a) m1 rfl
  rw [m2] at h2
  have hval : (bi_half (bi_abs a)).value = compsValue (bi_half (bi_abs a)).comps := by
    unfold bigint.value
    rw [h3, one_mul]
  rw [bi_half_abs a]
  constructor
  · intro hnf hv
    have hs : a.sign = -1 := (nf_sign_neg_iff ha).mpr (by omega)
    have hz : compsValue (bi_half (bi_abs a)).comps = 0 := by
      rw [← hval, h2, hv]
      decide
    have hc := normComps_zero _ h1.2.1 hz
    have := hnf.2.2 hc
    simp only at this
    omega
  · intro hv
    refine ⟨ha.1, h1.2.1, ?_⟩
    intro hc
    simp only at hc
    simp only
    by_contra hs
    have hsn : a.sign = -1 := by
      rcases ha.1 with h | h
      · exact absurd h hs
      · exact h
    have hneg := (nf_sign_neg_iff ha).mp hsn
    have hz : (bi_half (bi_abs a)).value = 0 := by
      rw [hval, hc]
      simp [compsValue_cons, compsValue_nil]
    rw [h2, abs_of_neg hneg] at hz
    omega

theorem bi_negate_nf_iff (a : bigint) (ha : a.NF) : (bi_negate a).NF ↔ a.value ≠ 0 := by
  constructor
  · intro hnf hv
    have e := nf_eq_zero ha hv
    rw [e] at hnf
    exact absurd hnf (by decide)
  · exact bi_negate_nf a ha

theorem int_to_bi_nf (i : Int) (h1 : -bi_radix ≤ i) (h2 : i < bi_radix) :
    (int_to_bi i).NF ∧ (int_to_bi i).value = i := by
  have := normalize_B 1 i [] (Or.inl rfl) h1 h2 (by simp)
  unfold int_to_bi
  refine ⟨this.1, ?_⟩
  rw [this.2]
  simp [compsValue_cons, compsValue_nil]

/-- `bi_int_multiply` by an `int` of either sign (the most negative `int`, whose
negation overflows, apart). -/
theorem bi_int_multiply_signed (a : bigint) (ha : a.NF) (i : Int) (h1 : -bi_radix < i)
    (h2 : i < bi_radix) :
    (bi_int_multiply a i).NF ∧ (bi_int_multiply a i).value = a.value * i := by
  have hr := bi_radix_eq
  by_cases hi : 0 ≤ i
  · exact bi_int_multiply_spec a ha i hi h2
  · have hneg : i < 0 := by omega
    unfold bi_int_multiply
    simp only [if_pos hneg]
    rw [toInt32_eq _ (by omega) (by omega)]
    have hd := nf_digits ha
    have e : a.comps.map (fun x => cmul x (-i)) = a.comps.map (fun x => x * (-i)) := by
      apply List.map_congr_left
      intro x hx
      have := hd x hx
      exact cmul_digit x (-i) (by omega) (by omega) (by omega) (by omega)
    rw [e]
    have hne : a.comps.map (fun x => x * (-i)) ≠ [] := by
      simp [nf_comps_ne_nil ha]
    have hmem : ∀ y ∈ a.comps.map (fun x => x * (-i)), 0 ≤ y ∧ y ≤ 4611686016279904256 := by
      intro y hy
      rw [List.mem_map] at hy
      obtain ⟨x, hx, rfl⟩ := hy
      have := hd x hx
      have := digit_mul_bound x (-i) (by omega) (by omega) (by omega) (by omega)
      constructor <;> omega
    have hs : -a.sign = 1 ∨ -a.sign = -1 := by
      rcases ha.1 with h | h <;> omega
    have := normalize_A_list (-a.sign) _ hs hne hmem
    refine ⟨this.1, ?_⟩
    rw [this.2, compsValue_map_mul]
    unfold bigint.value
    ring

/-- `bi_int_divide` by a non-zero `int` of either sign (the most negative `int`
apart) returns a normal-form result. -/
theorem bi_int_divide_signed (a : bigint) (ha : a.NF) (d : Int) (hd0 : d ≠ 0)
    (h1 : -bi_radix < d) (h2 : d < bi_radix) :
    ∃ q, bi_int_divide a d = .ok q ∧ q.NF := by
  have hr := bi_radix_eq
  by_cases hi : 0 < d
  · obtain ⟨q, hq, hqnf, -⟩ := bi_int_divide_spec a ha d hi h2
    exact ⟨q, hq, hqnf⟩
  · have hneg : d < 0 := by omega
    unfold bi_int_divide
    rw [if_neg hd0]
    simp only [if_pos hneg]
    rw [toInt32_eq _ (by omega) (by omega)]
    refine ⟨_, rfl, ?_⟩
    obtain ⟨rem, r0, r1, i1, i2, i3⟩ := intDivideLoop_spec (-d) (by omega) (by omega)
      a.comps.reverse 0 (le_refl 0) (by omega) (digits_reverse _ (nf_digits ha))
    have hne : (intDivideLoop (-d) 0 a.comps.reverse).reverse ≠ [] := by
      intro e
      have := congrArg List.length e
      rw [List.length_reverse, i2, List.length_reverse] at this
      have h2 := nf_comps_ne_nil ha
      cases hc : a.comps with
      | nil => exact h2 hc
      | cons x l =>
        rw [hc] at this
        simp at this
    have hs : -a.sign = 1 ∨ -a.sign = -1 := by
      rcases ha.1 with h | h <;> omega
    exact (normalize_A_list (-a.sign) _ hs hne (fun y hy => by
      have := digits_reverse _ i1 y hy
      constructor <;> omega)).1

/-- C29. For normal-form operands the results of `int_to_bi`, `bi_add`,
`bi_subtract`, `bi_multiply`, `bi_divide`, `bi_int_add`, `bi_int_multiply`,
`bi_int_divide`, `bi_abs` and `bi_double` are in normal form. `bi_negate` and
`bi_half` only change the sign field or keep it: the result of `bi_negate` is in
normal form exactly when the operand is not zero, that of `bi_half` exactly when
the operand is not -1. `bi_negate` of 0 and `bi_half` of -1 are the zero with
sign -1, and `bi_is_zero` is false of them. -/
theorem normal_form_results :
    (∀ i : Int, -2 ^ 31 ≤ i → i < 2 ^ 31 → (int_to_bi i).NF) ∧
    (∀ a b : bigint, a.NF → b.NF →
      (bi_add a b).NF ∧ (bi_subtract a b).NF ∧ (bi_multiply a b).NF) ∧
    (∀ a b : bigint, a.NF → b.NF → b.value ≠ 0 → ∃ q, bi_divide a b = .ok q ∧ q.NF) ∧
    (∀ (a : bigint) (i : Int), a.NF → -2 ^ 31 ≤ i → i < 2 ^ 31 → (bi_int_add a i).NF) ∧
    (∀ (a : bigint) (i : Int), a.NF → -2 ^ 31 < i → i < 2 ^ 31 → (bi_int_multiply a i).NF) ∧
    (∀ (a : bigint) (i : Int), a.NF → -2 ^ 31 < i → i < 2 ^ 31 → i ≠ 0 →
      ∃ q, bi_int_divide a i = .ok q ∧ q.NF) ∧
    (∀ a : bigint, a.NF → (bi_abs a).NF ∧ (bi_double a).NF) ∧
    (∀ a : bigint, a.NF → ((bi_negate a).NF ↔ a.value ≠ 0)) ∧
    (∀ a : bigint, a.NF → ((bi_half a).NF ↔ a.value ≠ -1)) ∧
    (bi_negate (int_to_bi 0) = ⟨-1, [0]⟩ ∧ bi_is_zero (bi_negate (int_to_bi 0)) = false ∧
      bi_half (int_to_bi (-1)) = ⟨-1, [0]⟩ ∧ bi_is_zero (bi_half (int_to_bi (-1))) = false) := by
  have hr := bi_radix_eq
  refine ⟨?_, ?_, ?_, ?_, ?_, ?_, ?_, ?_, ?_, by decide⟩
  · intro i h1 h2
    exact (int_to_bi_nf i (by omega) (by omega)).1
  · intro a b ha hb
    exact ⟨(bi_add_spec a b ha hb).1, (bi_subtract_spec a b ha hb).1,
      (bi_multiply_spec a b ha hb).1⟩
  · intro a b ha hb hb0
    obtain ⟨q, hq, hqnf, -⟩ := bi_divide_full a b ha hb hb0
    exact ⟨q, hq, hqnf⟩
  · intro a i ha h1 h2
    exact (bi_int_add_spec a ha i (by omega) (by omega)).1
  · intro a i ha h1 h2
    exact (bi_int_multiply_signed a ha i (by omega) (by omega)).1
  · intro a i ha h1 h2 h3
    exact bi_int_divide_signed a ha i h3 (by omega) (by omega)
  · intro a ha
    exact ⟨(bi_abs_spec a ha).1, (bi_double_spec a ha).1⟩
  · intro a ha
    exact bi_negate_nf_iff a ha
  · intro a ha
    exact bi_half_nf_iff a ha

theorem normal_form_results_witness :
    (bi_add ⟨-1, [5, 7]⟩ ⟨1, [2147483647, 3, 9]⟩).NF ∧
    (bi_subtract ⟨-1, [5, 7]⟩ ⟨1, [2147483647, 3, 9]⟩).NF ∧
    (bi_multiply ⟨-1, [5, 7]⟩ ⟨1, [2147483647, 3, 9]⟩).NF :=
  normal_form_results.2.1 ⟨-1, [5, 7]⟩ ⟨1, [2147483647, 3, 9]⟩ (by decide) (by decide)

end OSL

namespace OSL

/-! ## bi_random -/

/-- The number `bi_random` reduces: the normalized random components. -/
theorem random_number (rnd : Nat → Int) (b : bigint) (hb : b.NF) (hb0 : 0 < b.value)
    (hrnd : ∀ c, 0 ≤ rnd c ∧ rnd c < 2 ^ 31) :
    (normalize ⟨(bi_multiply b b).sign,
      (List.range (bi_multiply b b).num_comps).map rnd⟩).NF ∧
    0 ≤ (normalize ⟨(bi_multiply b b).sign,
      (List.range (bi_multiply b b).num_comps).map rnd⟩).value := by
  obtain ⟨p1, p2⟩ := bi_multiply_spec b b hb hb
  have hpos : 0 < (bi_multiply b b).value := by
    rw [p2]
    exact Int.mul_pos hb0 hb0
  have hs : (bi_multiply b b).sign = 1 := (nf_sign_one_iff p1).mpr (by omega)
  have hn := nf_num_comps_pos p1
  have hne : (List.range (bi_multiply b b).num_comps).map rnd ≠ [] := by
    intro e
    have := congrArg List.length e
    simp at this
    omega
  have hmem : ∀ y ∈ (List.range (bi_multiply b b).num_comps).map rnd,
      0 ≤ y ∧ y ≤ 4611686016279904256 := by
    intro y hy
    rw [List.mem_map] at hy
    obtain ⟨c, -, rfl⟩ := hy
    have := hrnd c
    constructor <;> omega
  have hdig : ∀ y ∈ (List.range (bi_multiply b b).num_comps).map rnd, 0 ≤ y := by
    intro y hy
    exact (hmem y hy).1
  have := normalize_A_list (bi_multiply b b).sign _ p1.1 hne hmem
  refine ⟨this.1, ?_⟩
  rw [this.2, hs, one_mul]
  exact compsValue_nonneg _ hdig

/-- C26. For every bound `b > 0` and all values of `random()` in `[0, 2 ^ 31)`,
`bi_random` returns a normal-form `r` with `0 <= r <= b`; `r < b` when `b` has one
component, and `r = b` is possible otherwise: for `b = 2147483648` and the random
values 0, 2, 0 the result is 2147483648. -/
theorem bi_random_range :
    (∀ (rnd : Nat → Int) (b : bigint), b.NF → 0 < b.value →
      (∀ c, 0 ≤ rnd c ∧ rnd c < 2 ^ 31) →
      ∃ r, bi_random rnd b = .ok r ∧ r.NF ∧ 0 ≤ r.value ∧
        (r.value < b.value ∨ (r.value = b.value ∧ 1 < b.num_comps))) ∧
    bi_random (fun c => if c = 1 then 2 else 0) ⟨1, [0, 1]⟩ = .ok ⟨1, [0, 1]⟩ := by
  refine ⟨?_, by decide⟩
  intro rnd b hb hb0 hrnd
  obtain ⟨x1, x2⟩ := random_number rnd b hb hb0 hrnd
  obtain ⟨r, hr, hrnf, hrv⟩ := bi_mod_full _ b x1 hb hb0
  refine ⟨r, hr, hrnf, ?_⟩
  rcases hrv with h | ⟨-, h2, -, h4⟩
  · rw [h]
    exact ⟨Int.emod_nonneg _ (by omega), Or.inl (Int.emod_lt_of_pos _ hb0)⟩
  · rw [h4]
    exact ⟨by omega, Or.inr ⟨rfl, h2⟩⟩

theorem bi_random_range_witness :
    ∃ r, bi_random (fun c => if c = 0 then 5 else 3) ⟨1, [7]⟩ = .ok r ∧ r.NF ∧ 0 ≤ r.value ∧
      (r.value < bigint.value ⟨1, [7]⟩ ∨
        (r.value = bigint.value ⟨1, [7]⟩ ∧ 1 < bigint.num_comps ⟨1, [7]⟩)) :=
  bi_random_range.1 (fun c => if c = 0 then 5 else 3) ⟨1, [7]⟩ (by decide) (by decide)
    (fun c => by
      by_cases h : c = 0
      · simp [h]
      · simp [h])

end OSL

namespace OSL

/-! ## Trial division by the small primes -/

theorem trialDivision_append (bi : bigint) (l2 : List Int) (r : Int) :
    ∀ l1 : List Int, trialDivision bi l1 = .ok (some r) →
      trialDivision bi (l1 ++ l2) = .ok (some r) := by
  intro l1
  induction l1 with
  | nil =>
    intro h
    simp [trialDivision] at h
  | cons p rest ih =>
    intro h
    rw [List.cons_append]
    unfold trialDivision at h ⊢
    simp only at h ⊢
    split
    · rename_i h0
      rw [if_pos h0] at h
      exact h
    · rename_i h0
      rw [if_neg h0] at h
      split
      · rename_i h1
        rw [if_pos h1] at h
        exact h
      · rename_i h1
        rw [if_neg h1] at h
        cases hm : bi_int_mod bi p with
        | error e =>
          rw [hm] at h
          simp at h
        | ok m =>
          rw [hm] at h
          simp only at h ⊢
          by_cases hz : m = 0
          · rw [if_pos hz] at h
            rw [if_pos hz]
            exact h
          · rw [if_neg hz] at h
            rw [if_neg hz]
            exact ih h

set_option maxRecDepth 100000 in
theorem trialDivision_table : ∀ k : Nat, k < 99 →
    trialDivision (int_to_bi ((k + 2 : Nat) : Int)) primesTo97 =
      .ok (some (if ((k + 2 : Nat) : Int) ∈ primesTo97 then 1 else 0)) := by
  decide

theorem prime_iff_mem_primesTo97 (n : Nat) (h2 : 2 ≤ n) (h100 : n ≤ 100) :
    (n : Int) ∈ primesTo97 ↔ n.Prime := by
  interval_cases n <;> simp [primesTo97] <;> norm_num

/-- An ascending list that holds every element of the ascending list `P`, and
whose elements up to the bound `B` are all in `P`, starts with `P`. -/
theorem ascending_prefix (B : Int) : ∀ (P l : List Int), l.Pairwise (· < ·) →
    P.Pairwise (· < ·) → (∀ p ∈ P, p ∈ l) → (∀ p ∈ P, p ≤ B) → (∀ x ∈ l, x ≤ B → x ∈ P) →
    ∃ rest, l = P ++ rest := by
  intro P
  induction P with
  | nil =>
    intro l _ _ _ _ _
    exact ⟨l, rfl⟩
  | cons p P ih =>
    intro l hl hP hsub hB hin
    rw [List.pairwise_cons] at hP
    have hpl : p ∈ l := hsub p (List.mem_cons_self _ _)
    have hpB : p ≤ B := hB p (List.mem_cons_self _ _)
    have hmin : ∀ x ∈ l, p ≤ x := by
      intro x hx
      by_contra hlt
      have hxB : x ≤ B := by omega
      rcases List.mem_cons.mp (hin x hx hxB) with h | h
      · omega
      · have := hP.1 x h
        omega
    cases l with
    | nil => simp at hpl
    | cons y l =>
      rw [List.pairwise_cons] at hl
      have hy : y = p := by
        rcases List.mem_cons.mp hpl with h | h
        · exact h.symm
        · have h1 := hl.1 p h
          have h2 := hmin y (List.mem_cons_self _ _)
          omega
      subst hy
      obtain ⟨rest, hrest⟩ := ih l hl.2 hP.2
        (fun q hq => by
          rcases List.mem_cons.mp (hsub q (List.mem_cons_of_mem _ hq)) with h | h
          · have := hP.1 q hq
            omega
          · exact h)
        (fun q hq => hB q (List.mem_cons_of_mem _ hq))
        (fun x hx hxB => by
          rcases List.mem_cons.mp (hin x (List.mem_cons_of_mem _ hx) hxB) with h | h
          · have := hl.1 x hx
            omega
          · exact h)
      exact ⟨rest, by rw [hrest, List.cons_append]⟩

/-- A table of ascending primes with every prime up to 97 starts with the primes
up to 97. -/
theorem table_prefix (low_primes : List Int) (hasc : low_primes.Pairwise (· < ·))
    (hprime : ∀ p ∈ low_primes, 0 ≤ p ∧ p.toNat.Prime)
    (hall : ∀ q : Nat, q.Prime → q ≤ 97 → (q : Int) ∈ low_primes) :
    ∃ rest, low_primes = primesTo97 ++ rest := by
  apply ascending_prefix 97 primesTo97 low_primes hasc (by decide)
  · intro p hp
    have hp1 : 0 ≤ p ∧ p ≤ 97 := by
      revert p
      decide
    have hpr : p.toNat.Prime := by
      have h := (prime_iff_mem_primesTo97 p.toNat (by
        revert p
        decide) (by omega)).mp (by
        rw [Int.toNat_of_nonneg hp1.1]
        exact hp)
      exact h
    have := hall p.toNat hpr (by omega)
    rw [Int.toNat_of_nonneg hp1.1] at this
    exact this
  · decide
  · intro x hx hx97
    obtain ⟨h0, hpr⟩ := hprime x hx
    have h2 := hpr.two_le
    have := (prime_iff_mem_primesTo97 x.toNat h2 (by omega)).mpr hpr
    rw [Int.toNat_of_nonneg h0] at this
    exact this

/-- C24. Given a table of ascending primes that contains every prime up to 97,
`bi_is_probable_prime` returns 1 for every prime `n` with `2 <= n <= 100` and 0 for
every composite one, for every `certainty` and all values of `random()`: the trial
division returns before the probabilistic rounds. -/
theorem probable_prime_small (low_primes : List Int) (rnd : Nat → Int) (certainty : Int)
    (n : Nat) (hasc : low_primes.Pairwise (· < ·))
    (hprime : ∀ p ∈ low_primes, 0 ≤ p ∧ p.toNat.Prime)
    (hall : ∀ q : Nat, q.Prime → q ≤ 97 → (q : Int) ∈ low_primes)
    (h2 : 2 ≤ n) (h100 : n ≤ 100) :
    bi_is_probable_prime low_primes rnd (int_to_bi n) certainty =
      .ok (if n.Prime then 1 else 0) := by
  obtain ⟨rest, hrest⟩ := table_prefix low_primes hasc hprime hall
  have ht := trialDivision_table (n - 2) (by omega)
  have hn : n - 2 + 2 = n := by omega
  rw [hn] at ht
  have hd := trialDivision_append (int_to_bi n) rest _ primesTo97 ht
  unfold bi_is_probable_prime
  rw [hrest, hd]
  simp only
  by_cases hp : n.Prime
  · rw [if_pos hp, if_pos ((prime_iff_mem_primesTo97 n h2 h100).mpr hp)]
  · rw [if_neg hp, if_neg (fun h => hp ((prime_iff_mem_primesTo97 n h2 h100).mp h))]

theorem probable_prime_small_witness :
    bi_is_probable_prime primesTo97 (fun _ => 0) (int_to_bi (91 : Nat)) 10 =
      .ok (if Nat.Prime 91 then 1 else 0) :=
  probable_prime_small primesTo97 (fun _ => 0) 10 91 (by decide)
    (by
      intro p hp
      have hp1 : 0 ≤ p ∧ 2 ≤ p.toNat ∧ p.toNat ≤ 100 := by
        revert p
        decide
      refine ⟨hp1.1, (prime_iff_mem_primesTo97 p.toNat hp1.2.1 hp1.2.2).mp ?_⟩
      rw [Int.toNat_of_nonneg hp1.1]
      exact hp)
    (by
      intro q hq h97
      exact (prime_iff_mem_primesTo97 q hq.two_le (by omega)).mpr hq)
    (by decide) (by decide)

end OSL

namespace OSL

/-! ## bi_jacobi -/

theorem bi_2_eq : bi_2 = ⟨1, [2]⟩ := by decide

theorem bi_2_nf : bi_2.NF := by decide

theorem bi_2_value : bi_2.value = 2 := by decide

theorem bi_is_even_spec (a : bigint) (ha : a.NF) (h0 : 0 ≤ a.value) :
    bi_is_even a = true ↔ a.value % 2 = 0 := by
  have hs := (nf_sign_one_iff ha).mpr h0
  have := bi_is_odd_spec a ha hs
  unfold bi_is_even
  cases h : bi_is_odd a
  · simp only [Bool.not_false, true_iff]
    have h2 : ¬ a.value % 2 = 1 := fun hc => by
      have := this.mpr hc
      rw [h] at this
      exact absurd this (by decide)
    omega
  · simp only [Bool.not_true, Bool.false_eq_true, false_iff]
    have := this.mp h
    omega

theorem bi_is_even_odd (b : bigint) (hb : b.NF) (h0 : 0 ≤ b.value) (hodd : b.value % 2 = 1) :
    bi_is_even b = false := by
  cases h : bi_is_even b
  · rfl
  · have := (bi_is_even_spec b hb h0).mp h
    omega

theorem jacobiResult_mul (j2 jh : bigint) (h2 : j2 = bi_1 ∨ j2 = bi_m1) (hh : JacobiResult jh) :
    JacobiResult (bi_multiply j2 jh) ∧ (bi_multiply j2 jh).value = j2.value * jh.value := by
  unfold JacobiResult at hh
  rcases h2 with h | h <;> rcases hh with g | g | g | g <;> subst h <;> subst g <;>
    exact ⟨by decide, by decide⟩

theorem jacobiResult_negate (j : bigint) (hj : JacobiResult j) :
    JacobiResult (bi_negate j) ∧ (bi_negate j).value = -j.value := by
  unfold JacobiResult at hj
  rcases hj with g | g | g | g <;> subst g <;> exact ⟨by decide, by decide⟩

/-- The symbol at 2, as the `switch` of `bi_jacobi` computes it. -/
theorem jacobiSym_two (B : Nat) (hodd : B % 2 = 1) :
    jacobiSym 2 B = if B % 8 = 1 ∨ B % 8 = 7 then 1 else -1 := by
  rw [jacobiSym.at_two (Nat.odd_iff.mpr hodd), ZMod.χ₈_nat_eq_if_mod_eight,
    if_neg (by omega)]

theorem jacobiTwo_two (a b : bigint) (ha : a.NF) (hb : b.NF) (hb0 : 0 ≤ b.value)
    (hodd : b.value % 2 = 1) (ha2 : a.value = 2) :
    ∃ r, jacobiTwo a b = .ok (some r) ∧ (r = bi_1 ∨ r = bi_m1) ∧
      r.value = jacobiSym 2 b.value.toNat := by
  have hcmp : bi_compare a bi_2 = 0 := by
    rw [bi_compare_spec a bi_2 ha bi_2_nf, bi_2_value, ha2]
    rfl
  have hmod := bi_int_mod_spec b hb ((nf_sign_one_iff hb).mpr hb0) 8 (by decide) (by
    rw [bi_radix_eq]
    decide)
  have hB : (b.value.toNat : Int) = b.value := Int.toNat_of_nonneg hb0
  have hBodd : b.value.toNat % 2 = 1 := by omega
  unfold jacobiTwo
  rw [if_pos hcmp, hmod]
  simp only
  rw [jacobiSym_two _ hBodd]
  by_cases h17 : b.value % 8 = 1 ∨ b.value % 8 = 7
  · rw [if_pos h17, if_pos (by omega)]
    exact ⟨bi_1, rfl, Or.inl rfl, bi_1_value⟩
  · rw [if_neg h17, if_pos (by omega), if_neg (by omega)]
    exact ⟨bi_m1, rfl, Or.inr rfl, bi_m1_value⟩

theorem jacobiTwo_other (a b : bigint) (ha : a.NF) (ha2 : a.value ≠ 2) :
    jacobiTwo a b = .ok none := by
  have hcmp : bi_compare a bi_2 ≠ 0 := by
    rw [bi_compare_spec a bi_2 ha bi_2_nf, bi_2_value]
    intro h
    have := Int.sign_eq_zero_iff_zero.mp h
    omega
  unfold jacobiTwo
  rw [if_neg hcmp]

/-- `bi_jacobi` at `a` = 0, 1 or 2 below an odd `b >= 3`: no recursion. -/
theorem jacobi_small (fuel : Nat) (a b : bigint) (ha : a.NF) (hb : b.NF) (ha0 : 0 ≤ a.value)
    (ha2 : a.value ≤ 2) (hodd : b.value % 2 = 1) (hb3 : 3 ≤ b.value) :
    ∃ r, bi_jacobi_aux (fuel + 1) a b = .ok r ∧ (r = bi_0 ∨ r = bi_1 ∨ r = bi_m1) ∧
      (a.value = 2 → r = bi_1 ∨ r = bi_m1) ∧
      r.value = jacobiSym a.value b.value.toNat := by
  have heven := bi_is_even_odd b hb (by omega) hodd
  have hcmp : ¬ bi_compare a b ≥ 0 := by
    rw [bi_compare_spec a b ha hb, Int.sign_eq_neg_one_of_neg (by omega)]
    decide
  have hB1 : 1 < b.value.toNat := by omega
  rw [bi_jacobi_aux]
  simp only [heven, Bool.false_eq_true, if_false, if_neg hcmp]
  by_cases hz : a.value = 0
  · have e := nf_eq_zero ha hz
    have hz1 : bi_is_zero a = true := (bi_is_zero_spec a ha).mpr hz
    rw [if_pos (Or.inl hz1)]
    refine ⟨a, rfl, Or.inl (by rw [e, bi_0_eq]), fun h => by omega, ?_⟩
    rw [hz, jacobiSym.zero_left hB1]
  · by_cases h1 : a.value = 1
    · have ho : bi_is_one a = true := (bi_is_one_spec a ha).mpr h1
      rw [if_pos (Or.inr ho)]
      have e : a = bi_1 := nf_ext a bi_1 ha bi_1_nf (by rw [h1, bi_1_value])
      refine ⟨a, rfl, Or.inr (Or.inl e), fun h => by omega, ?_⟩
      rw [h1, jacobiSym.one_left]
    · have hz1 : bi_is_zero a = false := by
        cases h : bi_is_zero a
        · rfl
        · exact absurd ((bi_is_zero_spec a ha).mp h) hz
      have ho : bi_is_one a = false := by
        cases h : bi_is_one a
        · rfl
        · exact absurd ((bi_is_one_spec a ha).mp h) h1
      have h2 : a.value = 2 := by omega
      obtain ⟨r, hr, hr1, hrv⟩ := jacobiTwo_two a b ha hb (by omega) hodd h2
      simp only [hz1, ho, Bool.false_eq_true, or_self, if_false, hr]
      refine ⟨r, rfl, ?_, fun _ => hr1, by rw [hrv, h2]⟩
      rcases hr1 with h | h
      · exact Or.inr (Or.inl h)
      · exact Or.inr (Or.inr h)

/-- The level of `bi_jacobi` that reduces `a >= b` modulo `b`. -/
theorem jacobi_mod_step (fuel : Nat) (a b : bigint) (ha : a.NF) (hb : b.NF)
    (hodd : b.value % 2 = 1) (hb1 : 1 ≤ b.value) (hge : b.value ≤ a.value) :
    ∃ r, bi_jacobi_aux (fuel + 1) a b = bi_jacobi_aux fuel r b ∧ r.NF ∧ 0 ≤ r.value ∧
      jacobiSym r.value b.value.toNat = jacobiSym a.value b.value.toNat ∧
      ((r.value = a.value % b.value ∧ r.value < b.value ∧ 2 * r.value ≤ a.value) ∨
        (r = b ∧ 1 < b.num_comps ∧ b.value < a.value)) := by
  have heven := bi_is_even_odd b hb (by omega) hodd
  have hcmp : bi_compare a b ≥ 0 := by
    rw [bi_compare_spec a b ha hb]
    rcases eq_or_lt_of_le hge with h | h
    · rw [h, sub_self]
      decide
    · rw [Int.sign_eq_one_of_pos (by omega)]
      decide
  obtain ⟨r, hr, hrnf, hrv⟩ := bi_mod_full a b ha hb (by omega)
  have hB : (b.value.toNat : Int) = b.value := Int.toNat_of_nonneg (by omega)
  refine ⟨r, ?_, hrnf, ?_⟩
  · rw [bi_jacobi_aux]
    simp only [heven, Bool.false_eq_true, if_false, if_pos hcmp, hr]
  · have hm0 := Int.emod_nonneg a.value (show b.value ≠ 0 by omega)
    have hm1 := Int.emod_lt_of_pos a.value (show 0 < b.value by omega)
    have hdm := Int.ediv_add_emod a.value b.value
    rcases hrv with h | ⟨h1, h2, h3, h4⟩
    · rw [h]
      refine ⟨hm0, ?_, Or.inl ⟨rfl, hm1, ?_⟩⟩
      · conv_rhs => rw [jacobiSym.mod_left, hB]
      · have : 1 ≤ a.value / b.value := Int.le_ediv_of_mul_le (by omega) (by omega)
        have : b.value * 1 ≤ b.value * (a.value / b.value) :=
          Int.mul_le_mul_of_nonneg_left this (by omega)
        omega
    · refine ⟨by omega, ?_, Or.inr ⟨nf_ext r b hrnf hb h4, h2, h3⟩⟩
      rw [h4]
      apply jacobiSym.mod_left'
      rw [hB, Int.emod_self, Int.emod_eq_zero_of_dvd h1]

/-- Two levels of `bi_jacobi` at `(b, b)` for an odd `b >= 3` give zero. -/
theorem jacobi_self (fuel : Nat) (b : bigint) (hb : b.NF) (hodd : b.value % 2 = 1)
    (hb3 : 3 ≤ b.value) :
    bi_jacobi_aux (fuel + 2) b b = .ok bi_0 ∧ jacobiSym b.value b.value.toNat = 0 := by
  obtain ⟨r, hr, hrnf, r0, hj, hcase⟩ :=
    jacobi_mod_step (fuel + 1) b b hb hb hodd (by omega) (le_refl _)
  have hB : (b.value.toNat : Int) = b.value := Int.toNat_of_nonneg (by omega)
  have hjz : jacobiSym b.value b.value.toNat = 0 := by
    rw [jacobiSym.mod_left, hB, Int.emod_self]
    exact jacobiSym.zero_left (by omega)
  refine ⟨?_, hjz⟩
  rcases hcase with ⟨h1, -, -⟩ | ⟨-, -, h3⟩
  · rw [Int.emod_self] at h1
    obtain ⟨r2, hr2, hr2c, -, hr2v⟩ :=
      jacobi_small fuel r b hrnf hb (by omega) (by omega) hodd hb3
    rw [h1, jacobiSym.zero_left (by omega)] at hr2v
    rw [hr, hr2]
    rcases hr2c with h | h | h
    · rw [h]
    · rw [h, bi_1_value] at hr2v
      omega
    · rw [h, bi_m1_value] at hr2v
      omega
  · omega

theorem jacobiResult_of_small (r : bigint) (h : r = bi_0 ∨ r = bi_1 ∨ r = bi_m1) :
    JacobiResult r := by
  unfold JacobiResult
  rcases h with h | h | h
  · exact Or.inr (Or.inr (Or.inl h))
  · exact Or.inl h
  · exact Or.inr (Or.inl h)

/-- The reciprocity step of `bi_jacobi` for odd `a` and `b`. -/
theorem jacobiSym_swap (a b : Int) (ha : 0 ≤ a) (hb : 0 ≤ b) (ha2 : a % 2 = 1)
    (hb2 : b % 2 = 1) :
    jacobiSym a b.toNat =
      if a % 4 = 3 ∧ b % 4 = 3 then -jacobiSym b a.toNat else jacobiSym b a.toNat := by
  have hA : (a.toNat : Int) = a := Int.toNat_of_nonneg ha
  have hB : (b.toNat : Int) = b := Int.toNat_of_nonneg hb
  have h := jacobiSym.quadratic_reciprocity_if (a := b.toNat) (b := a.toNat) (by omega) (by omega)
  rw [hA, hB] at h
  by_cases hc : a % 4 = 3 ∧ b % 4 = 3
  · rw [if_pos (by omega)] at h
    rw [if_pos hc, ← h, neg_neg]
  · rw [if_neg (by omega)] at h
    rw [if_neg hc, ← h]

/-- `bi_jacobi` from operands `0 <= a < b` with `b` odd and at least 3: it returns
the Jacobi symbol within `2 * k + 2` levels when `a * b < 2 ^ k`. -/
theorem jacobi_reduced : ∀ (k fuel : Nat), 2 * k + 2 ≤ fuel → ∀ a b : bigint, a.NF → b.NF →
    0 ≤ a.value → a.value < b.value → b.value % 2 = 1 → 3 ≤ b.value →
    a.value * b.value < 2 ^ k →
    ∃ r, bi_jacobi_aux fuel a b = .ok r ∧ JacobiResult r ∧
      r.value = jacobiSym a.value b.value.toNat := by
  intro k
  induction k with
  | zero =>
    intro fuel hf a b ha hb ha0 hlt hodd hb3 hP
    obtain ⟨f, rfl⟩ : ∃ f, fuel = f + 1 := ⟨fuel - 1, by omega⟩
    have hz : a.value = 0 := by
      by_contra hne
      have h2 : 1 * b.value ≤ a.value * b.value :=
        Int.mul_le_mul_of_nonneg_right (by omega) (by omega)
      simp only [pow_zero] at hP
      omega
    obtain ⟨r, hr, hrc, -, hrv⟩ := jacobi_small f a b ha hb ha0 (by omega) hodd hb3
    exact ⟨r, hr, jacobiResult_of_small r hrc, hrv⟩
  | succ k ih =>
    intro fuel hf a b ha hb ha0 hlt hodd hb3 hP
    obtain ⟨f, rfl⟩ : ∃ f, fuel = f + 1 := ⟨fuel - 1, by omega⟩
    by_cases hsm : a.value ≤ 2
    · obtain ⟨r, hr, hrc, -, hrv⟩ := jacobi_small f a b ha hb ha0 hsm hodd hb3
      exact ⟨r, hr, jacobiResult_of_small r hrc, hrv⟩
    · have heven := bi_is_even_odd b hb (by omega) hodd
      have hcmp : ¬ bi_compare a b ≥ 0 := by
        rw [bi_compare_spec a b ha hb, Int.sign_eq_neg_one_of_neg (by omega)]
        decide
      have hz1 : bi_is_zero a = false := by
        cases h : bi_is_zero a
        · rfl
        · have := (bi_is_zero_spec a ha).mp h
          omega
      have ho : bi_is_one a = false := by
        cases h : bi_is_one a
        · rfl
        · have := (bi_is_one_spec a ha).mp h
          omega
      have htwo := jacobiTwo_other a b ha (by omega)
      have hs := (nf_sign_one_iff ha).mpr ha0
      have hP2 : (2 : Int) ^ (k + 1) = 2 * 2 ^ k := by ring
      obtain ⟨g, hg⟩ : ∃ g, f = g + 1 := ⟨f - 1, by omega⟩
      rw [bi_jacobi_aux]
      simp only [heven, Bool.false_eq_true, if_false, if_neg hcmp, hz1, ho, or_self, htwo]
      by_cases hae : a.value % 2 = 0
      · -- even `a`: the symbol at 2 times the symbol at `a / 2`
        have hev : bi_is_even a = true := (bi_is_even_spec a ha ha0).mpr hae
        obtain ⟨j2, hj2, -, hj2c, hj2v⟩ :=
          jacobi_small g bi_2 b bi_2_nf hb (by rw [bi_2_value]; omega)
            (by rw [bi_2_value]) hodd hb3
        rw [← hg] at hj2
        obtain ⟨h1, h2, -⟩ := bi_half_spec a ha hs
        have hprod : (bi_half a).value * b.value < 2 ^ k := by
          rw [h2]
          have e : a.value = 2 * (a.value / 2) := by omega
          have e2 : a.value * b.value = 2 * (a.value / 2 * b.value) := by
            conv_lhs => rw [e]
            ring
          omega
        obtain ⟨jh, hjh, hjhc, hjhv⟩ := ih f (by omega) (bi_half a) b h1 hb
          (by rw [h2]; omega) (by rw [h2]; omega) hodd hb3 hprod
        obtain ⟨m1, m2⟩ := jacobiResult_mul j2 jh (hj2c bi_2_value) hjhc
        simp only [hev, if_true, hj2, hjh]
        refine ⟨_, rfl, m1, ?_⟩
        rw [m2, hj2v, hjhv, h2, bi_2_value, ← jacobiSym.mul_left]
        congr 1
        omega
      · -- odd `a`: reciprocity
        have hev : bi_is_even a = false := by
          cases h : bi_is_even a
          · rfl
          · exact absurd ((bi_is_even_spec a ha ha0).mp h) hae
        have hma := bi_int_mod_spec a ha hs 4 (by decide) (by rw [bi_radix_eq]; decide)
        have hmb := bi_int_mod_spec b hb ((nf_sign_one_iff hb).mpr (by omega)) 4 (by decide)
          (by rw [bi_radix_eq]; decide)
        have hrb : (if a.value % 4 = 3 then bi_int_mod b 4 else .ok 0) =
            .ok (if a.value % 4 = 3 then b.value % 4 else 0) := by
          by_cases h3 : a.value % 4 = 3
          · rw [if_pos h3, if_pos h3, hmb]
          · rw [if_neg h3, if_neg h3]
        -- the level for `(b, a)`
        have hswap : ∃ j, bi_jacobi_aux f b a = .ok j ∧ JacobiResult j ∧
            j.value = jacobiSym b.value a.value.toNat := by
          obtain ⟨r, hr, hrnf, r0, hj, hcase⟩ :=
            jacobi_mod_step g b a hb ha (by omega) (by omega) (by omega)
          rw [hg, hr]
          rcases hcase with ⟨-, c1, c2⟩ | ⟨c1, -, -⟩
          · have hprod : r.value * a.value < 2 ^ k := by
              have h3 : a.value * (2 * r.value) ≤ a.value * b.value :=
                Int.mul_le_mul_of_nonneg_left c2 (by omega)
              have h4 : a.value * (2 * r.value) = 2 * (r.value * a.value) := by ring
              omega
            obtain ⟨j, hjr, hjc, hjv⟩ := ih g (by omega) r a hrnf ha r0 c1 (by omega)
              (by omega) hprod
            exact ⟨j, hjr, hjc, by rw [hjv, hj]⟩
          · obtain ⟨g2, hg2⟩ : ∃ g2, g = g2 + 2 := ⟨g - 2, by omega⟩
            obtain ⟨s1, s2⟩ := jacobi_self g2 a ha (by omega) (by omega)
            rw [c1, hg2, s1]
            refine ⟨bi_0, rfl, by decide, ?_⟩
            rw [bi_0_value, ← hj, c1, s2]
        obtain ⟨j, hjr, hjc, hjv⟩ := hswap
        simp only [hev, Bool.false_eq_true, if_false, hma, hrb, hjr]
        have hrec := jacobiSym_swap a.value b.value ha0 (by omega) (by omega) hodd
        by_cases hc : a.value % 4 = 3 ∧ b.value % 4 = 3
        · obtain ⟨n1, n2⟩ := jacobiResult_negate j hjc
          rw [if_pos hc] at hrec
          refine ⟨_, rfl, ?_, ?_⟩
          · rw [if_pos (by rw [if_pos hc.1]; exact hc)]
            exact n1
          · rw [if_pos (by rw [if_pos hc.1]; exact hc), n2, hjv, hrec]
        · rw [if_neg hc] at hrec
          have hcond : ¬ (a.value % 4 = 3 ∧ (if a.value % 4 = 3 then b.value % 4 else 0) = 3) := by
            intro h
            apply hc
            refine ⟨h.1, ?_⟩
            have := h.2
            rw [if_pos h.1] at this
            exact this
          refine ⟨_, rfl, ?_, ?_⟩
          · rw [if_neg hcond]
            exact hjc
          · rw [if_neg hcond, hjv, hrec]

end OSL

namespace OSL

/-! ## bi_jacobi: the contract -/

theorem jacobi_product_bound (a b : bigint) (ha : a.NF) (hb : b.NF) (ha0 : 0 ≤ a.value)
    (hb0 : 0 < b.value) :
    a.value * b.value < 2 ^ (bi_radix_bits * (a.num_comps + b.num_comps)) := by
  have halt := nf_value_lt ha ha0
  have hblt := nf_value_lt hb (by omega)
  rw [two_pow_31] at halt hblt
  rw [mul_add, pow_add]
  have hp1 : (0 : Int) < 2 ^ (bi_radix_bits * a.num_comps) := by positivity
  calc a.value * b.value < 2 ^ (bi_radix_bits * a.num_comps) * b.value :=
        Int.mul_lt_mul_of_pos_right halt hb0
    _ ≤ 2 ^ (bi_radix_bits * a.num_comps) * 2 ^ (bi_radix_bits * b.num_comps) :=
        Int.mul_le_mul_of_nonneg_left (by omega) (by omega)

/-- `bi_jacobi` for `a >= 0` and an odd `b >= 3`: the Jacobi symbol. -/
theorem bi_jacobi_spec (a b : bigint) (ha : a.NF) (hb : b.NF) (ha0 : 0 ≤ a.value)
    (hodd : b.value % 2 = 1) (hb3 : 3 ≤ b.value) :
    ∃ r, bi_jacobi a b = .ok r ∧ JacobiResult r ∧
      r.value = jacobiSym a.value b.value.toNat := by
  have hprod := jacobi_product_bound a b ha hb ha0 (by omega)
  unfold bi_jacobi
  by_cases hlt : a.value < b.value
  · exact jacobi_reduced _ _ (by omega) a b ha hb ha0 hlt hodd hb3 hprod
  · obtain ⟨r, hr, hrnf, r0, hj, hcase⟩ :=
      jacobi_mod_step (2 * (bi_radix_bits * (a.num_comps + b.num_comps)) + 2) a b ha hb hodd
        (by omega) (by omega)
    rw [hr]
    rcases hcase with ⟨-, c1, c2⟩ | ⟨c1, -, -⟩
    · have hprod2 : r.value * b.value <
          2 ^ (bi_radix_bits * (a.num_comps + b.num_comps)) := by
        have : r.value * b.value ≤ a.value * b.value :=
          Int.mul_le_mul_of_nonneg_right (by omega) (by omega)
        omega
      obtain ⟨j, hjr, hjc, hjv⟩ := jacobi_reduced _ _ (le_refl _) r b hrnf hb r0 c1 hodd hb3
        hprod2
      exact ⟨j, hjr, hjc, by rw [hjv, hj]⟩
    · obtain ⟨s1, s2⟩ := jacobi_self (2 * (bi_radix_bits * (a.num_comps + b.num_comps))) b hb
        hodd hb3
      rw [c1, s1]
      refine ⟨bi_0, rfl, by decide, ?_⟩
      rw [bi_0_value, ← hj, c1, s2]

/-- `bi_jacobi` for `a >= 0` and `b = 1` returns zero. -/
theorem bi_jacobi_one (a : bigint) (ha : a.NF) (ha0 : 0 ≤ a.value) :
    bi_jacobi a bi_1 = .ok bi_0 := by
  have hzero : ∀ (fuel : Nat) (r : bigint), r.NF → r.value = 0 →
      bi_jacobi_aux (fuel + 1) r bi_1 = .ok bi_0 := by
    intro fuel r hrnf hrz
    have e : r = bi_0 := by
      rw [bi_0_eq]
      exact nf_eq_zero hrnf hrz
    rw [e, bi_jacobi_aux, if_neg (by decide), if_neg (by decide), if_pos (by decide)]
  unfold bi_jacobi
  by_cases hz : a.value = 0
  · exact hzero _ a ha hz
  · obtain ⟨r, hr, hrnf, r0, -, hcase⟩ :=
      jacobi_mod_step (2 * (bi_radix_bits * (a.num_comps + bi_1.num_comps)) + 2) a bi_1 ha
        bi_1_nf (by decide) (by decide) (by rw [bi_1_value]; omega)
    rw [hr]
    rcases hcase with ⟨c1, -, -⟩ | ⟨-, c2, -⟩
    · rw [bi_1_value, Int.emod_one] at c1
      exact hzero _ r hrnf c1
    · exact absurd c2 (by decide)

/-- C22. For every `a >= 0` and every odd `b >= 3`, `bi_jacobi a b` returns the
Jacobi symbol of `a` and `b`, as one, minus one or zero (the zero can have the sign
-1, as for `a = 3`, `b = 15`), and it returns zero exactly when `gcd(a, b)` is not 1.
For `b = 1` it returns 0 for every `a >= 0`, where the Jacobi symbol is 1. -/
theorem bi_jacobi_symbol :
    (∀ a b : bigint, a.NF → b.NF → 0 ≤ a.value → b.value % 2 = 1 → 3 ≤ b.value →
      ∃ r, bi_jacobi a b = .ok r ∧ JacobiResult r ∧
        r.value = jacobiSym a.value b.value.toNat ∧
        (r.value = 0 ↔ Int.gcd a.value b.value ≠ 1)) ∧
    (∀ a : bigint, a.NF → 0 ≤ a.value →
      bi_jacobi a ⟨1, [1]⟩ = .ok ⟨1, [0]⟩ ∧ jacobiSym a.value 1 = 1) ∧
    bi_jacobi ⟨1, [0]⟩ ⟨1, [1]⟩ = .ok ⟨1, [0]⟩ ∧
    bi_jacobi ⟨1, [3]⟩ ⟨1, [15]⟩ = .ok ⟨-1, [0]⟩ := by
  refine ⟨?_, ?_, by decide, by decide⟩
  · intro a b ha hb ha0 hodd hb3
    obtain ⟨r, hr, hrc, hrv⟩ := bi_jacobi_spec a b ha hb ha0 hodd hb3
    refine ⟨r, hr, hrc, hrv, ?_⟩
    have hB : (b.value.toNat : Int) = b.value := Int.toNat_of_nonneg (by omega)
    haveI : NeZero b.value.toNat := ⟨by omega⟩
    rw [hrv, jacobiSym.eq_zero_iff_not_coprime, hB]
  · intro a ha ha0
    have := bi_jacobi_one a ha ha0
    rw [bi_1_eq, bi_0_eq] at this
    exact ⟨this, jacobiSym.one_right _⟩

theorem bi_jacobi_symbol_witness :
    ∃ r, bi_jacobi ⟨1, [1001]⟩ ⟨1, [9907]⟩ = .ok r ∧ JacobiResult r ∧
      r.value = jacobiSym (bigint.value ⟨1, [1001]⟩) (bigint.value ⟨1, [9907]⟩).toNat ∧
      (r.value = 0 ↔ Int.gcd (bigint.value ⟨1, [1001]⟩) (bigint.value ⟨1, [9907]⟩) ≠ 1) :=
  bi_jacobi_symbol.1 ⟨1, [1001]⟩ ⟨1, [9907]⟩ (by decide) (by decide) (by decide) (by decide)
    (by decide)

/-- C23. For every `a >= 0` and every `b > 0`, `bi_jacobi a b` raises an error if
and only if `b` is even: for an even `b` the error of the first check, for an odd
`b` a result, with no error in any level of the recursion. -/
theorem bi_jacobi_error_iff (a b : bigint) (ha : a.NF) (hb : b.NF) (ha0 : 0 ≤ a.value)
    (hb0 : 0 < b.value) :
    ((∃ e, bi_jacobi a b = .error e) ↔ b.value % 2 = 0) ∧
    (b.value % 2 = 0 → bi_jacobi a b = .error .jacobiEven) ∧
    (b.value % 2 = 1 → ∃ r, bi_jacobi a b = .ok r) := by
  have heven : b.value % 2 = 0 → bi_jacobi a b = .error .jacobiEven := by
    intro h
    have he : bi_is_even b = true := (bi_is_even_spec b hb (by omega)).mpr h
    unfold bi_jacobi
    rw [bi_jacobi_aux, if_pos he]
  have hodd : b.value % 2 = 1 → ∃ r, bi_jacobi a b = .ok r := by
    intro h
    by_cases hb1 : b.value = 1
    · have e : b = bi_1 := nf_ext b bi_1 hb bi_1_nf (by rw [hb1, bi_1_value])
      rw [e]
      exact ⟨bi_0, bi_jacobi_one a ha ha0⟩
    · obtain ⟨r, hr, -⟩ := bi_jacobi_spec a b ha hb ha0 h (by omega)
      exact ⟨r, hr⟩
  refine ⟨⟨?_, ?_⟩, heven, hodd⟩
  · rintro ⟨e, he⟩
    by_contra hne
    obtain ⟨r, hr⟩ := hodd (by omega)
    rw [hr] at he
    exact absurd he (by simp)
  · intro h
    exact ⟨_, heven h⟩

theorem bi_jacobi_error_iff_witness :
    ((∃ e, bi_jacobi ⟨1, [5]⟩ ⟨1, [4]⟩ = .error e) ↔ bigint.value ⟨1, [4]⟩ % 2 = 0) ∧
    (bigint.value ⟨1, [4]⟩ % 2 = 0 → bi_jacobi ⟨1, [5]⟩ ⟨1, [4]⟩ = .error .jacobiEven) ∧
    (bigint.value ⟨1, [4]⟩ % 2 = 1 → ∃ r, bi_jacobi ⟨1, [5]⟩ ⟨1, [4]⟩ = .ok r) :=
  bi_jacobi_error_iff ⟨1, [5]⟩ ⟨1, [4]⟩ (by decide) (by decide) (by decide) (by decide)

end OSL

namespace OSL

/-! ## Division: conditioning of the denominator, well-founded recursion -/

theorem nf_num_comps_of_value (d : bigint) (hd : d.NF) (k : Nat)
    (h1 : bi_radix ^ k ≤ d.value) (h2 : d.value < bi_radix ^ (k + 1)) :
    d.num_comps = k + 1 := by
  have hp := bi_radix_pow_pos k
  have hd0 : 0 ≤ d.value := by omega
  have hle := nf_length_le hd (k + 1) (by omega) hd0 h2
  have hlt := nf_value_lt hd hd0
  have hge : k + 1 ≤ d.num_comps := by
    by_contra hc
    have : bi_radix ^ d.num_comps ≤ bi_radix ^ k :=
      pow_le_pow_right₀ (by rw [bi_radix_eq]; norm_num) (by omega)
    omega
  omega

/-- C31. Conditioning of the denominator. The threshold `bi_radix_sqrt` is 46340, the
integer square root of the radix `2^31`. For every normal-form positive denominator
`d` whose top component is below 46340 (in `multi_divide` it has at least two
components) the product `d * 46340` that `multi_divide` forms is in normal form, has
as many components as `d` and a top component of at least 46340; the numerator is
scaled by the same factor, which leaves the quotient unchanged, and `multi_divide`
continues with `multi_divide2` on the two scaled numbers. -/
theorem multi_divide_conditioning (n d : bigint) (hn : n.NF) (hd : d.NF)
    (hd0 : 0 < d.value) (htop : d.comp (d.num_comps - 1) < 46340) :
    (bi_radix_sqrt = 46340 ∧ 46340 * 46340 ≤ bi_radix ∧ bi_radix < 46341 * 46341) ∧
    (bi_int_multiply d bi_radix_sqrt).NF ∧
    (bi_int_multiply d bi_radix_sqrt).value = d.value * 46340 ∧
    (bi_int_multiply n bi_radix_sqrt).NF ∧
    (bi_int_multiply n bi_radix_sqrt).value = n.value * 46340 ∧
    (bi_int_multiply d bi_radix_sqrt).num_comps = d.num_comps ∧
    46340 ≤ (bi_int_multiply d bi_radix_sqrt).comp
      ((bi_int_multiply d bi_radix_sqrt).num_comps - 1) ∧
    (bi_int_multiply n bi_radix_sqrt).value / (bi_int_multiply d bi_radix_sqrt).value =
      n.value / d.value ∧
    multi_divide n d = multi_divide2 (bi_radix_bits * (n.num_comps + 1) + 1)
      (bi_int_multiply n bi_radix_sqrt) (bi_int_multiply d bi_radix_sqrt) := by
  have hr := bi_radix_eq
  have hs := bi_radix_sqrt_eq
  obtain ⟨t1, t2, t3⟩ := nf_top_pos d hd hd0
  have hp := bi_radix_pow_pos (d.num_comps - 1)
  have hnc := nf_num_comps_pos hd
  obtain ⟨dn, dv⟩ := bi_int_multiply_spec d hd bi_radix_sqrt (by omega) (by omega)
  obtain ⟨nn, nv⟩ := bi_int_multiply_spec n hn bi_radix_sqrt (by omega) (by omega)
  have dv2 : (bi_int_multiply d bi_radix_sqrt).value = d.value * 46340 := by
    rw [dv, hs]
  have nv2 : (bi_int_multiply n bi_radix_sqrt).value = n.value * 46340 := by
    rw [nv, hs]
  have hX : bi_radix ^ (d.num_comps - 1) * (d.comp (d.num_comps - 1) + 1) ≤
      bi_radix ^ (d.num_comps - 1) * 46340 :=
    Int.mul_le_mul_of_nonneg_left (by omega) (le_of_lt hp)
  have hlo : 46340 * bi_radix ^ (d.num_comps - 1) ≤
      (bi_int_multiply d bi_radix_sqrt).value := by
    rw [dv2]
    omega
  have hhi : (bi_int_multiply d bi_radix_sqrt).value <
      bi_radix ^ (d.num_comps - 1 + 1) := by
    rw [dv2, pow_succ, bi_radix_eq]
    rw [bi_radix_eq] at hX t3 hp
    omega
  have hcond := conditioned_of_value _ dn (d.num_comps - 1) hlo hhi
  have hnum := nf_num_comps_of_value _ dn (d.num_comps - 1) (by omega) hhi
  unfold Conditioned at hcond
  refine ⟨⟨hs, by rw [hr]; norm_num, by rw [hr]; norm_num⟩, dn, dv2, nn, nv2, by omega,
    by rw [← hs]; exact hcond, ?_, ?_⟩
  · rw [dv2, nv2]
    exact Int.mul_ediv_mul_of_pos_left _ _ (by omega)
  · unfold multi_divide
    rw [if_pos (by omega)]

theorem multi_divide_conditioning_witness :
    (bi_int_multiply ⟨1, [5, 7]⟩ bi_radix_sqrt).num_comps = bigint.num_comps ⟨1, [5, 7]⟩ ∧
      46340 ≤ (bi_int_multiply ⟨1, [5, 7]⟩ bi_radix_sqrt).comp
        ((bi_int_multiply ⟨1, [5, 7]⟩ bi_radix_sqrt).num_comps - 1) :=
  let h := multi_divide_conditioning ⟨1, [1, 2, 3]⟩ ⟨1, [5, 7]⟩ (by decide) (by decide)
    (by decide) (by decide)
  ⟨h.2.2.2.2.2.1, h.2.2.2.2.2.2.1⟩

/-- C32. The recursion of `multi_divide2` is well-founded. For every normal-form
numerator `n` and conditioned denominator `d` (top component at least 46340; in
`multi_divide2` it has at least two components) with `n ≥ d > 0`: the quotient by the top component has
more components than the `num_comps - 1` that the downshift removes, so the
approximation keeps at least one component; the remainder `approx * d - n` is in
normal form and at most `n / 2`; whenever the comparison sends it to the recursive
call it is at least `d` and strictly smaller than `n`; and `multi_divide2` returns a
result, with the bound on the depth that `multi_divide` passes and with every bound
`fuel` such that `n < 2^fuel`. -/
theorem multi_divide2_recursion (n d : bigint) (hn : n.NF) (hd : d.NF) (hd0 : 0 < d.value)
    (hnd : d.value ≤ n.value) (hc : 46340 ≤ d.comp (d.num_comps - 1)) :
    ∃ q, bi_int_divide n (toInt32 (d.comp (d.num_comps - 1))) = .ok q ∧
      d.num_comps - 1 < q.num_comps ∧
      1 ≤ bigint.num_comps ⟨q.sign, q.comps.drop (d.num_comps - 1)⟩ ∧
      (bi_subtract (bi_multiply ⟨q.sign, q.comps.drop (d.num_comps - 1)⟩ d) n).NF ∧
      (bi_subtract (bi_multiply ⟨q.sign, q.comps.drop (d.num_comps - 1)⟩ d) n).value =
        bigint.value ⟨q.sign, q.comps.drop (d.num_comps - 1)⟩ * d.value - n.value ∧
      2 * (bi_subtract (bi_multiply ⟨q.sign, q.comps.drop (d.num_comps - 1)⟩ d) n).value ≤
        n.value ∧
      (¬ bi_compare (bi_subtract (bi_multiply ⟨q.sign, q.comps.drop (d.num_comps - 1)⟩ d) n)
          d < 0 →
        d.value ≤
          (bi_subtract (bi_multiply ⟨q.sign, q.comps.drop (d.num_comps - 1)⟩ d) n).value ∧
        (bi_subtract (bi_multiply ⟨q.sign, q.comps.drop (d.num_comps - 1)⟩ d) n).value <
          n.value) ∧
      (∃ r, multi_divide2 (bi_radix_bits * (n.num_comps + 1) + 1) n d = .ok r) ∧
      (∀ fuel : Nat, n.value < 2 ^ fuel → ∃ r, multi_divide2 fuel n d = .ok r) := by
  have hr := bi_radix_eq
  have hn0 : 0 ≤ n.value := by omega
  have hns := (nf_sign_one_iff hn).mpr hn0
  have hds := (nf_sign_one_iff hd).mpr (by omega)
  obtain ⟨front, top, hft, hfl, hcomp, hfd, ht0, ht1, hdv⟩ := nf_top d hd
  have htop2 : 2 ≤ top := by rw [← hcomp]; omega
  have hDv : d.value = compsValue front + bi_radix ^ (d.num_comps - 1) * top := by
    rw [← hdv]
    unfold bigint.value
    rw [hds, one_mul]
  have hF0 := digits_nonneg _ hfd
  have hF1 := compsValue_lt _ hfd
  rw [hfl] at hF1
  have hRo := bi_radix_pow_pos (d.num_comps - 1)
  obtain ⟨q, hq, hqnf, hqv⟩ := bi_int_divide_spec n hn top (by omega) ht1
  rw [hns, one_mul, nf_value_of_nonneg hn hn0] at hqv
  obtain ⟨b0, b1, b2, b3, b4, b5⟩ := approx_bounds n.value d.value top
    (bi_radix ^ (d.num_comps - 1)) (compsValue front) hRo hF0 hF1 hDv htop2 hnd
  obtain ⟨anf, av⟩ := downshift_spec q hqnf (d.num_comps - 1) (by rw [hqv]; exact b0)
  rw [hqv] at av
  obtain ⟨m1, m2⟩ := bi_multiply_spec _ d anf hd
  obtain ⟨r1, r2⟩ := bi_subtract_spec _ n m1 hn
  rw [m2] at r2
  have hcmp := bi_compare_spec _ d r1 hd
  have e : toInt32 (d.comp (d.num_comps - 1)) = top := by
    rw [hcomp]
    exact toInt32_eq _ (by omega) (by omega)
  have hqlen : d.num_comps - 1 < q.num_comps := by
    have hq0 : 0 ≤ q.value := by rw [hqv]; omega
    have hlt := nf_value_lt hqnf hq0
    by_contra hcon
    have : bi_radix ^ q.num_comps ≤ bi_radix ^ (d.num_comps - 1) :=
      pow_le_pow_right₀ (by rw [bi_radix_eq]; norm_num) (by omega)
    rw [hqv] at hlt
    omega
  have hfuel : ∀ fuel : Nat, n.value < 2 ^ fuel → ∃ r, multi_divide2 fuel n d = .ok r := by
    intro fuel hf
    obtain ⟨r, h1, _⟩ := multi_divide2_spec fuel n d hn hd hd0 hnd (by omega) hf
    exact ⟨r, h1⟩
  refine ⟨q, by rw [e]; exact hq, hqlen, nf_num_comps_pos anf, r1, r2, ?_, ?_, ?_, hfuel⟩
  · rw [r2, av]
    exact b5
  · intro hnot
    rw [hcmp] at hnot
    constructor
    · by_contra hlt
      apply hnot
      rw [Int.sign_eq_neg_one_of_neg (by omega)]
      omega
    · rw [r2, av]
      omega
  · apply hfuel
    have h1 := nf_value_lt hn hn0
    rw [two_pow_31] at h1
    have h2 : (2 : Int) ^ (bi_radix_bits * n.num_comps) ≤
        2 ^ (bi_radix_bits * (n.num_comps + 1) + 1) :=
      pow_le_pow_right₀ (by norm_num) (by
        rw [Nat.mul_add]
        omega)
    omega

theorem multi_divide2_recursion_witness :
    ∃ r, multi_divide2 (bi_radix_bits * (bigint.num_comps ⟨1, [0, 0, 7]⟩ + 1) + 1)
      ⟨1, [0, 0, 7]⟩ ⟨1, [3, 50000]⟩ = .ok r :=
  let ⟨_, _, _, _, _, _, _, _, h, _⟩ := multi_divide2_recursion ⟨1, [0, 0, 7]⟩ ⟨1, [3, 50000]⟩
    (by decide) (by decide) (by decide) (by decide) (by decide)
  h


/-! ## regular_multiply: no component overflows -/

theorem rowsLoop_append (new_comps : Nat) (b : List Int) (l1 : List Int) :
    ∀ (l2 : List Int) (c1 : Nat) (biR : bigint),
      rowsLoop new_comps b c1 (l1 ++ l2) biR =
        rowsLoop new_comps b (c1 + l1.length) l2 (rowsLoop new_comps b c1 l1 biR) := by
  induction l1 with
  | nil =>
    intro l2 c1 biR
    simp [rowsLoop]
  | cons x rest ih =>
    intro l2 c1 biR
    rw [List.cons_append, rowsLoop, rowsLoop, ih]
    simp only [List.length_cons]
    congr 1
    omega

/-- The running result of `regular_multiply` after the rows of a prefix of the
components of `a`: digits, at most `new_comps` of them. -/
theorem rows_prefix (a b : bigint) (ha : a.NF) (hb : b.NF) (k : Nat) (hk : k ≤ a.num_comps) :
    Digits (rowsLoop (a.num_comps + b.num_comps) b.comps 0 (a.comps.take k)
      ⟨1, more_comps [0] (a.num_comps + b.num_comps)⟩).comps ∧
    (rowsLoop (a.num_comps + b.num_comps) b.comps 0 (a.comps.take k)
      ⟨1, more_comps [0] (a.num_comps + b.num_comps)⟩).comps.length ≤
        a.num_comps + b.num_comps := by
  have hr := bi_radix_eq
  have hpa := nf_num_comps_pos ha
  have hpb := nf_num_comps_pos hb
  have hinit_d : Digits (more_comps [0] (a.num_comps + b.num_comps)) :=
    more_comps_digits _ _ (by rw [digits_cons]; exact ⟨by omega, digits_nil⟩)
  have hinit_l : (more_comps [0] (a.num_comps + b.num_comps)).length =
      a.num_comps + b.num_comps := by
    rw [more_comps_length]
    simp only [List.length_singleton]
    omega
  have htl : (a.comps.take k).length = k := by
    rw [List.length_take]
    unfold bigint.num_comps at hk
    omega
  have han : a.num_comps = a.comps.length := rfl
  have hbn : b.num_comps = b.comps.length := rfl
  by_cases hk0 : k = 0
  · subst hk0
    simp only [List.take_zero, rowsLoop]
    exact ⟨hinit_d, by rw [hinit_l]⟩
  · obtain ⟨i1, i2, i3⟩ := rowsLoop_spec (a.num_comps + b.num_comps) b.comps (nf_digits hb)
      (a.comps.take k) 0 ⟨1, more_comps [0] (a.num_comps + b.num_comps)⟩ 0 rfl hinit_d
      (more_comps_ne_nil _ _ (by simp)) (by rw [hinit_l])
      (by
        show compsValue (more_comps [0] (a.num_comps + b.num_comps)) = _
        rw [more_comps_value]
        simp [compsValue])
      (le_refl 0) (by simp) (digits_take _ _ (nf_digits ha)) (by rw [htl]; omega)
    have hne : a.comps.take k ≠ [] := by
      intro e
      rw [e] at htl
      simp at htl
      omega
    have hnf := i3 hne
    simp only [zero_add, pow_zero, one_mul] at i2
    have ht0 := digits_nonneg _ (digits_take _ k (nf_digits ha))
    have ht1 := compsValue_lt _ (digits_take _ k (nf_digits ha))
    rw [htl] at ht1
    have hb0 := digits_nonneg _ (nf_digits hb)
    have hb1 := compsValue_lt _ (nf_digits hb)
    have hv : (rowsLoop (a.num_comps + b.num_comps) b.comps 0 (a.comps.take k)
        ⟨1, more_comps [0] (a.num_comps + b.num_comps)⟩).value =
        compsValue (a.comps.take k) * compsValue b.comps := by
      unfold bigint.value
      rw [i1, i2, one_mul]
    have hv0 : 0 ≤ compsValue (a.comps.take k) * compsValue b.comps := Int.mul_nonneg ht0 hb0
    have hvlt := mul_lt_pow _ _ _ _ ht0 ht1 hb0 hb1
    have hvlt2 : compsValue (a.comps.take k) * compsValue b.comps <
        bi_radix ^ (a.num_comps + b.num_comps) := by
      have : bi_radix ^ (k + b.comps.length) ≤ bi_radix ^ (a.num_comps + b.num_comps) :=
        pow_le_pow_right₀ (by rw [bi_radix_eq]; norm_num) (by omega)
      omega
    exact ⟨nf_digits hnf,
      nf_length_le hnf _ (by omega) (by rw [hv]; exact hv0) (by rw [hv]; exact hvlt2)⟩

theorem digits_getD (l : List Int) (h : Digits l) (i : Nat) :
    0 ≤ l.getD i 0 ∧ l.getD i 0 < bi_radix := by
  rw [List.getD_eq_getElem?_getD]
  by_cases hi : i < l.length
  · rw [List.getElem?_eq_getElem hi]
    exact h _ (List.getElem_mem _)
  · rw [List.getElem?_eq_none (by omega)]
    rw [bi_radix_eq]
    simp

/-- C33. `regular_multiply` is exact and free of overflow. For normal-form `a` and
`b`: in every row `k` (the running result being the one left by the rows before it,
with its component count reset) and at every component `j` of `b`, the product
`a[k] * b[j]` and the sum of the component `k + j` and this product are non-negative
and below `2^63`, so the 64-bit operations of the inner loop return the exact
product and sum; the loop over the rows continues from that running result; and the
result is in normal form with value `value(a) * value(b)`, its sign being `+1` when
the product is zero. -/
theorem regular_multiply_exact (a b : bigint) (ha : a.NF) (hb : b.NF) :
    (∀ k j : Nat, k < a.num_comps → j < b.num_comps →
      0 ≤ a.comp k * b.comp j ∧ a.comp k * b.comp j < 2 ^ 63 ∧
      0 ≤ ((more_comps (rowsLoop (a.num_comps + b.num_comps) b.comps 0 (a.comps.take k)
          ⟨1, more_comps [0] (a.num_comps + b.num_comps)⟩).comps
          (a.num_comps + b.num_comps)).take (a.num_comps + b.num_comps)).getD (k + j) 0 +
        a.comp k * b.comp j ∧
      ((more_comps (rowsLoop (a.num_comps + b.num_comps) b.comps 0 (a.comps.take k)
          ⟨1, more_comps [0] (a.num_comps + b.num_comps)⟩).comps
          (a.num_comps + b.num_comps)).take (a.num_comps + b.num_comps)).getD (k + j) 0 +
        a.comp k * b.comp j < 2 ^ 63 ∧
      cadd (((more_comps (rowsLoop (a.num_comps + b.num_comps) b.comps 0 (a.comps.take k)
          ⟨1, more_comps [0] (a.num_comps + b.num_comps)⟩).comps
          (a.num_comps + b.num_comps)).take (a.num_comps + b.num_comps)).getD (k + j) 0)
        (cmul (a.comp k) (b.comp j)) =
        ((more_comps (rowsLoop (a.num_comps + b.num_comps) b.comps 0 (a.comps.take k)
          ⟨1, more_comps [0] (a.num_comps + b.num_comps)⟩).comps
          (a.num_comps + b.num_comps)).take (a.num_comps + b.num_comps)).getD (k + j) 0 +
        a.comp k * b.comp j ∧
      rowsLoop (a.num_comps + b.num_comps) b.comps 0 a.comps
          ⟨1, more_comps [0] (a.num_comps + b.num_comps)⟩ =
        rowsLoop (a.num_comps + b.num_comps) b.comps k (a.comps.drop k)
          (rowsLoop (a.num_comps + b.num_comps) b.comps 0 (a.comps.take k)
            ⟨1, more_comps [0] (a.num_comps + b.num_comps)⟩)) ∧
    (regular_multiply a b).NF ∧ (regular_multiply a b).value = a.value * b.value ∧
    (a.value * b.value = 0 → (regular_multiply a b).sign = 1) := by
  have hr := bi_radix_eq
  obtain ⟨r1, r2⟩ := regular_multiply_spec a b ha hb
  refine ⟨?_, r1, r2, ?_⟩
  · intro k j hk hj
    obtain ⟨p1, p2⟩ := rows_prefix a b ha hb k (by omega)
    have hd : Digits ((more_comps (rowsLoop (a.num_comps + b.num_comps) b.comps 0
        (a.comps.take k) ⟨1, more_comps [0] (a.num_comps + b.num_comps)⟩).comps
        (a.num_comps + b.num_comps)).take (a.num_comps + b.num_comps)) :=
      digits_take _ _ (more_comps_digits _ _ p1)
    obtain ⟨o1, o2⟩ := digits_getD _ hd (k + j)
    obtain ⟨x1, x2⟩ := digits_getD _ (nf_digits ha) k
    obtain ⟨y1, y2⟩ := digits_getD _ (nf_digits hb) j
    have hx : a.comp k = a.comps.getD k 0 := rfl
    have hy : b.comp j = b.comps.getD j 0 := rfl
    rw [hx, hy]
    generalize ((more_comps (rowsLoop (a.num_comps + b.num_comps) b.comps 0
        (a.comps.take k) ⟨1, more_comps [0] (a.num_comps + b.num_comps)⟩).comps
        (a.num_comps + b.num_comps)).take (a.num_comps + b.num_comps)).getD (k + j) 0 = old
      at o1 o2 ⊢
    generalize a.comps.getD k 0 = x at x1 x2 ⊢
    generalize b.comps.getD j 0 = y at y1 y2 ⊢
    have hm := digit_mul_bound x y x1 (by omega) y1 (by omega)
    refine ⟨hm.1, by omega, by omega, by omega, ?_, ?_⟩
    · rw [cmul_digit x y x1 (by omega) y1 (by omega),
        cadd_eq _ _ (by omega) (by omega) (by omega) (by omega)]
    · have htl : (a.comps.take k).length = k := by
        rw [List.length_take]
        unfold bigint.num_comps at hk
        omega
      conv_lhs => rw [← List.take_append_drop k a.comps]
      rw [rowsLoop_append, htl, Nat.zero_add]
  · intro h0
    rw [← r2] at h0
    have := nf_eq_zero r1 h0
    rw [this]

theorem regular_multiply_exact_witness :
    (regular_multiply ⟨-1, [2147483647, 2147483647]⟩ ⟨1, [2147483647, 5]⟩).value =
      bigint.value ⟨-1, [2147483647, 2147483647]⟩ * bigint.value ⟨1, [2147483647, 5]⟩ :=
  (regular_multiply_exact ⟨-1, [2147483647, 2147483647]⟩ ⟨1, [2147483647, 5]⟩ (by decide)
    (by decide)).2.2.1

end OSL

namespace OSL

/-! ## bi_power -/

theorem toInt32_range (x : Int) : -2147483648 ≤ toInt32 x ∧ toInt32 x < 2147483648 := by
  unfold toInt32
  omega

theorem powerLoop_spec : ∀ (fuel : Nat) (b e R : bigint), b.NF → e.NF → 0 ≤ e.value →
    e.value < 2 ^ fuel → 1 ≤ fuel → R.NF →
    ∃ res, powerLoop fuel b e R = .ok res ∧ res.NF ∧
      res.value = R.value * b.value ^ e.value.toNat := by
  intro fuel
  induction fuel with
  | zero =>
    intro b e R _ _ _ _ h
    omega
  | succ fuel ih =>
    intro b e R hb he he0 he1 _ hR
    have hes := (nf_sign_one_iff he).mpr he0
    obtain ⟨h1, h2, h3⟩ := bi_half_spec e he hes
    have hcmp := bi_compare_zero _ h1
    rw [h2] at hcmp
    have hodd := bi_is_odd_spec e he hes
    obtain ⟨m1, m2⟩ := bi_multiply_spec R b hR hb
    obtain ⟨s1, s2⟩ := bi_multiply_spec b b hb hb
    have hR1 : (if bi_is_odd e then bi_multiply R b else R).NF ∧
        (if bi_is_odd e then bi_multiply R b else R).value =
          R.value * b.value ^ (e.value.toNat % 2) := by
      by_cases ho : bi_is_odd e = true
      · rw [if_pos ho]
        have h := hodd.mp ho
        have : e.value.toNat % 2 = 1 := by omega
        rw [this, pow_one]
        exact ⟨m1, m2⟩
      · rw [if_neg ho]
        have h : ¬ e.value % 2 = 1 := fun h => ho (hodd.mpr h)
        have : e.value.toNat % 2 = 0 := by omega
        rw [this, pow_zero, mul_one]
        exact ⟨hR, rfl⟩
    rw [powerLoop]
    by_cases hz : e.value / 2 ≤ 0
    · have hc : bi_compare (bi_half e) bi_0 ≤ 0 := by
        rw [hcmp]
        have : e.value / 2 = 0 := by omega
        rw [this]
        decide
      rw [if_pos hc]
      refine ⟨_, rfl, hR1.1, ?_⟩
      have : e.value.toNat % 2 = e.value.toNat := by omega
      rw [hR1.2, this]
    · have hc : ¬ bi_compare (bi_half e) bi_0 ≤ 0 := by
        rw [hcmp, Int.sign_eq_one_of_pos (by omega)]
        omega
      rw [if_neg hc]
      have hf : 1 ≤ fuel := by
        by_contra hc0
        have : fuel = 0 := by omega
        rw [this] at he1
        simp at he1
        omega
      have he2 : (bi_half e).value < 2 ^ fuel := by
        rw [h2]
        rw [pow_succ] at he1
        omega
      obtain ⟨res, hres, rnf, rv⟩ := ih (bi_multiply b b) (bi_half e) _ s1 h1
        (by rw [h2]; omega) he2 hf hR1.1
      refine ⟨res, hres, rnf, ?_⟩
      rw [rv, hR1.2, s2, h2]
      have hE : (e.value / 2).toNat = e.value.toNat / 2 := by omega
      rw [hE]
      conv_rhs => rw [pow_split b.value e.value.toNat, ← mul_assoc]

/-- `bi_power` for a normal-form base and exponent: an error for a negative
exponent, the power otherwise. -/
theorem bi_power_spec (b e : bigint) (hb : b.NF) (he : e.NF) :
    (e.value < 0 → bi_power b e = .error .negativeExponent) ∧
    (0 ≤ e.value → ∃ res, bi_power b e = .ok res ∧ res.NF ∧
      res.value = b.value ^ e.value.toNat) := by
  have hneg := bi_is_negative_spec e he
  constructor
  · intro h
    unfold bi_power
    rw [if_pos (hneg.mpr h)]
  · intro h
    have hn : ¬ bi_is_negative e = true := fun hc => by
      have := hneg.mp hc
      omega
    unfold bi_power
    rw [if_neg hn]
    obtain ⟨res, h1, h2, h3⟩ := powerLoop_spec _ b e bi_1 hb he h (modPower_fuel e he h)
      (by omega) bi_1_nf
    refine ⟨res, h1, h2, ?_⟩
    rw [h3, bi_1_value, one_mul]

/-! ## bi_generate_prime -/

/-- The `switch` of `bi_generate_prime` on a candidate that is not negative. -/
theorem snapCandidate_spec (bip : bigint) (inc0 : Int) (hb : bip.NF) (hb0 : 0 ≤ bip.value) :
    ∃ c inc, snapCandidate bip inc0 = .ok (c, inc) ∧ c.NF ∧
      (c.value % 6 = 1 ∧ inc = 4 ∨ c.value % 6 = 5 ∧ inc = 2) ∧
      bip.value ≤ c.value ∧ c.value ≤ bip.value + 3 := by
  have hr := bi_radix_eq
  have hs := (nf_sign_one_iff hb).mpr hb0
  have hm := bi_int_mod_spec bip hb hs 6 (by omega) (by omega)
  obtain ⟨a1, v1⟩ := bi_int_add_spec bip hb 1 (by omega) (by omega)
  obtain ⟨a2, v2⟩ := bi_int_add_spec bip hb 2 (by omega) (by omega)
  obtain ⟨a3, v3⟩ := bi_int_add_spec bip hb 3 (by omega) (by omega)
  unfold snapCandidate
  rw [hm]
  simp only
  have hlt := Int.emod_lt_of_pos bip.value (show (0 : Int) < 6 by omega)
  have hge := Int.emod_nonneg bip.value (show (6 : Int) ≠ 0 by omega)
  by_cases h0 : bip.value % 6 = 0
  · rw [if_pos h0]
    exact ⟨_, _, rfl, a1, by omega, by omega, by omega⟩
  rw [if_neg h0]
  by_cases h1 : bip.value % 6 = 1
  · rw [if_pos h1]
    exact ⟨_, _, rfl, hb, by omega, by omega, by omega⟩
  rw [if_neg h1]
  by_cases h2 : bip.value % 6 = 2
  · rw [if_pos h2]
    exact ⟨_, _, rfl, a3, by omega, by omega, by omega⟩
  rw [if_neg h2]
  by_cases h3 : bip.value % 6 = 3
  · rw [if_pos h3]
    exact ⟨_, _, rfl, a2, by omega, by omega, by omega⟩
  rw [if_neg h3]
  by_cases h4 : bip.value % 6 = 4
  · rw [if_pos h4]
    exact ⟨_, _, rfl, a1, by omega, by omega, by omega⟩
  rw [if_neg h4]
  have h5 : bip.value % 6 = 5 := by omega
  rw [if_pos h5]
  exact ⟨_, _, rfl, hb, by omega, by omega, by omega⟩

/-- A candidate together with its step, as the inner loop keeps them: the candidate
is not negative and is 1 modulo 6 with step 4, or 5 modulo 6 with step 2. -/
theorem probeStep_spec (s : bigint × Int) (hb : s.1.NF) (hb0 : 0 ≤ s.1.value)
    (h : s.1.value % 6 = 1 ∧ s.2 = 4 ∨ s.1.value % 6 = 5 ∧ s.2 = 2) :
    (probeStep s).1.NF ∧ 0 ≤ (probeStep s).1.value ∧
      (probeStep s).1.value = s.1.value + s.2 ∧ (probeStep s).2 = 6 - s.2 ∧
      ((probeStep s).1.value % 6 = 1 ∧ (probeStep s).2 = 4 ∨
        (probeStep s).1.value % 6 = 5 ∧ (probeStep s).2 = 2) := by
  have hr := bi_radix_eq
  obtain ⟨a1, v1⟩ := bi_int_add_spec s.1 hb s.2 (by omega) (by omega)
  have e1 : (probeStep s).1 = bi_int_add s.1 s.2 := rfl
  have e2 : (probeStep s).2 = 6 - s.2 := by
    show toInt32 (6 - s.2) = _
    exact toInt32_eq _ (by omega) (by omega)
  rw [e1, e2, v1]
  refine ⟨a1, by omega, rfl, rfl, ?_⟩
  omega

theorem probeStep_iterate (s : bigint × Int) (hb : s.1.NF) (hb0 : 0 ≤ s.1.value)
    (h : s.1.value % 6 = 1 ∧ s.2 = 4 ∨ s.1.value % 6 = 5 ∧ s.2 = 2) (i : Nat) :
    (probeStep^[i] s).1.NF ∧ 0 ≤ (probeStep^[i] s).1.value ∧
      ((probeStep^[i] s).1.value % 6 = 1 ∧ (probeStep^[i] s).2 = 4 ∨
        (probeStep^[i] s).1.value % 6 = 5 ∧ (probeStep^[i] s).2 = 2) := by
  induction i with
  | zero => exact ⟨hb, hb0, h⟩
  | succ i ih =>
    rw [Function.iterate_succ_apply']
    obtain ⟨i1, i2, i3⟩ := ih
    obtain ⟨p1, p2, _, _, p5⟩ := probeStep_spec _ i1 i2 i3
    exact ⟨p1, p2, p5⟩

/-- The inner loop of `bi_generate_prime`: a candidate it returns is one of the
candidates `probeStep^[i] s` with `i < count`, and `bi_is_probable_prime` accepted
it. -/
theorem probeLoop_some (low_primes : List Int) (rnd : Nat → Nat → Int) (certainty : Int) :
    ∀ (count call : Nat) (s : bigint × Int) (p : bigint) (t : bigint × Int),
      probeLoop low_primes rnd certainty count call s = .ok (some p, t) →
      ∃ i r, i < count ∧ p = (probeStep^[i] s).1 ∧
        bi_is_probable_prime low_primes (rnd (call + i)) p certainty = .ok r ∧ r ≠ 0 := by
  intro count
  induction count with
  | zero =>
    intro call s p t h
    simp [probeLoop] at h
  | succ count ih =>
    intro call s p t h
    rw [probeLoop] at h
    split at h
    · simp at h
    · rename_i r hr
      by_cases hr0 : r ≠ 0
      · rw [if_pos hr0] at h
        simp only [Except.ok.injEq, Prod.mk.injEq, Option.some.injEq] at h
        refine ⟨0, r, by omega, ?_, ?_, hr0⟩
        · rw [← h.1]
          rfl
        · rw [← h.1]
          exact hr
      · rw [if_neg hr0] at h
        obtain ⟨i, r', hi, hp, hacc, hne⟩ := ih (call + 1) (probeStep s) p t h
        refine ⟨i + 1, r', by omega, ?_, ?_, hne⟩
        · rw [hp, Function.iterate_succ_apply]
        · have e : call + (i + 1) = call + 1 + i := by omega
          rw [e]
          exact hacc

/-- The outer loop of `bi_generate_prime`: what it returns was accepted by
`bi_is_probable_prime` and is 1 or 5 modulo 6. -/
theorem generateLoop_ok (low_primes : List Int) (rnd : Nat → Nat → Int) (certainty : Int)
    (bimo2 : bigint) (hm : bimo2.NF) (hm0 : 0 < bimo2.value)
    (hrnd : ∀ k c, 0 ≤ rnd k c ∧ rnd k c < 2 ^ 31) :
    ∀ (passes call : Nat) (inc : Int) (p : bigint),
      generateLoop low_primes rnd certainty bimo2 passes call inc = .ok p →
      p.NF ∧ (p.value % 6 = 1 ∨ p.value % 6 = 5) ∧
        ∃ k r, bi_is_probable_prime low_primes (rnd k) p certainty = .ok r ∧ r ≠ 0 := by
  intro passes
  induction passes with
  | zero =>
    intro call inc p h
    simp [generateLoop] at h
  | succ passes ih =>
    intro call inc p h
    rw [generateLoop] at h
    obtain ⟨x1, x2⟩ := random_number (rnd call) bimo2 hm hm0 (hrnd call)
    obtain ⟨r, hr, hrnf, hrv⟩ := bi_mod_full _ bimo2 x1 hm hm0
    have hr' : bi_random (rnd call) bimo2 = .ok r := hr
    have hr0 : 0 ≤ r.value := by
      rcases hrv with h1 | ⟨-, -, -, h4⟩
      · rw [h1]
        exact Int.emod_nonneg _ (by omega)
      · omega
    obtain ⟨a1, a2⟩ := bi_add_spec r bimo2 hrnf hm
    obtain ⟨c, inc1, hs, cnf, cres, clo, -⟩ :=
      snapCandidate_spec (bi_add r bimo2) inc a1 (by rw [a2]; omega)
    rw [hr'] at h
    simp only [hs] at h
    split at h
    · simp at h
    · rename_i p' t hp
      simp only [Except.ok.injEq] at h
      subst h
      obtain ⟨i, r', -, hpi, hacc, hne⟩ := probeLoop_some low_primes rnd certainty _ _ _ _ _ hp
      obtain ⟨q1, q2, q3⟩ := probeStep_iterate (c, inc1) cnf
        (by rw [a2] at clo; show 0 ≤ c.value; omega) cres i
      rw [hpi]
      rw [hpi] at hacc
      exact ⟨q1, by omega, _, r', hacc, hne⟩
    · exact ih _ _ p h

/-- C38. Prime generation stays on the residues 1 and 5 modulo 6. For every starting
value that is not negative the `switch` of `bi_generate_prime` returns a candidate
that is 1 modulo 6 (with first step 4) or 5 modulo 6 (with first step 2), at least
the starting value and at most 3 larger; every candidate the inner loop reaches from
there (`bip += inc; inc = 6 - inc`, steps alternating between 4 and 2) is again 1 or
5 modulo 6; and a value `bi_generate_prime` returns, the values of `random()` being
in `[0, 2^31)`, is 1 or 5 modulo 6 and was accepted by `bi_is_probable_prime`. -/
theorem generate_prime_residues (low_primes : List Int) (rnd : Nat → Nat → Int)
    (certainty : Int) (hrnd : ∀ k c, 0 ≤ rnd k c ∧ rnd k c < 2 ^ 31) :
    (∀ (bip : bigint) (inc0 : Int), bip.NF → 0 ≤ bip.value →
      ∃ c inc, snapCandidate bip inc0 = .ok (c, inc) ∧ c.NF ∧
        (c.value % 6 = 1 ∧ inc = 4 ∨ c.value % 6 = 5 ∧ inc = 2) ∧
        bip.value ≤ c.value ∧ c.value ≤ bip.value + 3 ∧
        ∀ i : Nat, ((probeStep^[i] (c, inc)).1.value % 6 = 1 ∨
            (probeStep^[i] (c, inc)).1.value % 6 = 5) ∧
          (probeStep^[i + 1] (c, inc)).1.value =
            (probeStep^[i] (c, inc)).1.value + (probeStep^[i] (c, inc)).2 ∧
          ((probeStep^[i] (c, inc)).2 = 4 ∨ (probeStep^[i] (c, inc)).2 = 2) ∧
          (probeStep^[i + 1] (c, inc)).2 = 6 - (probeStep^[i] (c, inc)).2) ∧
    (∀ (count call : Nat) (s : bigint × Int) (p : bigint) (t : bigint × Int),
      probeLoop low_primes rnd certainty count call s = .ok (some p, t) →
      ∃ i r, i < count ∧ p = (probeStep^[i] s).1 ∧
        bi_is_probable_prime low_primes (rnd (call + i)) p certainty = .ok r ∧ r ≠ 0) ∧
    (∀ (passes : Nat) (bits : Int) (p : bigint),
      bi_generate_prime low_primes rnd passes bits certainty = .ok p →
      p.NF ∧ (p.value % 6 = 1 ∨ p.value % 6 = 5) ∧
        ∃ k r, bi_is_probable_prime low_primes (rnd k) p certainty = .ok r ∧ r ≠ 0) := by
  refine ⟨?_, probeLoop_some low_primes rnd certainty, ?_⟩
  · intro bip inc0 hb hb0
    obtain ⟨c, inc, h1, h2, h3, h4, h5⟩ := snapCandidate_spec bip inc0 hb hb0
    refine ⟨c, inc, h1, h2, h3, h4, h5, ?_⟩
    intro i
    obtain ⟨q1, q2, q3⟩ := probeStep_iterate (c, inc) h2 (by show 0 ≤ c.value; omega) h3 i
    obtain ⟨p1, p2, p3, p4, p5⟩ := probeStep_spec _ q1 q2 q3
    rw [Function.iterate_succ_apply']
    refine ⟨by omega, p3, by omega, p4⟩
  · intro passes bits p h
    unfold bi_generate_prime at h
    have hr := bi_radix_eq
    have h32 := toInt32_range (bits - 1)
    obtain ⟨e1, e2⟩ := int_to_bi_nf (toInt32 (bits - 1)) (by omega) (by omega)
    obtain ⟨pn, pp⟩ := bi_power_spec bi_2 _ bi_2_nf e1
    by_cases hneg : (int_to_bi (toInt32 (bits - 1))).value < 0
    · rw [pn hneg] at h
      simp at h
    · obtain ⟨res, p1, p2, p3⟩ := pp (by omega)
      rw [p1] at h
      simp only at h
      exact generateLoop_ok low_primes rnd certainty res p2
        (by rw [p3, bi_2_value]; positivity) hrnd _ _ _ _ h

theorem generate_prime_residues_witness :
    ∃ c inc, snapCandidate ⟨1, [50]⟩ 0 = .ok (c, inc) ∧ c.NF ∧
      (c.value % 6 = 1 ∧ inc = 4 ∨ c.value % 6 = 5 ∧ inc = 2) :=
  let ⟨c, inc, h1, h2, h3, _⟩ :=
    (generate_prime_residues primesTo97 (fun _ _ => 1) 5
      (fun _ _ => ⟨Int.zero_le_ofNat 1, by norm_num⟩)).1
      ⟨1, [50]⟩ 0 (by decide) (by decide)
  ⟨c, inc, h1, h2, h3⟩

end OSL

namespace OSL

/-! ## The primality test on a prime -/

theorem fermat_int (p : Nat) (hp : p.Prime) (a : Int) (ha : ¬ (p : Int) ∣ a) :
    a ^ (p - 1) % (p : Int) = 1 := by
  haveI : Fact p.Prime := ⟨hp⟩
  have h0 : (a : ZMod p) ≠ 0 := by
    rw [Ne, ZMod.intCast_zmod_eq_zero_iff_dvd]
    exact ha
  have h := ZMod.pow_card_sub_one_eq_one h0
  have h' : ((a ^ (p - 1) : Int) : ZMod p) = ((1 : Int) : ZMod p) := by
    push_cast
    exact h
  rw [ZMod.intCast_eq_intCast_iff] at h'
  have hp2 := hp.two_le
  have h1 : a ^ (p - 1) % (p : Int) = 1 % (p : Int) := h'
  rw [h1, Int.emod_eq_of_lt (by omega) (by omega)]

theorem euler_int (p : Nat) (hp : p.Prime) (a : Int) (ha : ¬ (p : Int) ∣ a) :
    (jacobiSym a p = 1 ∧ a ^ (p / 2) % (p : Int) = 1) ∨
    (jacobiSym a p = -1 ∧ a ^ (p / 2) % (p : Int) = (p : Int) - 1) := by
  haveI : Fact p.Prime := ⟨hp⟩
  have hp2 := hp.two_le
  have h0 : (a : ZMod p) ≠ 0 := by
    rw [Ne, ZMod.intCast_zmod_eq_zero_iff_dvd]
    exact ha
  have hl := legendreSym.eq_pow p a
  have hj := jacobiSym.legendreSym.to_jacobiSym p a
  rcases legendreSym.eq_one_or_neg_one p h0 with h | h
  · left
    refine ⟨by rw [← hj, h], ?_⟩
    rw [h] at hl
    have h' : ((a ^ (p / 2) : Int) : ZMod p) = ((1 : Int) : ZMod p) := by
      push_cast
      simpa using hl.symm
    rw [ZMod.intCast_eq_intCast_iff] at h'
    have h1 : a ^ (p / 2) % (p : Int) = 1 % (p : Int) := h'
    rw [h1, Int.emod_eq_of_lt (by omega) (by omega)]
  · right
    refine ⟨by rw [← hj, h], ?_⟩
    rw [h] at hl
    have h' : ((a ^ (p / 2) : Int) : ZMod p) = (((p : Int) - 1 : Int) : ZMod p) := by
      push_cast
      rw [← hl]
      simp
    rw [ZMod.intCast_eq_intCast_iff] at h'
    have h1 : a ^ (p / 2) % (p : Int) = ((p : Int) - 1) % (p : Int) := h'
    rw [h1, Int.emod_eq_of_lt (by omega) (by omega)]

theorem prime_coprime (p : Nat) (hp : p.Prime) (a : Int) (ha : ¬ (p : Int) ∣ a) :
    IsCoprime a (p : Int) := by
  have := (Nat.prime_iff_prime_int.mp hp).irreducible.coprime_iff_not_dvd.mpr ha
  exact this.symm

/-- Trial division of a prime by an ascending table of numbers from 2 on that holds
the prime or ends below it: the prime is found, or the table is used up. -/
theorem trialDivision_prime (n : bigint) (hn : n.NF) (hn0 : 0 < n.value)
    (hp : n.value.toNat.Prime) :
    ∀ l : List Int, l.Pairwise (· < ·) → (∀ q ∈ l, 2 ≤ q ∧ q < 2147483648) →
      (n.value ∈ l ∨ ∀ q ∈ l, q < n.value) →
      trialDivision n l = .ok (some 1) ∨
        (trialDivision n l = .ok none ∧ ∀ q ∈ l, q < n.value) := by
  have hr := bi_radix_eq
  have hs := (nf_sign_one_iff hn).mpr (by omega)
  intro l
  induction l with
  | nil =>
    intro _ _ _
    right
    exact ⟨rfl, fun q hq => by simp at hq⟩
  | cons q rest ih =>
    intro hasc htab hmem
    rw [List.pairwise_cons] at hasc
    have hq := htab q (List.mem_cons_self _ _)
    obtain ⟨qn, qv⟩ := int_to_bi_nf q (by omega) (by omega)
    have hc := bi_compare_spec (int_to_bi q) n qn hn
    rw [qv] at hc
    unfold trialDivision
    simp only
    by_cases heq : q = n.value
    · left
      rw [hc, heq, sub_self]
      simp
    · have hlt : q < n.value := by
        by_contra hge
        rcases hmem with h | h
        · rw [List.mem_cons] at h
          rcases h with h | h
          · exact heq h.symm
          · have := hasc.1 _ h
            omega
        · have := h q (List.mem_cons_self _ _)
          omega
      have hcv : Int.sign (q - n.value) = -1 := Int.sign_eq_neg_one_of_neg (by omega)
      rw [hc, hcv]
      rw [if_neg (by omega), if_neg (by omega)]
      rw [bi_int_mod_spec n hn hs q (by omega) (by omega)]
      simp only
      have hnd : ¬ n.value % q = 0 := by
        intro h0
        have hdvd : q ∣ n.value := Int.dvd_of_emod_eq_zero h0
        have hqn : (q.toNat : Int) = q := Int.toNat_of_nonneg (by omega)
        have hnn : (n.value.toNat : Int) = n.value := Int.toNat_of_nonneg (by omega)
        rw [← hqn, ← hnn, Int.natCast_dvd_natCast] at hdvd
        rcases (Nat.dvd_prime hp).mp hdvd with h1 | h1
        · omega
        · omega
      rw [if_neg hnd]
      have hmem' : n.value ∈ rest ∨ ∀ q ∈ rest, q < n.value := by
        rcases hmem with h | h
        · rw [List.mem_cons] at h
          rcases h with h | h
          · exact absurd h.symm heq
          · exact Or.inl h
        · exact Or.inr (fun x hx => h x (List.mem_cons_of_mem _ hx))
      rcases ih hasc.2 (fun x hx => htab x (List.mem_cons_of_mem _ hx)) hmem' with h | ⟨h1, h2⟩
      · exact Or.inl h
      · right
        refine ⟨h1, ?_⟩
        intro x hx
        rw [List.mem_cons] at hx
        rcases hx with hx | hx
        · rw [hx]
          exact hlt
        · exact h2 x hx

/-- One witness that the prime does not divide passes both tests of a round. -/
theorem round_prime (n : bigint) (hn : n.NF) (p : Nat) (hpv : n.value = p) (hp : p.Prime)
    (hp3 : 3 ≤ p) (a : bigint) (ha : a.NF) (ha0 : 0 ≤ a.value) (hnd : ¬ n.value ∣ a.value) :
    (∃ r, bi_mod_power a (bi_int_subtract n 1) n = .ok r ∧ bi_is_one r = true) ∧
    (∃ g, bi_gcd n a = .ok g ∧ bi_is_one g = true) ∧
    (∃ j0 jac, bi_mod_power a (bi_half (bi_int_subtract n 1)) n = .ok j0 ∧
      bi_jacobi a n = .ok jac ∧
      bi_compare (if bi_compare j0 (bi_int_subtract n 1) = 0 then bi_m1 else j0) jac = 0) := by
  have hr := bi_radix_eq
  have hodd : p % 2 = 1 := by
    rcases hp.eq_two_or_odd with h | h
    · omega
    · exact h
  rw [hpv] at hnd
  have hcop := prime_coprime p hp a.value hnd
  obtain ⟨m1, m1v⟩ := bi_int_subtract_spec n hn 1 (by omega) (by omega)
  have hm1s := (nf_sign_one_iff m1).mpr (by rw [m1v, hpv]; omega)
  obtain ⟨h1, h2, h3⟩ := bi_half_spec _ m1 hm1s
  refine ⟨?_, ?_, ?_⟩
  · obtain ⟨r, e1, rnf, _, _, _, rv⟩ := bi_mod_power_gen a _ n ha m1 (by rw [m1v, hpv]; omega)
      hn (by rw [hpv]; omega) (Or.inr (by rw [hpv]; exact hcop))
    refine ⟨r, e1, (bi_is_one_spec r rnf).mpr ?_⟩
    rw [rv, m1v, hpv]
    have : ((p : Int) - 1).toNat = p - 1 := by omega
    rw [this]
    exact fermat_int p hp a.value hnd
  · obtain ⟨g, e1, gnf, gv⟩ := bi_gcd_spec n a hn ha
    refine ⟨g, e1, (bi_is_one_spec g gnf).mpr ?_⟩
    rw [gv, hpv]
    have := Int.isCoprime_iff_gcd_eq_one.mp hcop.symm
    rw [this]
    rfl
  · obtain ⟨j0, e1, jnf, _, _, _, jv⟩ := bi_mod_power_gen a _ n ha h1
      (by rw [h2, m1v, hpv]; omega) hn (by rw [hpv]; omega)
      (Or.inr (by rw [hpv]; exact hcop))
    obtain ⟨jac, e2, jres, jacv⟩ := bi_jacobi_spec a n ha hn ha0 (by rw [hpv]; omega)
      (by rw [hpv]; omega)
    refine ⟨j0, jac, e1, e2, ?_⟩
    rw [h2, m1v, hpv] at jv
    have hE : (((p : Int) - 1) / 2).toNat = p / 2 := by omega
    rw [hE] at jv
    rw [hpv] at jacv
    have hT : (p : Int).toNat = p := by omega
    rw [hT] at jacv
    have hcmp := bi_compare_spec j0 _ jnf m1
    rw [m1v, hpv] at hcmp
    have hjacnf : ∀ v : Int, jac.value = v → (v = 1 ∨ v = -1) → jac.NF := by
      intro v hv hv1
      unfold JacobiResult at jres
      rcases jres with h | h | h | h
      · rw [h]
        exact bi_1_nf
      · rw [h]
        exact bi_m1_nf
      · rw [h, bi_0_value] at hv
        omega
      · rw [h] at hv
        have : (bi_negate bi_0).value = 0 := by decide
        omega
    rcases euler_int p hp a.value hnd with ⟨hj, hv⟩ | ⟨hj, hv⟩
    · rw [hv] at jv
      rw [hj] at jacv
      have hne : ¬ bi_compare j0 (bi_int_subtract n 1) = 0 := by
        rw [hcmp, jv, Int.sign_eq_neg_one_of_neg (by omega)]
        omega
      rw [if_neg hne, bi_compare_spec j0 jac jnf (hjacnf 1 jacv (Or.inl rfl)), jv, jacv]
      rfl
    · rw [hv] at jv
      rw [hj] at jacv
      have he : bi_compare j0 (bi_int_subtract n 1) = 0 := by
        rw [hcmp, jv, sub_self]
        rfl
      rw [if_pos he, bi_compare_spec bi_m1 jac bi_m1_nf (hjacnf (-1) jacv (Or.inr rfl)),
        bi_m1_value, jacv]
      rfl

/-- The rounds of `bi_is_probable_prime` on an odd prime, every witness drawn being
no multiple of it: all rounds pass. -/
theorem primeRounds_prime (rnd : Nat → Int) (n : bigint) (hn : n.NF) (p : Nat)
    (hpv : n.value = p) (hp : p.Prime) (hp3 : 3 ≤ p) (certainty : Int)
    (hrnd : ∀ c, 0 ≤ rnd c ∧ rnd c < 2 ^ 31)
    (hwit : ∀ pos a, bi_random (fun c => rnd (pos + c)) n = .ok a → ¬ n.value ∣ a.value) :
    ∀ (count i pos : Nat),
      primeRounds rnd n (bi_int_subtract n 1) certainty count i pos = .ok 1 := by
  intro count
  induction count with
  | zero =>
    intro i pos
    rfl
  | succ count ih =>
    intro i pos
    obtain ⟨x1, x2⟩ := random_number (fun c => rnd (pos + c)) n hn (by rw [hpv]; omega)
      (fun c => hrnd (pos + c))
    obtain ⟨a, har, hanf, hav⟩ := bi_mod_full _ n x1 hn (by rw [hpv]; omega)
    have har' : bi_random (fun c => rnd (pos + c)) n = .ok a := har
    have hnd := hwit pos a har'
    have ha0 : 0 ≤ a.value := by
      rcases hav with h1 | ⟨-, -, -, h4⟩
      · rw [h1]
        exact Int.emod_nonneg _ (by rw [hpv]; omega)
      · rw [h4, hpv]
        omega
    obtain ⟨⟨r, f1, f2⟩, ⟨g, g1, g2⟩, ⟨j0, jac, s1, s2, s3⟩⟩ :=
      round_prime n hn p hpv hp hp3 a hanf ha0 hnd
    rw [primeRounds, har']
    simp only
    by_cases hb : i < 2 ∧ certainty ≥ 5
    · rw [if_pos hb, f1]
      simp only [f2, Bool.not_true, Bool.false_eq_true, if_false]
      exact ih _ _
    · rw [if_neg hb, g1]
      simp only [g2, Bool.not_true, Bool.false_eq_true, if_false, s1, s2]
      rw [if_neg (by rw [s3]; simp)]
      exact ih _ _

/-- C40. `bi_is_probable_prime` on a prime. The table of small primes is ascending,
holds numbers from 2 on that fit an `int`, among them 2, and holds every prime below
one of its members. For every prime `n` and every `certainty`, the values of
`random()` being in `[0, 2^31)`: when no witness that `bi_random` draws is a multiple
of `n`, the test returns 1. A witness that is zero makes it return 0 on a prime: it
does so for the prime 101 with the table of the primes up to 97, when `random()`
returns 0, in the Fermat rounds (`certainty` 5) and in the other rounds
(`certainty` 1). -/
theorem probable_prime_accepts_prime (low_primes : List Int) (rnd : Nat → Int) (n : bigint)
    (certainty : Int) (hasc : low_primes.Pairwise (· < ·))
    (htab : ∀ q ∈ low_primes, 2 ≤ q ∧ q < 2147483648) (h2 : (2 : Int) ∈ low_primes)
    (hall : ∀ q : Nat, q.Prime → ∀ t ∈ low_primes, (q : Int) ≤ t → (q : Int) ∈ low_primes)
    (hn : n.NF) (hn0 : 0 < n.value) (hp : n.value.toNat.Prime)
    (hrnd : ∀ c, 0 ≤ rnd c ∧ rnd c < 2 ^ 31)
    (hwit : ∀ pos a, bi_random (fun c => rnd (pos + c)) n = .ok a → ¬ n.value ∣ a.value) :
    bi_is_probable_prime low_primes rnd n certainty = .ok 1 ∧
    (Nat.Prime 101 ∧
      bi_is_probable_prime primesTo97 (fun _ => 0) ⟨1, [101]⟩ 5 = .ok 0 ∧
      bi_is_probable_prime primesTo97 (fun _ => 0) ⟨1, [101]⟩ 1 = .ok 0) := by
  refine ⟨?_, by norm_num, by decide, by decide⟩
  have hnn : (n.value.toNat : Int) = n.value := Int.toNat_of_nonneg (by omega)
  have hmem : n.value ∈ low_primes ∨ ∀ q ∈ low_primes, q < n.value := by
    by_cases h : ∀ q ∈ low_primes, q < n.value
    · exact Or.inr h
    · left
      push_neg at h
      obtain ⟨t, ht, hle⟩ := h
      have := hall n.value.toNat hp t ht (by rw [hnn]; exact hle)
      rw [hnn] at this
      exact this
  unfold bi_is_probable_prime
  rcases trialDivision_prime n hn hn0 hp low_primes hasc htab hmem with h | ⟨h, hlt⟩
  · rw [h]
  · rw [h]
    simp only
    have h2n := hlt 2 h2
    exact primeRounds_prime rnd n hn n.value.toNat hnn.symm hp (by omega) certainty hrnd hwit
      _ _ _

theorem primesTo97_complete (q : Nat) (hq : q.Prime) (t : Int) (ht : t ∈ primesTo97)
    (hle : (q : Int) ≤ t) : (q : Int) ∈ primesTo97 := by
  have h97 : ∀ x ∈ primesTo97, x ≤ 97 := by decide
  have := h97 t ht
  exact (prime_iff_mem_primesTo97 q hq.two_le (by omega)).mpr hq

theorem sample_draw_101 (pos : Nat) (a : bigint)
    (h : bi_random (fun c => (fun _ => (1 : Int)) (pos + c)) ⟨1, [101]⟩ = .ok a) :
    ¬ bigint.value ⟨1, [101]⟩ ∣ a.value := by
  have e : bi_random (fun _ => (1 : Int)) ⟨1, [101]⟩ = .ok ⟨1, [1]⟩ := by decide
  have h' : bi_random (fun _ => (1 : Int)) ⟨1, [101]⟩ = .ok a := h
  rw [e] at h'
  simp only [Except.ok.injEq] at h'
  rw [← h']
  decide

theorem probable_prime_accepts_prime_witness :
    bi_is_probable_prime primesTo97 (fun _ => 1) ⟨1, [101]⟩ 7 = .ok 1 :=
  (probable_prime_accepts_prime primesTo97 (fun _ => 1) ⟨1, [101]⟩ 7 (by decide) (by decide)
    (by decide) primesTo97_complete (by decide) (by decide)
    (by show Nat.Prime 101; norm_num)
    (fun _ => ⟨by norm_num, by norm_num⟩) sample_draw_101).1

end OSL
